import Mathlib

/-!
# Operon: evaluation core, tree creators and utilities

A shallow embedding of the batch evaluator of `include/operon/core/eval.hpp`,
of the stack-based tree creator of
`include/operon/operators/creator/balanced.hpp`, of the breadth-first tree
creator of `src/operators/creator/balanced.cpp`, of the generator of
`include/operon/random/jsf.hpp`, of the reinserter of
`include/operon/operators/reinserter/keepbest.hpp`, of the offspring selection
generator of `include/operon/operators/generator/os.hpp`, of the running
variance of `src/stat/meanvariance.cpp` and of the command-line utilities of
`src/cli/util.hpp`, with the properties of the specification proved about
them.

The evaluator is a template over the working numeric type `T`; the embedding
is generic in the same way: the arithmetic of `T` is a record of operations
(`NumOps`), and every theorem holds for every such record.
-/

set_option autoImplicit false

namespace Operon

/-! ## Data model -/

/-- The symbol kinds that the evaluator's `switch` names. -/
inductive NodeType where
  | Add | Mul | Sub | Div
  | Log | Exp | Sin | Cos | Tan | Sqrt | Cbrt | Square
  | Constant | Variable
  deriving DecidableEq, Repr

/-- Modelled from the spec: the `Node` value of `core/node.hpp` (not among
the embedded sources), with the fields that section 3 of the specification
lists and that the evaluator and the creators read or write (`Type_` is the
source's `Type`). `S` is `Operon::Scalar`. -/
structure Node (S : Type) where
  Type_ : NodeType
  Arity : Nat
  Length : Nat
  Depth : Nat
  Parent : Nat
  Value : S
  HashValue : Nat
  CalculatedHashValue : Nat
  deriving DecidableEq

namespace Node

variable {S : Type}

def IsConstant (s : Node S) : Bool := s.Type_ == NodeType.Constant

def IsVariable (s : Node S) : Bool := s.Type_ == NodeType.Variable

def IsLeaf (s : Node S) : Bool := s.IsConstant || s.IsVariable

end Node

/-- Modelled from the spec: `Grammar::Arithmetic` of `core/grammar.hpp` (not
among the embedded sources), the symbol set
Constant, Variable, Add, Sub, Mul, Div. -/
def Grammar.Arithmetic : NodeType → Bool
  | .Add | .Sub | .Mul | .Div | .Constant | .Variable => true
  | _ => false

/-- Modelled from the spec: a half-open window `[Start, End)` of dataset rows. -/
structure Range where
  Start : Nat
  End : Nat
  deriving DecidableEq, Repr

/-- Modelled from the spec: `Size() = end - start`. -/
def Range.Size (r : Range) : Nat := r.End - r.Start

/-- The part of `Dataset` that the evaluator uses: the column of a variable
hash, and the value matrix read as `Values col row`. -/
structure Dataset (S : Type) where
  GetIndex : Nat → Nat
  Values : Nat → Nat → S

/-- The operations of the working numeric type `T` that `Evaluate<T>` uses:
the conversion from `Operon::Scalar`, value initialisation `T()`, the
elementwise arithmetic and functions of the Eigen arrays, `ceres::IsFinite`
and `Operon::Numeric::Max<T>()`. -/
structure NumOps (S T : Type) where
  cast : S → T
  zero : T
  add : T → T → T
  sub : T → T → T
  mul : T → T → T
  div : T → T → T
  log : T → T
  exp : T → T
  sin : T → T
  cos : T → T
  tan : T → T
  sqrt : T → T
  cbrt : T → T
  square : T → T
  IsFinite : T → Bool
  Max : T

/-! ## The batch evaluator (`core/eval.hpp`)

Buffers are modelled as memory: a function from the index to the stored
value. The work buffer `m` has one column per node and `BATCHSIZE` rows and is
read as `m col row`; it is not initialised by the source, so its initial
contents `m0` are an argument. Index arithmetic on `size_t` is taken modulo
`2 ^ 64`. A read outside a buffer, which only a malformed tree can cause and
which the source leaves undefined, returns what the memory function holds
there. -/

def BATCHSIZE : Nat := 64

/-- Subtraction of `size_t` values. -/
def subSizeT (a b : Nat) : Nat := (a + 2 ^ 64 - b % 2 ^ 64) % 2 ^ 64

section Evaluator

variable {S T : Type}

/-- The indexed loop `for (size_t i = 0; i < nodes.size(); ++i)` over the nodes
that remain from index `i` on, threading the loop state. -/
def forEachNode {σ : Type} (f : σ → Nat → Node S → σ) : List (Node S) → Nat → σ → σ
  | [], _, st => st
  | s :: rest, i, st => forEachNode f rest (i + 1) (f st i s)

/-- The field `nodes[c].Length`; outside the vector the read is undefined in
the source and yields 0 here. -/
def lengthAt (nodes : List (Node S)) (c : Nat) : Nat :=
  match nodes[c]? with
  | some s => s.Length
  | none => 0

/-- Assignment to the column `m.col(i)`. -/
def setCol (m : Nat → Nat → T) (i : Nat) (c : Nat → T) : Nat → Nat → T :=
  fun j => if j = i then c else m j

/-- State of the pre-pass of `Evaluate`: the work buffer, the column indices
of the variables, the leaf counter and the flag. -/
structure PreState (T : Type) where
  m : Nat → Nat → T
  indices : Nat → Nat
  idx : Nat
  treeContainsNonlinearSymbols : Bool

/-- One iteration of the pre-pass (eval.hpp lines 82-92). -/
def prePassStep (N : NumOps S T) (dataset : Dataset S) (parameters : Option (Nat → T))
    (st : PreState T) (i : Nat) (s : Node S) : PreState T :=
  let st1 : PreState T :=
    if s.IsConstant then
      let v := match parameters with
        | none => N.cast s.Value
        | some p => p st.idx
      { st with m := setCol st.m i (fun _ => v), idx := st.idx + 1 }
    else if s.IsVariable then
      { st with indices := fun j => if j = i then dataset.GetIndex s.HashValue else st.indices j,
                idx := st.idx + 1 }
    else st
  { st1 with treeContainsNonlinearSymbols :=
      st1.treeContainsNonlinearSymbols || !(Grammar.Arithmetic s.Type_) }

/-- State of the interpretation of one batch: the work buffer and the leaf
counter. -/
structure BatchState (T : Type) where
  m : Nat → Nat → T
  idx : Nat

/-- The column computed for a binary node at index `i`: first child at
`i - 1`, second child at `c1 - 1 - nodes[c1].Length`. -/
def binaryCol (nodes : List (Node S)) (op : T → T → T) (m : Nat → Nat → T) (i : Nat) :
    Nat → T :=
  let c1 := subSizeT i 1
  let c2 := subSizeT (subSizeT c1 1) (lengthAt nodes c1)
  fun r => op (m c1 r) (m c2 r)

/-- The column computed for a unary node at index `i` from the column
`i - 1`. -/
def unaryCol (f : T → T) (m : Nat → Nat → T) (i : Nat) : Nat → T :=
  fun r => f (m (subSizeT i 1) r)

/-- One iteration of the per-batch interpretation, the `switch` on the node
type (eval.hpp lines 102-184), for the batch that starts at `row` and holds
`remainingRows` rows. -/
def batchStep (N : NumOps S T) (dataset : Dataset S) (range : Range)
    (parameters : Option (Nat → T)) (nodes : List (Node S)) (indices : Nat → Nat)
    (treeContainsNonlinearSymbols : Bool) (row remainingRows : Nat)
    (st : BatchState T) (i : Nat) (s : Node S) : BatchState T :=
  match s.Type_ with
  | .Add => { st with m := setCol st.m i (binaryCol nodes N.add st.m i) }
  | .Mul => { st with m := setCol st.m i (binaryCol nodes N.mul st.m i) }
  | .Sub => { st with m := setCol st.m i (binaryCol nodes N.sub st.m i) }
  | .Div => { st with m := setCol st.m i (binaryCol nodes N.div st.m i) }
  | .Constant => { st with idx := st.idx + 1 }
  | .Variable =>
    let w := match parameters with
      | none => N.cast s.Value
      | some p => p st.idx
    let idx1 := match parameters with
      | none => st.idx
      | some _ => st.idx + 1
    { m := setCol st.m i (fun r =>
        if r < remainingRows then
          N.mul w (N.cast (dataset.Values (indices i) (range.Start + row + r)))
        else st.m i r),
      idx := idx1 }
  | t =>
    if treeContainsNonlinearSymbols then
      match t with
      | .Log => { st with m := setCol st.m i (unaryCol N.log st.m i) }
      | .Exp => { st with m := setCol st.m i (unaryCol N.exp st.m i) }
      | .Sin => { st with m := setCol st.m i (unaryCol N.sin st.m i) }
      | .Cos => { st with m := setCol st.m i (unaryCol N.cos st.m i) }
      | .Tan => { st with m := setCol st.m i (unaryCol N.tan st.m i) }
      | .Sqrt => { st with m := setCol st.m i (unaryCol N.sqrt st.m i) }
      | .Cbrt => { st with m := setCol st.m i (unaryCol N.cbrt st.m i) }
      | .Square => { st with m := setCol st.m i (unaryCol N.square st.m i) }
      | _ => st
    else st

/-- The loop `for (row = 0; row < numRows; row += BATCHSIZE)` of `Evaluate`
with `remainingRows = min(BATCHSIZE, numRows - row)`, running `body row
remainingRows` on the loop state. The first argument after the body bounds the
number of iterations; `numRows` iterations always suffice. -/
def batchLoop {σ : Type} (numRows : Nat) (body : Nat → Nat → σ → σ) : Nat → Nat → σ → σ
  | 0, _, st => st
  | fuel + 1, row, st =>
    if row < numRows then
      batchLoop numRows body fuel (row + BATCHSIZE)
        (body row (min BATCHSIZE (numRows - row)) st)
    else st

/-- The final writeback `[](T v) { return ceres::IsFinite(v) ? v : Max<T>(); }`. -/
def sanitize (N : NumOps S T) (v : T) : T := if N.IsFinite v then v else N.Max

/-- The body of the batch loop on the pair of the work buffer and the result
buffer: interpret the tree for the batch, then write the sanitised root column
to `res.segment(row, remainingRows)`. -/
def batchBody (N : NumOps S T) (dataset : Dataset S) (range : Range)
    (parameters : Option (Nat → T)) (nodes : List (Node S)) (pre : PreState T)
    (row remainingRows : Nat) (st : (Nat → Nat → T) × (Nat → T)) :
    (Nat → Nat → T) × (Nat → T) :=
  let b := forEachNode
    (batchStep N dataset range parameters nodes pre.indices
      pre.treeContainsNonlinearSymbols row remainingRows)
    nodes 0 { m := st.1, idx := 0 }
  let lastCol := b.m (subSizeT nodes.length 1)
  (b.m, fun k =>
    if row ≤ k ∧ k < row + remainingRows then sanitize N (lastCol (k - row)) else st.2 k)

/-- The pre-pass of `Evaluate` over the whole tree. -/
def prePass (N : NumOps S T) (m0 : Nat → Nat → T) (nodes : List (Node S))
    (dataset : Dataset S) (parameters : Option (Nat → T)) : PreState T :=
  forEachNode (prePassStep N dataset parameters) nodes 0
    { m := m0, indices := fun _ => 0, idx := 0, treeContainsNonlinearSymbols := false }

/-- `Evaluate(tree, dataset, range, parameters, result)`: the overload that
writes into the caller's buffer `result` (eval.hpp lines 71-188). `m0` is the
initial content of the work buffer; `parameters` is `none` for `nullptr`. -/
def EvaluateInto (N : NumOps S T) (m0 : Nat → Nat → T) (tree : List (Node S))
    (dataset : Dataset S) (range : Range) (parameters : Option (Nat → T))
    (result : Nat → T) : Nat → T :=
  let pre := prePass N m0 tree dataset parameters
  let numRows := range.Size
  (batchLoop numRows (batchBody N dataset range parameters tree pre) numRows 0
    (pre.m, result)).2

/-- `Evaluate(tree, dataset, range, parameters)`: the overload that allocates
`result(range.Size())` and returns it (eval.hpp lines 63-69). -/
def Evaluate (N : NumOps S T) (m0 : Nat → Nat → T) (tree : List (Node S))
    (dataset : Dataset S) (range : Range) (parameters : Option (Nat → T)) : List T :=
  (List.range range.Size).map
    (EvaluateInto N m0 tree dataset range parameters (fun _ => N.zero))

/-- The evaluator that dispatches the unary functions unconditionally:
`Evaluate` into the caller's buffer with the test
`if (treeContainsNonlinearSymbols)` of the default case taken as true. -/
def EvaluateIntoUnguarded (N : NumOps S T) (m0 : Nat → Nat → T) (tree : List (Node S))
    (dataset : Dataset S) (range : Range) (parameters : Option (Nat → T))
    (result : Nat → T) : Nat → T :=
  let pre := prePass N m0 tree dataset parameters
  let numRows := range.Size
  (batchLoop numRows
    (batchBody N dataset range parameters tree
      { pre with treeContainsNonlinearSymbols := true }) numRows 0
    (pre.m, result)).2

/-- The allocating overload of the evaluator that dispatches the unary
functions unconditionally. -/
def EvaluateUnguarded (N : NumOps S T) (m0 : Nat → Nat → T) (tree : List (Node S))
    (dataset : Dataset S) (range : Range) (parameters : Option (Nat → T)) : List T :=
  (List.range range.Size).map
    (EvaluateIntoUnguarded N m0 tree dataset range parameters (fun _ => N.zero))

/-- `TreeEvaluator::operator()`: evaluate with `parameters[0]` into
`residuals`; the returned flag is the first component. -/
def TreeEvaluator (N : NumOps S T) (m0 : Nat → Nat → T) (tree : List (Node S))
    (dataset : Dataset S) (range : Range) (parameters : Nat → Option (Nat → T))
    (residuals : Nat → T) : Bool × (Nat → T) :=
  (true, EvaluateInto N m0 tree dataset range (parameters 0) residuals)

/-- `ResidualEvaluator::operator()`: run the tree evaluator, then subtract the
target values from the first `target_ref.size()` residuals. -/
def ResidualEvaluator (N : NumOps S T) (m0 : Nat → Nat → T) (tree : List (Node S))
    (dataset : Dataset S) (targetValues : List S) (range : Range)
    (parameters : Nat → Option (Nat → T)) (residuals : Nat → T) : Bool × (Nat → T) :=
  let r := (TreeEvaluator N m0 tree dataset range parameters residuals).2
  (true, fun k =>
    match targetValues[k]? with
    | some t => N.sub (r k) (N.cast t)
    | none => r k)

/-! ### The value of a tree on one row -/

/-- Number of leaves (Constant or Variable nodes) before index `i`. -/
def leafRank (nodes : List (Node S)) (i : Nat) : Nat :=
  (nodes.take i).countP Node.IsLeaf

/-- The scalar that the leaf `s` at index `i` resolves to: its own `Value`,
or the parameter of its rank among the leaves. -/
def weight (N : NumOps S T) (parameters : Option (Nat → T)) (nodes : List (Node S))
    (i : Nat) (s : Node S) : T :=
  match parameters with
  | none => N.cast s.Value
  | some p => p (leafRank nodes i)

/-- Value of a binary node at index `i`: the operator applied to the value at
`i - 1` as first operand and to the value at `i - 2 - Length[i - 1]` as
second operand. -/
def valBinary (nodes : List (Node S)) (op : T → T → T) (rec : Nat → Option T) (i : Nat) :
    Option T :=
  if 2 + lengthAt nodes (i - 1) ≤ i then
    match rec (i - 1), rec (i - 2 - lengthAt nodes (i - 1)) with
    | some a, some b => some (op a b)
    | _, _ => none
  else none

/-- Value of a unary node at index `i`: the function applied to the value at
`i - 1`. -/
def valUnary (f : T → T) (rec : Nat → Option T) (i : Nat) : Option T :=
  if 1 ≤ i then (rec (i - 1)).map f else none

/-- The recursive value of the node at index `i` on the dataset row `x`; the
first numeric argument bounds the recursion depth (`i + 1` suffices), and the
value is `none` where a child index falls outside the sequence. -/
def val (N : NumOps S T) (nodes : List (Node S)) (dataset : Dataset S)
    (parameters : Option (Nat → T)) (x : Nat) : Nat → Nat → Option T
  | 0, _ => none
  | fuel + 1, i =>
    match nodes[i]? with
    | none => none
    | some s =>
      match s.Type_ with
      | .Constant => some (weight N parameters nodes i s)
      | .Variable =>
        some (N.mul (weight N parameters nodes i s)
          (N.cast (dataset.Values (dataset.GetIndex s.HashValue) x)))
      | .Add => valBinary nodes N.add (val N nodes dataset parameters x fuel) i
      | .Mul => valBinary nodes N.mul (val N nodes dataset parameters x fuel) i
      | .Sub => valBinary nodes N.sub (val N nodes dataset parameters x fuel) i
      | .Div => valBinary nodes N.div (val N nodes dataset parameters x fuel) i
      | .Log => valUnary N.log (val N nodes dataset parameters x fuel) i
      | .Exp => valUnary N.exp (val N nodes dataset parameters x fuel) i
      | .Sin => valUnary N.sin (val N nodes dataset parameters x fuel) i
      | .Cos => valUnary N.cos (val N nodes dataset parameters x fuel) i
      | .Tan => valUnary N.tan (val N nodes dataset parameters x fuel) i
      | .Sqrt => valUnary N.sqrt (val N nodes dataset parameters x fuel) i
      | .Cbrt => valUnary N.cbrt (val N nodes dataset parameters x fuel) i
      | .Square => valUnary N.square (val N nodes dataset parameters x fuel) i

/-- The value of the root (the last node) on the dataset row `x`. -/
def rootVal (N : NumOps S T) (nodes : List (Node S)) (dataset : Dataset S)
    (parameters : Option (Nat → T)) (x : Nat) : Option T :=
  val N nodes dataset parameters x nodes.length (nodes.length - 1)

/-! ### Well-formed postfix sequences -/

/-- The backward-subtraction rule: starting below position `pos`, find `a`
children, the first at `pos - 1` and each next one `1 + Length` below the one
before; the result is the position where the last child's subtree starts, or
`none` when a child or its subtree does not fit. -/
def walkChildren (nodes : List (Node S)) : Nat → Nat → Option Nat
  | 0, pos => some pos
  | a + 1, pos =>
    if 1 ≤ pos ∧ lengthAt nodes (pos - 1) ≤ pos - 1 then
      walkChildren nodes a (pos - 1 - lengthAt nodes (pos - 1))
    else none

/-- The field `nodes[c].Arity`, 0 outside the vector. -/
def arityAt (nodes : List (Node S)) (c : Nat) : Nat :=
  match nodes[c]? with
  | some s => s.Arity
  | none => 0

/-- Well-formed postfix sequence: for every node `i` the subtrees of its
`Arity` children, found by the backward-subtraction rule, fill exactly the
index range `[i - Length[i], i)`, and the last node is the root of the whole
sequence. -/
def WellFormed (nodes : List (Node S)) : Prop :=
  (∀ i, i < nodes.length →
    lengthAt nodes i ≤ i ∧
    walkChildren nodes (arityAt nodes i) i = some (i - lengthAt nodes i)) ∧
  lengthAt nodes (nodes.length - 1) = nodes.length - 1

instance (nodes : List (Node S)) : Decidable (WellFormed nodes) := by
  unfold WellFormed
  infer_instance

/-- Number of children that a symbol kind takes. -/
def arityOf : NodeType → Nat
  | .Add | .Mul | .Sub | .Div => 2
  | .Constant | .Variable => 0
  | _ => 1

/-- Every node has the arity of its symbol kind. -/
def Typed (nodes : List (Node S)) : Prop :=
  ∀ s, s ∈ nodes → s.Arity = arityOf s.Type_

instance (nodes : List (Node S)) : Decidable (Typed nodes) := by
  unfold Typed
  infer_instance

/-- The windows `(row, remainingRows)` that the batch loop of `Evaluate`
visits, in order. -/
def batchWindows (numRows : Nat) : List (Nat × Nat) :=
  batchLoop numRows (fun row remainingRows acc => acc ++ [(row, remainingRows)]) numRows 0 []

/-- The operator that the evaluator applies for a binary symbol kind. -/
def binOp (N : NumOps S T) : NodeType → Option (T → T → T)
  | .Add => some N.add
  | .Mul => some N.mul
  | .Sub => some N.sub
  | .Div => some N.div
  | _ => none

/-- The function that the evaluator applies for a unary symbol kind. -/
def unOp (N : NumOps S T) : NodeType → Option (T → T)
  | .Log => some N.log
  | .Exp => some N.exp
  | .Sin => some N.sin
  | .Cos => some N.cos
  | .Tan => some N.tan
  | .Sqrt => some N.sqrt
  | .Cbrt => some N.cbrt
  | .Square => some N.square
  | _ => none

/-- The tree with the `Value` of every leaf replaced by the entry of `p` at the
rank of the leaf among the leaves in postfix order. -/
def substitute (p : Nat → S) (nodes : List (Node S)) : List (Node S) :=
  nodes.mapIdx (fun i s => if s.IsLeaf then { s with Value := p (leafRank nodes i) } else s)

/-- The stored leaf values of a tree, listed in postfix order. -/
def leafValues (nodes : List (Node S)) : List S :=
  (nodes.filter Node.IsLeaf).map (fun s => s.Value)

/-- The state of the batch loop of `Evaluate` (work buffer, result buffer)
after its first `n` batches. -/
def stateAfterBatches (N : NumOps S T) (m0 : Nat → Nat → T) (tree : List (Node S))
    (dataset : Dataset S) (range : Range) (parameters : Option (Nat → T))
    (result : Nat → T) (n : Nat) : (Nat → Nat → T) × (Nat → T) :=
  ((batchWindows range.Size).take n).foldl
    (fun st w => batchBody N dataset range parameters tree
      (prePass N m0 tree dataset parameters) w.1 w.2 st)
    ((prePass N m0 tree dataset parameters).m, result)

end Evaluator

/-! ## The stack-based balanced tree creator (`operators/creator/balanced.hpp`)

The grammar, the distributions and the random generator are not among the
embedded sources; they are arguments of the embedding. A draw takes the state
`R` of the generator and returns the drawn value with the next state. -/

/-- Addition of `size_t` values. -/
def addSizeT (a b : Nat) : Nat := (a + b) % 2 ^ 64

/-- Modelled from the spec: the variable metadata of the dataset, the
identifier hash and the column index. -/
structure Variable where
  Hash : Nat
  Index : Nat
  deriving DecidableEq, Repr

/-- What `BalancedTreeCreator::operator()` is given: the grammar
(`FunctionArityLimits`, `SampleRandomSymbol`), the three distributions, the
span `variables` (here `variables_`) and the members `maxDepth` and
`maxLength`. -/
structure CreatorEnv (R S : Type) where
  FunctionArityLimits : Nat × Nat
  SampleRandomSymbol : R → Nat → Nat → Node S × R
  uniformInt : R → Nat × R
  normalReal : R → S × R
  SampleFromDistribution : R → Nat × R
  variables_ : List Variable
  maxDepth : Nat
  maxLength : Nat

section Creator

variable {R S : Type}

/-- The field `variables[i].Hash` of the span `vars`, 0 outside the span. -/
def hashAt (vars : List Variable) (i : Nat) : Nat :=
  match vars[i]? with
  | some v => v.Hash
  | none => 0

/-- The lambda `init` of balanced.hpp: a Variable gets the hash of a uniformly
drawn variable, and every node gets a standard-normal `Value`. -/
def init (env : CreatorEnv R S) (node : Node S) (random : R) : Node S × R :=
  let p : Node S × R :=
    if node.IsVariable then
      let u := env.uniformInt random
      ({ node with HashValue := hashAt env.variables_ u.1,
                   CalculatedHashValue := hashAt env.variables_ u.1 }, u.2)
    else (node, random)
  let v := env.normalReal p.2
  ({ p.1 with Value := v.1 }, v.2)

/-- The state of the loop `while (!stk.empty())`: the generator, the stack of
tuples (node, slot, depth, available length) with the top first, the emitted
nodes and the counters. -/
structure CreatorState (R S : Type) where
  random : R
  stk : List (Node S × Nat × Nat × Nat)
  nodes : List (Node S)
  targetLen : Nat
  openSlots : Nat
  childLen : Nat

/-- The length budget of the next child (balanced.hpp lines 87-88): the
remainder `length % Arity` for the first child of a node, else the current
value of the shared variable `childLen`, plus `length / Arity - 1`. -/
def childLength (st : CreatorState R S) (node : Node S) (slot length : Nat) : Nat :=
  addSizeT (if slot = node.Arity then length % node.Arity else st.childLen)
    (subSizeT (length / node.Arity) 1)

/-- The upper end of the arity window of the next child (balanced.hpp line
90). -/
def childMaxArity (env : CreatorEnv R S) (st : CreatorState R S) (depth childLen : Nat) :
    Nat :=
  if depth = subSizeT env.maxDepth 1 then 0
  else min env.FunctionArityLimits.2 (min childLen (subSizeT st.targetLen st.openSlots))

/-- A symbol drawn for the arity window `[minArity, maxArity]` and
value-initialised (balanced.hpp lines 69-70 and 92-93), with the next state of
the generator. -/
def drawSymbol (env : CreatorEnv R S) (random : R) (minArity maxArity : Nat) : Node S × R :=
  let sampled := env.SampleRandomSymbol random minArity maxArity
  init env sampled.1 sampled.2

/-- One iteration of the loop `while (!stk.empty())` (balanced.hpp lines
78-98). -/
def creatorStep (env : CreatorEnv R S) (st : CreatorState R S) : CreatorState R S :=
  match st.stk with
  | [] => st
  | (node, slot, depth, length) :: rest =>
    if slot = 0 then
      { st with stk := rest, nodes := st.nodes ++ [node] }
    else
      let childLen := childLength st node slot length
      let maxArity := childMaxArity env st depth childLen
      let minArity := min env.FunctionArityLimits.1 maxArity
      let child := drawSymbol env st.random minArity maxArity
      { random := child.2,
        stk := (child.1, child.1.Arity, addSizeT depth 1, childLen)
          :: (node, slot - 1, depth, length) :: rest,
        nodes := st.nodes,
        targetLen := subSizeT st.targetLen 1,
        openSlots := subSizeT (addSizeT st.openSlots child.1.Arity) 1,
        childLen := childLen }

/-- The loop `while (!stk.empty())`, with a bound on the number of iterations:
the emitted nodes once the stack is empty, `none` when the bound is reached
first. -/
def creatorLoop (env : CreatorEnv R S) : Nat → CreatorState R S → Option (List (Node S))
  | 0, st => if st.stk.isEmpty then some st.nodes else none
  | fuel + 1, st =>
    if st.stk.isEmpty then some st.nodes else creatorLoop env fuel (creatorStep env st)

/-- `std::clamp(v, lo, hi)`. -/
def clamp (v lo hi : Nat) : Nat := if v < lo then lo else if hi < v then hi else v

/-- The state in which the loop starts (balanced.hpp lines 53-76), `none` when
`Expects(targetLen > 0)` fails. -/
def creatorStart (env : CreatorEnv R S) (random : R) : Option (CreatorState R S) :=
  let sampledLen := env.SampleFromDistribution random
  let targetLen := clamp sampledLen.1 1 env.maxLength
  if 0 < targetLen then
    let minArity := min env.FunctionArityLimits.1 (subSizeT targetLen 1)
    let maxArity := min env.FunctionArityLimits.2 (subSizeT targetLen 1)
    let root := drawSymbol env sampledLen.2 minArity maxArity
    some { random := root.2,
           stk := [(root.1, root.1.Arity, 1, subSizeT targetLen 1)],
           nodes := [],
           targetLen := subSizeT targetLen 1,
           openSlots := root.1.Arity,
           childLen := 0 }
  else none

/-- Sum of `1 + Length` over `a` children found by the backward-subtraction
rule below position `pos`, in the nodes whose lengths are already known. -/
def sumChildren (done : List (Node S)) : Nat → Nat → Nat
  | 0, _ => 0
  | a + 1, pos =>
    1 + lengthAt done (pos - 1)
      + sumChildren done a (pos - 1 - lengthAt done (pos - 1))

/-- Modelled from the spec: the pass of `Tree::UpdateNodes` (`core/tree.cpp`,
not among the embedded sources) that recomputes `Length` bottom-up, children
before parents: the length of a node is the number of nodes in the subtrees of
its `Arity` children. `done` holds the nodes already updated. -/
def updateLengths : List (Node S) → List (Node S) → List (Node S)
  | done, [] => done
  | done, s :: rest =>
    updateLengths (done ++ [{ s with Length := sumChildren done s.Arity done.length }]) rest

/-- Modelled from the spec: `Tree(nodes).UpdateNodes()`, as far as `Length` is
concerned. -/
def UpdateNodes (nodes : List (Node S)) : List (Node S) := updateLengths [] nodes

/-- `BalancedTreeCreator::operator()` of balanced.hpp: the sequence of nodes of
the returned tree; `none` when `Expects` fails or the bound on the loop
iterations is reached. -/
def BalancedTreeCreator (env : CreatorEnv R S) (fuel : Nat) (random : R) :
    Option (List (Node S)) :=
  match creatorStart env random with
  | none => none
  | some st => (creatorLoop env fuel st).map UpdateNodes

/-- The root symbol that the creator draws first, value-initialised. -/
def creatorRoot (env : CreatorEnv R S) (random : R) : Option (Node S) :=
  match creatorStart env random with
  | some st =>
    match st.stk with
    | (root, _) :: _ => some root
    | [] => none
  | none => none

/-- `Forest k l`: the sequence `l` is the concatenation of the postfix
sequences of `k` trees, every node coming right after the subtrees of its
`Arity` children. -/
inductive Forest : Nat → List (Node S) → Prop
  | nil : Forest 0 []
  | snoc {k : Nat} {l₁ l₂ : List (Node S)} {s : Node S} :
      Forest k l₁ → Forest s.Arity l₂ → Forest (k + 1) (l₁ ++ l₂ ++ [s])

/-- Number of child slots still to be filled in the tuples of the stack. -/
def pendingSlots (stk : List (Node S × Nat × Nat × Nat)) : Nat :=
  (stk.map (fun f => f.2.1)).sum

end Creator

/-! ## The breadth-first balanced tree creator (`operators/creator/balanced.cpp`)

The grammar, the distributions, the member `variables_` and the conversion
`BreadthToPostfix` are not among the embedded sources; they are arguments of
the embedding. A tuple of the vector `tuples` is (node, depth, child index);
its type `U` is not among the sources either, and the depth and the child index
are natural numbers here. -/

/-- What `BalancedTreeCreator::operator()` of balanced.cpp uses: the grammar,
the distributions (`bernoulliHalf` is `std::bernoulli_distribution(0.5)`,
`sampleIrregular` the one of the irregularity bias), the variables and
`BreadthToPostfix`. -/
structure BalancedEnv (R S : Type) where
  FunctionArityLimits : Nat × Nat
  SampleRandomSymbol : R → Nat → Nat → Node S × R
  uniformInt : R → Nat × R
  normalReal : R → S × R
  bernoulliHalf : R → Bool × R
  sampleIrregular : R → Bool × R
  variables_ : List Variable
  BreadthToPostfix : List (Node S × Nat × Nat) → List (Node S)

namespace Balanced

variable {R S : Type}

/-- The lambda `init` of balanced.cpp (lines 35-43): only a leaf is
initialised; a Variable gets the hash of a uniformly drawn variable, and the
leaf gets a standard-normal `Value`. -/
def init (env : BalancedEnv R S) (node : Node S) (random : R) : Node S × R :=
  if node.IsLeaf then
    let p : Node S × R :=
      if node.IsVariable then
        let u := env.uniformInt random
        ({ node with HashValue := hashAt env.variables_ u.1,
                     CalculatedHashValue := hashAt env.variables_ u.1 }, u.2)
      else (node, random)
    let v := env.normalReal p.2
    ({ p.1 with Value := v.1 }, v.2)
  else (node, random)

/-- The parity correction of the target length (balanced.cpp lines 28-31),
with the next state of the generator. -/
def adjustTarget (env : BalancedEnv R S) (random : R) (targetLen : Nat) : Nat × R :=
  if env.FunctionArityLimits.1 > 1 ∧ targetLen % 2 = 0 then
    let coin := env.bernoulliHalf random
    (if coin.1 then subSizeT targetLen 1 else addSizeT targetLen 1, coin.2)
  else (targetLen, random)

/-- The state of the growth loop: the generator, the vector `tuples` and the
counter `openSlots`. -/
structure GrowState (R S : Type) where
  random : R
  tuples : List (Node S × Nat × Nat)
  openSlots : Nat

/-- The assignment `std::get<2>(tuples[i]) = c`. -/
def setChildIndex (tuples : List (Node S × Nat × Nat)) (i c : Nat) :
    List (Node S × Nat × Nat) :=
  match tuples[i]? with
  | some u => tuples.set i (u.1, u.2.1, c)
  | none => tuples

/-- The upper end of the arity window of a child (balanced.cpp line 65);
`targetLen` is the decremented target. -/
def childMaxArity (env : BalancedEnv R S) (targetLen maxDepth childDepth : Nat)
    (st : GrowState R S) : Nat :=
  if childDepth = maxDepth then 0
  else min env.FunctionArityLimits.2 (subSizeT targetLen st.openSlots)

/-- The condition `openSlots - tuples.size() > 1 && sampleIrregular(random)`
(balanced.cpp line 66), with the next state of the generator; the coin is
drawn only when the first operand holds. -/
def irregular (env : BalancedEnv R S) (st : GrowState R S) : Bool × R :=
  if subSizeT st.openSlots st.tuples.length > 1 then env.sampleIrregular st.random
  else (false, st.random)

/-- The symbol drawn for the child and initialised (balanced.cpp lines 65-68). -/
def drawChild (env : BalancedEnv R S) (targetLen maxDepth childDepth : Nat)
    (st : GrowState R S) : Node S × R :=
  let maxArity := childMaxArity env targetLen maxDepth childDepth st
  let irr := irregular env st
  let minArity := min (if irr.1 then 0 else env.FunctionArityLimits.1) maxArity
  let sampled := env.SampleRandomSymbol irr.2 minArity maxArity
  init env sampled.1 sampled.2

/-- One iteration of the inner loop `for (int j = 0; j < node.Arity; ++j)`
(balanced.cpp lines 65-73) for the node at index `i`. -/
def childStep (env : BalancedEnv R S) (targetLen maxDepth i childDepth j : Nat)
    (st : GrowState R S) : GrowState R S :=
  let child := drawChild env targetLen maxDepth childDepth st
  let tuples1 := if j = 0 then setChildIndex st.tuples i st.tuples.length else st.tuples
  { random := child.2,
    tuples := tuples1 ++ [(child.1, childDepth, 0)],
    openSlots := addSizeT st.openSlots child.1.Arity }

/-- The inner loop from `j` on, with the number of iterations that remain. -/
def childLoop (env : BalancedEnv R S) (targetLen maxDepth i childDepth : Nat) :
    Nat → Nat → GrowState R S → GrowState R S
  | 0, _, st => st
  | remaining + 1, j, st =>
    childLoop env targetLen maxDepth i childDepth remaining (j + 1)
      (childStep env targetLen maxDepth i childDepth j st)

/-- The outer loop `for (size_t i = 0; i < tuples.size(); ++i)` from `i` on,
with a bound on the number of iterations; `none` when the bound is reached
before the loop ends. -/
def growLoop (env : BalancedEnv R S) (targetLen maxDepth : Nat) :
    Nat → Nat → GrowState R S → Option (GrowState R S)
  | 0, i, st => if i < st.tuples.length then none else some st
  | fuel + 1, i, st =>
    match st.tuples[i]? with
    | none => some st
    | some u =>
      growLoop env targetLen maxDepth fuel (i + 1)
        (childLoop env targetLen maxDepth i (u.2.1 + 1) u.1.Arity 0 st)

/-- The state before the growth loop (balanced.cpp lines 48-56) for the
adjusted target `adjusted`. -/
def growStart (env : BalancedEnv R S) (random : R) (adjusted : Nat) : GrowState R S :=
  let targetLen := subSizeT adjusted 1
  let minArity := min env.FunctionArityLimits.1 targetLen
  let maxArity := min env.FunctionArityLimits.2 targetLen
  let sampled := env.SampleRandomSymbol random minArity maxArity
  let root := init env sampled.1 sampled.2
  { random := root.2, tuples := [(root.1, 1, 1)], openSlots := root.1.Arity }

/-- The vector `tuples` when the growth loop has ended (balanced.cpp lines
25-75); `none` when `assert(targetLen > 0)` fails or the bound on the
iterations of the outer loop is reached. -/
def grow (env : BalancedEnv R S) (fuel : Nat) (random : R) (targetLen maxDepth : Nat) :
    Option (List (Node S × Nat × Nat)) :=
  if 0 < targetLen then
    let adjusted := adjustTarget env random targetLen
    (growLoop env (subSizeT adjusted.1 1) maxDepth fuel 0
      (growStart env adjusted.2 adjusted.1)).map (fun st => st.tuples)
  else none

/-- `BalancedTreeCreator::operator()` of balanced.cpp: the nodes of the
returned tree. -/
def BalancedTreeCreator (env : BalancedEnv R S) (fuel : Nat) (random : R)
    (targetLen maxDepth : Nat) : Option (List (Node S)) :=
  (grow env fuel random targetLen maxDepth).map
    (fun tuples => UpdateNodes (env.BreadthToPostfix tuples))

/-- Sum of the arities of the first `k` tuples. -/
def aritiesBefore (tuples : List (Node S × Nat × Nat)) (k : Nat) : Nat :=
  ((tuples.take k).map (fun u => u.1.Arity)).sum

/-- Complete breadth-first layout: there are `1 + (sum of the arities)`
tuples, the depths do not decrease along the vector, and a tuple at index `i`
with arity `a > 0` records the child index `c = 1 + (sum of the arities before
i)`, which is above `i`; the entries `c, ..., c + a - 1` exist and have a depth
one more than its own. -/
def BreadthFirstLayout (tuples : List (Node S × Nat × Nat)) : Prop :=
  tuples.length = 1 + (tuples.map (fun u => u.1.Arity)).sum ∧
  (∀ (x y : Nat) (u v : Node S × Nat × Nat), x ≤ y → tuples[x]? = some u →
    tuples[y]? = some v → u.2.1 ≤ v.2.1) ∧
  ∀ (i : Nat) (u : Node S × Nat × Nat), tuples[i]? = some u → 0 < u.1.Arity →
    i < u.2.2 ∧ u.2.2 = 1 + aritiesBefore tuples i ∧ u.2.2 + u.1.Arity ≤ tuples.length ∧
    ∀ (c : Nat) (v : Node S × Nat × Nat), u.2.2 ≤ c → c < u.2.2 + u.1.Arity →
      tuples[c]? = some v → v.2.1 = u.2.1 + 1

/-- The arities of the tuples, in the order of the vector. -/
def arities (tuples : List (Node S × Nat × Nat)) : List Nat := tuples.map (fun u => u.1.Arity)

/-- The depths of the tuples, in the order of the vector. -/
def depths (tuples : List (Node S × Nat × Nat)) : List Nat := tuples.map (fun u => u.2.1)

/-- What holds of `tuples` when the outer loop is about to look at index `i`:
the children of the nodes before `i` are in the vector and nothing else is,
each of these nodes with children records the index of its first child, and
the depths are as in a breadth-first traversal. -/
def LayoutInv (i : Nat) (tuples : List (Node S × Nat × Nat)) : Prop :=
  i ≤ tuples.length ∧
  tuples.length = 1 + ((arities tuples).take i).sum ∧
  (∀ (k : Nat) (u : Node S × Nat × Nat), k < i → tuples[k]? = some u → 0 < u.1.Arity →
    k < u.2.2 ∧ u.2.2 = 1 + ((arities tuples).take k).sum) ∧
  (∀ (k c : Nat), k < i → 1 + ((arities tuples).take k).sum ≤ c →
    c < 1 + ((arities tuples).take (k + 1)).sum →
    (depths tuples).getD c 0 = (depths tuples).getD k 0 + 1) ∧
  (∀ (x y : Nat), x ≤ y → y < tuples.length →
    (depths tuples).getD x 0 ≤ (depths tuples).getD y 0) ∧
  ∀ (c k : Nat), c < tuples.length → i ≤ k → k < tuples.length →
    (depths tuples).getD c 0 ≤ (depths tuples).getD k 0 + 1

/-- The counter `openSlots` is the sum of the arities in `tuples` and does not
exceed the decremented target. -/
def SlotsInv (targetLen : Nat) (st : GrowState R S) : Prop :=
  st.openSlots = (arities st.tuples).sum ∧ st.openSlots ≤ targetLen

/-- The conversion to the postfix order returns as many nodes as there are
tuples, and each of them is the node of a tuple. -/
def KeepsNodes (env : BalancedEnv R S) : Prop :=
  ∀ tuples : List (Node S × Nat × Nat),
    (env.BreadthToPostfix tuples).length = tuples.length ∧
    ∀ s ∈ env.BreadthToPostfix tuples, ∃ u ∈ tuples, u.1 = s

/-- The arity window `[minArity, maxArity]` for which the root is sampled
(balanced.cpp lines 49-52), for the adjusted target `adjusted`. -/
def rootWindow (env : BalancedEnv R S) (adjusted : Nat) : Nat × Nat :=
  (min env.FunctionArityLimits.1 (subSizeT adjusted 1),
    min env.FunctionArityLimits.2 (subSizeT adjusted 1))

/-- The arity window `[minArity, maxArity]` for which a child is sampled in
the state `st` (balanced.cpp lines 65-67). -/
def childWindow (env : BalancedEnv R S) (targetLen maxDepth childDepth : Nat)
    (st : GrowState R S) : Nat × Nat :=
  let maxArity := childMaxArity env targetLen maxDepth childDepth st
  let irr := irregular env st
  (min (if irr.1 then 0 else env.FunctionArityLimits.1) maxArity, maxArity)

/-- The states in which the inner loop samples a child, from `j` on and in
order, each with the depth of the child. -/
def childLoopStates (env : BalancedEnv R S) (targetLen maxDepth i childDepth : Nat) :
    Nat → Nat → GrowState R S → List (Nat × GrowState R S)
  | 0, _, _ => []
  | remaining + 1, j, st =>
    (childDepth, st) ::
      childLoopStates env targetLen maxDepth i childDepth remaining (j + 1)
        (childStep env targetLen maxDepth i childDepth j st)

/-- The states in which the growth loop samples a child, from the index `i`
of the outer loop on and in order, each with the depth of the child. -/
def growLoopStates (env : BalancedEnv R S) (targetLen maxDepth : Nat) :
    Nat → Nat → GrowState R S → List (Nat × GrowState R S)
  | 0, _, _ => []
  | fuel + 1, i, st =>
    match st.tuples[i]? with
    | none => []
    | some u =>
      childLoopStates env targetLen maxDepth i (u.2.1 + 1) u.1.Arity 0 st ++
        growLoopStates env targetLen maxDepth fuel (i + 1)
          (childLoop env targetLen maxDepth i (u.2.1 + 1) u.1.Arity 0 st)

/-- The child-sampling steps of a call of the creator: the states in which
line 65 of balanced.cpp is reached during the first `fuel` iterations of the
outer loop, each with the depth of the child that is sampled. -/
def samplingStates (env : BalancedEnv R S) (fuel : Nat) (random : R)
    (targetLen maxDepth : Nat) : List (Nat × GrowState R S) :=
  if 0 < targetLen then
    let adjusted := adjustTarget env random targetLen
    growLoopStates env (subSizeT adjusted.1 1) maxDepth fuel 0
      (growStart env adjusted.2 adjusted.1)
  else []

/-- The arity windows that a call of the creator passes to
`SampleRandomSymbol` during the first `fuel` iterations of the outer loop: the
window of the root, then the windows of the children. -/
def windows (env : BalancedEnv R S) (fuel : Nat) (random : R)
    (targetLen maxDepth : Nat) : List (Nat × Nat) :=
  if 0 < targetLen then
    let adjusted := adjustTarget env random targetLen
    rootWindow env adjusted.1 ::
      (samplingStates env fuel random targetLen maxDepth).map
        (fun p => childWindow env (subSizeT adjusted.1 1) maxDepth p.1 p.2)
  else []

/-- The sampler of a grammar whose function symbols all have arity 2: for a
window that holds the arity 0 or the arity 2, it returns a symbol of arity 0
or 2 within the window. -/
def BinarySampler (env : BalancedEnv R S) : Prop :=
  ∀ (r : R) (lo hi : Nat), lo = 0 ∨ (lo ≤ 2 ∧ 2 ≤ hi) →
    lo ≤ (env.SampleRandomSymbol r lo hi).1.Arity ∧
    (env.SampleRandomSymbol r lo hi).1.Arity ≤ hi ∧
    ((env.SampleRandomSymbol r lo hi).1.Arity = 0 ∨
      (env.SampleRandomSymbol r lo hi).1.Arity = 2)

/-- The node count agrees with the position `(i, j)` of the loops: the root,
the children of the nodes before `i` and `j` children of the node at `i`. -/
def PosInv (i j : Nat) (st : GrowState R S) : Prop :=
  st.tuples.length = 1 + ((arities st.tuples).take i).sum + j

end Balanced

/-! ## The pseudo-random generator (`random/jsf.hpp`)

The words of the generator are natural numbers below `2 ^ N`; all arithmetic
is taken modulo `2 ^ N`, `N` the output width. -/

namespace RandomGenerator

/-- Bitwise circular left shift `(x << k) | (x >> (N - k))` on `N`-bit words. -/
def rotl (N x k : Nat) : Nat := ((x <<< k) % 2 ^ N) ||| (x >>> (N - k))

/-- The four words `a, b, c, d` of a generator `JsfRand<N>`. -/
structure JsfRand where
  a : Nat
  b : Nat
  c : Nat
  d : Nat
  deriving DecidableEq, Repr

/-- The member `prng32` (jsf.hpp lines 69-77): the returned word and the new
state; `N` is the template parameter of the class. -/
def JsfRand.prng32 (N : Nat) (g : JsfRand) : Nat × JsfRand :=
  let e := (g.a + 2 ^ 32 - rotl N g.b 27 % 2 ^ 32) % 2 ^ 32
  let a := (g.b ^^^ rotl N g.c 17) % 2 ^ 32
  let b := (g.c + g.d) % 2 ^ 32
  let c := (g.d + e) % 2 ^ 32
  let d := (e + a) % 2 ^ 32
  (d, { a := a, b := b, c := c, d := d })

/-- The member `prng64` (jsf.hpp lines 80-88). -/
def JsfRand.prng64 (N : Nat) (g : JsfRand) : Nat × JsfRand :=
  let e := (g.a + 2 ^ 64 - rotl N g.b 7 % 2 ^ 64) % 2 ^ 64
  let a := (g.b ^^^ rotl N g.c 13) % 2 ^ 64
  let b := (g.c + rotl N g.d 37) % 2 ^ 64
  let c := (g.d + e) % 2 ^ 64
  let d := (e + a) % 2 ^ 64
  (d, { a := a, b := b, c := c, d := d })

/-- The call operator `operator()` (jsf.hpp lines 107-112). -/
def JsfRand.next (N : Nat) (g : JsfRand) : Nat × JsfRand :=
  if N = 32 then JsfRand.prng32 N g else JsfRand.prng64 N g

/-- The outputs of `n` successive calls, in order, and the state after them. -/
def JsfRand.draws (N : Nat) : Nat → JsfRand → List Nat × JsfRand
  | 0, g => ([], g)
  | n + 1, g =>
    let r := JsfRand.next N g
    let rest := JsfRand.draws N n r.2
    (r.1 :: rest.1, rest.2)

/-- The constructor `JsfRand(seed)` (jsf.hpp lines 95-105): the initial words
and twenty discarded calls. -/
def JsfRand.new (N seed : Nat) : JsfRand :=
  (JsfRand.draws N 20 { a := 0xf1ea5eed, b := seed % 2 ^ N, c := seed % 2 ^ N,
                        d := seed % 2 ^ N }).2

/-- The step that the doc comment of `prng32` announces, "2-rotate version for
32-bit with the amounts (27, 7)": `prng32` with the second rotation by 7. -/
def JsfRand.prng32Documented (N : Nat) (g : JsfRand) : Nat × JsfRand :=
  let e := (g.a + 2 ^ 32 - rotl N g.b 27 % 2 ^ 32) % 2 ^ 32
  let a := (g.b ^^^ rotl N g.c 7) % 2 ^ 32
  let b := (g.c + g.d) % 2 ^ 32
  let c := (g.d + e) % 2 ^ 32
  let d := (e + a) % 2 ^ 32
  (d, { a := a, b := b, c := c, d := d })

/-- The four words are `N`-bit words. -/
def JsfRand.Valid (N : Nat) (g : JsfRand) : Prop :=
  g.a < 2 ^ N ∧ g.b < 2 ^ N ∧ g.c < 2 ^ N ∧ g.d < 2 ^ N

/-- The state before a call of `prng32`, recovered from the state after it:
`e = d' - a'`, `d = c' - e`, `c = b' - d`, `b = a' xor rotl(c, 17)` and
`a = e + rotl(b, 27)`, modulo `2 ^ 32`. -/
def JsfRand.prev32 (N : Nat) (g : JsfRand) : JsfRand :=
  let e := (g.d + 2 ^ 32 - g.a % 2 ^ 32) % 2 ^ 32
  let d := (g.c + 2 ^ 32 - e % 2 ^ 32) % 2 ^ 32
  let c := (g.b + 2 ^ 32 - d % 2 ^ 32) % 2 ^ 32
  let b := (g.a ^^^ rotl N c 17) % 2 ^ 32
  let a := (e + rotl N b 27) % 2 ^ 32
  { a := a, b := b, c := c, d := d }

/-- The state before a call of `prng64`, recovered from the state after it:
`e = d' - a'`, `d = c' - e`, `c = b' - rotl(d, 37)`, `b = a' xor rotl(c, 13)`
and `a = e + rotl(b, 7)`, modulo `2 ^ 64`. -/
def JsfRand.prev64 (N : Nat) (g : JsfRand) : JsfRand :=
  let e := (g.d + 2 ^ 64 - g.a % 2 ^ 64) % 2 ^ 64
  let d := (g.c + 2 ^ 64 - e % 2 ^ 64) % 2 ^ 64
  let c := (g.b + 2 ^ 64 - rotl N d 37 % 2 ^ 64) % 2 ^ 64
  let b := (g.a ^^^ rotl N c 13) % 2 ^ 64
  let a := (e + rotl N b 7) % 2 ^ 64
  { a := a, b := b, c := c, d := d }

/-- The state before a call of the generator, recovered from the state after
it. -/
def JsfRand.prev (N : Nat) (g : JsfRand) : JsfRand :=
  if N = 32 then JsfRand.prev32 N g else JsfRand.prev64 N g

end RandomGenerator

/-! ## The reinserter (`operators/reinserter/keepbest.hpp`)

An individual is a value of a type `α` with its fitness `fit`, the entry
`[Idx]`; `sort` stands for `std::sort` with the comparison of the fitness. -/

section Reinserter

variable {α : Type}

/-- The loop of `KeepBestReinserter::operator()` (keepbest.hpp lines 37-42)
over the sorted vectors: the first argument is the pool from index `i` on,
`j` is the index into `pop`. -/
def reinsertLoop (fit : α → Nat) : List α → Nat → List α → List α
  | [], _, pop => pop
  | x :: rest, j, pop =>
    match pop[j]? with
    | none => pop
    | some y =>
      if fit y > fit x then reinsertLoop fit rest (j + 1) (pop.set j x)
      else reinsertLoop fit rest j pop

/-- `KeepBestReinserter::operator()`: the population after the call. -/
def KeepBestReinserter (sort : List α → List α) (fit : α → Nat) (pop pool : List α) : List α :=
  reinsertLoop fit (sort pool) 0 (sort pop)

end Reinserter

/-! ## The offspring selection generator (`operators/generator/os.hpp`)

The base class of `core/operator.hpp` with the selector, the crossover, the
mutator and the evaluator is not among the embedded sources; these operators,
the population of the selector, the distribution `uniformReal` and the
comparison and finiteness test of the fitness type are arguments of the
embedding. -/

/-- Modelled from the spec: the selectable type `T` of the individuals, a
genotype with the fitness `[Idx]`. -/
structure Individual (G F : Type) where
  Genotype : G
  Fitness : F

/-- What `OffspringSelectionGenerator::operator()` uses: the distribution, the
four operators, `population[i]`, `operator<` on fitness values and
`std::isfinite`. A draw takes the state `R` of the generator and returns the
drawn value with the next state. -/
structure GeneratorEnv (R G F : Type) where
  uniformReal : R → F × R
  selector : R → Nat × R
  crossover : R → G → G → G × R
  mutator : R → G → G × R
  evaluator : R → Individual G F → F × R
  population : Nat → Individual G F
  lt : F → F → Bool
  isfinite : F → Bool

section Generator

variable {R G F : Type}

/-- The library function `std::min(a, b)`: `(b < a) ? b : a`. -/
def stdMin (lt : F → F → Bool) (a b : F) : F := if lt b a then b else a

/-- The local variables of `operator()` when the child is evaluated (os.hpp
line 66): the two flags, the selected parents (`second` only with crossover),
the bound `fit`, the child, the generator after the two draws of line 39-40
and the generator after the operators. -/
structure Offspring (R G F : Type) where
  doCrossover : Bool
  doMutation : Bool
  first : Nat
  second : Option Nat
  fit : F
  child : Individual G F
  drawn : R
  random : R

/-- Lines 38-64 of os.hpp, without the early return of lines 42-43: the draws
of the two flags, the selection of the parents, crossover and mutation.
`child0` is the default-constructed individual. -/
def offspring (env : GeneratorEnv R G F) (child0 : Individual G F) (random : R)
    (pCrossover pMutation : F) : Offspring R G F :=
  let u1 := env.uniformReal random
  let doCrossover := env.lt u1.1 pCrossover
  let u2 := env.uniformReal u1.2
  let doMutation := env.lt u2.1 pMutation
  let first := env.selector u2.2
  let fit := (env.population first.1).Fitness
  let cx : Option Nat × G × F × R :=
    if doCrossover then
      let second := env.selector first.2
      let g := env.crossover second.2 (env.population first.1).Genotype
        (env.population second.1).Genotype
      (some second.1, g.1, stdMin env.lt fit (env.population second.1).Fitness, g.2)
    else (none, child0.Genotype, fit, first.2)
  let mu : G × R :=
    if doMutation then
      if doCrossover then env.mutator cx.2.2.2 cx.2.1
      else env.mutator cx.2.2.2 (env.population first.1).Genotype
    else (cx.2.1, cx.2.2.2)
  { doCrossover := doCrossover, doMutation := doMutation, first := first.1,
    second := cx.1, fit := cx.2.2.1, child := { child0 with Genotype := mu.1 },
    drawn := u2.2, random := mu.2 }

/-- `OffspringSelectionGenerator::operator()` (os.hpp lines 36-73): the
returned optional and the generator after the call. -/
def OffspringSelectionGenerator (env : GeneratorEnv R G F) (child0 : Individual G F)
    (random : R) (pCrossover pMutation : F) : Option (Individual G F) × R :=
  let o := offspring env child0 random pCrossover pMutation
  if !(o.doCrossover || o.doMutation) then (none, o.drawn)
  else
    let f := env.evaluator o.random o.child
    if env.isfinite f.1 && env.lt f.1 o.fit then
      let f2 := env.evaluator f.2 o.child
      (some { o.child with Fitness := f2.1 }, f2.2)
    else (none, f.2)

end Generator

/-! ## The running mean and variance (`stat/meanvariance.cpp`) -/

/-- Modelled from the spec: the members `n`, `sum` and `m2` of
`MeanVarianceCalculator` (`stat/meanvariance.hpp` is not among the embedded
sources), in exact rational arithmetic. -/
structure MeanVarianceCalculator where
  n : ℚ
  sum : ℚ
  m2 : ℚ

/-- `MeanVarianceCalculator::Add(Scalar)` (meanvariance.cpp lines 24-37). -/
def MeanVarianceCalculator.Add (st : MeanVarianceCalculator) (val : ℚ) :
    MeanVarianceCalculator :=
  if st.n ≤ 0 then { n := 1, sum := val, m2 := 0 }
  else
    let tmp := st.n * val - st.sum
    let oldn := st.n
    let n := st.n + 1
    { n := n, sum := st.sum + val, m2 := st.m2 + tmp * tmp / (n * oldn) }

/-- The state after the values of the non-empty list `l`: the count, the sum
and `m2` as the sum of the squares less `sum ^ 2 / n`. -/
def MVInv (st : MeanVarianceCalculator) (l : List ℚ) : Prop :=
  st.n = l.length ∧ st.sum = l.sum ∧
    st.m2 = (l.map (fun x => x ^ 2)).sum - l.sum ^ 2 / l.length

/-! ## Command-line utilities (`cli/util.hpp`)

A `std::string` is a list of characters. -/

/-- The error codes of `std::from_chars`. -/
inductive Errc where
  | invalid_argument
  | result_out_of_range
  deriving DecidableEq, Repr

/-- The value of a sequence of decimal digits. -/
def digitsValue (digits : List Char) : Nat :=
  digits.foldl (fun acc c => 10 * acc + (c.toNat - 48)) 0

/-- The library function `std::from_chars` for a `size_t` in base 10: it
reads the longest prefix of decimal digits; with no digit the error is
`invalid_argument`, with a value that does not fit into 64 bits it is
`result_out_of_range`. -/
def from_chars (s : List Char) : Except Errc Nat :=
  let digits := s.takeWhile Char.isDigit
  if digits.isEmpty then Except.error Errc.invalid_argument
  else if digitsValue digits < 2 ^ 64 then Except.ok (digitsValue digits)
  else Except.error Errc.result_out_of_range

/-- What a call of `ParseRange` does: it returns a range, throws
`std::runtime_error`, or is undefined (no colon in the argument). -/
inductive ParseResult where
  | range (r : Range)
  | runtime_error
  | undefined
  deriving DecidableEq, Repr

/-- `ParseRange` (util.hpp lines 34-47). -/
def ParseRange (range : List Char) : ParseResult :=
  match range.indexOf? ':' with
  | none => ParseResult.undefined
  | some pos =>
    let rangeFirst := range.take pos
    let rangeLast := range.drop (pos + 1)
    match from_chars rangeFirst with
    | Except.error _ => ParseResult.runtime_error
    | Except.ok b =>
      match from_chars rangeLast with
      | Except.error _ => ParseResult.runtime_error
      | Except.ok e => ParseResult.range { Start := b, End := e }

/-- The library function `std::getline(stream, token, delimiter)` on the rest
of the stream: it fails when nothing is left; else the token is what precedes
the first delimiter, and the delimiter is consumed with it. -/
def getline (rest : List Char) (delimiter : Char) : Option (List Char × List Char) :=
  if rest.isEmpty then none
  else
    let token := rest.takeWhile (fun c => c != delimiter)
    some (token, rest.drop (token.length + 1))

/-- The loop `while (std::getline(tokenStream, token, delimiter))` of `Split`;
the first argument bounds the number of iterations. -/
def splitLoop (delimiter : Char) : Nat → List Char → List (List Char) → List (List Char)
  | 0, _, tokens => tokens
  | fuel + 1, rest, tokens =>
    match getline rest delimiter with
    | none => tokens
    | some (token, rest') => splitLoop delimiter fuel rest' (tokens ++ [token])

/-- `Split` (util.hpp lines 58-67); a call of `getline` that succeeds consumes
a character, so `s.size()` iterations suffice. -/
def Split (s : List Char) (delimiter : Char) : List (List Char) :=
  splitLoop delimiter s.length s []

/-- The tokens joined with the delimiter between them. -/
def joinWith (delimiter : Char) : List (List Char) → List Char
  | [] => []
  | [t] => t
  | t :: ts => t ++ delimiter :: joinWith delimiter ts

/-! ## A concrete numeric type

An instance of the numeric interface on which the definitions can be
evaluated: the rationals extended by the IEEE-754 special values, with the
IEEE-754 rules for the special values and for overflow, without rounding and
without a signed zero. -/

/-- Extended rationals: a finite value, plus or minus infinity, or NaN. -/
inductive Ext where
  | fin (q : ℚ)
  | pinf
  | ninf
  | nan
  deriving DecidableEq

namespace Ext

/-- The largest finite double, `(2 - 2^(-52)) * 2^1023`. -/
def maxFinite : ℚ := 2 ^ 1024 - 2 ^ 971

/-- A rational result, overflowing to an infinity beyond the largest finite
value. -/
def ofRat (q : ℚ) : Ext :=
  if maxFinite < q then pinf else if q < -maxFinite then ninf else fin q

/-- The infinity of the sign of `q`, NaN for sign 0. -/
def infOfSign (q : ℚ) : Ext :=
  if q = 0 then nan else if 0 < q then pinf else ninf

/-- A rational of the sign of the value (0 for NaN). -/
def signum : Ext → ℚ
  | fin q => q
  | pinf => 1
  | ninf => -1
  | nan => 0

def add : Ext → Ext → Ext
  | nan, _ => nan
  | _, nan => nan
  | fin a, fin b => ofRat (a + b)
  | pinf, ninf => nan
  | ninf, pinf => nan
  | pinf, _ => pinf
  | _, pinf => pinf
  | ninf, _ => ninf
  | _, ninf => ninf

def neg : Ext → Ext
  | fin q => fin (-q)
  | pinf => ninf
  | ninf => pinf
  | nan => nan

def sub (a b : Ext) : Ext := add a (neg b)

def mul : Ext → Ext → Ext
  | nan, _ => nan
  | _, nan => nan
  | fin a, fin b => ofRat (a * b)
  | a, b => infOfSign (signum a * signum b)

def div : Ext → Ext → Ext
  | nan, _ => nan
  | _, nan => nan
  | fin a, fin b => if b = 0 then infOfSign a else ofRat (a / b)
  | fin _, _ => fin 0
  | a, fin b => infOfSign (signum a * (if b < 0 then -1 else 1))
  | _, _ => nan

def IsFinite : Ext → Bool
  | fin _ => true
  | _ => false

/-- The comparison `a < b` of IEEE-754: false when an operand is NaN. -/
def lt : Ext → Ext → Bool
  | nan, _ => false
  | _, nan => false
  | fin a, fin b => decide (a < b)
  | ninf, ninf => false
  | ninf, _ => true
  | _, ninf => false
  | pinf, _ => false
  | _, pinf => true

/-- The exponential at the arguments where its value is rational or special;
NaN stands for the values that the type cannot represent. -/
def exp : Ext → Ext
  | fin q => if q = 0 then fin 1 else nan
  | pinf => pinf
  | ninf => fin 0
  | nan => nan

/-- The logarithm at the arguments where its value is rational or special. -/
def log : Ext → Ext
  | fin q => if q = 1 then fin 0 else if q = 0 then ninf else nan
  | pinf => pinf
  | _ => nan

/-- Sine at the arguments where its value is rational. -/
def sin : Ext → Ext
  | fin q => if q = 0 then fin 0 else nan
  | _ => nan

/-- Tangent at the arguments where its value is rational. -/
def tan : Ext → Ext
  | fin q => if q = 0 then fin 0 else nan
  | _ => nan

/-- Cosine at the arguments where its value is rational. -/
def cos : Ext → Ext
  | fin q => if q = 0 then fin 1 else nan
  | _ => nan

/-- Square root at the arguments 0 and 1 and at the special values. -/
def sqrt : Ext → Ext
  | fin q => if q = 0 ∨ q = 1 then fin q else nan
  | pinf => pinf
  | _ => nan

/-- Cube root at the arguments 0, 1 and -1 and at the special values. -/
def cbrt : Ext → Ext
  | fin q => if q = 0 ∨ q = 1 ∨ q = -1 then fin q else nan
  | pinf => pinf
  | ninf => ninf
  | nan => nan

/-- The numeric interface of the extended rationals, with `Scalar = T`. -/
def ops : NumOps Ext Ext where
  cast := id
  zero := fin 0
  add := add
  sub := sub
  mul := mul
  div := div
  log := log
  exp := exp
  sin := sin
  cos := cos
  tan := tan
  sqrt := sqrt
  cbrt := cbrt
  square := fun x => mul x x
  IsFinite := IsFinite
  Max := fin maxFinite

end Ext

/-- A node of the given kind with `Length = len`, `Value = v` and variable
hash `h`; its arity is the one of its kind. -/
def mkNode {S : Type} (t : NodeType) (len : Nat) (v : S) (h : Nat) : Node S :=
  { Type_ := t, Arity := arityOf t, Length := len, Depth := 0, Parent := 0,
    Value := v, HashValue := h, CalculatedHashValue := h }

/-- The tree `{a, b, op}` of a binary operator over two leaves. -/
def binaryTree {S : Type} (a b : Node S) (t : NodeType) (v : S) : List (Node S) :=
  [a, b, mkNode t 2 v 0]

/-- The tree `{x3, x6, x5, Mul, Sub}` of the evaluation test. -/
def testTree {S : Type} (w3 w6 w5 v : S) (h3 h6 h5 : Nat) : List (Node S) :=
  [mkNode .Variable 0 w3 h3, mkNode .Variable 0 w6 h6, mkNode .Variable 0 w5 h5,
    mkNode .Mul 2 v 0, mkNode .Sub 4 v 0]

/-- Data for the examples: column `c` holds `10 * c + row`. -/
def exDataset : Dataset Ext :=
  { GetIndex := fun h => h, Values := fun c r => Ext.fin ((10 * c + r : Nat) : ℚ) }

/-- Initial contents of the work buffer in the examples. -/
def exBuffer : Nat → Nat → Ext := fun _ _ => Ext.nan

/-- Data whose column 1 holds the most negative and whose other columns hold
the largest finite value. -/
def overflowDataset : Dataset Ext :=
  { GetIndex := fun h => h,
    Values := fun c _ => if c = 1 then Ext.fin (-Ext.maxFinite) else Ext.fin Ext.maxFinite }

/-- The tree `{X1, X1, Sub}` with both weights equal to the largest finite
value. -/
def overflowTree : List (Node Ext) :=
  binaryTree (mkNode .Variable 0 (Ext.fin Ext.maxFinite) 1)
    (mkNode .Variable 0 (Ext.fin Ext.maxFinite) 1) .Sub (Ext.fin 0)

/-- A grammar for the examples. The state of the generator is a counter; the
symbol drawn for the window `[lo, hi]` has the arity `min hi (lo + counter % 2)`
and is a Variable, a Log or an Add according to that arity. -/
def exEnv : CreatorEnv Nat Ext :=
  { FunctionArityLimits := (1, 2),
    SampleRandomSymbol := fun r lo hi =>
      ({ Type_ := if min hi (lo + r % 2) = 0 then .Variable
                  else if min hi (lo + r % 2) = 1 then .Log else .Add,
         Arity := min hi (lo + r % 2), Length := 0, Depth := 0, Parent := 0,
         Value := Ext.nan, HashValue := 0, CalculatedHashValue := 0 }, r + 1),
    uniformInt := fun r => (r % 3, r + 1),
    normalReal := fun r => (Ext.fin ((r : Nat) : ℚ), r + 1),
    SampleFromDistribution := fun r => (12, r + 1),
    variables_ := [⟨11, 0⟩, ⟨22, 1⟩, ⟨33, 2⟩],
    maxDepth := 10,
    maxLength := 20 }

/-- Modelled from the spec: the subtree of the tuple at index `i` written in
postfix order into the positions below `st.2` of the array `st.1`, the node
last and its first child next to it; `st.2` moves down to the first position
written. -/
def fillPostfix {S : Type} (tuples : List (Node S × Nat × Nat)) :
    Nat → Nat → List (Node S) × Nat → List (Node S) × Nat
  | 0, _, st => st
  | fuel + 1, i, st =>
    match tuples[i]? with
    | none => st
    | some u =>
      (List.range u.1.Arity).foldl (fun acc k => fillPostfix tuples fuel (u.2.2 + k) acc)
        (st.1.set (st.2 - 1) u.1, st.2 - 1)

/-- Modelled from the spec: a conversion of the breadth-first vector to the
postfix order, for the examples: an array of the size of `tuples` is filled
from its end with the subtree of the root. -/
def exBreadthToPostfix {S : Type} (tuples : List (Node S × Nat × Nat)) : List (Node S) :=
  (fillPostfix tuples tuples.length 0 (tuples.map (fun u => u.1), tuples.length)).1

/-- An environment of the breadth-first creator over the generator states
`Nat`, with the function arities `minArity .. maxArity`: the sampler returns a
symbol of arity `min hi (lo + r % 2)`, the coin of the parity correction shows
`coin`, and the irregularity coin shows heads in every fourth state. -/
def exBalancedEnv (minArity maxArity : Nat) (coin : Bool) : BalancedEnv Nat Ext :=
  { FunctionArityLimits := (minArity, maxArity),
    SampleRandomSymbol := fun r lo hi =>
      ({ Type_ := if min hi (lo + r % 2) = 0 then .Variable
                  else if min hi (lo + r % 2) = 1 then .Log else .Add,
         Arity := min hi (lo + r % 2), Length := 0, Depth := 0, Parent := 0,
         Value := Ext.nan, HashValue := 0, CalculatedHashValue := 0 }, r + 1),
    uniformInt := fun r => (r % 3, r + 1),
    normalReal := fun r => (Ext.fin ((r : Nat) : ℚ), r + 1),
    bernoulliHalf := fun r => (coin, r + 1),
    sampleIrregular := fun r => (decide (r % 4 = 0), r + 1),
    variables_ := [⟨11, 0⟩, ⟨22, 1⟩, ⟨33, 2⟩],
    BreadthToPostfix := exBreadthToPostfix }

/-- An environment of the breadth-first creator for a grammar whose functions
are all binary (the symbols `Variable` and `Add`): the sampler returns arity 0
when the window ends below 2, or when it starts at 0 and the state is odd, and
arity 2 otherwise; the irregularity coin always shows `bias`. -/
def exBinaryEnv (coin bias : Bool) : BalancedEnv Nat Ext :=
  { FunctionArityLimits := (2, 2),
    SampleRandomSymbol := fun r lo hi =>
      ({ Type_ := if hi < 2 ∨ (lo = 0 ∧ r % 2 = 1) then .Variable else .Add,
         Arity := if hi < 2 ∨ (lo = 0 ∧ r % 2 = 1) then 0 else 2,
         Length := 0, Depth := 0, Parent := 0,
         Value := Ext.nan, HashValue := 0, CalculatedHashValue := 0 }, r + 1),
    uniformInt := fun r => (r % 3, r + 1),
    normalReal := fun r => (Ext.fin ((r : Nat) : ℚ), r + 1),
    bernoulliHalf := fun r => (coin, r + 1),
    sampleIrregular := fun r => (bias, r + 1),
    variables_ := [⟨11, 0⟩, ⟨22, 1⟩, ⟨33, 2⟩],
    BreadthToPostfix := exBreadthToPostfix }

/-- The environment `exEnv` with `maxDepth = 1` and the sampled target length
3. -/
def exDepthOneEnv : CreatorEnv Nat Ext :=
  { exEnv with maxDepth := 1, SampleFromDistribution := fun r => (3, r + 1) }

/-- An environment of the offspring selection generator over the generator
states `Nat`, with natural numbers as genotypes and integers as fitness values
and probabilities (in tenths): three individuals of fitness 10, 20, 30, the
sum as crossover, the successor as mutation, and the evaluator `g % 25`. -/
def exGeneratorEnv : GeneratorEnv Nat Nat Int :=
  { uniformReal := fun r => (((r % 10 : Nat) : Int), r + 1),
    selector := fun r => (r % 3, r + 1),
    crossover := fun r g₁ g₂ => (g₁ + g₂, r + 1),
    mutator := fun r g => (g + 1, r + 1),
    evaluator := fun r c => (((c.Genotype % 25 : Nat) : Int), r + 1),
    population := fun i => { Genotype := 7 * (i + 1), Fitness := 10 * ((i : Int) + 1) },
    lt := fun a b => decide (a < b),
    isfinite := fun _ => true }

/-- An environment of the offspring selection generator with fitness values in
the extended rationals and the IEEE-754 comparison: every draw of the
distribution is 0, the selector alternates between the two individuals, the
first of fitness 10 and the second of fitness NaN, and every child is
evaluated to 3. -/
def exNaNEnv : GeneratorEnv Nat Nat Ext :=
  { uniformReal := fun r => (Ext.fin 0, r + 1),
    selector := fun r => (r % 2, r + 1),
    crossover := fun r g₁ g₂ => (g₁ + g₂, r + 1),
    mutator := fun r g => (g + 1, r + 1),
    evaluator := fun r _ => (Ext.fin 3, r + 1),
    population := fun i => { Genotype := i, Fitness := if i = 0 then Ext.fin 10 else Ext.nan },
    lt := Ext.lt,
    isfinite := Ext.IsFinite }

/-! # Theorems

## General facts about the evaluator loops -/

section EvaluatorFacts

variable {S T : Type}

theorem forEachNode_rel {σ τ : Type} (f : σ → Nat → Node S → σ) (g : τ → Nat → Node S → τ)
    (R : Nat → σ → τ → Prop) :
    ∀ (l l' : List (Node S)) (i : Nat) (a : σ) (b : τ), l.length = l'.length → R i a b →
      (∀ k s s' a b, l[k]? = some s → l'[k]? = some s' → R (i + k) a b →
        R (i + k + 1) (f a (i + k) s) (g b (i + k) s')) →
      R (i + l.length) (forEachNode f l i a) (forEachNode g l' i b) := by
  intro l
  induction l with
  | nil =>
    intro l' i a b hlen h0 _
    cases l' with
    | nil => simpa [forEachNode] using h0
    | cons _ _ => simp at hlen
  | cons s rest ih =>
    intro l' i a b hlen h0 hstep
    cases l' with
    | nil => simp at hlen
    | cons s' rest' =>
      simp only [forEachNode, List.length_cons]
      have h1 := hstep 0 s s' a b (by simp) (by simp) (by simpa using h0)
      have := ih rest' (i + 1) (f a i s) (g b i s') (by simpa using hlen) (by simpa using h1)
        (fun k t t' a b hk hk' hR => by
          have := hstep (k + 1) t t' a b (by simpa using hk) (by simpa using hk')
            (by simpa [Nat.add_assoc, Nat.add_comm 1 k] using hR)
          simpa [Nat.add_assoc, Nat.add_comm 1 k] using this)
      simpa [Nat.add_assoc, Nat.add_comm 1 rest.length] using this

theorem forEachNode_induct {σ : Type} (f : σ → Nat → Node S → σ) (P : Nat → σ → Prop)
    (l : List (Node S)) (a : σ) (h0 : P 0 a)
    (hstep : ∀ k s a, l[k]? = some s → P k a → P (k + 1) (f a k s)) :
    P l.length (forEachNode f l 0 a) := by
  have := forEachNode_rel f f (fun i x _ => P i x) l l 0 a a rfl h0
    (fun k s s' a b hk hk' hR => by
      simp only [Nat.zero_add] at hR ⊢
      exact hstep k s a hk hR)
  simpa using this

theorem batchLoop_induct {σ : Type} (numRows : Nat) (body : Nat → Nat → σ → σ)
    (P : Nat → σ → Prop)
    (hstep : ∀ row st, row < numRows → P row st →
      P (row + BATCHSIZE) (body row (min BATCHSIZE (numRows - row)) st)) :
    ∀ (fuel row : Nat) (st : σ), numRows ≤ row + fuel → P row st →
      ∃ row', numRows ≤ row' ∧ P row' (batchLoop numRows body fuel row st) := by
  intro fuel
  induction fuel with
  | zero =>
    intro row st hf h0
    exact ⟨row, by simpa using hf, by simpa [batchLoop] using h0⟩
  | succ fuel ih =>
    intro row st hf h0
    simp only [batchLoop]
    split
    · next hlt =>
      exact ih (row + BATCHSIZE) _ (by simp only [BATCHSIZE]; omega) (hstep row st hlt h0)
    · next hge => exact ⟨row, by omega, h0⟩

theorem batchLoop_trace_acc (numRows : Nat) :
    ∀ (fuel row : Nat) (acc : List (Nat × Nat)),
      batchLoop numRows (fun row remainingRows acc => acc ++ [(row, remainingRows)]) fuel row acc
        = acc ++ batchLoop numRows
            (fun row remainingRows acc => acc ++ [(row, remainingRows)]) fuel row [] := by
  intro fuel
  induction fuel with
  | zero => intro row acc; simp [batchLoop]
  | succ fuel ih =>
    intro row acc
    simp only [batchLoop]
    split
    · rw [ih, ih (row + BATCHSIZE) ([] ++ _)]
      simp
    · simp

theorem batchLoop_eq_foldl {σ : Type} (numRows : Nat) (body : Nat → Nat → σ → σ) :
    ∀ (fuel row : Nat) (st : σ),
      batchLoop numRows body fuel row st
        = (batchLoop numRows (fun row remainingRows acc => acc ++ [(row, remainingRows)])
            fuel row []).foldl (fun st w => body w.1 w.2 st) st := by
  intro fuel
  induction fuel with
  | zero => intro row st; simp [batchLoop]
  | succ fuel ih =>
    intro row st
    simp only [batchLoop]
    split
    · rw [ih, batchLoop_trace_acc numRows fuel (row + BATCHSIZE) ([] ++ _)]
      simp
    · simp

theorem batchWindows_spec (numRows : Nat) :
    (batchWindows numRows).flatMap (fun w => List.range' w.1 w.2) = List.range numRows ∧
    ∀ w, w ∈ batchWindows numRows →
      BATCHSIZE ∣ w.1 ∧ w.1 < numRows ∧ w.2 = min BATCHSIZE (numRows - w.1) := by
  have h := batchLoop_induct numRows
    (fun row remainingRows (acc : List (Nat × Nat)) => acc ++ [(row, remainingRows)])
    (fun row acc => BATCHSIZE ∣ row ∧
      acc.flatMap (fun w => List.range' w.1 w.2) = List.range (min row numRows) ∧
      ∀ w, w ∈ acc → BATCHSIZE ∣ w.1 ∧ w.1 < numRows ∧ w.2 = min BATCHSIZE (numRows - w.1))
    (by
      intro row acc hlt ⟨hdvd, hflat, hall⟩
      refine ⟨Nat.dvd_add hdvd (Nat.dvd_refl _), ?_, ?_⟩
      · rw [List.flatMap_append, hflat, List.flatMap_singleton, List.range_eq_range',
          List.range_eq_range']
        have h1 : min row numRows = row := by omega
        have h2 : min (row + BATCHSIZE) numRows = row + min BATCHSIZE (numRows - row) := by
          simp only [BATCHSIZE]
          omega
        simp only [h1, h2]
        have := List.range'_append_1 0 row (min BATCHSIZE (numRows - row))
        simp only [Nat.zero_add] at this
        simpa [Nat.add_comm] using this
      · intro w hw
        rcases List.mem_append.1 hw with hw | hw
        · exact hall w hw
        · simp only [List.mem_singleton] at hw
          subst hw
          exact ⟨hdvd, hlt, rfl⟩)
    numRows 0 [] (by omega) ⟨Nat.dvd_zero _, by simp, by simp⟩
  obtain ⟨row', hge, _, hflat, hall⟩ := h
  refine ⟨?_, hall⟩
  rw [batchWindows, hflat, Nat.min_eq_right hge]

theorem EvaluateInto_eq_foldl (N : NumOps S T) (m0 : Nat → Nat → T) (tree : List (Node S))
    (dataset : Dataset S) (range : Range) (parameters : Option (Nat → T)) (result : Nat → T) :
    EvaluateInto N m0 tree dataset range parameters result
      = ((batchWindows range.Size).foldl
          (fun st w => batchBody N dataset range parameters tree
            (prePass N m0 tree dataset parameters) w.1 w.2 st)
          ((prePass N m0 tree dataset parameters).m, result)).2 := by
  simp only [EvaluateInto, batchWindows]
  rw [batchLoop_eq_foldl]

theorem EvaluateInto_sanitized (N : NumOps S T) (m0 : Nat → Nat → T) (tree : List (Node S))
    (dataset : Dataset S) (range : Range) (parameters : Option (Nat → T)) (result : Nat → T)
    (k : Nat) (hk : k < range.Size) :
    ∃ v, EvaluateInto N m0 tree dataset range parameters result k = sanitize N v := by
  have h := batchLoop_induct range.Size
    (batchBody N dataset range parameters tree (prePass N m0 tree dataset parameters))
    (fun row st => ∀ k, k < range.Size → k < row → ∃ v, st.2 k = sanitize N v)
    (by
      intro row st hlt ih k hk hk'
      simp only [batchBody]
      split
      · exact ⟨_, rfl⟩
      · next hn =>
        apply ih k hk
        simp only [BATCHSIZE] at hk' hn
        omega)
    range.Size 0 ((prePass N m0 tree dataset parameters).m, result) (by omega)
    (by intro k _ hk; omega)
  obtain ⟨row', hge, h⟩ := h
  exact h k hk (by omega)

theorem EvaluateInto_frame (N : NumOps S T) (m0 : Nat → Nat → T) (tree : List (Node S))
    (dataset : Dataset S) (range : Range) (parameters : Option (Nat → T)) (result : Nat → T)
    (k : Nat) (hk : range.Size ≤ k) :
    EvaluateInto N m0 tree dataset range parameters result k = result k := by
  have h := batchLoop_induct range.Size
    (batchBody N dataset range parameters tree (prePass N m0 tree dataset parameters))
    (fun _ st => ∀ k, range.Size ≤ k → st.2 k = result k)
    (by
      intro row st hlt ih k hk
      simp only [batchBody]
      split
      · next hin => omega
      · exact ih k hk)
    range.Size 0 ((prePass N m0 tree dataset parameters).m, result) (by omega)
    (by intro k _; rfl)
  obtain ⟨row', _, h⟩ := h
  exact h k hk

theorem nodeType_cases (N : NumOps S T) (t : NodeType) :
    t = .Constant ∨ t = .Variable ∨ (∃ op, binOp N t = some op) ∨ (∃ f, unOp N t = some f) := by
  cases t <;> simp [binOp, unOp]

theorem binOp_arity (N : NumOps S T) (t : NodeType) (op : T → T → T) (h : binOp N t = some op) :
    arityOf t = 2 ∧ t ≠ .Constant ∧ t ≠ .Variable := by
  cases t <;> simp_all [binOp, arityOf]

theorem unOp_arity (N : NumOps S T) (t : NodeType) (f : T → T) (h : unOp N t = some f) :
    arityOf t = 1 ∧ Grammar.Arithmetic t = false ∧ t ≠ .Constant ∧ t ≠ .Variable := by
  cases t <;> simp_all [unOp, arityOf, Grammar.Arithmetic]

theorem batchStep_binary (N : NumOps S T) (dataset : Dataset S) (range : Range)
    (parameters : Option (Nat → T)) (nodes : List (Node S)) (indices : Nat → Nat)
    (flag : Bool) (row rem : Nat) (st : BatchState T) (i : Nat) (s : Node S)
    (op : T → T → T) (h : binOp N s.Type_ = some op) :
    batchStep N dataset range parameters nodes indices flag row rem st i s
      = { st with m := setCol st.m i (binaryCol nodes op st.m i) } := by
  unfold batchStep
  cases ht : s.Type_ <;> simp_all [binOp]

theorem batchStep_unary (N : NumOps S T) (dataset : Dataset S) (range : Range)
    (parameters : Option (Nat → T)) (nodes : List (Node S)) (indices : Nat → Nat)
    (row rem : Nat) (st : BatchState T) (i : Nat) (s : Node S)
    (f : T → T) (h : unOp N s.Type_ = some f) :
    batchStep N dataset range parameters nodes indices true row rem st i s
      = { st with m := setCol st.m i (unaryCol f st.m i) } := by
  unfold batchStep
  cases ht : s.Type_ <;> simp_all [unOp]

theorem batchStep_constant (N : NumOps S T) (dataset : Dataset S) (range : Range)
    (parameters : Option (Nat → T)) (nodes : List (Node S)) (indices : Nat → Nat)
    (flag : Bool) (row rem : Nat) (st : BatchState T) (i : Nat) (s : Node S)
    (h : s.Type_ = .Constant) :
    batchStep N dataset range parameters nodes indices flag row rem st i s
      = { st with idx := st.idx + 1 } := by
  unfold batchStep
  simp [h]

theorem batchStep_variable (N : NumOps S T) (dataset : Dataset S) (range : Range)
    (parameters : Option (Nat → T)) (nodes : List (Node S)) (indices : Nat → Nat)
    (flag : Bool) (row rem : Nat) (st : BatchState T) (i : Nat) (s : Node S)
    (h : s.Type_ = .Variable) :
    batchStep N dataset range parameters nodes indices flag row rem st i s
      = { m := setCol st.m i (fun r =>
            if r < rem then
              N.mul (match parameters with
                | none => N.cast s.Value
                | some p => p st.idx)
                (N.cast (dataset.Values (indices i) (range.Start + row + r)))
            else st.m i r),
          idx := match parameters with
            | none => st.idx
            | some _ => st.idx + 1 } := by
  unfold batchStep
  simp [h]

theorem batchStep_m_other (N : NumOps S T) (dataset : Dataset S) (range : Range)
    (parameters : Option (Nat → T)) (nodes : List (Node S)) (indices : Nat → Nat)
    (flag : Bool) (row rem : Nat) (st : BatchState T) (i : Nat) (s : Node S)
    (j : Nat) (hj : j ≠ i) :
    (batchStep N dataset range parameters nodes indices flag row rem st i s).m j = st.m j := by
  unfold batchStep
  cases ht : s.Type_ <;> cases flag <;> simp [setCol, hj]

theorem val_binary (N : NumOps S T) (nodes : List (Node S)) (dataset : Dataset S)
    (parameters : Option (Nat → T)) (x fuel i : Nat) (s : Node S) (hs : nodes[i]? = some s)
    (op : T → T → T) (h : binOp N s.Type_ = some op) :
    val N nodes dataset parameters x (fuel + 1) i
      = valBinary nodes op (val N nodes dataset parameters x fuel) i := by
  simp only [val, hs]
  cases ht : s.Type_ <;> simp_all [binOp]

theorem val_unary (N : NumOps S T) (nodes : List (Node S)) (dataset : Dataset S)
    (parameters : Option (Nat → T)) (x fuel i : Nat) (s : Node S) (hs : nodes[i]? = some s)
    (f : T → T) (h : unOp N s.Type_ = some f) :
    val N nodes dataset parameters x (fuel + 1) i
      = valUnary f (val N nodes dataset parameters x fuel) i := by
  simp only [val, hs]
  cases ht : s.Type_ <;> simp_all [unOp]

theorem leafRank_succ (nodes : List (Node S)) (i : Nat) (s : Node S) (hs : nodes[i]? = some s) :
    leafRank nodes (i + 1) = leafRank nodes i + (if s.IsLeaf then 1 else 0) := by
  unfold leafRank
  rw [List.take_succ, hs]
  simp [List.countP_append, List.countP_cons]

theorem subSizeT_of_le (a b : Nat) (ha : a < 2 ^ 64) (hb : b ≤ a) : subSizeT a b = a - b := by
  unfold subSizeT
  have : b % 2 ^ 64 = b := Nat.mod_eq_of_lt (by omega)
  rw [this]
  omega

theorem arityAt_eq (nodes : List (Node S)) (i : Nat) (s : Node S) (hs : nodes[i]? = some s) :
    arityAt nodes i = s.Arity := by
  simp [arityAt, hs]

theorem wf_binary (nodes : List (Node S)) (hwf : WellFormed nodes) (i : Nat) (s : Node S)
    (hs : nodes[i]? = some s) (ha : s.Arity = 2) : 2 + lengthAt nodes (i - 1) ≤ i := by
  have hi : i < nodes.length := (List.getElem?_eq_some_iff.1 hs).1
  have h := (hwf.1 i hi).2
  rw [arityAt_eq nodes i s hs, ha] at h
  simp only [walkChildren] at h
  split at h
  · next h1 =>
    split at h
    · next h2 => omega
    · simp at h
  · simp at h

theorem wf_unary (nodes : List (Node S)) (hwf : WellFormed nodes) (i : Nat) (s : Node S)
    (hs : nodes[i]? = some s) (ha : s.Arity = 1) : 1 ≤ i := by
  have hi : i < nodes.length := (List.getElem?_eq_some_iff.1 hs).1
  have h := (hwf.1 i hi).2
  rw [arityAt_eq nodes i s hs, ha] at h
  simp only [walkChildren] at h
  split at h
  · next h1 => omega
  · simp at h

/-- What the pre-pass establishes. -/
theorem prePass_spec (N : NumOps S T) (m0 : Nat → Nat → T) (nodes : List (Node S))
    (dataset : Dataset S) (parameters : Option (Nat → T)) :
    (∀ (j : Nat) (s : Node S), nodes[j]? = some s → s.Type_ = .Constant →
      ∀ r, (prePass N m0 nodes dataset parameters).m j r = weight N parameters nodes j s) ∧
    (∀ (j : Nat) (s : Node S), nodes[j]? = some s → s.Type_ = .Variable →
      (prePass N m0 nodes dataset parameters).indices j = dataset.GetIndex s.HashValue) ∧
    (∀ (j : Nat) (s : Node S), nodes[j]? = some s → Grammar.Arithmetic s.Type_ = false →
      (prePass N m0 nodes dataset parameters).treeContainsNonlinearSymbols = true) := by
  have h := forEachNode_induct (prePassStep N dataset parameters)
    (fun i st =>
      (∀ (j : Nat) (s : Node S), j < i → nodes[j]? = some s → s.Type_ = .Constant →
        ∀ r, st.m j r = weight N parameters nodes j s) ∧
      (∀ (j : Nat) (s : Node S), j < i → nodes[j]? = some s → s.Type_ = .Variable →
        st.indices j = dataset.GetIndex s.HashValue) ∧
      (∀ (j : Nat) (s : Node S), j < i → nodes[j]? = some s → Grammar.Arithmetic s.Type_ = false →
        st.treeContainsNonlinearSymbols = true) ∧
      st.idx = leafRank nodes i)
    nodes
    { m := m0, indices := fun _ => 0, idx := 0, treeContainsNonlinearSymbols := false }
    ⟨by intro j s hj; omega, by intro j s hj; omega, by intro j s hj; omega,
      by simp [leafRank]⟩
    (by
      intro k s st hs ⟨hc, hv, hn, hidx⟩
      have hrank := leafRank_succ nodes k s hs
      refine ⟨?_, ?_, ?_, ?_⟩
      · intro j t hj ht htc r
        by_cases hjk : j = k
        · subst hjk
          rw [hs] at ht
          cases ht
          simp [prePassStep, Node.IsConstant, htc, setCol, weight, hidx]
        · have := hc j t (by omega) ht htc r
          rw [← this]
          unfold prePassStep
          by_cases h1 : s.IsConstant <;> by_cases h2 : s.IsVariable <;> simp [h1, h2, setCol, hjk]
      · intro j t hj ht htv
        by_cases hjk : j = k
        · subst hjk
          rw [hs] at ht
          cases ht
          simp [prePassStep, Node.IsConstant, Node.IsVariable, htv]
        · have := hv j t (by omega) ht htv
          rw [← this]
          unfold prePassStep
          by_cases h1 : s.IsConstant <;> by_cases h2 : s.IsVariable <;> simp [h1, h2, hjk]
      · intro j t hj ht hta
        by_cases hjk : j = k
        · subst hjk
          rw [hs] at ht
          cases ht
          simp [prePassStep, hta]
        · have := hn j t (by omega) ht hta
          unfold prePassStep
          by_cases h1 : s.IsConstant <;> by_cases h2 : s.IsVariable <;> simp [h1, h2, this]
      · rw [hrank]
        unfold prePassStep
        by_cases h1 : s.IsConstant <;> by_cases h2 : s.IsVariable <;>
          simp [h1, h2, hidx, Node.IsLeaf])
  obtain ⟨hc, hv, hn, _⟩ := h
  refine ⟨fun j s hs => hc j s (List.getElem?_eq_some_iff.1 hs).1 hs,
    fun j s hs => hv j s (List.getElem?_eq_some_iff.1 hs).1 hs,
    fun j s hs => hn j s (List.getElem?_eq_some_iff.1 hs).1 hs⟩

/-- What the interpretation of one batch establishes on a well-formed tree:
the constant columns are kept, and row `r` of column `j` holds the value of
node `j` on the dataset row `range.Start + row + r`. -/
theorem batch_spec (N : NumOps S T) (dataset : Dataset S) (range : Range)
    (parameters : Option (Nat → T)) (nodes : List (Node S)) (indices : Nat → Nat)
    (flag : Bool) (row rem : Nat)
    (hwf : WellFormed nodes) (hty : Typed nodes) (hlen : nodes.length < 2 ^ 64)
    (hind : ∀ (j : Nat) (s : Node S), nodes[j]? = some s → s.Type_ = .Variable →
      indices j = dataset.GetIndex s.HashValue)
    (hflag : ∀ (j : Nat) (s : Node S), nodes[j]? = some s →
      Grammar.Arithmetic s.Type_ = false → flag = true)
    (m : Nat → Nat → T)
    (hconst : ∀ (j : Nat) (s : Node S), nodes[j]? = some s → s.Type_ = .Constant →
      ∀ r, m j r = weight N parameters nodes j s) :
    (∀ (j : Nat) (s : Node S), nodes[j]? = some s → s.Type_ = .Constant →
      ∀ r, (forEachNode (batchStep N dataset range parameters nodes indices flag row rem)
        nodes 0 { m := m, idx := 0 }).m j r = weight N parameters nodes j s) ∧
    (∀ j, j < nodes.length → ∀ r, r < rem → ∀ fuel, j < fuel →
      val N nodes dataset parameters (range.Start + row + r) fuel j
        = some ((forEachNode (batchStep N dataset range parameters nodes indices flag row rem)
            nodes 0 { m := m, idx := 0 }).m j r)) := by
  have h := forEachNode_induct (batchStep N dataset range parameters nodes indices flag row rem)
    (fun i st =>
      (∀ (j : Nat) (s : Node S), nodes[j]? = some s → s.Type_ = .Constant →
        ∀ r, st.m j r = weight N parameters nodes j s) ∧
      (parameters.isSome → st.idx = leafRank nodes i) ∧
      (∀ j, j < i → ∀ r, r < rem → ∀ fuel, j < fuel →
        val N nodes dataset parameters (range.Start + row + r) fuel j = some (st.m j r)))
    nodes { m := m, idx := 0 }
    ⟨hconst, by intro _; simp [leafRank], by intro j hj; omega⟩
    (by
      intro k s st hs ⟨hc, hidx, hval⟩
      have hk : k < nodes.length := (List.getElem?_eq_some_iff.1 hs).1
      have hmem : s ∈ nodes := List.mem_iff_getElem?.2 ⟨k, hs⟩
      have hrank := leafRank_succ nodes k s hs
      -- the columns of the other nodes are kept
      have hother : ∀ j, j ≠ k → (batchStep N dataset range parameters nodes indices flag
          row rem st k s).m j = st.m j :=
        fun j hj => batchStep_m_other N dataset range parameters nodes indices flag row rem
          st k s j hj
      -- it suffices to treat column `k`
      have hsuff : (∀ r, r < rem → ∀ fuel, k < fuel →
            val N nodes dataset parameters (range.Start + row + r) fuel k
              = some ((batchStep N dataset range parameters nodes indices flag row rem
                  st k s).m k r)) →
          (∀ j, j < k + 1 → ∀ r, r < rem → ∀ fuel, j < fuel →
            val N nodes dataset parameters (range.Start + row + r) fuel j
              = some ((batchStep N dataset range parameters nodes indices flag row rem
                  st k s).m j r)) := by
        intro hkk j hj r hr fuel hf
        by_cases hjk : j = k
        · subst hjk; exact hkk r hr fuel hf
        · rw [hother j hjk]; exact hval j (by omega) r hr fuel hf
      -- the constant columns are kept by a node that is not a Constant
      have hkeep : s.Type_ ≠ .Constant → ∀ (j : Nat) (t : Node S), nodes[j]? = some t →
          t.Type_ = .Constant → ∀ r, (batchStep N dataset range parameters nodes indices flag
            row rem st k s).m j r = weight N parameters nodes j t := by
        intro hne j t hjt htc r
        have hjk : j ≠ k := by
          intro hjk
          subst hjk
          rw [hs] at hjt
          cases hjt
          exact hne htc
        rw [hother j hjk]
        exact hc j t hjt htc r
      rcases nodeType_cases N s.Type_ with ht | ht | ⟨op, hop⟩ | ⟨f, hf⟩
      · -- Constant
        have hst := batchStep_constant N dataset range parameters nodes indices flag row rem
          st k s ht
        refine ⟨?_, ?_, hsuff ?_⟩ <;> rw [hst]
        · exact hc
        · intro hp
          simp [hrank, Node.IsLeaf, Node.IsConstant, ht, hidx hp]
        · intro r hr fuel hf
          obtain ⟨fuel, rfl⟩ : ∃ f', fuel = f' + 1 := ⟨fuel - 1, by omega⟩
          simp only [val, hs, ht]
          rw [hc k s hs ht r]
      · -- Variable
        have hst := batchStep_variable N dataset range parameters nodes indices flag row rem
          st k s ht
        refine ⟨hkeep (by rw [ht]; simp), ?_, hsuff ?_⟩ <;> rw [hst]
        · intro hp
          cases hpar : parameters with
          | none => simp [hpar] at hp
          | some p =>
            simp [hrank, Node.IsLeaf, Node.IsVariable, ht, hidx hp]
        · intro r hr fuel hf
          obtain ⟨fuel, rfl⟩ : ∃ f', fuel = f' + 1 := ⟨fuel - 1, by omega⟩
          simp only [val, hs, ht, setCol, if_pos hr, if_true]
          rw [hind k s hs ht]
          cases hpar : parameters with
          | none => simp [weight]
          | some p =>
            have := hidx (by simp [hpar])
            simp [weight, this]
      · -- binary operator
        have hst := batchStep_binary N dataset range parameters nodes indices flag row rem
          st k s op hop
        obtain ⟨har, hnc, hnv⟩ := binOp_arity N s.Type_ op hop
        have hb := wf_binary nodes hwf k s hs (by rw [hty s hmem, har])
        refine ⟨hkeep hnc, ?_, hsuff ?_⟩ <;> rw [hst]
        · intro hp
          have : s.IsLeaf = false := by
            simp [Node.IsLeaf, Node.IsConstant, Node.IsVariable, hnc, hnv]
          simp [hrank, this, hidx hp]
        · intro r hr fuel hf
          obtain ⟨fuel, rfl⟩ : ∃ f', fuel = f' + 1 := ⟨fuel - 1, by omega⟩
          rw [val_binary N nodes dataset parameters _ fuel k s hs op hop]
          have hc1 : subSizeT k 1 = k - 1 := subSizeT_of_le k 1 (by omega) (by omega)
          have hc2 : subSizeT (subSizeT (k - 1) 1) (lengthAt nodes (k - 1))
              = k - 2 - lengthAt nodes (k - 1) := by
            rw [subSizeT_of_le (k - 1) 1 (by omega) (by omega),
              subSizeT_of_le (k - 1 - 1) _ (by omega) (by omega)]
            omega
          simp only [valBinary, if_pos hb, setCol, if_true, binaryCol, hc1, hc2]
          rw [hval (k - 1) (by omega) r hr fuel (by omega),
            hval (k - 2 - lengthAt nodes (k - 1)) (by omega) r hr fuel (by omega)]
      · -- unary function
        obtain ⟨har, hna, hnc, hnv⟩ := unOp_arity N s.Type_ f hf
        have hfl : flag = true := hflag k s hs hna
        subst hfl
        have hst := batchStep_unary N dataset range parameters nodes indices row rem
          st k s f hf
        have hb := wf_unary nodes hwf k s hs (by rw [hty s hmem, har])
        refine ⟨hkeep hnc, ?_, hsuff ?_⟩ <;> rw [hst]
        · intro hp
          have : s.IsLeaf = false := by
            simp [Node.IsLeaf, Node.IsConstant, Node.IsVariable, hnc, hnv]
          simp [hrank, this, hidx hp]
        · intro r hr fuel hf'
          obtain ⟨fuel, rfl⟩ : ∃ f', fuel = f' + 1 := ⟨fuel - 1, by omega⟩
          rw [val_unary N nodes dataset parameters _ fuel k s hs f hf]
          have hc1 : subSizeT k 1 = k - 1 := subSizeT_of_le k 1 (by omega) (by omega)
          simp only [valUnary, if_pos hb, setCol, if_true, unaryCol, hc1]
          rw [hval (k - 1) (by omega) r hr fuel (by omega)]
          rfl)
  exact ⟨h.1, h.2.2⟩

/-- On a well-formed tree, entry `k` of the result buffer is the sanitised
value of the root on the dataset row `range.Start + k`. -/
theorem EvaluateInto_correct (N : NumOps S T) (m0 : Nat → Nat → T) (tree : List (Node S))
    (dataset : Dataset S) (range : Range) (parameters : Option (Nat → T)) (result : Nat → T)
    (hwf : WellFormed tree) (hty : Typed tree) (hlen : tree.length < 2 ^ 64)
    (hne : tree ≠ []) (k : Nat) (hk : k < range.Size) :
    (rootVal N tree dataset parameters (range.Start + k)).map (sanitize N)
      = some (EvaluateInto N m0 tree dataset range parameters result k) := by
  obtain ⟨hpc, hpv, hpn⟩ := prePass_spec N m0 tree dataset parameters
  have hpos : 0 < tree.length := List.length_pos.2 hne
  have h := batchLoop_induct range.Size
    (batchBody N dataset range parameters tree (prePass N m0 tree dataset parameters))
    (fun row st =>
      (∀ (j : Nat) (s : Node S), tree[j]? = some s → s.Type_ = .Constant →
        ∀ r, st.1 j r = weight N parameters tree j s) ∧
      ∀ k, k < range.Size → k < row →
        (rootVal N tree dataset parameters (range.Start + k)).map (sanitize N) = some (st.2 k))
    (by
      intro row st hlt ⟨hc, hres⟩
      obtain ⟨hc', hv⟩ := batch_spec N dataset range parameters tree
        (prePass N m0 tree dataset parameters).indices
        (prePass N m0 tree dataset parameters).treeContainsNonlinearSymbols
        row (min BATCHSIZE (range.Size - row)) hwf hty hlen hpv hpn st.1 hc
      refine ⟨hc', ?_⟩
      intro k hk hk'
      simp only [batchBody]
      split
      · next hin =>
        have := hv (tree.length - 1) (by omega) (k - row) (by omega) tree.length (by omega)
        have hrow : range.Start + row + (k - row) = range.Start + k := by omega
        rw [hrow] at this
        rw [rootVal, this, subSizeT_of_le tree.length 1 hlen (by omega)]
        rfl
      · next hn =>
        apply hres k hk
        simp only [BATCHSIZE] at hk' hn
        omega)
    range.Size 0 ((prePass N m0 tree dataset parameters).m, result) (by omega)
    ⟨hpc, by intro k _ hk; omega⟩
  obtain ⟨row', hge, _, h⟩ := h
  exact h k hk (by omega)

theorem Evaluate_length (N : NumOps S T) (m0 : Nat → Nat → T) (tree : List (Node S))
    (dataset : Dataset S) (range : Range) (parameters : Option (Nat → T)) :
    (Evaluate N m0 tree dataset range parameters).length = range.Size := by
  simp [Evaluate]

theorem Evaluate_getElem? (N : NumOps S T) (m0 : Nat → Nat → T) (tree : List (Node S))
    (dataset : Dataset S) (range : Range) (parameters : Option (Nat → T))
    (k : Nat) (hk : k < range.Size) :
    (Evaluate N m0 tree dataset range parameters)[k]?
      = some (EvaluateInto N m0 tree dataset range parameters (fun _ => N.zero) k) := by
  simp [Evaluate, List.getElem?_map, List.getElem?_range hk]

/-- Entry `k` of `Evaluate` on a well-formed tree. -/
theorem Evaluate_correct (N : NumOps S T) (m0 : Nat → Nat → T) (tree : List (Node S))
    (dataset : Dataset S) (range : Range) (parameters : Option (Nat → T))
    (hwf : WellFormed tree) (hty : Typed tree) (hlen : tree.length < 2 ^ 64)
    (hne : tree ≠ []) (k : Nat) (hk : k < range.Size) :
    (Evaluate N m0 tree dataset range parameters)[k]?
      = (rootVal N tree dataset parameters (range.Start + k)).map (sanitize N) := by
  rw [Evaluate_getElem? N m0 tree dataset range parameters k hk,
    EvaluateInto_correct N m0 tree dataset range parameters _ hwf hty hlen hne k hk]

/-- On a well-formed tree every node has a value on every row. -/
theorem val_isSome (N : NumOps S T) (tree : List (Node S)) (dataset : Dataset S)
    (parameters : Option (Nat → T)) (hwf : WellFormed tree) (hty : Typed tree) (x : Nat) :
    ∀ j, j < tree.length → ∀ fuel, j < fuel →
      (val N tree dataset parameters x fuel j).isSome = true := by
  intro j
  induction j using Nat.strong_induction_on with
  | _ j ih =>
    intro hj fuel hf
    obtain ⟨fuel, rfl⟩ : ∃ f', fuel = f' + 1 := ⟨fuel - 1, by omega⟩
    obtain ⟨s, hs⟩ : ∃ s, tree[j]? = some s := ⟨tree[j], List.getElem?_eq_getElem hj⟩
    have hmem : s ∈ tree := List.mem_iff_getElem?.2 ⟨j, hs⟩
    rcases nodeType_cases N s.Type_ with ht | ht | ⟨op, hop⟩ | ⟨f, hf'⟩
    · simp [val, hs, ht]
    · simp [val, hs, ht]
    · rw [val_binary N tree dataset parameters x fuel j s hs op hop]
      have hb := wf_binary tree hwf j s hs (by rw [hty s hmem, (binOp_arity N _ op hop).1])
      have h1 := ih (j - 1) (by omega) (by omega) fuel (by omega)
      have h2 := ih (j - 2 - lengthAt tree (j - 1)) (by omega) (by omega) fuel (by omega)
      obtain ⟨a, ha⟩ := Option.isSome_iff_exists.1 h1
      obtain ⟨b, hb'⟩ := Option.isSome_iff_exists.1 h2
      simp [valBinary, hb, ha, hb']
    · rw [val_unary N tree dataset parameters x fuel j s hs f hf']
      have hb := wf_unary tree hwf j s hs (by rw [hty s hmem, (unOp_arity N _ f hf').1])
      have h1 := ih (j - 1) (by omega) (by omega) fuel (by omega)
      obtain ⟨a, ha⟩ := Option.isSome_iff_exists.1 h1
      simp [valUnary, hb, ha]

/-- The value of a node on the row `x` depends on the dataset only through
the entries of that row. -/
theorem val_row_congr (N : NumOps S T) (nodes : List (Node S)) (dataset dataset' : Dataset S)
    (parameters : Option (Nat → T)) (x : Nat)
    (hidx : dataset'.GetIndex = dataset.GetIndex)
    (hrow : ∀ c, dataset'.Values c x = dataset.Values c x) :
    ∀ fuel i, val N nodes dataset' parameters x fuel i
      = val N nodes dataset parameters x fuel i := by
  intro fuel
  induction fuel with
  | zero => intro i; rfl
  | succ fuel ih =>
    intro i
    have hrec : val N nodes dataset' parameters x fuel
        = val N nodes dataset parameters x fuel := funext ih
    simp only [val, hrec, hidx, hrow]

/-! ### Small trees -/

theorem wf_binaryTree (t1 t2 t : NodeType) (v1 v2 v : S) (h1 h2 : Nat)
    (ht1 : arityOf t1 = 0) (ht2 : arityOf t2 = 0) (ht : arityOf t = 2) :
    WellFormed (binaryTree (mkNode t1 0 v1 h1) (mkNode t2 0 v2 h2) t v) ∧
    Typed (binaryTree (mkNode t1 0 v1 h1) (mkNode t2 0 v2 h2) t v) := by
  constructor
  · constructor
    · intro i hi
      have : i = 0 ∨ i = 1 ∨ i = 2 := by
        simp [binaryTree] at hi
        omega
      rcases this with rfl | rfl | rfl <;>
        simp [binaryTree, lengthAt, arityAt, mkNode, walkChildren, ht1, ht2, ht]
    · simp [binaryTree, lengthAt, mkNode]
  · intro s hs
    simp [binaryTree] at hs
    rcases hs with rfl | rfl | rfl <;> simp [mkNode]

/-- The result of `Evaluate` on the tree `{X1, X2, op}` of two variables. -/
theorem Evaluate_var_var (N : NumOps S T) (m0 : Nat → Nat → T) (dataset : Dataset S)
    (range : Range) (t : NodeType) (op : T → T → T) (hop : binOp N t = some op)
    (w1 w2 v : S) (h1 h2 : Nat) (k : Nat) (hk : k < range.Size) :
    (Evaluate N m0 (binaryTree (mkNode .Variable 0 w1 h1) (mkNode .Variable 0 w2 h2) t v)
        dataset range none)[k]?
      = some (sanitize N (op
          (N.mul (N.cast w2) (N.cast (dataset.Values (dataset.GetIndex h2) (range.Start + k))))
          (N.mul (N.cast w1)
            (N.cast (dataset.Values (dataset.GetIndex h1) (range.Start + k)))))) := by
  obtain ⟨hwf, hty⟩ := wf_binaryTree .Variable .Variable t w1 w2 v h1 h2 rfl rfl
    (binOp_arity N t op hop).1
  rw [Evaluate_correct N m0 _ dataset range none hwf hty (by simp [binaryTree])
    (by simp [binaryTree]) k hk]
  have h2' : (binaryTree (mkNode .Variable 0 w1 h1) (mkNode .Variable 0 w2 h2) t v)[2]?
      = some (mkNode t 2 v 0) := rfl
  have hroot : ∀ x, rootVal N (binaryTree (mkNode .Variable 0 w1 h1) (mkNode .Variable 0 w2 h2)
      t v) dataset none x = val N (binaryTree (mkNode .Variable 0 w1 h1)
        (mkNode .Variable 0 w2 h2) t v) dataset none x (2 + 1) 2 := fun _ => rfl
  rw [hroot, val_binary N _ dataset none _ 2 2 _ h2' op (by simpa [mkNode] using hop)]
  simp [valBinary, lengthAt, val, mkNode, weight, binaryTree]

/-- The result of `Evaluate` on the tree `{c, X, op}` of a constant and a
variable. -/
theorem Evaluate_const_var (N : NumOps S T) (m0 : Nat → Nat → T) (dataset : Dataset S)
    (range : Range) (t : NodeType) (op : T → T → T) (hop : binOp N t = some op)
    (c w v : S) (h0 h : Nat) (k : Nat) (hk : k < range.Size) :
    (Evaluate N m0 (binaryTree (mkNode .Constant 0 c h0) (mkNode .Variable 0 w h) t v)
        dataset range none)[k]?
      = some (sanitize N (op
          (N.mul (N.cast w) (N.cast (dataset.Values (dataset.GetIndex h) (range.Start + k))))
          (N.cast c))) := by
  obtain ⟨hwf, hty⟩ := wf_binaryTree .Constant .Variable t c w v h0 h rfl rfl
    (binOp_arity N t op hop).1
  rw [Evaluate_correct N m0 _ dataset range none hwf hty (by simp [binaryTree])
    (by simp [binaryTree]) k hk]
  have h2' : (binaryTree (mkNode .Constant 0 c h0) (mkNode .Variable 0 w h) t v)[2]?
      = some (mkNode t 2 v 0) := rfl
  have hroot : ∀ x, rootVal N (binaryTree (mkNode .Constant 0 c h0) (mkNode .Variable 0 w h)
      t v) dataset none x = val N (binaryTree (mkNode .Constant 0 c h0)
        (mkNode .Variable 0 w h) t v) dataset none x (2 + 1) 2 := fun _ => rfl
  rw [hroot, val_binary N _ dataset none _ 2 2 _ h2' op (by simpa [mkNode] using hop)]
  simp [valBinary, lengthAt, val, mkNode, weight, binaryTree]

theorem wf_testTree (w3 w6 w5 v : S) (h3 h6 h5 : Nat) :
    WellFormed (testTree w3 w6 w5 v h3 h6 h5) ∧ Typed (testTree w3 w6 w5 v h3 h6 h5) := by
  constructor
  · constructor
    · intro i hi
      have : i = 0 ∨ i = 1 ∨ i = 2 ∨ i = 3 ∨ i = 4 := by
        simp [testTree] at hi
        omega
      rcases this with rfl | rfl | rfl | rfl | rfl <;>
        simp [testTree, lengthAt, arityAt, mkNode, walkChildren, arityOf]
    · simp [testTree, lengthAt, mkNode]
  · intro s hs
    simp [testTree] at hs
    rcases hs with rfl | rfl | rfl | rfl | rfl <;> simp [mkNode]

theorem Evaluate_testTree (N : NumOps S T) (m0 : Nat → Nat → T) (dataset : Dataset S)
    (range : Range) (w3 w6 w5 v : S) (h3 h6 h5 : Nat) (k : Nat) (hk : k < range.Size) :
    (Evaluate N m0 (testTree w3 w6 w5 v h3 h6 h5) dataset range none)[k]?
      = some (sanitize N (N.sub
          (N.mul
            (N.mul (N.cast w5) (N.cast (dataset.Values (dataset.GetIndex h5) (range.Start + k))))
            (N.mul (N.cast w6) (N.cast (dataset.Values (dataset.GetIndex h6) (range.Start + k)))))
          (N.mul (N.cast w3)
            (N.cast (dataset.Values (dataset.GetIndex h3) (range.Start + k)))))) := by
  obtain ⟨hwf, hty⟩ := wf_testTree w3 w6 w5 v h3 h6 h5
  rw [Evaluate_correct N m0 _ dataset range none hwf hty (by simp [testTree])
    (by simp [testTree]) k hk]
  simp [rootVal, testTree, val, valBinary, lengthAt, mkNode, weight]

/-! ### Runs that resolve every leaf to the same scalar -/

theorem lengthAt_congr (nodes nodes' : List (Node S)) (hlen : nodes.length = nodes'.length)
    (hshape : ∀ (i : Nat) (s s' : Node S), nodes[i]? = some s → nodes'[i]? = some s' →
      s.Type_ = s'.Type_ ∧ s.Length = s'.Length ∧ s.HashValue = s'.HashValue) (c : Nat) :
    lengthAt nodes c = lengthAt nodes' c := by
  unfold lengthAt
  by_cases hc : c < nodes.length
  · have h1 : nodes[c]? = some nodes[c] := List.getElem?_eq_getElem hc
    have hc' : c < nodes'.length := by omega
    have h2 : nodes'[c]? = some nodes'[c] := List.getElem?_eq_getElem hc'
    rw [h1, h2]
    exact (hshape c _ _ h1 h2).2.1
  · have h1 : nodes[c]? = none := List.getElem?_eq_none (by omega)
    have h2 : nodes'[c]? = none := List.getElem?_eq_none (by omega)
    rw [h1, h2]

theorem batchStep_nonleaf (N : NumOps S T) (dataset : Dataset S) (range : Range)
    (parameters parameters' : Option (Nat → T)) (nodes nodes' : List (Node S))
    (indices : Nat → Nat) (flag : Bool) (row rem : Nat) (st st' : BatchState T) (i : Nat)
    (s s' : Node S) (ht : s.Type_ = s'.Type_) (hc : s.Type_ ≠ .Constant)
    (hv : s.Type_ ≠ .Variable) (hl : ∀ c, lengthAt nodes c = lengthAt nodes' c)
    (hm : st.m = st'.m) :
    (batchStep N dataset range parameters nodes indices flag row rem st i s).m
      = (batchStep N dataset range parameters' nodes' indices flag row rem st' i s').m ∧
    (batchStep N dataset range parameters nodes indices flag row rem st i s).idx = st.idx ∧
    (batchStep N dataset range parameters' nodes' indices flag row rem st' i s').idx
      = st'.idx := by
  have hb : ∀ (op : T → T → T) (m : Nat → Nat → T), binaryCol nodes op m i
      = binaryCol nodes' op m i := by
    intro op m
    simp only [binaryCol, hl]
  unfold batchStep
  rw [← ht]
  cases hty : s.Type_ <;> cases flag <;> simp_all

theorem prePassStep_m (N : NumOps S T) (dataset : Dataset S)
    (parameters : Option (Nat → T)) (nodes : List (Node S)) (st : PreState T) (i : Nat)
    (s : Node S) (hidx : st.idx = leafRank nodes i) :
    (prePassStep N dataset parameters st i s).m
      = if s.Type_ = .Constant then setCol st.m i (fun _ => weight N parameters nodes i s)
        else st.m := by
  unfold prePassStep weight
  by_cases h1 : s.Type_ = .Constant
  · simp only [Node.IsConstant, h1, beq_self_eq_true, if_true, hidx]
  · by_cases h2 : s.Type_ = .Variable <;> simp [Node.IsConstant, Node.IsVariable, h1, h2]

theorem prePassStep_rest (N : NumOps S T) (dataset : Dataset S)
    (parameters : Option (Nat → T)) (st : PreState T) (i : Nat) (s : Node S) :
    (prePassStep N dataset parameters st i s).indices
      = (if s.Type_ = .Variable then
          fun j => if j = i then dataset.GetIndex s.HashValue else st.indices j
        else st.indices) ∧
    (prePassStep N dataset parameters st i s).idx
      = st.idx + (if s.IsLeaf then 1 else 0) ∧
    (prePassStep N dataset parameters st i s).treeContainsNonlinearSymbols
      = (st.treeContainsNonlinearSymbols || !(Grammar.Arithmetic s.Type_)) := by
  unfold prePassStep
  by_cases h1 : s.Type_ = .Constant
  · simp [Node.IsConstant, Node.IsLeaf, h1]
  · by_cases h2 : s.Type_ = .Variable <;>
      simp [Node.IsConstant, Node.IsVariable, Node.IsLeaf, h1, h2]

theorem batchStep_variable_weight (N : NumOps S T) (dataset : Dataset S) (range : Range)
    (parameters : Option (Nat → T)) (nodes : List (Node S)) (indices : Nat → Nat)
    (flag : Bool) (row rem : Nat) (st : BatchState T) (i : Nat) (s : Node S)
    (h : s.Type_ = .Variable) (hidx : parameters.isSome → st.idx = leafRank nodes i) :
    (batchStep N dataset range parameters nodes indices flag row rem st i s).m
      = setCol st.m i (fun r =>
          if r < rem then
            N.mul (weight N parameters nodes i s)
              (N.cast (dataset.Values (indices i) (range.Start + row + r)))
          else st.m i r) ∧
    (parameters.isSome →
      (batchStep N dataset range parameters nodes indices flag row rem st i s).idx
        = st.idx + 1) := by
  rw [batchStep_variable N dataset range parameters nodes indices flag row rem st i s h]
  cases parameters with
  | none => simp [weight]
  | some p =>
    have := hidx rfl
    simp [weight, this]

/-- Two runs of the evaluator agree when the trees have the same kinds,
lengths and variable hashes and every leaf resolves to the same scalar. -/
theorem EvaluateInto_congr (N : NumOps S T) (m0 : Nat → Nat → T) (dataset : Dataset S)
    (range : Range) (parameters parameters' : Option (Nat → T))
    (nodes nodes' : List (Node S)) (result : Nat → T)
    (hlen : nodes.length = nodes'.length)
    (hshape : ∀ (i : Nat) (s s' : Node S), nodes[i]? = some s → nodes'[i]? = some s' →
      s.Type_ = s'.Type_ ∧ s.Length = s'.Length ∧ s.HashValue = s'.HashValue)
    (hw : ∀ (i : Nat) (s s' : Node S), nodes[i]? = some s → nodes'[i]? = some s' →
      s.IsLeaf = true → weight N parameters nodes i s = weight N parameters' nodes' i s') :
    EvaluateInto N m0 nodes dataset range parameters result
      = EvaluateInto N m0 nodes' dataset range parameters' result := by
  have hl := lengthAt_congr nodes nodes' hlen hshape
  -- the pre-pass
  have hpre := forEachNode_rel (prePassStep N dataset parameters)
    (prePassStep N dataset parameters')
    (fun i a b => a.m = b.m ∧ a.indices = b.indices ∧
      a.treeContainsNonlinearSymbols = b.treeContainsNonlinearSymbols ∧
      a.idx = leafRank nodes i ∧ b.idx = leafRank nodes' i)
    nodes nodes' 0
    { m := m0, indices := fun _ => 0, idx := 0, treeContainsNonlinearSymbols := false }
    { m := m0, indices := fun _ => 0, idx := 0, treeContainsNonlinearSymbols := false }
    hlen ⟨rfl, rfl, rfl, by simp [leafRank], by simp [leafRank]⟩
    (by
      intro k s s' a b hs hs' ⟨hm, hi, hf, ha, hb⟩
      simp only [Nat.zero_add] at ha hb ⊢
      obtain ⟨ht, _, hh⟩ := hshape k s s' hs hs'
      have hr := leafRank_succ nodes k s hs
      have hr' := leafRank_succ nodes' k s' hs'
      have hleaf : s'.IsLeaf = s.IsLeaf := by
        simp [Node.IsLeaf, Node.IsConstant, Node.IsVariable, ht]
      have hwk := hw k s s' hs hs'
      obtain ⟨e1, e2, e3⟩ := prePassStep_rest N dataset parameters a k s
      obtain ⟨e1', e2', e3'⟩ := prePassStep_rest N dataset parameters' b k s'
      refine ⟨?_, ?_, ?_, ?_, ?_⟩
      · rw [prePassStep_m N dataset parameters nodes a k s ha,
          prePassStep_m N dataset parameters' nodes' b k s' hb, ← ht, hm]
        by_cases h1 : s.Type_ = .Constant
        · have hl1 : s.IsLeaf = true := by simp [Node.IsLeaf, Node.IsConstant, h1]
          rw [if_pos h1, if_pos h1, hwk hl1]
        · rw [if_neg h1, if_neg h1]
      · rw [e1, e1', ← ht, hi, hh]
      · rw [e3, e3', ← ht, hf]
      · rw [e2, hr, ha]
      · rw [e2', hr', hb])
  obtain ⟨hpm, hpi, hpf, _, _⟩ := hpre
  -- one batch
  have hbody : batchBody N dataset range parameters nodes
        (prePass N m0 nodes dataset parameters)
      = batchBody N dataset range parameters' nodes'
        (prePass N m0 nodes' dataset parameters') := by
    funext row rem st
    have hb := forEachNode_rel
      (batchStep N dataset range parameters nodes
        (prePass N m0 nodes dataset parameters).indices
        (prePass N m0 nodes dataset parameters).treeContainsNonlinearSymbols row rem)
      (batchStep N dataset range parameters' nodes'
        (prePass N m0 nodes' dataset parameters').indices
        (prePass N m0 nodes' dataset parameters').treeContainsNonlinearSymbols row rem)
      (fun i a b => a.m = b.m ∧ (parameters.isSome → a.idx = leafRank nodes i) ∧
        (parameters'.isSome → b.idx = leafRank nodes' i))
      nodes nodes' 0 { m := st.1, idx := 0 } { m := st.1, idx := 0 } hlen
      ⟨rfl, by intro _; simp [leafRank], by intro _; simp [leafRank]⟩
      (by
        intro k s s' a b hs hs' ⟨hm, ha, hb⟩
        simp only [Nat.zero_add] at ha hb ⊢
        obtain ⟨ht, _, hh⟩ := hshape k s s' hs hs'
        have hr := leafRank_succ nodes k s hs
        have hr' := leafRank_succ nodes' k s' hs'
        have hleaf : s'.IsLeaf = s.IsLeaf := by
          simp [Node.IsLeaf, Node.IsConstant, Node.IsVariable, ht]
        have hwk := hw k s s' hs hs'
        rw [hleaf] at hr'
        have hpi' : (prePass N m0 nodes' dataset parameters').indices
            = (prePass N m0 nodes dataset parameters).indices := hpi.symm
        have hpf' : (prePass N m0 nodes' dataset parameters').treeContainsNonlinearSymbols
            = (prePass N m0 nodes dataset parameters).treeContainsNonlinearSymbols := hpf.symm
        rw [hpi', hpf']
        by_cases h1 : s.Type_ = .Constant
        · have h1' : s'.Type_ = .Constant := ht ▸ h1
          have hl1 : s.IsLeaf = true := by simp [Node.IsLeaf, Node.IsConstant, h1]
          rw [batchStep_constant _ _ _ _ _ _ _ _ _ _ _ _ h1,
            batchStep_constant _ _ _ _ _ _ _ _ _ _ _ _ h1']
          refine ⟨hm, fun hp => ?_, fun hp => ?_⟩
          · simp [hr, hl1, ha hp]
          · simp [hr', hl1, hb hp]
        · by_cases h2 : s.Type_ = .Variable
          · have h2' : s'.Type_ = .Variable := ht ▸ h2
            have hl1 : s.IsLeaf = true := by simp [Node.IsLeaf, Node.IsVariable, h2]
            obtain ⟨m1, i1⟩ := batchStep_variable_weight N dataset range parameters nodes
              (prePass N m0 nodes dataset parameters).indices
              (prePass N m0 nodes dataset parameters).treeContainsNonlinearSymbols
              row rem a k s h2 ha
            obtain ⟨m2, i2⟩ := batchStep_variable_weight N dataset range parameters' nodes'
              (prePass N m0 nodes dataset parameters).indices
              (prePass N m0 nodes dataset parameters).treeContainsNonlinearSymbols
              row rem b k s' h2' hb
            refine ⟨?_, fun hp => ?_, fun hp => ?_⟩
            · rw [m1, m2, hwk hl1, hm]
            · rw [i1 hp, hr, ha hp]; simp [hl1]
            · rw [i2 hp, hr', hb hp]; simp [hl1]
          · have hl1 : s.IsLeaf = false := by
              simp [Node.IsLeaf, Node.IsConstant, Node.IsVariable, h1, h2]
            obtain ⟨e1, e2, e3⟩ := batchStep_nonleaf N dataset range parameters parameters'
              nodes nodes' (prePass N m0 nodes dataset parameters).indices
              (prePass N m0 nodes dataset parameters).treeContainsNonlinearSymbols
              row rem a b k s s' ht h1 h2 hl hm
            refine ⟨e1, fun hp => ?_, fun hp => ?_⟩
            · rw [e2, hr, ha hp]; simp [hl1]
            · rw [e3, hr', hb hp]; simp [hl1])
    simp only [batchBody]
    rw [hb.1, hlen]
  simp only [EvaluateInto]
  rw [hbody]
  have : (prePass N m0 nodes dataset parameters).m
      = (prePass N m0 nodes' dataset parameters').m := hpm
  rw [this]

/-! ### The result buffer, substitution and leaf values -/

theorem batchLoop_rel {σ τ : Type} (numRows : Nat) (body : Nat → Nat → σ → σ)
    (body' : Nat → Nat → τ → τ) (R : Nat → σ → τ → Prop)
    (hstep : ∀ row a b, row < numRows → R row a b →
      R (row + BATCHSIZE) (body row (min BATCHSIZE (numRows - row)) a)
        (body' row (min BATCHSIZE (numRows - row)) b)) :
    ∀ (fuel row : Nat) (a : σ) (b : τ), numRows ≤ row + fuel → R row a b →
      ∃ row', numRows ≤ row' ∧
        R row' (batchLoop numRows body fuel row a) (batchLoop numRows body' fuel row b) := by
  intro fuel
  induction fuel with
  | zero =>
    intro row a b hf h0
    exact ⟨row, by simpa using hf, by simpa [batchLoop] using h0⟩
  | succ fuel ih =>
    intro row a b hf h0
    simp only [batchLoop]
    split
    · next hlt =>
      exact ih (row + BATCHSIZE) _ _ (by simp only [BATCHSIZE]; omega) (hstep row a b hlt h0)
    · next hge => exact ⟨row, by omega, h0⟩

/-- The entries below `range.Size()` do not depend on the initial content of
the result buffer. -/
theorem EvaluateInto_result_indep (N : NumOps S T) (m0 : Nat → Nat → T) (tree : List (Node S))
    (dataset : Dataset S) (range : Range) (parameters : Option (Nat → T))
    (result result' : Nat → T) (k : Nat) (hk : k < range.Size) :
    EvaluateInto N m0 tree dataset range parameters result k
      = EvaluateInto N m0 tree dataset range parameters result' k := by
  have h := batchLoop_rel range.Size
    (batchBody N dataset range parameters tree (prePass N m0 tree dataset parameters))
    (batchBody N dataset range parameters tree (prePass N m0 tree dataset parameters))
    (fun row a b => a.1 = b.1 ∧ ∀ k, k < row → k < range.Size → a.2 k = b.2 k)
    (by
      intro row a b hlt ⟨hm, hres⟩
      simp only [batchBody, hm, true_and]
      intro k hk1 hk2
      split
      · rfl
      · next hn =>
        apply hres k _ hk2
        simp only [BATCHSIZE] at hk1 hn
        omega)
    range.Size 0 ((prePass N m0 tree dataset parameters).m, result)
    ((prePass N m0 tree dataset parameters).m, result') (by omega)
    ⟨rfl, by intro k hk; omega⟩
  obtain ⟨row', hge, _, h⟩ := h
  exact h k (by omega) hk

theorem substitute_getElem? (p : Nat → S) (nodes : List (Node S)) (i : Nat) :
    (substitute p nodes)[i]?
      = nodes[i]?.map (fun s =>
          if s.IsLeaf then { s with Value := p (leafRank nodes i) } else s) := by
  simp [substitute]

theorem leafRank_substitute (p : Nat → S) (nodes : List (Node S)) (i : Nat) :
    leafRank (substitute p nodes) i = leafRank nodes i := by
  unfold leafRank substitute
  rw [List.mapIdx_eq_enum_map, ← List.map_take, List.countP_map]
  have : ∀ (l : List (Nat × Node S)), List.countP (Node.IsLeaf ∘ Function.uncurry
      (fun i s => if s.IsLeaf = true then { s with Value := p (leafRank nodes i) } else s)) l
      = List.countP Node.IsLeaf (l.map Prod.snd) := by
    intro l
    rw [List.countP_map]
    congr 1
    funext x
    obtain ⟨a, s⟩ := x
    simp only [Function.comp, Function.uncurry]
    split <;> rfl
  rw [this, List.map_take, List.enum_map_snd]

/-- The leaf at index `i` is entry `leafRank nodes i` of the leaf values. -/
theorem leafValues_getElem? (nodes : List (Node S)) (i : Nat) (s : Node S)
    (hs : nodes[i]? = some s) (hl : s.IsLeaf = true) :
    (leafValues nodes)[leafRank nodes i]? = some s.Value := by
  have hi : i < nodes.length := (List.getElem?_eq_some_iff.1 hs).1
  have hsplit : nodes = nodes.take i ++ s :: nodes.drop (i + 1) := by
    have h1 := (List.take_append_drop i nodes).symm
    have h2 : nodes.drop i = s :: nodes.drop (i + 1) := by
      rw [List.drop_eq_getElem_cons hi]
      congr 1
      have := List.getElem?_eq_getElem hi
      rw [hs] at this
      exact (Option.some.inj this).symm
    rw [h2] at h1
    exact h1
  obtain ⟨a, b, hab, ha⟩ : ∃ a b, nodes = a ++ s :: b ∧ a.length = i :=
    ⟨nodes.take i, nodes.drop (i + 1), hsplit, by simp; omega⟩
  subst hab
  subst ha
  unfold leafValues leafRank
  rw [List.take_left, List.countP_eq_length_filter, List.filter_append, List.map_append,
    List.filter_cons_of_pos hl]
  rw [List.getElem?_append_right (by simp)]
  simp

/-! ### The columns of the leaves -/

/-- What the interpretation of one batch leaves in the columns of the leaves,
on any tree: the constant columns are kept, and a variable's column holds the
weight times the dataset values of the batch. -/
theorem batch_leaf_spec (N : NumOps S T) (dataset : Dataset S) (range : Range)
    (parameters : Option (Nat → T)) (nodes : List (Node S)) (indices : Nat → Nat)
    (flag : Bool) (row rem : Nat) (m : Nat → Nat → T)
    (hconst : ∀ (j : Nat) (s : Node S), nodes[j]? = some s → s.Type_ = .Constant →
      ∀ r, m j r = weight N parameters nodes j s) :
    (∀ (j : Nat) (s : Node S), nodes[j]? = some s → s.Type_ = .Constant →
      ∀ r, (forEachNode (batchStep N dataset range parameters nodes indices flag row rem)
        nodes 0 { m := m, idx := 0 }).m j r = weight N parameters nodes j s) ∧
    (∀ (j : Nat) (s : Node S), nodes[j]? = some s → s.Type_ = .Variable → ∀ r, r < rem →
      (forEachNode (batchStep N dataset range parameters nodes indices flag row rem)
        nodes 0 { m := m, idx := 0 }).m j r
        = N.mul (weight N parameters nodes j s)
            (N.cast (dataset.Values (indices j) (range.Start + row + r)))) := by
  have h := forEachNode_induct (batchStep N dataset range parameters nodes indices flag row rem)
    (fun i st =>
      (∀ (j : Nat) (s : Node S), nodes[j]? = some s → s.Type_ = .Constant →
        ∀ r, st.m j r = weight N parameters nodes j s) ∧
      (parameters.isSome → st.idx = leafRank nodes i) ∧
      (∀ (j : Nat) (s : Node S), j < i → nodes[j]? = some s → s.Type_ = .Variable →
        ∀ r, r < rem → st.m j r = N.mul (weight N parameters nodes j s)
          (N.cast (dataset.Values (indices j) (range.Start + row + r)))))
    nodes { m := m, idx := 0 }
    ⟨hconst, by intro _; simp [leafRank], by intro j s hj; omega⟩
    (by
      intro k s st hs ⟨hc, hidx, hvar⟩
      have hrank := leafRank_succ nodes k s hs
      have hother : ∀ j, j ≠ k → (batchStep N dataset range parameters nodes indices flag
          row rem st k s).m j = st.m j :=
        fun j hj => batchStep_m_other N dataset range parameters nodes indices flag row rem
          st k s j hj
      have hkeep : s.Type_ ≠ .Constant → ∀ (j : Nat) (t : Node S), nodes[j]? = some t →
          t.Type_ = .Constant → ∀ r, (batchStep N dataset range parameters nodes indices flag
            row rem st k s).m j r = weight N parameters nodes j t := by
        intro hne j t hjt htc r
        have hjk : j ≠ k := by
          intro hjk
          subst hjk
          rw [hs] at hjt
          cases hjt
          exact hne htc
        rw [hother j hjk]
        exact hc j t hjt htc r
      have hold : s.Type_ ≠ .Variable → ∀ (j : Nat) (t : Node S), j < k + 1 →
          nodes[j]? = some t → t.Type_ = .Variable → ∀ r, r < rem →
          (batchStep N dataset range parameters nodes indices flag row rem st k s).m j r
            = N.mul (weight N parameters nodes j t)
                (N.cast (dataset.Values (indices j) (range.Start + row + r))) := by
        intro hne j t hj hjt htv r hr
        have hjk : j ≠ k := by
          intro hjk
          subst hjk
          rw [hs] at hjt
          cases hjt
          exact hne htv
        rw [hother j hjk]
        exact hvar j t (by omega) hjt htv r hr
      by_cases h1 : s.Type_ = .Constant
      · have hl1 : s.IsLeaf = true := by simp [Node.IsLeaf, Node.IsConstant, h1]
        refine ⟨?_, ?_, hold (by rw [h1]; simp)⟩
        · rw [batchStep_constant _ _ _ _ _ _ _ _ _ _ _ _ h1]
          exact hc
        · intro hp
          rw [batchStep_constant _ _ _ _ _ _ _ _ _ _ _ _ h1]
          simp [hrank, hl1, hidx hp]
      · by_cases h2 : s.Type_ = .Variable
        · have hl1 : s.IsLeaf = true := by simp [Node.IsLeaf, Node.IsVariable, h2]
          obtain ⟨m1, i1⟩ := batchStep_variable_weight N dataset range parameters nodes
            indices flag row rem st k s h2 hidx
          refine ⟨hkeep h1, ?_, ?_⟩
          · intro hp
            rw [i1 hp, hrank, hidx hp]
            simp [hl1]
          · intro j t hj hjt htv r hr
            by_cases hjk : j = k
            · subst hjk
              rw [hs] at hjt
              cases hjt
              rw [m1]
              simp [setCol, hr]
            · rw [hother j hjk]
              exact hvar j t (by omega) hjt htv r hr
        · have hl1 : s.IsLeaf = false := by
            simp [Node.IsLeaf, Node.IsConstant, Node.IsVariable, h1, h2]
          obtain ⟨_, e2, _⟩ := batchStep_nonleaf N dataset range parameters parameters
            nodes nodes indices flag row rem st st k s s rfl h1 h2 (fun _ => rfl) rfl
          refine ⟨hkeep h1, ?_, hold h2⟩
          intro hp
          rw [e2, hrank, hidx hp]
          simp [hl1])
  exact ⟨h.1, fun j s hs => h.2.2 j s (List.getElem?_eq_some_iff.1 hs).1 hs⟩

/-- After the batch on the `n`-th window `w`, the column of every leaf holds on
each row `r < w.2` the value of the leaf on the dataset row
`range.Start + w.1 + r`, as it is. -/
theorem leaf_column_raw (N : NumOps S T) (m0 : Nat → Nat → T) (tree : List (Node S))
    (dataset : Dataset S) (range : Range) (parameters : Option (Nat → T))
    (result : Nat → T) (n : Nat) (w : Nat × Nat)
    (hw : (batchWindows range.Size)[n]? = some w) (i : Nat) (s : Node S)
    (hs : tree[i]? = some s) (hl : s.IsLeaf = true) (r : Nat) (hr : r < w.2) :
    val N tree dataset parameters (range.Start + w.1 + r) 1 i
      = some ((stateAfterBatches N m0 tree dataset range parameters result (n + 1)).1 i r) := by
  obtain ⟨hpc, hpv, _⟩ := prePass_spec N m0 tree dataset parameters
  -- the constant columns are kept by every batch
  have hinv : ∀ n, ∀ (j : Nat) (s : Node S), tree[j]? = some s → s.Type_ = .Constant →
      ∀ r, (stateAfterBatches N m0 tree dataset range parameters result n).1 j r
        = weight N parameters tree j s := by
    intro n
    induction n with
    | zero => simpa [stateAfterBatches] using hpc
    | succ n ih =>
      unfold stateAfterBatches
      rw [List.take_succ, List.foldl_append]
      cases hn : (batchWindows range.Size)[n]? with
      | none => simpa [stateAfterBatches] using ih
      | some w' =>
        simp only [Option.toList, List.foldl_cons, List.foldl_nil]
        exact (batch_leaf_spec N dataset range parameters tree _ _ w'.1 w'.2 _ ih).1
  unfold stateAfterBatches
  rw [List.take_succ, List.foldl_append, hw]
  simp only [Option.toList, List.foldl_cons, List.foldl_nil]
  obtain ⟨hc, hv⟩ := batch_leaf_spec N dataset range parameters tree
    (prePass N m0 tree dataset parameters).indices
    (prePass N m0 tree dataset parameters).treeContainsNonlinearSymbols w.1 w.2 _ (hinv n)
  by_cases h1 : s.Type_ = .Constant
  · simp only [val, hs, h1]
    rw [← hc i s hs h1 r]
    rfl
  · have h2 : s.Type_ = .Variable := by
      simp [Node.IsLeaf, Node.IsConstant, Node.IsVariable, h1] at hl
      exact hl
    simp only [val, hs, h2]
    rw [← hpv i s hs h2, ← hv i s hs h2 r hr]
    rfl

/-- On a node of an arithmetic kind the switch does not read the flag. -/
theorem batchStep_flag (N : NumOps S T) (dataset : Dataset S) (range : Range)
    (parameters : Option (Nat → T)) (nodes : List (Node S)) (indices : Nat → Nat)
    (flag flag' : Bool) (row rem : Nat) (st : BatchState T) (i : Nat) (s : Node S)
    (h : Grammar.Arithmetic s.Type_ = true) :
    batchStep N dataset range parameters nodes indices flag row rem st i s
      = batchStep N dataset range parameters nodes indices flag' row rem st i s := by
  unfold batchStep
  cases ht : s.Type_ <;> simp_all [Grammar.Arithmetic]

/-- The flag of the pre-pass is set exactly when some node has a kind outside
`Grammar::Arithmetic`. -/
theorem prePass_flag (N : NumOps S T) (m0 : Nat → Nat → T) (nodes : List (Node S))
    (dataset : Dataset S) (parameters : Option (Nat → T)) :
    (prePass N m0 nodes dataset parameters).treeContainsNonlinearSymbols = false ↔
      ∀ s ∈ nodes, Grammar.Arithmetic s.Type_ = true := by
  have h := forEachNode_induct (prePassStep N dataset parameters)
    (fun i st => st.treeContainsNonlinearSymbols = false ↔
      ∀ (j : Nat) (s : Node S), j < i → nodes[j]? = some s → Grammar.Arithmetic s.Type_ = true)
    nodes
    { m := m0, indices := fun _ => 0, idx := 0, treeContainsNonlinearSymbols := false }
    ⟨fun _ j s hj => by omega, fun _ => rfl⟩
    (by
      intro k s st hs hP
      rw [(prePassStep_rest N dataset parameters st k s).2.2]
      constructor
      · intro hf j t hj ht
        simp only [Bool.or_eq_false_iff, Bool.not_eq_false'] at hf
        by_cases hjk : j = k
        · subst hjk
          rw [hs] at ht
          cases ht
          exact hf.2
        · exact hP.1 hf.1 j t (by omega) ht
      · intro hall
        simp only [Bool.or_eq_false_iff, Bool.not_eq_false']
        exact ⟨hP.2 (fun j t hj ht => hall j t (by omega) ht), hall k s (by omega) hs⟩)
  have h' : (prePass N m0 nodes dataset parameters).treeContainsNonlinearSymbols = false ↔
      ∀ (j : Nat) (s : Node S), j < nodes.length → nodes[j]? = some s →
        Grammar.Arithmetic s.Type_ = true := h
  rw [h']
  constructor
  · intro hall s hs
    obtain ⟨j, hj⟩ := List.mem_iff_getElem?.1 hs
    exact hall j s (List.getElem?_eq_some_iff.1 hj).1 hj
  · intro hall j s _ hj
    exact hall s (List.getElem?_mem hj)

/-- Guarding the unary dispatch with the flag of the pre-pass does not change
what the evaluator writes. -/
theorem EvaluateInto_unguarded (N : NumOps S T) (m0 : Nat → Nat → T) (tree : List (Node S))
    (dataset : Dataset S) (range : Range) (parameters : Option (Nat → T))
    (result : Nat → T) :
    EvaluateInto N m0 tree dataset range parameters result
      = EvaluateIntoUnguarded N m0 tree dataset range parameters result := by
  have hbody : batchBody N dataset range parameters tree
        (prePass N m0 tree dataset parameters)
      = batchBody N dataset range parameters tree
        { prePass N m0 tree dataset parameters with treeContainsNonlinearSymbols := true } := by
    cases hf : (prePass N m0 tree dataset parameters).treeContainsNonlinearSymbols with
    | true =>
      have : ({ prePass N m0 tree dataset parameters with
          treeContainsNonlinearSymbols := true } : PreState T)
          = prePass N m0 tree dataset parameters := by
        rw [← hf]
      rw [this]
    | false =>
      have hall := (prePass_flag N m0 tree dataset parameters).1 hf
      funext row rem st
      have hb := forEachNode_rel
        (batchStep N dataset range parameters tree
          (prePass N m0 tree dataset parameters).indices false row rem)
        (batchStep N dataset range parameters tree
          (prePass N m0 tree dataset parameters).indices true row rem)
        (fun _ a b => a = b)
        tree tree 0 { m := st.1, idx := 0 } { m := st.1, idx := 0 } rfl rfl
        (by
          intro k s s' a b hs hs' hab
          rw [hs] at hs'
          cases hs'
          rw [hab]
          exact batchStep_flag N dataset range parameters tree _ false true row rem b _ s
            (hall s (List.getElem?_mem hs)))
      simp only [batchBody, hf]
      rw [hb]
  simp only [EvaluateInto, EvaluateIntoUnguarded]
  rw [hbody]

/-! ### The entries of the result and the columns of all nodes -/

/-- A batch writes the sanitised root column to every entry of its window,
whatever the result buffer held there. -/
theorem batchBody_written (N : NumOps S T) (dataset : Dataset S) (range : Range)
    (parameters : Option (Nat → T)) (tree : List (Node S)) (pre : PreState T)
    (row rem : Nat) (st : (Nat → Nat → T) × (Nat → T)) (k : Nat)
    (h1 : row ≤ k) (h2 : k < row + rem) :
    (batchBody N dataset range parameters tree pre row rem st).2 k
      = sanitize N ((forEachNode
          (batchStep N dataset range parameters tree pre.indices
            pre.treeContainsNonlinearSymbols row rem)
          tree 0 { m := st.1, idx := 0 }).m (subSizeT tree.length 1) (k - row)) := by
  simp only [batchBody]
  rw [if_pos ⟨h1, h2⟩]

/-- Batches whose windows do not hold `k` leave entry `k` of the result as it
is. -/
theorem batchFold_frame (N : NumOps S T) (dataset : Dataset S) (range : Range)
    (parameters : Option (Nat → T)) (tree : List (Node S)) (pre : PreState T) (k : Nat) :
    ∀ (ws : List (Nat × Nat)) (st : (Nat → Nat → T) × (Nat → T)),
      (∀ w, w ∈ ws → ¬ (w.1 ≤ k ∧ k < w.1 + w.2)) →
      (ws.foldl (fun st w => batchBody N dataset range parameters tree pre w.1 w.2 st) st).2 k
        = st.2 k := by
  intro ws
  induction ws with
  | nil => intro st _; rfl
  | cons w ws ih =>
    intro st h
    rw [List.foldl_cons, ih _ (fun w' hw' => h w' (List.mem_cons_of_mem _ hw'))]
    simp only [batchBody]
    rw [if_neg (h w (List.mem_cons_self _ _))]

/-- Every index below `numRows` lies in the window of exactly one batch. -/
theorem batchWindows_cover (numRows k : Nat) (hk : k < numRows) :
    ∃ ws w ws', batchWindows numRows = ws ++ w :: ws' ∧ (w.1 ≤ k ∧ k < w.1 + w.2) ∧
      (∀ v, v ∈ ws → ¬ (v.1 ≤ k ∧ k < v.1 + v.2)) ∧
      (∀ v, v ∈ ws' → ¬ (v.1 ≤ k ∧ k < v.1 + v.2)) := by
  have hflat := (batchWindows_spec numRows).1
  have hmem : k ∈ (batchWindows numRows).flatMap (fun w => List.range' w.1 w.2) := by
    rw [hflat]
    exact List.mem_range.2 hk
  obtain ⟨w, hw, hkw⟩ := List.mem_flatMap.1 hmem
  obtain ⟨ws, ws', hsplit⟩ := List.append_of_mem hw
  have hnd : ((batchWindows numRows).flatMap (fun w => List.range' w.1 w.2)).Nodup := by
    rw [hflat]
    exact List.nodup_range numRows
  rw [hsplit, List.flatMap_append, List.flatMap_cons] at hnd
  have hkw' : w.1 ≤ k ∧ k < w.1 + w.2 := List.mem_range'_1.1 hkw
  obtain ⟨_, hnd2, hdis1⟩ := List.nodup_append.1 hnd
  obtain ⟨_, _, hdis2⟩ := List.nodup_append.1 hnd2
  refine ⟨ws, w, ws', hsplit, hkw', ?_, ?_⟩
  · intro v hv hkv
    exact hdis1 (List.mem_flatMap.2 ⟨v, hv, List.mem_range'_1.2 hkv⟩)
      (List.mem_append_left _ hkw)
  · intro v hv hkv
    exact hdis2 hkw (List.mem_flatMap.2 ⟨v, hv, List.mem_range'_1.2 hkv⟩)

/-- The state after one more batch. -/
theorem stateAfterBatches_succ (N : NumOps S T) (m0 : Nat → Nat → T) (tree : List (Node S))
    (dataset : Dataset S) (range : Range) (parameters : Option (Nat → T))
    (result : Nat → T) (n : Nat) (w : Nat × Nat)
    (hw : (batchWindows range.Size)[n]? = some w) :
    stateAfterBatches N m0 tree dataset range parameters result (n + 1)
      = batchBody N dataset range parameters tree (prePass N m0 tree dataset parameters)
          w.1 w.2 (stateAfterBatches N m0 tree dataset range parameters result n) := by
  unfold stateAfterBatches
  rw [List.take_succ, List.foldl_append, hw]
  rfl

/-- Every batch keeps the columns of the constants. -/
theorem stateAfterBatches_const (N : NumOps S T) (m0 : Nat → Nat → T) (tree : List (Node S))
    (dataset : Dataset S) (range : Range) (parameters : Option (Nat → T))
    (result : Nat → T) :
    ∀ n, ∀ (j : Nat) (s : Node S), tree[j]? = some s → s.Type_ = .Constant →
      ∀ r, (stateAfterBatches N m0 tree dataset range parameters result n).1 j r
        = weight N parameters tree j s := by
  obtain ⟨hpc, _, _⟩ := prePass_spec N m0 tree dataset parameters
  intro n
  induction n with
  | zero => simpa [stateAfterBatches] using hpc
  | succ n ih =>
    cases hn : (batchWindows range.Size)[n]? with
    | none =>
      unfold stateAfterBatches
      rw [List.take_succ, List.foldl_append, hn]
      simpa [stateAfterBatches] using ih
    | some w' =>
      rw [stateAfterBatches_succ N m0 tree dataset range parameters result n w' hn]
      exact (batch_leaf_spec N dataset range parameters tree _ _ w'.1 w'.2 _ ih).1

/-- On a well-formed tree, after the batch on the `n`-th window `w` every
column holds on each row `r < w.2` the value of its node on the dataset row
`range.Start + w.1 + r`. -/
theorem column_val (N : NumOps S T) (m0 : Nat → Nat → T) (tree : List (Node S))
    (dataset : Dataset S) (range : Range) (parameters : Option (Nat → T))
    (result : Nat → T) (hwf : WellFormed tree) (hty : Typed tree)
    (hlen : tree.length < 2 ^ 64) (n : Nat) (w : Nat × Nat)
    (hw : (batchWindows range.Size)[n]? = some w) (r : Nat) (hr : r < w.2) :
    ∀ j, j < tree.length → ∀ fuel, j < fuel →
      val N tree dataset parameters (range.Start + w.1 + r) fuel j
        = some ((stateAfterBatches N m0 tree dataset range parameters result (n + 1)).1 j r) := by
  obtain ⟨_, hpv, hpn⟩ := prePass_spec N m0 tree dataset parameters
  intro j hj fuel hf
  rw [stateAfterBatches_succ N m0 tree dataset range parameters result n w hw]
  exact (batch_spec N dataset range parameters tree
    (prePass N m0 tree dataset parameters).indices
    (prePass N m0 tree dataset parameters).treeContainsNonlinearSymbols w.1 w.2 hwf hty hlen
    hpv hpn _ (stateAfterBatches_const N m0 tree dataset range parameters result n)).2
    j hj r hr fuel hf

end EvaluatorFacts

/-! ## Facts about the extended rationals -/

theorem Ext_add_comm (a b : Ext) : Ext.add a b = Ext.add b a := by
  cases a <;> cases b <;> simp [Ext.add, Rat.add_comm]

theorem Ext_div_zero_not_finite (y : Ext) : Ext.IsFinite (Ext.div y (Ext.fin 0)) = false := by
  cases y with
  | fin q =>
    by_cases hq : q = 0
    · simp [Ext.div, Ext.infOfSign, hq, Ext.IsFinite]
    · by_cases hp : 0 < q <;> simp [Ext.div, Ext.infOfSign, hq, hp, Ext.IsFinite]
  | pinf => simp [Ext.div, Ext.infOfSign, Ext.signum, Ext.IsFinite]
  | ninf => norm_num [Ext.div, Ext.infOfSign, Ext.signum, Ext.IsFinite]
  | nan => simp [Ext.div, Ext.IsFinite]

theorem Ext_maxFinite_ge : (1000000 : ℚ) ≤ Ext.maxFinite := by
  unfold Ext.maxFinite
  norm_num

theorem Ext_ofRat_of_small (q : ℚ) (h1 : q ≤ Ext.maxFinite) (h2 : -Ext.maxFinite ≤ q) :
    Ext.ofRat q = Ext.fin q := by
  unfold Ext.ofRat
  rw [if_neg (not_lt.2 h1), if_neg (not_lt.2 h2)]

theorem Ext_ofRat_nat (n : Nat) (h : n ≤ 1000000) : Ext.ofRat (n : ℚ) = Ext.fin (n : ℚ) := by
  have h1 : (n : ℚ) ≤ 1000000 := by exact_mod_cast h
  have h2 : (0 : ℚ) ≤ (n : ℚ) := by exact_mod_cast Nat.zero_le n
  have := Ext_maxFinite_ge
  exact Ext_ofRat_of_small _ (by linarith) (by linarith)

/-! ## Facts about the stack-based tree creator -/

section CreatorFacts

variable {R S : Type}

theorem Forest_append {a b : Nat} {l l' : List (Node S)} (h : Forest a l) (h' : Forest b l') :
    Forest (a + b) (l ++ l') := by
  induction h' with
  | nil => simpa using h
  | snoc _ h2 ih1 _ =>
    have := Forest.snoc ih1 h2
    simpa [List.append_assoc, Nat.add_assoc] using this

theorem Forest_length {k : Nat} {l : List (Node S)} (h : Forest k l) :
    l.length = k + (l.map (fun s => s.Arity)).sum := by
  induction h with
  | nil => simp
  | snoc _ _ ih1 ih2 =>
    simp only [List.length_append, List.map_append, List.sum_append, List.length_cons,
      List.length_nil, List.map_cons, List.map_nil, List.sum_cons, List.sum_nil, ih1, ih2]
    omega

/-- Running the loop from a state whose top tuple is `(node, slot, ...)`
reaches, when it ends at all, the state in which that tuple is gone and the
subtrees of `slot` further children of `node`, then `node`, have been
emitted. -/
theorem creatorLoop_frame (env : CreatorEnv R S) :
    ∀ (fuel : Nat) (st : CreatorState R S) (result : List (Node S))
      (node : Node S) (slot depth length : Nat) (rest : List (Node S × Nat × Nat × Nat)),
      st.stk = (node, slot, depth, length) :: rest →
      creatorLoop env fuel st = some result →
      ∃ (fuel' : Nat) (st' : CreatorState R S) (l : List (Node S)),
        fuel' < fuel ∧ st'.stk = rest ∧ st'.nodes = st.nodes ++ l ++ [node] ∧
        Forest slot l ∧ creatorLoop env fuel' st' = some result := by
  intro fuel
  induction fuel using Nat.strong_induction_on with
  | _ fuel ih =>
    intro st result node slot depth length rest hstk hrun
    cases fuel with
    | zero => simp [creatorLoop, hstk] at hrun
    | succ fuel =>
      simp only [creatorLoop, hstk, List.isEmpty_cons, Bool.false_eq_true, if_false] at hrun
      by_cases hslot : slot = 0
      · subst hslot
        refine ⟨fuel, creatorStep env st, [], by omega, ?_, ?_, Forest.nil, hrun⟩
        · simp [creatorStep, hstk]
        · simp [creatorStep, hstk]
      · -- the child tuple is on top after the step
        obtain ⟨child, cdepth, clen, hstk1, hnodes1⟩ :
            ∃ child cdepth clen, (creatorStep env st).stk
              = (child, child.Arity, cdepth, clen) :: (node, slot - 1, depth, length) :: rest ∧
              (creatorStep env st).nodes = st.nodes := by
          simp only [creatorStep, hstk, if_neg hslot]
          exact ⟨_, _, _, rfl, trivial⟩
        obtain ⟨fuel1, st1, lc, hf1, hs1, hn1, hfc, hrun1⟩ :=
          ih fuel (by omega) (creatorStep env st) result child child.Arity cdepth clen _
            hstk1 hrun
        obtain ⟨fuel2, st2, l2, hf2, hs2, hn2, hf2', hrun2⟩ :=
          ih fuel1 (by omega) st1 result node (slot - 1) depth length rest hs1 hrun1
        refine ⟨fuel2, st2, lc ++ [child] ++ l2, by omega, hs2, ?_, ?_, hrun2⟩
        · rw [hn2, hn1, hnodes1]
          simp [List.append_assoc]
        · have h1 : Forest 1 (lc ++ [child]) := by
            have := Forest.snoc Forest.nil hfc
            simpa using this
          have := Forest_append h1 hf2'
          have e : 1 + (slot - 1) = slot := by omega
          rw [e] at this
          exact this

/-- The nodes that the loop emits form the postfix sequence of one tree whose
root is the symbol drawn first. -/
theorem creatorLoop_forest (env : CreatorEnv R S) (random : R) (st0 : CreatorState R S)
    (hst : creatorStart env random = some st0) (fuel : Nat) (nodes : List (Node S))
    (hrun : creatorLoop env fuel st0 = some nodes) :
    ∃ root l, creatorRoot env random = some root ∧ nodes = l ++ [root] ∧
      Forest root.Arity l := by
  obtain ⟨root, len, hstk, hnodes⟩ : ∃ root len, st0.stk = [(root, root.Arity, 1, len)] ∧
      st0.nodes = [] := by
    unfold creatorStart at hst
    simp only at hst
    split at hst
    · cases hst
      exact ⟨_, _, rfl, rfl⟩
    · cases hst
  obtain ⟨fuel', st', l, _, hs, hn, hf, hrun'⟩ :=
    creatorLoop_frame env fuel st0 nodes root root.Arity 1 len [] hstk hrun
  refine ⟨root, l, ?_, ?_, hf⟩
  · simp [creatorRoot, hst, hstk]
  · have : creatorLoop env fuel' st' = some st'.nodes := by
      cases fuel' <;> simp [creatorLoop, hs]
    rw [this] at hrun'
    rw [← Option.some.inj hrun', hn, hnodes]
    simp

theorem lengthAt_append_left (done more : List (Node S)) (c : Nat) (hc : c < done.length) :
    lengthAt (done ++ more) c = lengthAt done c := by
  simp [lengthAt, List.getElem?_append_left hc]

theorem arityAt_append_left (done more : List (Node S)) (c : Nat) (hc : c < done.length) :
    arityAt (done ++ more) c = arityAt done c := by
  simp [arityAt, List.getElem?_append_left hc]

theorem walkChildren_append_left (done more : List (Node S)) :
    ∀ (a pos : Nat), pos ≤ done.length →
      walkChildren (done ++ more) a pos = walkChildren done a pos := by
  intro a
  induction a with
  | zero => intro pos _; rfl
  | succ a ih =>
    intro pos hpos
    simp only [walkChildren]
    by_cases h1 : 1 ≤ pos
    · rw [lengthAt_append_left done more (pos - 1) (by omega)]
      by_cases h2 : lengthAt done (pos - 1) ≤ pos - 1
      · rw [if_pos ⟨h1, h2⟩, if_pos ⟨h1, h2⟩]
        exact ih _ (by omega)
      · rw [if_neg (fun h => h2 h.2), if_neg (fun h => h2 h.2)]
    · rw [if_neg (fun h => h1 h.1), if_neg (fun h => h1 h.1)]

theorem sumChildren_append_left (done more : List (Node S)) :
    ∀ (a pos : Nat), pos ≤ done.length → 1 ≤ pos ∨ a = 0 →
      walkChildren done a pos ≠ none →
      sumChildren (done ++ more) a pos = sumChildren done a pos := by
  intro a
  induction a with
  | zero => intro pos _ _ _; rfl
  | succ a ih =>
    intro pos hpos _ hw
    simp only [walkChildren] at hw
    split at hw
    · next h =>
      simp only [sumChildren]
      rw [lengthAt_append_left done more (pos - 1) (by omega)]
      congr 1
      apply ih _ (by omega) _ hw
      cases a with
      | zero => exact Or.inr rfl
      | succ a =>
        left
        simp only [walkChildren] at hw
        split at hw
        · next h' => exact h'.1
        · exact absurd rfl hw
    · exact absurd rfl hw

theorem updateLengths_append (done l₁ l₂ : List (Node S)) :
    updateLengths done (l₁ ++ l₂) = updateLengths (updateLengths done l₁) l₂ := by
  induction l₁ generalizing done with
  | nil => rfl
  | cons s rest ih =>
    exact ih (done ++ [{ s with Length := sumChildren done s.Arity done.length }])

theorem updateLengths_arity (done l : List (Node S)) :
    (updateLengths done l).map (fun s => s.Arity)
      = done.map (fun s => s.Arity) ++ l.map (fun s => s.Arity) := by
  induction l generalizing done with
  | nil => simp [updateLengths]
  | cons s rest ih => simp [updateLengths, ih]

theorem updateLengths_prefix (done l : List (Node S)) :
    ∃ l', updateLengths done l = done ++ l' ∧ l'.length = l.length := by
  induction l generalizing done with
  | nil => exact ⟨[], by simp [updateLengths], rfl⟩
  | cons s rest ih =>
    obtain ⟨l', h, hl⟩ := ih (done ++ [{ s with Length := sumChildren done s.Arity done.length }])
    exact ⟨{ s with Length := sumChildren done s.Arity done.length } :: l',
      by simp [updateLengths, h], by simp [hl]⟩

theorem updateLengths_length (done l : List (Node S)) :
    (updateLengths done l).length = done.length + l.length := by
  obtain ⟨l', h, hl⟩ := updateLengths_prefix done l
  rw [h, List.length_append, hl]

/-- The lengths that the update computes on a forest: walking back over the
`k` trees from the end reaches the start of the forest, their sizes add up to
its length, and every node of the forest satisfies the postfix invariant. -/
theorem updateLengths_forest {k : Nat} {l : List (Node S)} (h : Forest k l) :
    ∀ (done : List (Node S)),
      walkChildren (updateLengths done l) k (updateLengths done l).length
        = some done.length ∧
      sumChildren (updateLengths done l) k (updateLengths done l).length = l.length ∧
      ∀ i, done.length ≤ i → i < (updateLengths done l).length →
        done.length + lengthAt (updateLengths done l) i ≤ i ∧
        walkChildren (updateLengths done l) (arityAt (updateLengths done l) i) i
          = some (i - lengthAt (updateLengths done l) i) := by
  induction h with
  | nil =>
    intro done
    refine ⟨rfl, rfl, ?_⟩
    intro i h1 h2
    simp [updateLengths] at h2
    omega
  | @snoc k l₁ l₂ s _ _ ih1 ih2 =>
    intro done
    obtain ⟨w1, s1, d1⟩ := ih1 done
    obtain ⟨w2, s2, d2⟩ := ih2 (updateLengths done l₁)
    have hlen1 := updateLengths_length done l₁
    have hlen2 := updateLengths_length (updateLengths done l₁) l₂
    obtain ⟨x, hx, _⟩ := updateLengths_prefix (updateLengths done l₁) l₂
    -- the updated sequence
    have hout : updateLengths done (l₁ ++ l₂ ++ [s])
        = updateLengths (updateLengths done l₁) l₂ ++ [{ s with Length := l₂.length }] := by
      rw [updateLengths_append, updateLengths_append]
      simp only [updateLengths]
      rw [s2]
    generalize hA : updateLengths done l₁ = out1 at *
    generalize hB : updateLengths out1 l₂ = out2 at *
    rw [hout]
    have hlast : lengthAt (out2 ++ [{ s with Length := l₂.length }]) out2.length
        = l₂.length := by
      simp [lengthAt]
    have harity : arityAt (out2 ++ [{ s with Length := l₂.length }]) out2.length
        = s.Arity := by
      simp [arityAt]
    have hwk : walkChildren (out2 ++ [{ s with Length := l₂.length }]) k out1.length
        = some done.length := by
      rw [hx, List.append_assoc, walkChildren_append_left _ _ _ _ (Nat.le_refl _)]
      exact w1
    refine ⟨?_, ?_, ?_⟩
    · simp only [List.length_append, List.length_cons, List.length_nil, walkChildren]
      have e : out2.length + (0 + 1) - 1 = out2.length := by omega
      rw [e, hlast, if_pos ⟨by omega, by omega⟩]
      have e' : out2.length - l₂.length = out1.length := by omega
      rw [e', hwk]
    · simp only [List.length_append, List.length_cons, List.length_nil, sumChildren]
      have e : out2.length + (0 + 1) - 1 = out2.length := by omega
      rw [e, hlast]
      have e' : out2.length - l₂.length = out1.length := by omega
      rw [e']
      have : sumChildren (out2 ++ [{ s with Length := l₂.length }]) k out1.length
          = l₁.length := by
        rw [hx, List.append_assoc]
        by_cases hk : k = 0
        · subst hk
          cases ‹Forest 0 l₁›
          rfl
        · rw [sumChildren_append_left _ _ _ _ (Nat.le_refl _) _ (by rw [w1]; simp)]
          · exact s1
          · left
            cases k with
            | zero => exact absurd rfl hk
            | succ k =>
              simp only [walkChildren] at w1
              split at w1
              · next h' => exact h'.1
              · cases w1
      rw [this]
      omega
    · intro i hi1 hi2
      simp only [List.length_append, List.length_cons, List.length_nil] at hi2
      by_cases hlt1 : i < out1.length
      · -- a node of the first forest
        have := d1 i hi1 hlt1
        rw [hx, List.append_assoc, lengthAt_append_left _ _ _ hlt1,
          arityAt_append_left _ _ _ hlt1, walkChildren_append_left _ _ _ _ (by omega)]
        exact this
      · by_cases hlt2 : i < out2.length
        · -- a node of the children of `s`
          have := d2 i (by omega) hlt2
          rw [lengthAt_append_left _ _ _ hlt2, arityAt_append_left _ _ _ hlt2,
            walkChildren_append_left _ _ _ _ (by omega)]
          exact ⟨by omega, this.2⟩
        · -- the node `s`
          have hi : i = out2.length := by omega
          subst hi
          rw [hlast, harity, walkChildren_append_left _ _ _ _ (Nat.le_refl _), w2]
          exact ⟨by omega, by congr 1; omega⟩

theorem init_arity (env : CreatorEnv R S) (node : Node S) (random : R) :
    (init env node random).1.Arity = node.Arity := by
  unfold init
  split <;> rfl

theorem drawSymbol_arity (env : CreatorEnv R S)
    (hsample : ∀ r lo hi, (env.SampleRandomSymbol r lo hi).1.Arity ≤ hi)
    (random : R) (lo hi : Nat) : (drawSymbol env random lo hi).1.Arity ≤ hi := by
  unfold drawSymbol
  simp only [init_arity]
  exact hsample _ _ _

theorem childMaxArity_le (env : CreatorEnv R S) (st : CreatorState R S) (depth childLen : Nat)
    (hle : st.openSlots ≤ st.targetLen) (hlt : st.targetLen < 2 ^ 64) :
    childMaxArity env st depth childLen ≤ st.targetLen - st.openSlots := by
  unfold childMaxArity
  split
  · exact Nat.zero_le _
  · rw [subSizeT_of_le _ _ hlt hle]
    exact Nat.le_trans (Nat.min_le_right _ _) (Nat.min_le_right _ _)

/-- The step that draws a child. -/
theorem creatorStep_draw (env : CreatorEnv R S) (st : CreatorState R S) (node : Node S)
    (slot depth length : Nat) (rest : List (Node S × Nat × Nat × Nat))
    (hstk : st.stk = (node, slot, depth, length) :: rest) (hslot : slot ≠ 0) :
    creatorStep env st =
      { random := (drawSymbol env st.random
          (min env.FunctionArityLimits.1
            (childMaxArity env st depth (childLength st node slot length)))
          (childMaxArity env st depth (childLength st node slot length))).2,
        stk := ((drawSymbol env st.random
            (min env.FunctionArityLimits.1
              (childMaxArity env st depth (childLength st node slot length)))
            (childMaxArity env st depth (childLength st node slot length))).1,
          (drawSymbol env st.random
            (min env.FunctionArityLimits.1
              (childMaxArity env st depth (childLength st node slot length)))
            (childMaxArity env st depth (childLength st node slot length))).1.Arity,
          addSizeT depth 1, childLength st node slot length)
          :: (node, slot - 1, depth, length) :: rest,
        nodes := st.nodes,
        targetLen := subSizeT st.targetLen 1,
        openSlots := subSizeT (addSizeT st.openSlots
          (drawSymbol env st.random
            (min env.FunctionArityLimits.1
              (childMaxArity env st depth (childLength st node slot length)))
            (childMaxArity env st depth (childLength st node slot length))).1.Arity) 1,
        childLen := childLength st node slot length } := by
  simp only [creatorStep, hstk, if_neg hslot]

/-- While `openSlots` counts the pending slots and does not exceed
`targetLen`, the loop ends within `2 * targetLen + |stk|` iterations. -/
theorem creatorLoop_terminates (env : CreatorEnv R S)
    (hsample : ∀ r lo hi, (env.SampleRandomSymbol r lo hi).1.Arity ≤ hi) :
    ∀ (fuel : Nat) (st : CreatorState R S),
      st.openSlots = pendingSlots st.stk → st.openSlots ≤ st.targetLen →
      st.targetLen < 2 ^ 64 → 2 * st.targetLen + st.stk.length ≤ fuel →
      ∃ nodes, creatorLoop env fuel st = some nodes := by
  intro fuel
  induction fuel with
  | zero =>
    intro st _ _ _ hf
    have : st.stk = [] := List.eq_nil_of_length_eq_zero (by omega)
    exact ⟨st.nodes, by simp [creatorLoop, this]⟩
  | succ fuel ih =>
    intro st hopen hle hlt hf
    cases hstk : st.stk with
    | nil => exact ⟨st.nodes, by simp [creatorLoop, hstk]⟩
    | cons top rest =>
      obtain ⟨node, slot, depth, length⟩ := top
      simp only [creatorLoop, hstk, List.isEmpty_cons, Bool.false_eq_true, if_false]
      have hpend : pendingSlots st.stk = slot + pendingSlots rest := by
        simp [pendingSlots, hstk]
      have hlenstk : st.stk.length = rest.length + 1 := by simp [hstk]
      by_cases hslot : slot = 0
      · subst hslot
        refine ih _ ?_ ?_ ?_ ?_
        · simp only [creatorStep, hstk, if_true]
          omega
        · simp only [creatorStep, hstk, if_true]
          exact hle
        · simp only [creatorStep, hstk, if_true]
          exact hlt
        · simp only [creatorStep, hstk, if_true]
          omega
      · -- a child is drawn: its arity is at most `targetLen - openSlots`
        have hpos : 1 ≤ st.openSlots := by omega
        rw [creatorStep_draw env st node slot depth length rest hstk hslot]
        generalize hchild : drawSymbol env st.random
          (min env.FunctionArityLimits.1
            (childMaxArity env st depth (childLength st node slot length)))
          (childMaxArity env st depth (childLength st node slot length)) = child
        have ha : child.1.Arity ≤ st.targetLen - st.openSlots := by
          rw [← hchild]
          exact Nat.le_trans (drawSymbol_arity env hsample _ _ _)
            (childMaxArity_le env st depth _ hle hlt)
        have e1 : subSizeT st.targetLen 1 = st.targetLen - 1 :=
          subSizeT_of_le _ _ hlt (by omega)
        have e2 : addSizeT st.openSlots child.1.Arity = st.openSlots + child.1.Arity := by
          unfold addSizeT
          exact Nat.mod_eq_of_lt (by omega)
        have e3 : subSizeT (st.openSlots + child.1.Arity) 1
            = st.openSlots + child.1.Arity - 1 :=
          subSizeT_of_le _ _ (by omega) (by omega)
        simp only [pendingSlots] at hpend hopen
        refine ih _ ?_ ?_ ?_ ?_
        · simp only [pendingSlots, List.map_cons, List.sum_cons, e2, e3]
          omega
        · simp only [e1, e2, e3]
          omega
        · simp only [e1]
          omega
        · simp only [e1, List.length_cons]
          omega

/-- The state in which the loop starts. -/
theorem creatorStart_spec (env : CreatorEnv R S) (random : R)
    (hlen : 1 ≤ env.maxLength) (hmax : env.maxLength < 2 ^ 64)
    (hsample : ∀ r lo hi, (env.SampleRandomSymbol r lo hi).1.Arity ≤ hi) :
    ∃ st0, creatorStart env random = some st0 ∧ st0.openSlots = pendingSlots st0.stk ∧
      st0.openSlots ≤ st0.targetLen ∧ st0.targetLen < env.maxLength ∧ st0.stk.length = 1 := by
  have hc : 1 ≤ clamp (env.SampleFromDistribution random).1 1 env.maxLength ∧
      clamp (env.SampleFromDistribution random).1 1 env.maxLength ≤ env.maxLength := by
    unfold clamp
    split
    · exact ⟨Nat.le_refl _, hlen⟩
    · split <;> omega
  have hsub : subSizeT (clamp (env.SampleFromDistribution random).1 1 env.maxLength) 1
      = clamp (env.SampleFromDistribution random).1 1 env.maxLength - 1 :=
    subSizeT_of_le _ _ (by omega) hc.1
  unfold creatorStart
  simp only [if_pos (show 0 < clamp (env.SampleFromDistribution random).1 1 env.maxLength
    from hc.1)]
  refine ⟨_, rfl, by simp [pendingSlots], ?_, ?_, rfl⟩
  · exact Nat.le_trans (drawSymbol_arity env hsample _ _ _) (Nat.min_le_right _ _)
  · simp only [hsub]
    omega

/-- While `openSlots` counts the pending slots and does not exceed
`targetLen`, the loop emits at most `|stk| + targetLen` further nodes. -/
theorem creatorLoop_count (env : CreatorEnv R S)
    (hsample : ∀ r lo hi, (env.SampleRandomSymbol r lo hi).1.Arity ≤ hi) :
    ∀ (fuel : Nat) (st : CreatorState R S) (nodes : List (Node S)),
      st.openSlots = pendingSlots st.stk → st.openSlots ≤ st.targetLen →
      st.targetLen < 2 ^ 64 → creatorLoop env fuel st = some nodes →
      nodes.length ≤ st.nodes.length + st.stk.length + st.targetLen := by
  intro fuel
  induction fuel with
  | zero =>
    intro st nodes _ _ _ h
    simp only [creatorLoop] at h
    split at h
    · have := Option.some.inj h
      subst this
      omega
    · exact absurd h (by simp)
  | succ fuel ih =>
    intro st nodes hopen hle hlt h
    cases hstk : st.stk with
    | nil =>
      simp only [creatorLoop, hstk, List.isEmpty_nil, if_true] at h
      have := Option.some.inj h
      subst this
      omega
    | cons top rest =>
      obtain ⟨node, slot, depth, length⟩ := top
      simp only [creatorLoop, hstk, List.isEmpty_cons, Bool.false_eq_true, if_false] at h
      have hpend : pendingSlots st.stk = slot + pendingSlots rest := by
        simp [pendingSlots, hstk]
      have hlenstk : st.stk.length = rest.length + 1 := by simp [hstk]
      rw [← hstk, hlenstk]
      by_cases hslot : slot = 0
      · subst hslot
        have hstep : creatorStep env st = { st with stk := rest, nodes := st.nodes ++ [node] } := by
          simp only [creatorStep, hstk, if_true]
        rw [hstep] at h
        have := ih { st with stk := rest, nodes := st.nodes ++ [node] } nodes
          (by simp only; omega) hle hlt h
        simp only [List.length_append, List.length_singleton] at this
        omega
      · have hpos : 1 ≤ st.openSlots := by omega
        rw [creatorStep_draw env st node slot depth length rest hstk hslot] at h
        generalize hchild : drawSymbol env st.random
          (min env.FunctionArityLimits.1
            (childMaxArity env st depth (childLength st node slot length)))
          (childMaxArity env st depth (childLength st node slot length)) = child at h
        have ha : child.1.Arity ≤ st.targetLen - st.openSlots := by
          rw [← hchild]
          exact Nat.le_trans (drawSymbol_arity env hsample _ _ _)
            (childMaxArity_le env st depth _ hle hlt)
        have e1 : subSizeT st.targetLen 1 = st.targetLen - 1 :=
          subSizeT_of_le _ _ hlt (by omega)
        have e2 : addSizeT st.openSlots child.1.Arity = st.openSlots + child.1.Arity := by
          unfold addSizeT
          exact Nat.mod_eq_of_lt (by omega)
        have e3 : subSizeT (st.openSlots + child.1.Arity) 1
            = st.openSlots + child.1.Arity - 1 :=
          subSizeT_of_le _ _ (by omega) (by omega)
        simp only [pendingSlots] at hpend hopen
        have := ih _ nodes
          (by simp only [pendingSlots, List.map_cons, List.sum_cons, e2, e3]; omega)
          (by simp only [e1, e2, e3]; omega) (by simp only [e1]; omega) h
        simp only [e1, List.length_cons] at this
        omega

/-- A stack that holds one node without pending slots: the loop emits this
node and ends. -/
theorem creatorLoop_single (env : CreatorEnv R S) (st : CreatorState R S) (root : Node S)
    (depth length : Nat) (hstk : st.stk = [(root, 0, depth, length)]) :
    creatorLoop env 1 st = some (st.nodes ++ [root]) ∧
    ∀ fuel nodes, creatorLoop env fuel st = some nodes → nodes = st.nodes ++ [root] := by
  have hstep : creatorStep env st = { st with stk := [], nodes := st.nodes ++ [root] } := by
    simp only [creatorStep, hstk, if_true]
  refine ⟨by simp [creatorLoop, hstk, hstep], ?_⟩
  intro fuel nodes h
  cases fuel with
  | zero => simp [creatorLoop, hstk] at h
  | succ fuel =>
    simp only [creatorLoop, hstk, List.isEmpty_cons, Bool.false_eq_true, if_false] at h
    rw [hstep] at h
    cases fuel with
    | zero =>
      simp only [creatorLoop, List.isEmpty_nil, if_true] at h
      exact (Option.some.inj h).symm
    | succ fuel =>
      simp only [creatorLoop, List.isEmpty_nil, if_true] at h
      exact (Option.some.inj h).symm

/-- The update of the lengths changes no field of a node but `Length`. -/
theorem updateLengths_mem (done l : List (Node S)) :
    ∀ s' ∈ updateLengths done l, s' ∈ done ∨ ∃ s ∈ l, s' = { s with Length := s'.Length } := by
  induction l generalizing done with
  | nil =>
    intro s' hs
    left
    simpa [updateLengths] using hs
  | cons s rest ih =>
    intro s' hs
    simp only [updateLengths] at hs
    rcases ih _ s' hs with h | ⟨t, ht, h⟩
    · rcases List.mem_append.1 h with h | h
      · left; exact h
      · right
        simp only [List.mem_singleton] at h
        refine ⟨s, List.mem_cons_self _ _, ?_⟩
        rw [h]
    · right
      exact ⟨t, List.mem_cons_of_mem _ ht, h⟩

theorem UpdateNodes_mem (nodes : List (Node S)) :
    ∀ s' ∈ UpdateNodes nodes, ∃ s ∈ nodes, s' = { s with Length := s'.Length } := by
  intro s' hs
  rcases updateLengths_mem [] nodes s' hs with h | h
  · simp at h
  · exact h

/-- Every node that the loop emits satisfies a property that holds of every
drawn and initialised symbol, when the nodes already emitted and the nodes on
the stack satisfy it. -/
theorem creatorLoop_nodes (env : CreatorEnv R S) (Q : Node S → Prop)
    (hQ : ∀ r lo hi, Q (drawSymbol env r lo hi).1) :
    ∀ (fuel : Nat) (st : CreatorState R S) (nodes : List (Node S)),
      (∀ s ∈ st.nodes, Q s) → (∀ f ∈ st.stk, Q f.1) →
      creatorLoop env fuel st = some nodes → ∀ s ∈ nodes, Q s := by
  intro fuel
  induction fuel with
  | zero =>
    intro st nodes hn _ h
    simp only [creatorLoop] at h
    split at h
    · have := Option.some.inj h
      subst this
      exact hn
    · exact absurd h (by simp)
  | succ fuel ih =>
    intro st nodes hn hs h
    cases hstk : st.stk with
    | nil =>
      simp only [creatorLoop, hstk, List.isEmpty_nil, if_true] at h
      have := Option.some.inj h
      subst this
      exact hn
    | cons top rest =>
      obtain ⟨node, slot, depth, length⟩ := top
      simp only [creatorLoop, hstk, List.isEmpty_cons, Bool.false_eq_true, if_false] at h
      have hnode : Q node := hs (node, slot, depth, length) (by rw [hstk]; simp)
      have hrest : ∀ f ∈ rest, Q f.1 := fun f hf => hs f (by rw [hstk]; simp [hf])
      by_cases hslot : slot = 0
      · subst hslot
        have hstep : creatorStep env st
            = { st with stk := rest, nodes := st.nodes ++ [node] } := by
          simp only [creatorStep, hstk, if_true]
        rw [hstep] at h
        refine ih { st with stk := rest, nodes := st.nodes ++ [node] } nodes ?_ hrest h
        intro s hs'
        rcases List.mem_append.1 hs' with h1 | h1
        · exact hn s h1
        · simp only [List.mem_singleton] at h1
          rw [h1]
          exact hnode
      · obtain ⟨r, lo, hi, cdepth, clen, hstk1, hnodes1⟩ :
            ∃ r lo hi cdepth clen, (creatorStep env st).stk
              = ((drawSymbol env r lo hi).1, (drawSymbol env r lo hi).1.Arity, cdepth, clen)
                :: (node, slot - 1, depth, length) :: rest ∧
              (creatorStep env st).nodes = st.nodes := by
          simp only [creatorStep, hstk, if_neg hslot]
          exact ⟨_, _, _, _, _, rfl, trivial⟩
        refine ih (creatorStep env st) nodes (by rw [hnodes1]; exact hn) ?_ h
        intro f hf
        rw [hstk1] at hf
        simp only [List.mem_cons] at hf
        rcases hf with hf | hf | hf
        · rw [hf]
          exact hQ _ _ _
        · rw [hf]
          exact hnode
        · exact hrest f hf

/-- Every node of the tree that the creator of balanced.hpp returns is a drawn
and initialised symbol, up to its `Length`. -/
theorem BalancedTreeCreator_nodes (env : CreatorEnv R S) (Q : Node S → Prop)
    (hQ : ∀ r lo hi, Q (drawSymbol env r lo hi).1) (fuel : Nat) (random : R)
    (tree : List (Node S)) (h : BalancedTreeCreator env fuel random = some tree) :
    ∀ s' ∈ tree, ∃ s, Q s ∧ s' = { s with Length := s'.Length } := by
  unfold BalancedTreeCreator at h
  split at h
  · exact absurd h (by simp)
  · rename_i st hst
    simp only [Option.map_eq_some'] at h
    obtain ⟨nodes, hrun, rfl⟩ := h
    have hst0 : st.nodes = [] ∧ ∃ r lo hi d len,
        st.stk = [((drawSymbol env r lo hi).1, (drawSymbol env r lo hi).1.Arity, d, len)] := by
      unfold creatorStart at hst
      simp only at hst
      split at hst
      · have := Option.some.inj hst
        subst this
        exact ⟨rfl, _, _, _, _, _, rfl⟩
      · exact absurd hst (by simp)
    obtain ⟨hn0, r, lo, hi, d, len, hs0⟩ := hst0
    have hall := creatorLoop_nodes env Q hQ fuel st nodes
      (by rw [hn0]; intro s hs; simp at hs)
      (by
        rw [hs0]
        intro f hf
        simp only [List.mem_singleton] at hf
        rw [hf]
        exact hQ _ _ _)
      hrun
    intro s' hs'
    obtain ⟨s, hs, he⟩ := UpdateNodes_mem nodes s' hs'
    exact ⟨s, hall s hs, he⟩

end CreatorFacts

/-! ## Facts about the generator and the command-line utilities -/

section UtilFacts

open RandomGenerator

theorem draws_add (N : Nat) :
    ∀ (k n : Nat) (g : JsfRand),
      (JsfRand.draws N (k + n) g).1
          = (JsfRand.draws N k g).1 ++ (JsfRand.draws N n (JsfRand.draws N k g).2).1 ∧
      (JsfRand.draws N (k + n) g).2 = (JsfRand.draws N n (JsfRand.draws N k g).2).2 := by
  intro k
  induction k with
  | zero => intro n g; simp [JsfRand.draws]
  | succ k ih =>
    intro n g
    have e : k + 1 + n = (k + n) + 1 := by omega
    rw [e]
    simp only [JsfRand.draws]
    obtain ⟨h1, h2⟩ := ih n (JsfRand.next N g).2
    rw [h1, h2]
    simp

theorem digitChar_isDigit (d : Nat) (h : d < 10) :
    (Nat.digitChar d).isDigit = true ∧ (Nat.digitChar d).toNat - 48 = d := by
  interval_cases d <;> decide

theorem digitsValue_cons_append (acc : Nat) (l : List Char) :
    l.foldl (fun acc c => 10 * acc + (c.toNat - 48)) acc
      = acc * 10 ^ l.length + digitsValue l := by
  induction l generalizing acc with
  | nil => simp [digitsValue]
  | cons c rest ih =>
    simp only [List.foldl_cons, digitsValue, List.length_cons]
    rw [ih, ih (10 * 0 + (c.toNat - 48))]
    ring

/-- The digits that `Nat.toDigits 10` produces are decimal digits, and their
value is the number. -/
theorem toDigitsCore_spec (fuel : Nat) :
    ∀ (n : Nat) (ds : List Char), n < fuel → (∀ c ∈ ds, c.isDigit = true) →
      (∀ c ∈ Nat.toDigitsCore 10 fuel n ds, c.isDigit = true) ∧
      digitsValue (Nat.toDigitsCore 10 fuel n ds) = n * 10 ^ ds.length + digitsValue ds ∧
      Nat.toDigitsCore 10 fuel n ds ≠ [] := by
  induction fuel with
  | zero => intro n ds h; omega
  | succ fuel ih =>
    intro n ds hn hds
    obtain ⟨hd1, hd2⟩ := digitChar_isDigit (n % 10) (Nat.mod_lt _ (by omega))
    have hds' : ∀ c ∈ Nat.digitChar (n % 10) :: ds, c.isDigit = true := by
      intro c hc
      rcases List.mem_cons.1 hc with rfl | hc
      · exact hd1
      · exact hds c hc
    have hval : digitsValue (Nat.digitChar (n % 10) :: ds)
        = (n % 10) * 10 ^ ds.length + digitsValue ds := by
      simp only [digitsValue, List.foldl_cons]
      rw [digitsValue_cons_append, hd2]
      simp [digitsValue]
    simp only [Nat.toDigitsCore]
    split
    · next h0 =>
      refine ⟨hds', ?_, by simp⟩
      rw [hval]
      have : n % 10 = n := by omega
      rw [this]
    · next h0 =>
      obtain ⟨h1, h2, h3⟩ := ih (n / 10) (Nat.digitChar (n % 10) :: ds) (by omega) hds'
      refine ⟨h1, ?_, h3⟩
      rw [h2, hval, List.length_cons, pow_succ]
      have := Nat.div_add_mod n 10
      calc n / 10 * (10 ^ ds.length * 10) + (n % 10 * 10 ^ ds.length + digitsValue ds)
          = (10 * (n / 10) + n % 10) * 10 ^ ds.length + digitsValue ds := by ring
        _ = n * 10 ^ ds.length + digitsValue ds := by rw [this]

theorem toDigits_spec (n : Nat) :
    (∀ c ∈ Nat.toDigits 10 n, c.isDigit = true) ∧ digitsValue (Nat.toDigits 10 n) = n ∧
      Nat.toDigits 10 n ≠ [] := by
  obtain ⟨h1, h2, h3⟩ := toDigitsCore_spec (n + 1) n [] (by omega) (by simp)
  exact ⟨h1, by simpa [digitsValue] using h2, h3⟩

theorem indexOf?_colon (x y : List Char) (hx : ':' ∉ x) :
    (x ++ ':' :: y).indexOf? ':' = some x.length := by
  induction x with
  | nil => simp [List.indexOf?, List.findIdx?_cons]
  | cons c rest ih =>
    have hc : c ≠ ':' := fun h => hx (by simp [h])
    have hrest : ':' ∉ rest := fun h => hx (List.mem_cons_of_mem _ h)
    have := ih hrest
    simp only [List.indexOf?] at this ⊢
    simp [List.findIdx?_cons, hc, this]

theorem ParseRange_split (x y : List Char) (hx : ':' ∉ x) :
    ParseRange (x ++ ':' :: y) =
      match from_chars x with
      | Except.error _ => ParseResult.runtime_error
      | Except.ok b =>
        match from_chars y with
        | Except.error _ => ParseResult.runtime_error
        | Except.ok e => ParseResult.range { Start := b, End := e } := by
  unfold ParseRange
  rw [indexOf?_colon x y hx]
  simp

theorem takeWhile_digits (ds rest : List Char) (hds : ∀ c ∈ ds, c.isDigit = true)
    (hrest : ∀ c, rest.head? = some c → c.isDigit = false) :
    (ds ++ rest).takeWhile Char.isDigit = ds := by
  induction ds with
  | nil =>
    cases rest with
    | nil => rfl
    | cons c r => simp [List.takeWhile, hrest c rfl]
  | cons c r ih =>
    have hc := hds c (by simp)
    have := ih (fun c hc => hds c (List.mem_cons_of_mem _ hc))
    rw [List.cons_append, List.takeWhile_cons, hc, if_pos rfl, this]

theorem from_chars_toDigits (n : Nat) (hn : n < 2 ^ 64) :
    from_chars (Nat.toDigits 10 n) = Except.ok n := by
  obtain ⟨h1, h2, h3⟩ := toDigits_spec n
  have := takeWhile_digits (Nat.toDigits 10 n) [] h1 (by simp)
  rw [List.append_nil] at this
  unfold from_chars
  simp only [this, h2, hn, if_true]
  cases h : Nat.toDigits 10 n with
  | nil => exact absurd h h3
  | cons c r => simp

theorem toDigits_no_colon (n : Nat) : ':' ∉ Nat.toDigits 10 n := by
  intro h
  have := (toDigits_spec n).1 _ h
  revert this
  decide

/-- When `from_chars` fails. -/
theorem from_chars_error_iff (s : List Char) :
    (∃ e, from_chars s = Except.error e) ↔
      s = [] ∨ (∃ c rest, s = c :: rest ∧ c.isDigit = false) ∨
        2 ^ 64 ≤ digitsValue (s.takeWhile Char.isDigit) := by
  unfold from_chars
  cases s with
  | nil => simp
  | cons c rest =>
    by_cases hc : c.isDigit = true
    · simp only [List.takeWhile, hc, List.isEmpty_cons, Bool.false_eq_true, if_false]
      by_cases hv : digitsValue (c :: rest.takeWhile Char.isDigit) < 2 ^ 64
      · simp only [hv, if_true]
        constructor
        · rintro ⟨e, he⟩
          cases he
        · rintro (h | ⟨c', r', h, hc'⟩ | h)
          · cases h
          · cases h
            rw [hc] at hc'
            cases hc'
          · omega
      · simp only [hv, if_false]
        exact ⟨fun _ => Or.inr (Or.inr (by omega)), fun _ => ⟨_, rfl⟩⟩
    · have hc' : c.isDigit = false := by simpa using hc
      simp only [List.takeWhile, hc', List.isEmpty_nil, if_true]
      exact ⟨fun _ => Or.inr (Or.inl ⟨c, rest, rfl, hc'⟩), fun _ => ⟨_, rfl⟩⟩

theorem splitLoop_acc (d : Char) :
    ∀ (fuel : Nat) (rest : List Char) (tokens : List (List Char)),
      splitLoop d fuel rest tokens = tokens ++ splitLoop d fuel rest [] := by
  intro fuel
  induction fuel with
  | zero => intro rest tokens; simp [splitLoop]
  | succ fuel ih =>
    intro rest tokens
    simp only [splitLoop]
    cases getline rest d with
    | none => simp
    | some p =>
      obtain ⟨token, r⟩ := p
      simp only
      rw [ih, ih r ([] ++ [token])]
      simp

/-- What `getline` reads from a non-empty rest: the token has no delimiter,
and the rest is either the token alone or the token, a delimiter and what is
left. -/
theorem getline_spec (rest : List Char) (d : Char) (hne : rest ≠ []) :
    ∃ token left, getline rest d = some (token, left) ∧ d ∉ token ∧
      (rest = token ∧ left = [] ∨ rest = token ++ d :: left) := by
  have hsplit := List.takeWhile_append_dropWhile (fun c => c != d) rest
  have hnot : d ∉ rest.takeWhile (fun c => c != d) := by
    intro h
    have := List.mem_takeWhile_imp h
    simp at this
  refine ⟨rest.takeWhile (fun c => c != d),
    rest.drop ((rest.takeWhile (fun c => c != d)).length + 1), ?_, hnot, ?_⟩
  · unfold getline
    cases rest with
    | nil => exact absurd rfl hne
    | cons c r => simp
  · cases hdw : rest.dropWhile (fun c => c != d) with
    | nil =>
      left
      rw [hdw, List.append_nil] at hsplit
      refine ⟨hsplit.symm, ?_⟩
      rw [hsplit]
      simp
    | cons c r =>
      right
      have hc : c = d := by
        have := List.head_dropWhile_not (fun c => c != d) rest (by rw [hdw]; simp)
        simp only [hdw, List.head_cons] at this
        simpa using this
      subst hc
      rw [hdw] at hsplit
      generalize rest.takeWhile (fun x => x != c) = tw at hsplit ⊢
      subst hsplit
      simp

theorem joinWith_cons (d : Char) (t : List Char) (ts : List (List Char)) (hts : ts ≠ []) :
    joinWith d (t :: ts) = t ++ d :: joinWith d ts := by
  cases ts with
  | nil => exact absurd rfl hts
  | cons a b => rfl

/-- The tokens of the loop of `Split` on the rest of the stream. -/
theorem splitLoop_spec (d : Char) :
    ∀ (fuel : Nat) (rest : List Char), rest.length ≤ fuel →
      (∀ t ∈ splitLoop d fuel rest [], d ∉ t) ∧
      joinWith d (splitLoop d fuel rest [])
        = (if rest.getLast? = some d then rest.dropLast else rest) ∧
      (rest ≠ [] → splitLoop d fuel rest [] ≠ []) := by
  intro fuel
  induction fuel with
  | zero =>
    intro rest h
    have : rest = [] := List.eq_nil_of_length_eq_zero (by omega)
    subst this
    simp [splitLoop, joinWith]
  | succ fuel ih =>
    intro rest h
    by_cases hne : rest = []
    · subst hne
      simp [splitLoop, getline, joinWith]
    · obtain ⟨token, left, hg, hnot, hcase⟩ := getline_spec rest d hne
      simp only [splitLoop, hg]
      rw [splitLoop_acc]
      rcases hcase with ⟨h1, h2⟩ | h1
      · -- no delimiter is left
        subst h2
        have hl : splitLoop d fuel [] [] = [] := by
          cases fuel <;> simp [splitLoop, getline]
        rw [hl]
        refine ⟨by simpa using hnot, ?_, by simp⟩
        have hlast : token.getLast? ≠ some d := by
          intro hl'
          exact hnot (List.mem_of_getLast?_eq_some hl')
        subst h1
        simp [joinWith, hlast]
      · have hlen : left.length ≤ fuel := by
          rw [h1] at h
          simp at h
          omega
        obtain ⟨i1, i2, i3⟩ := ih left hlen
        refine ⟨?_, ?_, by simp⟩
        · intro t ht
          simp only [List.nil_append, List.cons_append, List.mem_cons] at ht
          rcases ht with rfl | ht
          · exact hnot
          · exact i1 t ht
        · simp only [List.nil_append, List.cons_append]
          by_cases hleft : left = []
          · subst hleft
            have hl : splitLoop d fuel [] [] = [] := by
              cases fuel <;> simp [splitLoop, getline]
            rw [hl, h1]
            simp [joinWith]
          · rw [joinWith_cons d token _ (i3 hleft), i2, h1]
            have e1 : (token ++ d :: left).getLast? = left.getLast? := by
              cases left with
              | nil => exact absurd rfl hleft
              | cons a b =>
                rw [List.getLast?_append, List.getLast?_cons_cons,
                  List.getLast?_eq_getLast (a :: b) (by simp)]
                rfl
            have e2 : (token ++ d :: left).dropLast = token ++ d :: left.dropLast := by
              cases left with
              | nil => exact absurd rfl hleft
              | cons a b => rw [List.dropLast_append_cons]; rfl
            rw [e1, e2]
            split <;> rfl

/-- The function `rotl` is the circular shift of `N`-bit words: bit `i` of the
result is bit `i - k` (modulo `N`) of the argument. -/
theorem rotl_testBit (N x k i : Nat) (hx : x < 2 ^ N) (hk : 0 < k) (hkN : k < N) :
    (rotl N x k).testBit i = (decide (i < N) && x.testBit ((i + N - k) % N)) := by
  unfold rotl
  rw [Nat.testBit_or, Nat.testBit_mod_two_pow, Nat.testBit_shiftLeft, Nat.testBit_shiftRight]
  by_cases h1 : i < N
  · by_cases h2 : k ≤ i
    · have e : (i + N - k) % N = i - k := by
        have : i + N - k = (i - k) + N := by omega
        rw [this, Nat.add_mod_right, Nat.mod_eq_of_lt (by omega)]
      have hhigh : x.testBit (N - k + i) = false :=
        Nat.testBit_lt_two_pow (Nat.lt_of_lt_of_le hx (Nat.pow_le_pow_right (by decide) (by omega)))
      rw [e, hhigh]
      simp [h1, h2]
    · have e : (i + N - k) % N = N - k + i := by
        rw [Nat.mod_eq_of_lt (by omega)]
        omega
      rw [e]
      simp [h1, h2]
  · have hhigh : x.testBit (N - k + i) = false :=
      Nat.testBit_lt_two_pow (Nat.lt_of_lt_of_le hx (Nat.pow_le_pow_right (by decide) (by omega)))
    rw [hhigh]
    simp [h1]

theorem rotl_lt (N x k : Nat) (hx : x < 2 ^ N) : rotl N x k < 2 ^ N := by
  unfold rotl
  apply Nat.or_lt_two_pow
  · exact Nat.mod_lt _ (Nat.two_pow_pos N)
  · rw [Nat.shiftRight_eq_div_pow]
    exact Nat.lt_of_le_of_lt (Nat.div_le_self _ _) hx

theorem xor_cancel_right (x y : Nat) : (x ^^^ y) ^^^ y = x := by
  rw [Nat.xor_assoc, Nat.xor_self, Nat.xor_zero]

theorem prng32_eq (N : Nat) (g : JsfRand) (e a b c d : Nat)
    (he : e = (g.a + 2 ^ 32 - rotl N g.b 27 % 2 ^ 32) % 2 ^ 32)
    (ha : a = (g.b ^^^ rotl N g.c 17) % 2 ^ 32) (hb : b = (g.c + g.d) % 2 ^ 32)
    (hc : c = (g.d + e) % 2 ^ 32) (hd : d = (e + a) % 2 ^ 32) :
    JsfRand.prng32 N g = (d, { a := a, b := b, c := c, d := d }) := by
  subst he ha hb hc hd
  rfl

theorem prev32_eq (N : Nat) (g : JsfRand) (e a b c d : Nat)
    (he : e = (g.d + 2 ^ 32 - g.a % 2 ^ 32) % 2 ^ 32)
    (hd : d = (g.c + 2 ^ 32 - e % 2 ^ 32) % 2 ^ 32)
    (hc : c = (g.b + 2 ^ 32 - d % 2 ^ 32) % 2 ^ 32)
    (hb : b = (g.a ^^^ rotl N c 17) % 2 ^ 32) (ha : a = (e + rotl N b 27) % 2 ^ 32) :
    JsfRand.prev32 N g = { a := a, b := b, c := c, d := d } := by
  subst he hd hc hb ha
  rfl

theorem prng64_eq (N : Nat) (g : JsfRand) (e a b c d : Nat)
    (he : e = (g.a + 2 ^ 64 - rotl N g.b 7 % 2 ^ 64) % 2 ^ 64)
    (ha : a = (g.b ^^^ rotl N g.c 13) % 2 ^ 64)
    (hb : b = (g.c + rotl N g.d 37) % 2 ^ 64)
    (hc : c = (g.d + e) % 2 ^ 64) (hd : d = (e + a) % 2 ^ 64) :
    JsfRand.prng64 N g = (d, { a := a, b := b, c := c, d := d }) := by
  subst he ha hb hc hd
  rfl

theorem prev64_eq (N : Nat) (g : JsfRand) (e a b c d : Nat)
    (he : e = (g.d + 2 ^ 64 - g.a % 2 ^ 64) % 2 ^ 64)
    (hd : d = (g.c + 2 ^ 64 - e % 2 ^ 64) % 2 ^ 64)
    (hc : c = (g.b + 2 ^ 64 - rotl N d 37 % 2 ^ 64) % 2 ^ 64)
    (hb : b = (g.a ^^^ rotl N c 13) % 2 ^ 64) (ha : a = (e + rotl N b 7) % 2 ^ 64) :
    JsfRand.prev64 N g = { a := a, b := b, c := c, d := d } := by
  subst he hd hc hb ha
  rfl

/-- The step of the 32-bit generator and `prev32` undo each other on 32-bit
words. -/
theorem prng32_prev32 (g : JsfRand) (h : JsfRand.Valid 32 g) :
    JsfRand.Valid 32 (JsfRand.prng32 32 g).2 ∧
    JsfRand.prev32 32 (JsfRand.prng32 32 g).2 = g ∧
    JsfRand.Valid 32 (JsfRand.prev32 32 g) ∧
    (JsfRand.prng32 32 (JsfRand.prev32 32 g)).2 = g := by
  obtain ⟨a, b, c, d⟩ := g
  obtain ⟨ha, hb, hc, hd⟩ := h
  simp only at ha hb hc hd
  refine ⟨⟨Nat.mod_lt _ (by decide), Nat.mod_lt _ (by decide), Nat.mod_lt _ (by decide),
    Nat.mod_lt _ (by decide)⟩, ?_, ⟨Nat.mod_lt _ (by decide), Nat.mod_lt _ (by decide),
    Nat.mod_lt _ (by decide), Nat.mod_lt _ (by decide)⟩, ?_⟩
  · have hrb := rotl_lt 32 b 27 hb
    have hrc := rotl_lt 32 c 17 hc
    have hx : b ^^^ rotl 32 c 17 < 2 ^ 32 := Nat.xor_lt_two_pow hb hrc
    apply prev32_eq 32 _ ((a + 2 ^ 32 - rotl 32 b 27 % 2 ^ 32) % 2 ^ 32) a b c d
    · show (a + 2 ^ 32 - rotl 32 b 27 % 2 ^ 32) % 2 ^ 32
        = (((a + 2 ^ 32 - rotl 32 b 27 % 2 ^ 32) % 2 ^ 32
            + (b ^^^ rotl 32 c 17) % 2 ^ 32) % 2 ^ 32 + 2 ^ 32
          - (b ^^^ rotl 32 c 17) % 2 ^ 32 % 2 ^ 32) % 2 ^ 32
      omega
    · show d = ((d + (a + 2 ^ 32 - rotl 32 b 27 % 2 ^ 32) % 2 ^ 32) % 2 ^ 32 + 2 ^ 32
        - (a + 2 ^ 32 - rotl 32 b 27 % 2 ^ 32) % 2 ^ 32 % 2 ^ 32) % 2 ^ 32
      omega
    · show c = ((c + d) % 2 ^ 32 + 2 ^ 32 - d % 2 ^ 32) % 2 ^ 32
      omega
    · show b = ((b ^^^ rotl 32 c 17) % 2 ^ 32 ^^^ rotl 32 c 17) % 2 ^ 32
      rw [Nat.mod_eq_of_lt hx, xor_cancel_right, Nat.mod_eq_of_lt hb]
    · omega
  · have hE : (d + 2 ^ 32 - a % 2 ^ 32) % 2 ^ 32 < 2 ^ 32 := Nat.mod_lt _ (by decide)
    generalize hEe : (d + 2 ^ 32 - a % 2 ^ 32) % 2 ^ 32 = E at hE
    have hD : (c + 2 ^ 32 - E % 2 ^ 32) % 2 ^ 32 < 2 ^ 32 := Nat.mod_lt _ (by decide)
    generalize hDe : (c + 2 ^ 32 - E % 2 ^ 32) % 2 ^ 32 = D at hD
    have hC : (b + 2 ^ 32 - D % 2 ^ 32) % 2 ^ 32 < 2 ^ 32 := Nat.mod_lt _ (by decide)
    generalize hCe : (b + 2 ^ 32 - D % 2 ^ 32) % 2 ^ 32 = C at hC
    have hrc := rotl_lt 32 C 17 hC
    have hB : a ^^^ rotl 32 C 17 < 2 ^ 32 := Nat.xor_lt_two_pow ha hrc
    have hrb := rotl_lt 32 (a ^^^ rotl 32 C 17) 27 hB
    have hprev : JsfRand.prev32 32 { a := a, b := b, c := c, d := d }
        = { a := (E + rotl 32 (a ^^^ rotl 32 C 17) 27) % 2 ^ 32, b := a ^^^ rotl 32 C 17,
            c := C, d := D } :=
      prev32_eq 32 _ E _ _ C D hEe.symm hDe.symm hCe.symm (Nat.mod_eq_of_lt hB).symm rfl
    rw [hprev]
    have hstep := prng32_eq 32
      { a := (E + rotl 32 (a ^^^ rotl 32 C 17) 27) % 2 ^ 32, b := a ^^^ rotl 32 C 17,
        c := C, d := D } E a b c d
      (by show E = ((E + rotl 32 (a ^^^ rotl 32 C 17) 27) % 2 ^ 32 + 2 ^ 32
            - rotl 32 (a ^^^ rotl 32 C 17) 27 % 2 ^ 32) % 2 ^ 32
          omega)
      (by show a = (a ^^^ rotl 32 C 17 ^^^ rotl 32 C 17) % 2 ^ 32
          rw [xor_cancel_right, Nat.mod_eq_of_lt ha])
      (by show b = (C + D) % 2 ^ 32
          omega)
      (by show c = (D + E) % 2 ^ 32
          omega)
      (by omega)
    rw [hstep]

/-- The step of the 64-bit generator and `prev64` undo each other on 64-bit
words. -/
theorem prng64_prev64 (g : JsfRand) (h : JsfRand.Valid 64 g) :
    JsfRand.Valid 64 (JsfRand.prng64 64 g).2 ∧
    JsfRand.prev64 64 (JsfRand.prng64 64 g).2 = g ∧
    JsfRand.Valid 64 (JsfRand.prev64 64 g) ∧
    (JsfRand.prng64 64 (JsfRand.prev64 64 g)).2 = g := by
  obtain ⟨a, b, c, d⟩ := g
  obtain ⟨ha, hb, hc, hd⟩ := h
  simp only at ha hb hc hd
  refine ⟨⟨Nat.mod_lt _ (by decide), Nat.mod_lt _ (by decide), Nat.mod_lt _ (by decide),
    Nat.mod_lt _ (by decide)⟩, ?_, ⟨Nat.mod_lt _ (by decide), Nat.mod_lt _ (by decide),
    Nat.mod_lt _ (by decide), Nat.mod_lt _ (by decide)⟩, ?_⟩
  · have hrb := rotl_lt 64 b 7 hb
    have hrc := rotl_lt 64 c 13 hc
    have hrd := rotl_lt 64 d 37 hd
    have hx : b ^^^ rotl 64 c 13 < 2 ^ 64 := Nat.xor_lt_two_pow hb hrc
    apply prev64_eq 64 _ ((a + 2 ^ 64 - rotl 64 b 7 % 2 ^ 64) % 2 ^ 64) a b c d
    · show (a + 2 ^ 64 - rotl 64 b 7 % 2 ^ 64) % 2 ^ 64
        = (((a + 2 ^ 64 - rotl 64 b 7 % 2 ^ 64) % 2 ^ 64
            + (b ^^^ rotl 64 c 13) % 2 ^ 64) % 2 ^ 64 + 2 ^ 64
          - (b ^^^ rotl 64 c 13) % 2 ^ 64 % 2 ^ 64) % 2 ^ 64
      omega
    · show d = ((d + (a + 2 ^ 64 - rotl 64 b 7 % 2 ^ 64) % 2 ^ 64) % 2 ^ 64 + 2 ^ 64
        - (a + 2 ^ 64 - rotl 64 b 7 % 2 ^ 64) % 2 ^ 64 % 2 ^ 64) % 2 ^ 64
      omega
    · show c = ((c + rotl 64 d 37) % 2 ^ 64 + 2 ^ 64 - rotl 64 d 37 % 2 ^ 64) % 2 ^ 64
      omega
    · show b = ((b ^^^ rotl 64 c 13) % 2 ^ 64 ^^^ rotl 64 c 13) % 2 ^ 64
      rw [Nat.mod_eq_of_lt hx, xor_cancel_right, Nat.mod_eq_of_lt hb]
    · omega
  · have hE : (d + 2 ^ 64 - a % 2 ^ 64) % 2 ^ 64 < 2 ^ 64 := Nat.mod_lt _ (by decide)
    generalize hEe : (d + 2 ^ 64 - a % 2 ^ 64) % 2 ^ 64 = E at hE
    have hD : (c + 2 ^ 64 - E % 2 ^ 64) % 2 ^ 64 < 2 ^ 64 := Nat.mod_lt _ (by decide)
    generalize hDe : (c + 2 ^ 64 - E % 2 ^ 64) % 2 ^ 64 = D at hD
    have hrd := rotl_lt 64 D 37 hD
    have hC : (b + 2 ^ 64 - rotl 64 D 37 % 2 ^ 64) % 2 ^ 64 < 2 ^ 64 :=
      Nat.mod_lt _ (by decide)
    generalize hCe : (b + 2 ^ 64 - rotl 64 D 37 % 2 ^ 64) % 2 ^ 64 = C at hC
    have hrc := rotl_lt 64 C 13 hC
    have hB : a ^^^ rotl 64 C 13 < 2 ^ 64 := Nat.xor_lt_two_pow ha hrc
    have hrb := rotl_lt 64 (a ^^^ rotl 64 C 13) 7 hB
    have hprev : JsfRand.prev64 64 { a := a, b := b, c := c, d := d }
        = { a := (E + rotl 64 (a ^^^ rotl 64 C 13) 7) % 2 ^ 64, b := a ^^^ rotl 64 C 13,
            c := C, d := D } :=
      prev64_eq 64 _ E _ _ C D hEe.symm hDe.symm hCe.symm (Nat.mod_eq_of_lt hB).symm rfl
    rw [hprev]
    have hstep := prng64_eq 64
      { a := (E + rotl 64 (a ^^^ rotl 64 C 13) 7) % 2 ^ 64, b := a ^^^ rotl 64 C 13,
        c := C, d := D } E a b c d
      (by show E = ((E + rotl 64 (a ^^^ rotl 64 C 13) 7) % 2 ^ 64 + 2 ^ 64
            - rotl 64 (a ^^^ rotl 64 C 13) 7 % 2 ^ 64) % 2 ^ 64
          omega)
      (by show a = (a ^^^ rotl 64 C 13 ^^^ rotl 64 C 13) % 2 ^ 64
          rw [xor_cancel_right, Nat.mod_eq_of_lt ha])
      (by show b = (C + rotl 64 D 37) % 2 ^ 64
          omega)
      (by show c = (D + E) % 2 ^ 64
          omega)
      (by omega)
    rw [hstep]

end UtilFacts

/-! ## Facts about the breadth-first creator -/

section BalancedFacts

namespace Balanced

variable {R S : Type}

theorem setChildIndex_length (t : List (Node S × Nat × Nat)) (i c : Nat) :
    (setChildIndex t i c).length = t.length := by
  unfold setChildIndex
  split <;> simp

theorem setChildIndex_ne (t : List (Node S × Nat × Nat)) (i c k : Nat) (h : k ≠ i) :
    (setChildIndex t i c)[k]? = t[k]? := by
  unfold setChildIndex
  split
  · rw [List.getElem?_set_ne (Ne.symm h)]
  · rfl

theorem setChildIndex_eq (t : List (Node S × Nat × Nat)) (i c : Nat)
    (u : Node S × Nat × Nat) (h : t[i]? = some u) :
    (setChildIndex t i c)[i]? = some (u.1, u.2.1, c) := by
  have hi : i < t.length := (List.getElem?_eq_some_iff.1 h).1
  unfold setChildIndex
  rw [h]
  simp [List.getElem?_set, hi]

theorem setChildIndex_arities (t : List (Node S × Nat × Nat)) (i c : Nat) :
    arities (setChildIndex t i c) = arities t := by
  apply List.ext_getElem?
  intro k
  unfold arities
  rw [List.getElem?_map, List.getElem?_map]
  by_cases hk : k = i
  · subst hk
    cases h : t[k]? with
    | none => 
      have : setChildIndex t k c = t := by unfold setChildIndex; rw [h]
      rw [this, h]
    | some u => rw [setChildIndex_eq t k c u h]; rfl
  · rw [setChildIndex_ne t i c k hk]

theorem setChildIndex_depths (t : List (Node S × Nat × Nat)) (i c : Nat) :
    depths (setChildIndex t i c) = depths t := by
  apply List.ext_getElem?
  intro k
  unfold depths
  rw [List.getElem?_map, List.getElem?_map]
  by_cases hk : k = i
  · subst hk
    cases h : t[k]? with
    | none => 
      have : setChildIndex t k c = t := by unfold setChildIndex; rw [h]
      rw [this, h]
    | some u => rw [setChildIndex_eq t k c u h]; rfl
  · rw [setChildIndex_ne t i c k hk]

/-- What the inner loop does to `tuples`: it appends `remaining` children of
depth `childDepth`, and records the index of the first one in the tuple at
`i` when it starts at `j = 0`. -/
theorem childLoop_tuples (env : BalancedEnv R S) (targetLen maxDepth i childDepth : Nat) :
    ∀ (remaining j : Nat) (st : GrowState R S), i < st.tuples.length →
      ∃ cs : List Nat, cs.length = remaining ∧
        arities (childLoop env targetLen maxDepth i childDepth remaining j st).tuples
          = arities st.tuples ++ cs ∧
        depths (childLoop env targetLen maxDepth i childDepth remaining j st).tuples
          = depths st.tuples ++ List.replicate remaining childDepth ∧
        (∀ k, k < st.tuples.length → k ≠ i →
          (childLoop env targetLen maxDepth i childDepth remaining j st).tuples[k]?
            = st.tuples[k]?) ∧
        ∀ u, st.tuples[i]? = some u →
          (childLoop env targetLen maxDepth i childDepth remaining j st).tuples[i]?
            = some (u.1, u.2.1, if j = 0 ∧ 0 < remaining then st.tuples.length else u.2.2) := by
  intro remaining
  induction remaining with
  | zero =>
    intro j st _
    refine ⟨[], rfl, by simp [childLoop], by simp [childLoop], fun _ _ _ => rfl, ?_⟩
    intro u hu
    simp [childLoop, hu]
  | succ remaining ih =>
    intro j st hi
    have hlen1 : (if j = 0 then setChildIndex st.tuples i st.tuples.length
        else st.tuples).length = st.tuples.length := by
      split
      · exact setChildIndex_length _ _ _
      · rfl
    have har1 : arities (if j = 0 then setChildIndex st.tuples i st.tuples.length
        else st.tuples) = arities st.tuples := by
      split
      · exact setChildIndex_arities _ _ _
      · rfl
    have hde1 : depths (if j = 0 then setChildIndex st.tuples i st.tuples.length
        else st.tuples) = depths st.tuples := by
      split
      · exact setChildIndex_depths _ _ _
      · rfl
    have htu : (childStep env targetLen maxDepth i childDepth j st).tuples
        = (if j = 0 then setChildIndex st.tuples i st.tuples.length else st.tuples)
          ++ [((drawChild env targetLen maxDepth childDepth st).1, childDepth, 0)] := rfl
    have hlen : (childStep env targetLen maxDepth i childDepth j st).tuples.length
        = st.tuples.length + 1 := by
      rw [htu, List.length_append, hlen1]
      rfl
    obtain ⟨cs, hcs, ha, hd, hk, hu⟩ :=
      ih (j + 1) (childStep env targetLen maxDepth i childDepth j st) (by omega)
    refine ⟨(drawChild env targetLen maxDepth childDepth st).1.Arity :: cs, by simp [hcs],
      ?_, ?_, ?_, ?_⟩
    · simp only [childLoop]
      rw [ha, htu]
      simp only [arities, List.map_append, List.map_cons, List.map_nil] at har1 ⊢
      rw [har1]
      simp
    · simp only [childLoop]
      rw [hd, htu]
      simp only [depths, List.map_append, List.map_cons, List.map_nil] at hde1 ⊢
      rw [hde1, List.replicate_succ]
      simp
    · intro k hkn hki
      simp only [childLoop]
      rw [hk k (by omega) hki, htu, List.getElem?_append_left (by omega)]
      split
      · exact setChildIndex_ne _ _ _ _ hki
      · rfl
    · intro u hui
      simp only [childLoop]
      by_cases hj : j = 0
      · have h1 : (childStep env targetLen maxDepth i childDepth j st).tuples[i]?
            = some (u.1, u.2.1, st.tuples.length) := by
          rw [htu, List.getElem?_append_left (by omega), if_pos hj]
          exact setChildIndex_eq _ _ _ _ hui
        rw [hu _ h1]
        simp [hj]
      · have h1 : (childStep env targetLen maxDepth i childDepth j st).tuples[i]?
            = some u := by
          rw [htu, List.getElem?_append_left (by omega), if_neg hj]
          exact hui
        rw [hu _ h1]
        simp [hj]

theorem arities_length (t : List (Node S × Nat × Nat)) : (arities t).length = t.length := by
  simp [arities]

theorem depths_length (t : List (Node S × Nat × Nat)) : (depths t).length = t.length := by
  simp [depths]

theorem depths_getD (t : List (Node S × Nat × Nat)) (i : Nat) (u : Node S × Nat × Nat)
    (h : t[i]? = some u) : (depths t).getD i 0 = u.2.1 := by
  simp [depths, List.getD_eq_getElem?_getD, List.getElem?_map, h]

theorem arities_getElem (t : List (Node S × Nat × Nat)) (i : Nat) (u : Node S × Nat × Nat)
    (h : t[i]? = some u) (hi : i < (arities t).length) : (arities t)[i] = u.1.Arity := by
  have : (arities t)[i]? = some u.1.Arity := by
    simp [arities, List.getElem?_map, h]
  rw [List.getElem?_eq_getElem hi] at this
  exact Option.some.inj this

theorem take_sum_mono (l : List Nat) (k m : Nat) (h : k ≤ m) :
    (l.take k).sum ≤ (l.take m).sum := by
  induction m with
  | zero =>
    have : k = 0 := by omega
    subst this
    exact Nat.le_refl _
  | succ m ih =>
    by_cases hk : k = m + 1
    · subst hk
      exact Nat.le_refl _
    · by_cases hm : m < l.length
      · rw [List.sum_take_succ l m hm]
        exact Nat.le_trans (ih (by omega)) (Nat.le_add_right _ _)
      · have e1 : l.take (m + 1) = l := List.take_of_length_le (by omega)
        have e2 : l.take m = l := List.take_of_length_le (by omega)
        rw [e1]
        rw [e2] at ih
        exact ih (by omega)

theorem getD_replicate_right (l : List Nat) (m v k : Nat) (h1 : l.length ≤ k)
    (h2 : k < l.length + m) : (l ++ List.replicate m v).getD k 0 = v := by
  rw [List.getD_append_right l _ 0 k h1]
  simp [List.getD_eq_getElem?_getD, List.getElem?_replicate, show k - l.length < m by omega]

/-- One iteration of the outer loop keeps the layout. -/
theorem childLoop_layout (env : BalancedEnv R S) (targetLen maxDepth i : Nat)
    (st : GrowState R S) (u : Node S × Nat × Nat) (hu : st.tuples[i]? = some u)
    (hinv : LayoutInv i st.tuples) :
    LayoutInv (i + 1)
      (childLoop env targetLen maxDepth i (u.2.1 + 1) u.1.Arity 0 st).tuples := by
  have hi : i < st.tuples.length := (List.getElem?_eq_some_iff.1 hu).1
  obtain ⟨cs, hcs, ha, hd, hk, hui⟩ :=
    childLoop_tuples env targetLen maxDepth i (u.2.1 + 1) u.1.Arity 0 st hi
  have hui := hui u hu
  generalize (childLoop env targetLen maxDepth i (u.2.1 + 1) u.1.Arity 0 st).tuples = t'
    at ha hd hk hui ⊢
  obtain ⟨_, h1, h3, h4, h5, h6⟩ := hinv
  have hAl := arities_length st.tuples
  have hDl := depths_length st.tuples
  have hn' : t'.length = st.tuples.length + u.1.Arity := by
    rw [← arities_length t', ha, List.length_append, hcs, hAl]
  have htake : ∀ k, k ≤ st.tuples.length →
      (arities t').take k = (arities st.tuples).take k := by
    intro k hkn
    rw [ha]
    exact List.take_append_of_le_length (by omega)
  have hsucc : ((arities st.tuples).take (i + 1)).sum
      = ((arities st.tuples).take i).sum + u.1.Arity := by
    rw [List.sum_take_succ _ i (by omega), arities_getElem st.tuples i u hu (by omega)]
  have hDold : ∀ c, c < st.tuples.length →
      (depths t').getD c 0 = (depths st.tuples).getD c 0 := by
    intro c hc
    rw [hd]
    exact List.getD_append _ _ 0 c (by omega)
  have hDnew : ∀ c, st.tuples.length ≤ c → c < t'.length →
      (depths t').getD c 0 = u.2.1 + 1 := by
    intro c hc1 hc2
    rw [hd]
    exact getD_replicate_right _ _ _ _ (by omega) (by omega)
  have hDi : (depths st.tuples).getD i 0 = u.2.1 := depths_getD _ _ _ hu
  refine ⟨by omega, ?_, ?_, ?_, ?_, ?_⟩
  · rw [htake (i + 1) (by omega), hsucc]
    omega
  · intro k v hki hv hpos
    rw [htake k (by omega)]
    by_cases hk' : k = i
    · subst hk'
      rw [hui] at hv
      have hv := Option.some.inj hv
      subst hv
      simp only at hpos ⊢
      rw [if_pos ⟨trivial, hpos⟩]
      exact ⟨hi, h1⟩
    · rw [hk k (by omega) hk'] at hv
      exact h3 k v (by omega) hv hpos
  · intro k c hki hc1 hc2
    rw [htake k (by omega)] at hc1
    rw [htake (k + 1) (by omega)] at hc2
    by_cases hk' : k = i
    · subst hk'
      rw [hDnew c (by omega) (by omega), hDold k hi, hDi]
    · have hm := take_sum_mono (arities st.tuples) (k + 1) i (by omega)
      rw [hDold c (by omega), hDold k (by omega)]
      exact h4 k c (by omega) hc1 hc2
  · intro x y hxy hy
    by_cases hyn : y < st.tuples.length
    · rw [hDold x (by omega), hDold y hyn]
      exact h5 x y hxy hyn
    · rw [hDnew y (by omega) hy]
      by_cases hxn : x < st.tuples.length
      · rw [hDold x hxn]
        have := h6 x i hxn (Nat.le_refl _) hi
        omega
      · rw [hDnew x (by omega) (by omega)]
  · intro c k hc hik hkn
    by_cases hcn : c < st.tuples.length
    · rw [hDold c hcn]
      by_cases hkn' : k < st.tuples.length
      · rw [hDold k hkn']
        exact h6 c k hcn (by omega) hkn'
      · rw [hDnew k (by omega) hkn]
        have := h6 c i hcn (Nat.le_refl _) hi
        omega
    · rw [hDnew c (by omega) hc]
      by_cases hkn' : k < st.tuples.length
      · rw [hDold k hkn']
        have := h5 i k (by omega) hkn'
        omega
      · rw [hDnew k (by omega) hkn]
        omega

theorem growInit_arity (env : BalancedEnv R S) (node : Node S) (random : R) :
    (init env node random).1.Arity = node.Arity := by
  unfold init
  split
  · split <;> rfl
  · rfl

theorem drawChild_arity (env : BalancedEnv R S)
    (hsample : ∀ r lo hi, (env.SampleRandomSymbol r lo hi).1.Arity ≤ hi)
    (targetLen maxDepth childDepth : Nat) (st : GrowState R S) :
    (drawChild env targetLen maxDepth childDepth st).1.Arity
      ≤ childMaxArity env targetLen maxDepth childDepth st := by
  unfold drawChild
  simp only [growInit_arity]
  exact hsample _ _ _

theorem growChildMaxArity_le (env : BalancedEnv R S) (targetLen maxDepth childDepth : Nat)
    (st : GrowState R S) (hle : st.openSlots ≤ targetLen) (hlt : targetLen < 2 ^ 64) :
    childMaxArity env targetLen maxDepth childDepth st ≤ targetLen - st.openSlots := by
  unfold childMaxArity
  split
  · exact Nat.zero_le _
  · rw [subSizeT_of_le _ _ hlt hle]
    exact Nat.min_le_right _ _

theorem childStep_arities (env : BalancedEnv R S) (targetLen maxDepth i childDepth j : Nat)
    (st : GrowState R S) :
    arities (childStep env targetLen maxDepth i childDepth j st).tuples
      = arities st.tuples ++ [(drawChild env targetLen maxDepth childDepth st).1.Arity] := by
  have htu : (childStep env targetLen maxDepth i childDepth j st).tuples
      = (if j = 0 then setChildIndex st.tuples i st.tuples.length else st.tuples)
        ++ [((drawChild env targetLen maxDepth childDepth st).1, childDepth, 0)] := rfl
  have har1 : arities (if j = 0 then setChildIndex st.tuples i st.tuples.length
      else st.tuples) = arities st.tuples := by
    split
    · exact setChildIndex_arities _ _ _
    · rfl
  rw [htu]
  simp only [arities, List.map_append, List.map_cons, List.map_nil] at har1 ⊢
  rw [har1]

/-- A step of the inner loop keeps the count of the open slots. -/
theorem childStep_slots (env : BalancedEnv R S)
    (hsample : ∀ r lo hi, (env.SampleRandomSymbol r lo hi).1.Arity ≤ hi)
    (targetLen maxDepth i childDepth j : Nat) (hlt : targetLen < 2 ^ 64)
    (st : GrowState R S) (hinv : SlotsInv targetLen st) :
    SlotsInv targetLen (childStep env targetLen maxDepth i childDepth j st) := by
  obtain ⟨h1, h2⟩ := hinv
  have ha := Nat.le_trans (drawChild_arity env hsample targetLen maxDepth childDepth st)
    (growChildMaxArity_le env targetLen maxDepth childDepth st h2 hlt)
  have hopen : (childStep env targetLen maxDepth i childDepth j st).openSlots
      = st.openSlots + (drawChild env targetLen maxDepth childDepth st).1.Arity := by
    show addSizeT _ _ = _
    unfold addSizeT
    exact Nat.mod_eq_of_lt (by omega)
  refine ⟨?_, ?_⟩
  · rw [hopen, childStep_arities, h1]
    simp
  · rw [hopen]
    omega

theorem childLoop_slots (env : BalancedEnv R S)
    (hsample : ∀ r lo hi, (env.SampleRandomSymbol r lo hi).1.Arity ≤ hi)
    (targetLen maxDepth i childDepth : Nat) (hlt : targetLen < 2 ^ 64) :
    ∀ (remaining j : Nat) (st : GrowState R S), SlotsInv targetLen st →
      SlotsInv targetLen (childLoop env targetLen maxDepth i childDepth remaining j st) := by
  intro remaining
  induction remaining with
  | zero => intro j st h; exact h
  | succ remaining ih =>
    intro j st h
    exact ih (j + 1) _ (childStep_slots env hsample targetLen maxDepth i childDepth j hlt st h)

/-- Induction over the iterations of the outer loop. -/
theorem growLoop_induct (env : BalancedEnv R S) (targetLen maxDepth : Nat)
    (P : Nat → GrowState R S → Prop)
    (hstep : ∀ (i : Nat) (st : GrowState R S) (u : Node S × Nat × Nat), P i st →
      st.tuples[i]? = some u →
      P (i + 1) (childLoop env targetLen maxDepth i (u.2.1 + 1) u.1.Arity 0 st)) :
    ∀ (fuel i : Nat) (st st' : GrowState R S), P i st →
      growLoop env targetLen maxDepth fuel i st = some st' →
      ∃ i', P i' st' ∧ st'.tuples.length ≤ i' := by
  intro fuel
  induction fuel with
  | zero =>
    intro i st st' hP h
    simp only [growLoop] at h
    split at h
    · exact absurd h (by simp)
    · have := Option.some.inj h
      subst this
      exact ⟨i, hP, by omega⟩
  | succ fuel ih =>
    intro i st st' hP h
    simp only [growLoop] at h
    split at h
    · rename_i hnone
      have := Option.some.inj h
      subst this
      exact ⟨i, hP, List.getElem?_eq_none_iff.1 hnone⟩
    · rename_i u hu
      exact ih (i + 1) _ st' (hstep i st u hP hu) h

theorem take_sum_le (l : List Nat) (k : Nat) : (l.take k).sum ≤ l.sum := by
  have h := take_sum_mono l k (max k l.length) (Nat.le_max_left _ _)
  rw [List.take_of_length_le (Nat.le_max_right _ _)] at h
  exact h

/-- The outer loop ends within `1 + targetLen` iterations. -/
theorem growLoop_terminates (env : BalancedEnv R S)
    (hsample : ∀ r lo hi, (env.SampleRandomSymbol r lo hi).1.Arity ≤ hi)
    (targetLen maxDepth : Nat) (hlt : targetLen < 2 ^ 64) :
    ∀ (fuel i : Nat) (st : GrowState R S), LayoutInv i st.tuples → SlotsInv targetLen st →
      1 + targetLen ≤ i + fuel →
      ∃ st', growLoop env targetLen maxDepth fuel i st = some st' := by
  intro fuel
  induction fuel with
  | zero =>
    intro i st hL hS hf
    have h1 := hL.2.1
    have h2 := take_sum_le (arities st.tuples) i
    have h3 := hS.1
    have h4 := hS.2
    refine ⟨st, ?_⟩
    simp only [growLoop]
    rw [if_neg (by omega)]
  | succ fuel ih =>
    intro i st hL hS hf
    simp only [growLoop]
    cases hu : st.tuples[i]? with
    | none => exact ⟨st, rfl⟩
    | some u =>
      exact ih (i + 1) _ (childLoop_layout env targetLen maxDepth i st u hu hL)
        (childLoop_slots env hsample targetLen maxDepth i _ hlt _ _ _ hS) (by omega)

/-- The state before the growth loop has the layout of a root. -/
theorem growStart_layout (env : BalancedEnv R S) (random : R) (adjusted : Nat) :
    LayoutInv 0 (growStart env random adjusted).tuples := by
  have htu : (growStart env random adjusted).tuples
      = [((init env (env.SampleRandomSymbol random
            (min env.FunctionArityLimits.1 (subSizeT adjusted 1))
            (min env.FunctionArityLimits.2 (subSizeT adjusted 1))).1
          (env.SampleRandomSymbol random
            (min env.FunctionArityLimits.1 (subSizeT adjusted 1))
            (min env.FunctionArityLimits.2 (subSizeT adjusted 1))).2).1, 1, 1)] := rfl
  refine ⟨Nat.zero_le _, by rw [htu]; rfl, ?_, ?_, ?_, ?_⟩
  · intro k u hk; omega
  · intro k c hk; omega
  · intro x y hxy hy
    rw [htu] at hy
    simp only [List.length_singleton] at hy
    have hx : x = 0 := by omega
    have hy : y = 0 := by omega
    subst hx hy
    exact Nat.le_refl _
  · intro c k hc _ hk
    rw [htu] at hc hk
    simp only [List.length_singleton] at hc hk
    have hx : c = 0 := by omega
    have hy : k = 0 := by omega
    subst hx hy
    exact Nat.le_succ _

/-- The state before the growth loop counts the open slots of the root. -/
theorem growStart_slots (env : BalancedEnv R S)
    (hsample : ∀ r lo hi, (env.SampleRandomSymbol r lo hi).1.Arity ≤ hi)
    (random : R) (adjusted : Nat) :
    SlotsInv (subSizeT adjusted 1) (growStart env random adjusted) := by
  refine ⟨by simp [arities, growStart], ?_⟩
  show (init env _ _).1.Arity ≤ _
  rw [growInit_arity]
  exact Nat.le_trans (hsample _ _ _) (Nat.min_le_right _ _)

/-- A vector that satisfies the invariant at its end is a complete
breadth-first layout. -/
theorem LayoutInv_complete (t : List (Node S × Nat × Nat)) (h : LayoutInv t.length t) :
    BreadthFirstLayout t := by
  obtain ⟨_, h1, h3, h4, h5, _⟩ := h
  have hAl := arities_length t
  have hfull : (arities t).take t.length = arities t :=
    List.take_of_length_le (by omega)
  refine ⟨?_, ?_, ?_⟩
  · rw [hfull] at h1
    exact h1
  · intro x y u v hxy hu hv
    have hy : y < t.length := (List.getElem?_eq_some_iff.1 hv).1
    have := h5 x y hxy hy
    rw [depths_getD t x u hu, depths_getD t y v hv] at this
    exact this
  · intro i u hu hpos
    have hi : i < t.length := (List.getElem?_eq_some_iff.1 hu).1
    obtain ⟨hc1, hc2⟩ := h3 i u hi hu hpos
    have hsucc : ((arities t).take (i + 1)).sum = ((arities t).take i).sum + u.1.Arity := by
      rw [List.sum_take_succ _ i (by omega), arities_getElem t i u hu (by omega)]
    have hm := take_sum_mono (arities t) (i + 1) t.length (by omega)
    have hp : aritiesBefore t i = ((arities t).take i).sum := by
      simp [aritiesBefore, arities, List.map_take]
    refine ⟨hc1, by rw [hp]; exact hc2, by omega, ?_⟩
    intro c v hcl hcr hv
    have := h4 i c hi (by omega) (by omega)
    rw [depths_getD t c v hv, depths_getD t i u hu] at this
    exact this

/-- The parity correction moves the target by at most one and keeps it
positive. -/
theorem adjustTarget_spec (env : BalancedEnv R S) (random : R) (targetLen : Nat)
    (hpos : 0 < targetLen) (hlt : targetLen < 2 ^ 64) :
    1 ≤ (adjustTarget env random targetLen).1 ∧
      (adjustTarget env random targetLen).1 ≤ targetLen + 1 ∧
      (env.FunctionArityLimits.1 ≤ 1 ∨ targetLen % 2 = 1 ∨
          (env.bernoulliHalf random).1 = true →
        (adjustTarget env random targetLen).1 ≤ targetLen) := by
  unfold adjustTarget
  split
  · rename_i h
    have e1 : subSizeT targetLen 1 = targetLen - 1 := subSizeT_of_le _ _ (by omega) (by omega)
    have e2 : addSizeT targetLen 1 = targetLen + 1 := by
      unfold addSizeT
      exact Nat.mod_eq_of_lt (by omega)
    simp only [e1, e2]
    cases hcoin : (env.bernoulliHalf random).1
    · simp only [Bool.false_eq_true, if_false]
      refine ⟨by omega, Nat.le_refl _, ?_⟩
      intro hc
      rcases hc with hc | hc | hc
      · omega
      · omega
      · exact absurd hc (by simp)
    · simp only [if_true]
      exact ⟨by omega, by omega, fun _ => by omega⟩
  · exact ⟨hpos, by omega, fun _ => Nat.le_refl _⟩

/-- The corrected target is a `size_t` value. -/
theorem adjustTarget_lt (env : BalancedEnv R S) (random : R) (targetLen : Nat) :
    (adjustTarget env random targetLen).1 < 2 ^ 64 ∨
      (adjustTarget env random targetLen).1 = targetLen := by
  unfold adjustTarget
  split
  · left
    show (if (env.bernoulliHalf random).1 = true then subSizeT targetLen 1
      else addSizeT targetLen 1) < 2 ^ 64
    split
    · exact Nat.mod_lt _ (by decide)
    · exact Nat.mod_lt _ (by decide)
  · right
    rfl

/-- The vector `tuples` at the end of the growth loop is a complete
breadth-first layout. -/
theorem grow_layout (env : BalancedEnv R S) (random : R) (targetLen maxDepth fuel : Nat)
    (tuples : List (Node S × Nat × Nat))
    (h : grow env fuel random targetLen maxDepth = some tuples) :
    BreadthFirstLayout tuples := by
  unfold grow at h
  split at h
  · simp only [Option.map_eq_some'] at h
    obtain ⟨st', hrun, rfl⟩ := h
    obtain ⟨i', hP, hle⟩ := growLoop_induct env _ maxDepth
      (fun i st => LayoutInv i st.tuples)
      (fun i st u hP hu => childLoop_layout env _ maxDepth i st u hu hP)
      fuel 0 _ st' (growStart_layout env _ _) hrun
    have hi : i' = st'.tuples.length := Nat.le_antisymm hP.1 hle
    rw [hi] at hP
    exact LayoutInv_complete _ hP
  · exact absurd h (by simp)

/-- The vector `tuples` at the end of the growth loop has at most as many
entries as the parity-corrected target, when the sampler honours the upper end
of the arity window. -/
theorem grow_length (env : BalancedEnv R S)
    (hsample : ∀ r lo hi, (env.SampleRandomSymbol r lo hi).1.Arity ≤ hi)
    (random : R) (targetLen maxDepth fuel : Nat) (hlt : targetLen < 2 ^ 64)
    (tuples : List (Node S × Nat × Nat))
    (h : grow env fuel random targetLen maxDepth = some tuples) :
    tuples.length ≤ (adjustTarget env random targetLen).1 := by
  unfold grow at h
  split at h
  · rename_i hpos
    obtain ⟨ha1, ha2, _⟩ := adjustTarget_spec env random targetLen hpos hlt
    have ha4 : (adjustTarget env random targetLen).1 < 2 ^ 64 := by
      rcases adjustTarget_lt env random targetLen with h4 | h4 <;> omega
    have e1 : subSizeT (adjustTarget env random targetLen).1 1
        = (adjustTarget env random targetLen).1 - 1 :=
      subSizeT_of_le _ _ ha4 ha1
    simp only [Option.map_eq_some'] at h
    obtain ⟨st', hrun, rfl⟩ := h
    obtain ⟨i', ⟨hL, hS⟩, hle⟩ := growLoop_induct env _ maxDepth
      (fun i st => LayoutInv i st.tuples ∧
        SlotsInv (subSizeT (adjustTarget env random targetLen).1 1) st)
      (fun i st u hP hu => ⟨childLoop_layout env _ maxDepth i st u hu hP.1,
        childLoop_slots env hsample _ maxDepth i _ (by omega) _ _ _ hP.2⟩)
      fuel 0 _ st' ⟨growStart_layout env _ _, growStart_slots env hsample _ _⟩ hrun
    have h1 := hL.2.1
    have h2 := take_sum_le (arities st'.tuples) i'
    have h3 := hS.1
    have h4 := hS.2
    omega
  · exact absurd h (by simp)

/-- The growth loop ends within `targetLen + 1` iterations of the outer loop,
when the sampler honours the upper end of the arity window. -/
theorem grow_terminates (env : BalancedEnv R S)
    (hsample : ∀ r lo hi, (env.SampleRandomSymbol r lo hi).1.Arity ≤ hi)
    (random : R) (targetLen maxDepth fuel : Nat) (hpos : 0 < targetLen)
    (hlt : targetLen < 2 ^ 64) (hfuel : targetLen + 1 ≤ fuel) :
    ∃ tuples, grow env fuel random targetLen maxDepth = some tuples := by
  obtain ⟨ha1, ha2, _⟩ := adjustTarget_spec env random targetLen hpos hlt
  have ha4 : (adjustTarget env random targetLen).1 < 2 ^ 64 := by
    rcases adjustTarget_lt env random targetLen with h4 | h4 <;> omega
  have e1 : subSizeT (adjustTarget env random targetLen).1 1
      = (adjustTarget env random targetLen).1 - 1 :=
    subSizeT_of_le _ _ ha4 ha1
  obtain ⟨st', hrun⟩ := growLoop_terminates env hsample
    (subSizeT (adjustTarget env random targetLen).1 1) maxDepth (by omega) fuel 0 _
    (growStart_layout env (adjustTarget env random targetLen).2
      (adjustTarget env random targetLen).1)
    (growStart_slots env hsample _ _) (by omega)
  exact ⟨st'.tuples, by simp [grow, hpos, hrun]⟩

theorem UpdateNodes_length (nodes : List (Node S)) :
    (UpdateNodes nodes).length = nodes.length := by
  simpa [UpdateNodes] using updateLengths_length [] nodes

theorem UpdateNodes_arity (nodes : List (Node S)) :
    (UpdateNodes nodes).map (fun s => s.Arity) = nodes.map (fun s => s.Arity) := by
  simpa [UpdateNodes] using updateLengths_arity [] nodes

/-- A step of the inner loop keeps the node and the depth of the tuple at
`i`. -/
theorem childStep_keeps (env : BalancedEnv R S) (targetLen maxDepth i childDepth j : Nat)
    (st : GrowState R S) (u : Node S × Nat × Nat) (hu : st.tuples[i]? = some u) :
    ∃ u', (childStep env targetLen maxDepth i childDepth j st).tuples[i]? = some u' ∧
      u'.1 = u.1 ∧ u'.2.1 = u.2.1 := by
  have hi : i < st.tuples.length := (List.getElem?_eq_some_iff.1 hu).1
  have htu : (childStep env targetLen maxDepth i childDepth j st).tuples
      = (if j = 0 then setChildIndex st.tuples i st.tuples.length else st.tuples)
        ++ [((drawChild env targetLen maxDepth childDepth st).1, childDepth, 0)] := rfl
  rw [htu]
  by_cases hj : j = 0
  · rw [if_pos hj, List.getElem?_append_left (by rw [setChildIndex_length]; exact hi),
      setChildIndex_eq _ _ _ _ hu]
    exact ⟨_, rfl, rfl, rfl⟩
  · rw [if_neg hj, List.getElem?_append_left hi]
    exact ⟨u, hu, rfl, rfl⟩

/-- Induction over the iterations of the inner loop for the node at `i`, of
arity `a` and depth `d`: a property of the position `j` and the state that
every iteration keeps holds in every state in which a child is sampled and
after the loop. -/
theorem childLoop_steps (env : BalancedEnv R S) (targetLen maxDepth i a d : Nat)
    (P : Nat → GrowState R S → Prop)
    (hstep : ∀ (j : Nat) (st : GrowState R S) (u : Node S × Nat × Nat), P j st →
      st.tuples[i]? = some u → u.1.Arity = a → u.2.1 = d → j < a →
      P (j + 1) (childStep env targetLen maxDepth i (d + 1) j st)) :
    ∀ (remaining j : Nat) (st : GrowState R S) (u : Node S × Nat × Nat),
      st.tuples[i]? = some u → u.1.Arity = a → u.2.1 = d → j + remaining = a → P j st →
      P a (childLoop env targetLen maxDepth i (d + 1) remaining j st) ∧
      (∃ u', (childLoop env targetLen maxDepth i (d + 1) remaining j st).tuples[i]? = some u' ∧
        u'.1.Arity = a ∧ u'.2.1 = d) ∧
      ∀ p ∈ childLoopStates env targetLen maxDepth i (d + 1) remaining j st,
        p.1 = d + 1 ∧ ∃ j' u', j' < a ∧ P j' p.2 ∧ p.2.tuples[i]? = some u' ∧
          u'.1.Arity = a ∧ u'.2.1 = d := by
  intro remaining
  induction remaining with
  | zero =>
    intro j st u hu ha hd hj hP
    have : j = a := by omega
    subst this
    exact ⟨hP, ⟨u, hu, ha, hd⟩, by simp [childLoopStates]⟩
  | succ remaining ih =>
    intro j st u hu ha hd hj hP
    obtain ⟨u', hu', h1, h2⟩ := childStep_keeps env targetLen maxDepth i (d + 1) j st u hu
    obtain ⟨hfin, hkeep, hall⟩ := ih (j + 1) _ u' hu' (by rw [h1, ha]) (by rw [h2, hd])
      (by omega) (hstep j st u hP hu ha hd (by omega))
    refine ⟨hfin, hkeep, ?_⟩
    intro p hp
    simp only [childLoopStates, List.mem_cons] at hp
    rcases hp with hp | hp
    · subst hp
      exact ⟨rfl, j, u, by omega, hP, hu, ha, hd⟩
    · exact hall p hp

/-- Induction over the iterations of the two loops: a property of the position
`(i, j)` and the state that every inner iteration keeps, and that passes from
the end of the inner loop at `i` to its start at `i + 1`, holds when the
growth loop has ended. -/
theorem growLoop_steps (env : BalancedEnv R S) (targetLen maxDepth : Nat)
    (P : Nat → Nat → GrowState R S → Prop)
    (hstep : ∀ (i j : Nat) (st : GrowState R S) (u : Node S × Nat × Nat), P i j st →
      st.tuples[i]? = some u → j < u.1.Arity →
      P i (j + 1) (childStep env targetLen maxDepth i (u.2.1 + 1) j st))
    (hnext : ∀ (i : Nat) (st : GrowState R S) (u : Node S × Nat × Nat), P i u.1.Arity st →
      st.tuples[i]? = some u → P (i + 1) 0 st) :
    ∀ (fuel i : Nat) (st st' : GrowState R S), P i 0 st →
      growLoop env targetLen maxDepth fuel i st = some st' →
      ∃ i', P i' 0 st' ∧ st'.tuples.length ≤ i' := by
  apply growLoop_induct env targetLen maxDepth (fun i st => P i 0 st)
  intro i st u hP hu
  obtain ⟨hfin, ⟨u', hu', h1, _⟩, _⟩ := childLoop_steps env targetLen maxDepth i u.1.Arity u.2.1
    (P i)
    (fun j st u' hP hu' ha hd hj => by
      have := hstep i j st u' hP hu' (by omega)
      rw [hd] at this
      exact this)
    u.1.Arity 0 st u hu rfl rfl (by omega) hP
  have := hnext i _ u' (by rw [h1]; exact hfin) hu'
  exact this

/-- The same induction for the states in which a child is sampled: in each of
them the property holds at a position `(i, j)` with `j` below the arity of the
node at `i`, and the child is one level below that node. -/
theorem growLoopStates_steps (env : BalancedEnv R S) (targetLen maxDepth : Nat)
    (P : Nat → Nat → GrowState R S → Prop)
    (hstep : ∀ (i j : Nat) (st : GrowState R S) (u : Node S × Nat × Nat), P i j st →
      st.tuples[i]? = some u → j < u.1.Arity →
      P i (j + 1) (childStep env targetLen maxDepth i (u.2.1 + 1) j st))
    (hnext : ∀ (i : Nat) (st : GrowState R S) (u : Node S × Nat × Nat), P i u.1.Arity st →
      st.tuples[i]? = some u → P (i + 1) 0 st) :
    ∀ (fuel i : Nat) (st : GrowState R S), P i 0 st →
      ∀ p ∈ growLoopStates env targetLen maxDepth fuel i st,
        ∃ i' j' u, P i' j' p.2 ∧ p.2.tuples[i']? = some u ∧ j' < u.1.Arity ∧
          p.1 = u.2.1 + 1 := by
  intro fuel
  induction fuel with
  | zero => intro i st _ p hp; simp [growLoopStates] at hp
  | succ fuel ih =>
    intro i st hP p hp
    simp only [growLoopStates] at hp
    split at hp
    · simp at hp
    · rename_i u hu
      obtain ⟨hfin, ⟨u', hu', h1, _⟩, hall⟩ := childLoop_steps env targetLen maxDepth i
        u.1.Arity u.2.1 (P i)
        (fun j st u' hP hu' ha hd hj => by
          have := hstep i j st u' hP hu' (by omega)
          rw [hd] at this
          exact this)
        u.1.Arity 0 st u hu rfl rfl (by omega) hP
      rcases List.mem_append.1 hp with hp | hp
      · obtain ⟨hd, j', u'', hj', hP', hu'', ha'', hd''⟩ := hall p hp
        exact ⟨i, j', u'', hP', hu'', by omega, by rw [hd, hd'']⟩
      · exact ih (i + 1) _ (hnext i _ u' (by rw [h1]; exact hfin) hu') p hp

/-- The growth loop ends within `1 + targetLen` iterations of the outer loop
when a property of the position and the state is kept that bounds the number
of tuples by `1 + targetLen`. -/
theorem growLoop_terminates_steps (env : BalancedEnv R S) (targetLen maxDepth : Nat)
    (P : Nat → Nat → GrowState R S → Prop)
    (hstep : ∀ (i j : Nat) (st : GrowState R S) (u : Node S × Nat × Nat), P i j st →
      st.tuples[i]? = some u → j < u.1.Arity →
      P i (j + 1) (childStep env targetLen maxDepth i (u.2.1 + 1) j st))
    (hnext : ∀ (i : Nat) (st : GrowState R S) (u : Node S × Nat × Nat), P i u.1.Arity st →
      st.tuples[i]? = some u → P (i + 1) 0 st)
    (hbound : ∀ (i : Nat) (st : GrowState R S), P i 0 st → st.tuples.length ≤ 1 + targetLen) :
    ∀ (fuel i : Nat) (st : GrowState R S), P i 0 st → 1 + targetLen ≤ i + fuel →
      ∃ st', growLoop env targetLen maxDepth fuel i st = some st' := by
  intro fuel
  induction fuel with
  | zero =>
    intro i st hP hf
    have := hbound i st hP
    refine ⟨st, ?_⟩
    simp only [growLoop]
    rw [if_neg (by omega)]
  | succ fuel ih =>
    intro i st hP hf
    simp only [growLoop]
    cases hu : st.tuples[i]? with
    | none => exact ⟨st, rfl⟩
    | some u =>
      obtain ⟨hfin, ⟨u', hu', h1, _⟩, _⟩ := childLoop_steps env targetLen maxDepth i
        u.1.Arity u.2.1 (P i)
        (fun j st u' hP hu' ha hd hj => by
          have := hstep i j st u' hP hu' (by omega)
          rw [hd] at this
          exact this)
        u.1.Arity 0 st u hu rfl rfl (by omega) hP
      exact ih (i + 1) _ (hnext i _ u' (by rw [h1]; exact hfin) hu') (by omega)

/-- The position is kept by a step of the inner loop. -/
theorem PosInv_step (env : BalancedEnv R S) (targetLen maxDepth i childDepth j : Nat)
    (st : GrowState R S) (hi : i < st.tuples.length) (h : PosInv i j st) :
    PosInv i (j + 1) (childStep env targetLen maxDepth i childDepth j st) := by
  unfold PosInv at h ⊢
  have hlen : (childStep env targetLen maxDepth i childDepth j st).tuples.length
      = st.tuples.length + 1 := by
    rw [← arities_length, childStep_arities, List.length_append, arities_length]
    rfl
  rw [hlen, childStep_arities,
    List.take_append_of_le_length (by rw [arities_length]; omega), h]
  omega

/-- The position passes from the end of the inner loop to the next node. -/
theorem PosInv_next (i : Nat) (st : GrowState R S) (u : Node S × Nat × Nat)
    (hu : st.tuples[i]? = some u) (h : PosInv i u.1.Arity st) : PosInv (i + 1) 0 st := by
  unfold PosInv at h ⊢
  have hi : i < st.tuples.length := (List.getElem?_eq_some_iff.1 hu).1
  rw [List.sum_take_succ _ i (by rw [arities_length]; exact hi),
    arities_getElem st.tuples i u hu (by rw [arities_length]; exact hi), h]
  omega

/-- In a state in which a child of the node at `i` is sampled, there are at
most as many tuples as the sum of the arities. -/
theorem PosInv_le (i j : Nat) (st : GrowState R S) (u : Node S × Nat × Nat)
    (hu : st.tuples[i]? = some u) (hj : j < u.1.Arity) (h : PosInv i j st) :
    i < st.tuples.length ∧ st.tuples.length ≤ (arities st.tuples).sum := by
  unfold PosInv at h
  have hi : i < st.tuples.length := (List.getElem?_eq_some_iff.1 hu).1
  have h1 := take_sum_le (arities st.tuples) (i + 1)
  rw [List.sum_take_succ _ i (by rw [arities_length]; exact hi),
    arities_getElem st.tuples i u hu (by rw [arities_length]; exact hi)] at h1
  exact ⟨hi, by omega⟩

theorem childStep_depths (env : BalancedEnv R S) (targetLen maxDepth i childDepth j : Nat)
    (st : GrowState R S) :
    depths (childStep env targetLen maxDepth i childDepth j st).tuples
      = depths st.tuples ++ [childDepth] := by
  have htu : (childStep env targetLen maxDepth i childDepth j st).tuples
      = (if j = 0 then setChildIndex st.tuples i st.tuples.length else st.tuples)
        ++ [((drawChild env targetLen maxDepth childDepth st).1, childDepth, 0)] := rfl
  have hde1 : depths (if j = 0 then setChildIndex st.tuples i st.tuples.length
      else st.tuples) = depths st.tuples := by
    split
    · exact setChildIndex_depths _ _ _
    · rfl
  rw [htu]
  simp only [depths, List.map_append, List.map_cons, List.map_nil] at hde1 ⊢
  rw [hde1]

theorem growStart_pos (env : BalancedEnv R S) (random : R) (adjusted : Nat) :
    PosInv 0 0 (growStart env random adjusted) := by
  simp [PosInv, growStart]

/-- The symbol of a child is sampled for the window `childWindow`. -/
theorem drawChild_arity_eq (env : BalancedEnv R S) (targetLen maxDepth childDepth : Nat)
    (st : GrowState R S) :
    (drawChild env targetLen maxDepth childDepth st).1.Arity
      = (env.SampleRandomSymbol (irregular env st).2
          (childWindow env targetLen maxDepth childDepth st).1
          (childWindow env targetLen maxDepth childDepth st).2).1.Arity := by
  unfold drawChild childWindow
  simp only [growInit_arity]

/-- In every state in which a child is sampled, `tuples.size() <= openSlots <=
targetLen`, when the sampler honours the upper end of the arity window. -/
theorem growLoopStates_bounds (env : BalancedEnv R S)
    (hsample : ∀ r lo hi, (env.SampleRandomSymbol r lo hi).1.Arity ≤ hi)
    (targetLen maxDepth : Nat) (hlt : targetLen < 2 ^ 64) (fuel : Nat)
    (st : GrowState R S) (hpos : PosInv 0 0 st) (hslots : SlotsInv targetLen st) :
    ∀ p ∈ growLoopStates env targetLen maxDepth fuel 0 st,
      p.2.tuples.length ≤ p.2.openSlots ∧ p.2.openSlots ≤ targetLen := by
  intro p hp
  obtain ⟨i, j, u, ⟨hP, hS⟩, hu, hj, _⟩ := growLoopStates_steps env targetLen maxDepth
    (fun i j st => PosInv i j st ∧ SlotsInv targetLen st)
    (fun i j st u hP hu _ =>
      ⟨PosInv_step env targetLen maxDepth i _ j st (List.getElem?_eq_some_iff.1 hu).1 hP.1,
        childStep_slots env hsample targetLen maxDepth i _ j hlt st hP.2⟩)
    (fun i st u hP hu => ⟨PosInv_next i st u hu hP.1, hP.2⟩)
    fuel 0 st ⟨hpos, hslots⟩ p hp
  have h1 := (PosInv_le i j p.2 u hu hj hP).2
  exact ⟨by rw [hS.1]; exact h1, hS.2⟩

/-- The corrected target is odd when the minimum function arity exceeds 1. -/
theorem adjustTarget_odd (env : BalancedEnv R S) (random : R) (targetLen : Nat)
    (hmin : 1 < env.FunctionArityLimits.1) (hpos : 0 < targetLen) (hlt : targetLen < 2 ^ 64) :
    (adjustTarget env random targetLen).1 % 2 = 1 := by
  unfold adjustTarget
  split
  · rename_i h
    have e1 : subSizeT targetLen 1 = targetLen - 1 := subSizeT_of_le _ _ hlt (by omega)
    have e2 : addSizeT targetLen 1 = targetLen + 1 := by
      unfold addSizeT
      exact Nat.mod_eq_of_lt (by omega)
    show (if (env.bernoulliHalf random).1 = true then subSizeT targetLen 1
      else addSizeT targetLen 1) % 2 = 1
    rw [e1, e2]
    split <;> omega
  · rename_i h
    show targetLen % 2 = 1
    have : ¬ targetLen % 2 = 0 := fun h0 => h ⟨hmin, h0⟩
    omega

/-- What the loops keep for a grammar whose functions are all binary: the
number of open slots is even and at most the decremented target, and every
arity in `tuples` is 0 or 2. -/
theorem binary_step (env : BalancedEnv R S) (hlim : env.FunctionArityLimits = (2, 2))
    (hbin : BinarySampler env) (targetLen maxDepth i childDepth j : Nat)
    (heven : targetLen % 2 = 0) (hlt : targetLen < 2 ^ 64) (st : GrowState R S)
    (hS : SlotsInv targetLen st) (hO : st.openSlots % 2 = 0)
    (hA : ∀ a ∈ arities st.tuples, a = 0 ∨ a = 2) :
    (childWindow env targetLen maxDepth childDepth st = (0, 0) ∨
      childWindow env targetLen maxDepth childDepth st = (0, 2) ∨
      childWindow env targetLen maxDepth childDepth st = (2, 2)) ∧
    SlotsInv targetLen (childStep env targetLen maxDepth i childDepth j st) ∧
    (childStep env targetLen maxDepth i childDepth j st).openSlots % 2 = 0 ∧
    ∀ a ∈ arities (childStep env targetLen maxDepth i childDepth j st).tuples,
      a = 0 ∨ a = 2 := by
  obtain ⟨h1, h2⟩ := hS
  have hsub : subSizeT targetLen st.openSlots = targetLen - st.openSlots :=
    subSizeT_of_le _ _ hlt h2
  have hmax : childMaxArity env targetLen maxDepth childDepth st = 0 ∨
      (childMaxArity env targetLen maxDepth childDepth st = 2 ∧
        2 ≤ targetLen - st.openSlots) := by
    unfold childMaxArity
    rw [hlim, hsub]
    split
    · left; rfl
    · simp only
      by_cases h : targetLen - st.openSlots = 0
      · left; rw [h]; rfl
      · right
        have : 2 ≤ targetLen - st.openSlots := by omega
        exact ⟨Nat.min_eq_left this, this⟩
  have hle : childMaxArity env targetLen maxDepth childDepth st ≤ targetLen - st.openSlots := by
    rcases hmax with h | h
    · rw [h]; exact Nat.zero_le _
    · rw [h.1]; exact h.2
  have hwin : childWindow env targetLen maxDepth childDepth st = (0, 0) ∨
      childWindow env targetLen maxDepth childDepth st = (0, 2) ∨
      childWindow env targetLen maxDepth childDepth st = (2, 2) := by
    unfold childWindow
    simp only [hlim]
    rcases hmax with h | h
    · left
      rw [h]
      simp
    · right
      rw [h.1]
      cases (irregular env st).1
      · right; rfl
      · left; rfl
  have hw2 : (childWindow env targetLen maxDepth childDepth st).2
      = childMaxArity env targetLen maxDepth childDepth st := rfl
  have hadm : (childWindow env targetLen maxDepth childDepth st).1 = 0 ∨
      ((childWindow env targetLen maxDepth childDepth st).1 ≤ 2 ∧
        2 ≤ (childWindow env targetLen maxDepth childDepth st).2) := by
    rcases hwin with h | h | h <;> rw [h] <;> simp
  obtain ⟨_, hhi, h02⟩ := hbin (irregular env st).2 _ _ hadm
  rw [← drawChild_arity_eq, hw2] at hhi
  rw [← drawChild_arity_eq] at h02
  have hopen : (childStep env targetLen maxDepth i childDepth j st).openSlots
      = st.openSlots + (drawChild env targetLen maxDepth childDepth st).1.Arity := by
    show addSizeT _ _ = _
    unfold addSizeT
    exact Nat.mod_eq_of_lt (by omega)
  refine ⟨hwin, ⟨?_, ?_⟩, ?_, ?_⟩
  · rw [hopen, childStep_arities, h1]
    simp
  · rw [hopen]
    omega
  · rw [hopen]
    omega
  · intro a ha
    rw [childStep_arities] at ha
    rcases List.mem_append.1 ha with ha | ha
    · exact hA a ha
    · simp only [List.mem_singleton] at ha
      rw [ha]
      exact h02

/-- The root of a grammar whose functions are all binary, for an even
decremented target: the window is `[0, 0]` or `[2, 2]`, and the state before
the loop has an even number of open slots. -/
theorem binary_start (env : BalancedEnv R S) (hlim : env.FunctionArityLimits = (2, 2))
    (hbin : BinarySampler env) (random : R) (adjusted : Nat)
    (heven : subSizeT adjusted 1 % 2 = 0) :
    (rootWindow env adjusted = (0, 0) ∨ rootWindow env adjusted = (2, 2)) ∧
    SlotsInv (subSizeT adjusted 1) (growStart env random adjusted) ∧
    (growStart env random adjusted).openSlots = min 2 (subSizeT adjusted 1) ∧
    ∀ a ∈ arities (growStart env random adjusted).tuples, a = 0 ∨ a = 2 := by
  have hwin : rootWindow env adjusted = (0, 0) ∨ rootWindow env adjusted = (2, 2) := by
    unfold rootWindow
    rw [hlim]
    by_cases h : subSizeT adjusted 1 = 0
    · left; rw [h]; rfl
    · right
      have : 2 ≤ subSizeT adjusted 1 := by omega
      simp only [Nat.min_eq_left this]
  have hopen : (growStart env random adjusted).openSlots
      = (env.SampleRandomSymbol random (rootWindow env adjusted).1
          (rootWindow env adjusted).2).1.Arity := by
    show (init env _ _).1.Arity = _
    rw [growInit_arity]
    rfl
  have har : arities (growStart env random adjusted).tuples
      = [(growStart env random adjusted).openSlots] := rfl
  have hadm : (rootWindow env adjusted).1 = 0 ∨
      ((rootWindow env adjusted).1 ≤ 2 ∧ 2 ≤ (rootWindow env adjusted).2) := by
    rcases hwin with h | h <;> rw [h] <;> simp
  obtain ⟨hlo, hhi, h02⟩ := hbin random _ _ hadm
  rw [← hopen] at hlo hhi h02
  have hval : (growStart env random adjusted).openSlots = min 2 (subSizeT adjusted 1) := by
    rcases hwin with h | h
    · have e : (rootWindow env adjusted).2 = 0 := by rw [h]
      have e2 : (rootWindow env adjusted).2 = min 2 (subSizeT adjusted 1) := by
        unfold rootWindow
        rw [hlim]
      rw [e] at hhi
      rw [← e2, e]
      omega
    · have e : (rootWindow env adjusted).2 = 2 := by rw [h]
      have e1 : (rootWindow env adjusted).1 = 2 := by rw [h]
      have e2 : (rootWindow env adjusted).2 = min 2 (subSizeT adjusted 1) := by
        unfold rootWindow
        rw [hlim]
      rw [e] at hhi
      rw [e1] at hlo
      rw [← e2, e]
      omega
  refine ⟨hwin, ⟨by rw [har]; simp, ?_⟩, hval, ?_⟩
  · rw [hval]
    exact Nat.min_le_right _ _
  · intro a ha
    rw [har] at ha
    simp only [List.mem_singleton] at ha
    rw [ha]
    exact h02

/-- The loops keep the invariant of a grammar whose functions are all binary,
and every window of a child is `[0, 0]`, `[0, 2]` or `[2, 2]`. -/
theorem windows_binary (env : BalancedEnv R S) (hlim : env.FunctionArityLimits = (2, 2))
    (hbin : BinarySampler env) (random : R) (targetLen maxDepth fuel : Nat)
    (hpos : 0 < targetLen) (hlt : targetLen < 2 ^ 64) :
    ∀ w ∈ windows env fuel random targetLen maxDepth,
      w = (0, 0) ∨ w = (0, 2) ∨ w = (2, 2) := by
  have hmin : 1 < env.FunctionArityLimits.1 := by rw [hlim]; decide
  obtain ⟨ha1, _, _⟩ := adjustTarget_spec env random targetLen hpos hlt
  have ha4 : (adjustTarget env random targetLen).1 < 2 ^ 64 := by
    rcases adjustTarget_lt env random targetLen with h4 | h4 <;> omega
  have hodd := adjustTarget_odd env random targetLen hmin hpos hlt
  have e1 : subSizeT (adjustTarget env random targetLen).1 1
      = (adjustTarget env random targetLen).1 - 1 := subSizeT_of_le _ _ ha4 ha1
  have heven : subSizeT (adjustTarget env random targetLen).1 1 % 2 = 0 := by
    rw [e1]; omega
  have htl : subSizeT (adjustTarget env random targetLen).1 1 < 2 ^ 64 := by
    rw [e1]; omega
  obtain ⟨hroot, hS0, hO0, hA0⟩ := binary_start env hlim hbin
    (adjustTarget env random targetLen).2 (adjustTarget env random targetLen).1 heven
  intro w hw
  simp only [windows, if_pos hpos, List.mem_cons, List.mem_map] at hw
  rcases hw with hw | ⟨p, hp, hw⟩
  · rw [hw]
    rcases hroot with h | h
    · left; exact h
    · right; right; exact h
  · simp only [samplingStates, if_pos hpos] at hp
    obtain ⟨i, j, u, ⟨hS, hO, hA⟩, _, _, _⟩ := growLoopStates_steps env _ maxDepth
      (fun _ _ st => SlotsInv (subSizeT (adjustTarget env random targetLen).1 1) st ∧
        st.openSlots % 2 = 0 ∧ ∀ a ∈ arities st.tuples, a = 0 ∨ a = 2)
      (fun i j st u hP _ _ =>
        (binary_step env hlim hbin _ maxDepth i _ j heven htl st hP.1 hP.2.1 hP.2.2).2)
      (fun i st u hP _ => hP)
      fuel 0 _ ⟨hS0, by rw [hO0]; omega, hA0⟩ p hp
    rw [← hw]
    exact (binary_step env hlim hbin _ maxDepth 0 p.1 0 heven htl p.2 hS hO hA).1

/-- Every arity in the vector `tuples` of a grammar whose functions are all
binary is 0 or 2. -/
theorem grow_binary (env : BalancedEnv R S) (hlim : env.FunctionArityLimits = (2, 2))
    (hbin : BinarySampler env) (random : R) (targetLen maxDepth fuel : Nat)
    (hlt : targetLen < 2 ^ 64) (tuples : List (Node S × Nat × Nat))
    (h : grow env fuel random targetLen maxDepth = some tuples) :
    ∀ a ∈ arities tuples, a = 0 ∨ a = 2 := by
  unfold grow at h
  split at h
  · rename_i hpos
    have hmin : 1 < env.FunctionArityLimits.1 := by rw [hlim]; decide
    obtain ⟨ha1, _, _⟩ := adjustTarget_spec env random targetLen hpos hlt
    have ha4 : (adjustTarget env random targetLen).1 < 2 ^ 64 := by
      rcases adjustTarget_lt env random targetLen with h4 | h4 <;> omega
    have hodd := adjustTarget_odd env random targetLen hmin hpos hlt
    have e1 : subSizeT (adjustTarget env random targetLen).1 1
        = (adjustTarget env random targetLen).1 - 1 := subSizeT_of_le _ _ ha4 ha1
    have heven : subSizeT (adjustTarget env random targetLen).1 1 % 2 = 0 := by
      rw [e1]; omega
    have htl : subSizeT (adjustTarget env random targetLen).1 1 < 2 ^ 64 := by
      rw [e1]; omega
    obtain ⟨_, hS0, hO0, hA0⟩ := binary_start env hlim hbin
      (adjustTarget env random targetLen).2 (adjustTarget env random targetLen).1 heven
    simp only [Option.map_eq_some'] at h
    obtain ⟨st', hrun, rfl⟩ := h
    obtain ⟨_, ⟨_, _, hA⟩, _⟩ := growLoop_steps env _ maxDepth
      (fun _ _ st => SlotsInv (subSizeT (adjustTarget env random targetLen).1 1) st ∧
        st.openSlots % 2 = 0 ∧ ∀ a ∈ arities st.tuples, a = 0 ∨ a = 2)
      (fun i j st u hP _ _ =>
        (binary_step env hlim hbin _ maxDepth i _ j heven htl st hP.1 hP.2.1 hP.2.2).2)
      (fun i st u hP _ => hP)
      fuel 0 _ st' ⟨hS0, by rw [hO0]; omega, hA0⟩ hrun
    exact hA
  · exact absurd h (by simp)

theorem irregular_false (env : BalancedEnv R S)
    (hirr : ∀ r, (env.sampleIrregular r).1 = false) (st : GrowState R S) :
    (irregular env st).1 = false := by
  unfold irregular
  split
  · exact hirr _
  · rfl

/-- What the loops keep without irregular draws and below the depth cutoff,
for a grammar whose functions are all binary: the number of open slots is
`min targetLen (2 * tuples.size())`, and the depth of a tuple is at most its
index plus one. -/
theorem exact_step (env : BalancedEnv R S) (hlim : env.FunctionArityLimits = (2, 2))
    (hbin : BinarySampler env) (hirr : ∀ r, (env.sampleIrregular r).1 = false)
    (targetLen maxDepth i j : Nat) (heven : targetLen % 2 = 0) (hlt : targetLen < 2 ^ 64)
    (hdepth : targetLen + 1 < maxDepth) (st : GrowState R S) (u : Node S × Nat × Nat)
    (hu : st.tuples[i]? = some u) (hj : j < u.1.Arity) (hP : PosInv i j st)
    (hS : SlotsInv targetLen st) (hD : ∀ k, (depths st.tuples).getD k 0 ≤ k + 1)
    (hO : st.openSlots = min targetLen (2 * st.tuples.length)) :
    SlotsInv targetLen (childStep env targetLen maxDepth i (u.2.1 + 1) j st) ∧
    (∀ k, (depths (childStep env targetLen maxDepth i (u.2.1 + 1) j st).tuples).getD k 0
      ≤ k + 1) ∧
    (childStep env targetLen maxDepth i (u.2.1 + 1) j st).openSlots
      = min targetLen (2 * (childStep env targetLen maxDepth i (u.2.1 + 1) j st).tuples.length)
    := by
  obtain ⟨hi, hn⟩ := PosInv_le i j st u hu hj hP
  obtain ⟨h1, h2⟩ := hS
  rw [← h1] at hn
  have hdu : u.2.1 ≤ i + 1 := by
    have := hD i
    rw [depths_getD st.tuples i u hu] at this
    exact this
  have hcd : ¬ u.2.1 + 1 = maxDepth := by omega
  have hsub : subSizeT targetLen st.openSlots = targetLen - st.openSlots :=
    subSizeT_of_le _ _ hlt h2
  have hwin : childWindow env targetLen maxDepth (u.2.1 + 1) st
      = (min 2 (targetLen - st.openSlots), min 2 (targetLen - st.openSlots)) := by
    unfold childWindow childMaxArity
    simp only [if_neg hcd, hlim, hsub, irregular_false env hirr st, Bool.false_eq_true,
      if_false]
    rw [Nat.min_eq_right (Nat.min_le_left _ _)]
  have hcases : (st.openSlots = targetLen ∧ min 2 (targetLen - st.openSlots) = 0) ∨
      (st.openSlots = 2 * st.tuples.length ∧ 2 * st.tuples.length + 2 ≤ targetLen ∧
        min 2 (targetLen - st.openSlots) = 2) := by
    rcases Nat.le_total targetLen (2 * st.tuples.length) with h | h
    · left
      rw [Nat.min_eq_left h] at hO
      rw [hO]
      simp
    · rw [Nat.min_eq_right h] at hO
      by_cases he : targetLen = 2 * st.tuples.length
      · left
        rw [hO, he]
        simp
      · right
        refine ⟨hO, by omega, ?_⟩
        exact Nat.min_eq_left (by omega)
  have hadm : (childWindow env targetLen maxDepth (u.2.1 + 1) st).1 = 0 ∨
      ((childWindow env targetLen maxDepth (u.2.1 + 1) st).1 ≤ 2 ∧
        2 ≤ (childWindow env targetLen maxDepth (u.2.1 + 1) st).2) := by
    rw [hwin]
    rcases hcases with h | h
    · left; exact h.2
    · right; simp only [h.2.2]; exact ⟨Nat.le_refl _, Nat.le_refl _⟩
  obtain ⟨hlo, hhi, _⟩ := hbin (irregular env st).2 _ _ hadm
  rw [← drawChild_arity_eq] at hlo hhi
  rw [hwin] at hlo hhi
  simp only at hlo hhi
  have har : (drawChild env targetLen maxDepth (u.2.1 + 1) st).1.Arity
      = min 2 (targetLen - st.openSlots) := Nat.le_antisymm hhi hlo
  have hopen : (childStep env targetLen maxDepth i (u.2.1 + 1) j st).openSlots
      = st.openSlots + min 2 (targetLen - st.openSlots) := by
    show addSizeT _ _ = _
    rw [har]
    unfold addSizeT
    exact Nat.mod_eq_of_lt (by rcases hcases with h | h <;> omega)
  have hlen : (childStep env targetLen maxDepth i (u.2.1 + 1) j st).tuples.length
      = st.tuples.length + 1 := by
    rw [← arities_length, childStep_arities, List.length_append, arities_length]
    rfl
  refine ⟨⟨?_, ?_⟩, ?_, ?_⟩
  · rw [hopen, childStep_arities, har, List.sum_append, ← h1]
    simp
  · rw [hopen]
    rcases hcases with h | h <;> omega
  · intro k
    rw [childStep_depths]
    by_cases hk : k < (depths st.tuples).length
    · rw [List.getD_append _ _ 0 k hk]
      exact hD k
    · rw [List.getD_append_right _ _ 0 k (by omega)]
      rw [depths_length] at hk
      by_cases hk0 : k - (depths st.tuples).length = 0
      · rw [hk0]
        show u.2.1 + 1 ≤ k + 1
        omega
      · obtain ⟨m, hm⟩ := Nat.exists_eq_succ_of_ne_zero hk0
        rw [hm]
        exact Nat.zero_le _
  · rw [hopen, hlen]
    rcases hcases with h | h
    · rw [h.2, Nat.min_eq_left (by omega)]
      omega
    · rw [h.2.2, Nat.min_eq_right (by omega)]
      omega

/-- For a grammar whose functions are all binary, without irregular draws and
with `maxDepth` above the odd target, the growth loop ends with exactly
`targetLen` tuples. -/
theorem grow_exact (env : BalancedEnv R S) (hlim : env.FunctionArityLimits = (2, 2))
    (hbin : BinarySampler env) (hirr : ∀ r, (env.sampleIrregular r).1 = false)
    (random : R) (targetLen maxDepth : Nat) (hodd : targetLen % 2 = 1)
    (hlt : targetLen < 2 ^ 64) (hdepth : targetLen < maxDepth) :
    (∃ tuples, grow env (targetLen + 1) random targetLen maxDepth = some tuples) ∧
    ∀ fuel tuples, grow env fuel random targetLen maxDepth = some tuples →
      tuples.length = targetLen := by
  have hpos : 0 < targetLen := by omega
  have hadj : adjustTarget env random targetLen = (targetLen, random) := by
    unfold adjustTarget
    rw [if_neg (by omega)]
  have e1 : subSizeT targetLen 1 = targetLen - 1 := subSizeT_of_le _ _ hlt hpos
  have heven : (targetLen - 1) % 2 = 0 := by omega
  obtain ⟨_, hS0, hO0, _⟩ := binary_start env hlim hbin random targetLen
    (by rw [e1]; exact heven)
  rw [e1] at hS0 hO0
  have hstart : PosInv 0 0 (growStart env random targetLen) ∧
      SlotsInv (targetLen - 1) (growStart env random targetLen) ∧
      (∀ k, (depths (growStart env random targetLen).tuples).getD k 0 ≤ k + 1) ∧
      (growStart env random targetLen).openSlots
        = min (targetLen - 1) (2 * (growStart env random targetLen).tuples.length) := by
    refine ⟨growStart_pos env random targetLen, hS0, ?_, ?_⟩
    · intro k
      have : depths (growStart env random targetLen).tuples = [1] := rfl
      rw [this]
      cases k with
      | zero => exact Nat.le_refl _
      | succ k => exact Nat.zero_le _
    · rw [hO0]
      have : (growStart env random targetLen).tuples.length = 1 := rfl
      rw [this]
      exact Nat.min_comm _ _
  have hstep : ∀ (i j : Nat) (st : GrowState R S) (u : Node S × Nat × Nat),
      (PosInv i j st ∧ SlotsInv (targetLen - 1) st ∧
        (∀ k, (depths st.tuples).getD k 0 ≤ k + 1) ∧
        st.openSlots = min (targetLen - 1) (2 * st.tuples.length)) →
      st.tuples[i]? = some u → j < u.1.Arity →
      (PosInv i (j + 1) (childStep env (targetLen - 1) maxDepth i (u.2.1 + 1) j st) ∧
        SlotsInv (targetLen - 1) (childStep env (targetLen - 1) maxDepth i (u.2.1 + 1) j st) ∧
        (∀ k, (depths (childStep env (targetLen - 1) maxDepth i (u.2.1 + 1) j st).tuples).getD
          k 0 ≤ k + 1) ∧
        (childStep env (targetLen - 1) maxDepth i (u.2.1 + 1) j st).openSlots
          = min (targetLen - 1)
            (2 * (childStep env (targetLen - 1) maxDepth i (u.2.1 + 1) j st).tuples.length)) := by
    intro i j st u hP hu hj
    exact ⟨PosInv_step env _ maxDepth i _ j st (List.getElem?_eq_some_iff.1 hu).1 hP.1,
      exact_step env hlim hbin hirr (targetLen - 1) maxDepth i j heven (by omega) (by omega)
        st u hu hj hP.1 hP.2.1 hP.2.2.1 hP.2.2.2⟩
  have hnext : ∀ (i : Nat) (st : GrowState R S) (u : Node S × Nat × Nat),
      (PosInv i u.1.Arity st ∧ SlotsInv (targetLen - 1) st ∧
        (∀ k, (depths st.tuples).getD k 0 ≤ k + 1) ∧
        st.openSlots = min (targetLen - 1) (2 * st.tuples.length)) →
      st.tuples[i]? = some u →
      (PosInv (i + 1) 0 st ∧ SlotsInv (targetLen - 1) st ∧
        (∀ k, (depths st.tuples).getD k 0 ≤ k + 1) ∧
        st.openSlots = min (targetLen - 1) (2 * st.tuples.length)) :=
    fun i st u hP hu => ⟨PosInv_next i st u hu hP.1, hP.2⟩
  constructor
  · obtain ⟨st', hrun⟩ := growLoop_terminates_steps env (targetLen - 1) maxDepth
      (fun i j st => PosInv i j st ∧ SlotsInv (targetLen - 1) st ∧
        (∀ k, (depths st.tuples).getD k 0 ≤ k + 1) ∧
        st.openSlots = min (targetLen - 1) (2 * st.tuples.length))
      hstep hnext
      (fun i st hP => by
        have h1 : st.tuples.length = 1 + ((arities st.tuples).take i).sum + 0 := hP.1
        have h2 := take_sum_le (arities st.tuples) i
        have h3 := hP.2.1.1
        have h4 := hP.2.1.2
        omega)
      (targetLen + 1) 0 _ hstart (by omega)
    exact ⟨st'.tuples, by simp [grow, hpos, hadj, e1, hrun]⟩
  · intro fuel tuples h
    simp only [grow, if_pos hpos, hadj, e1, Option.map_eq_some'] at h
    obtain ⟨st', hrun, rfl⟩ := h
    obtain ⟨i', ⟨hP, hS, _, hO⟩, hle⟩ := growLoop_steps env (targetLen - 1) maxDepth
      (fun i j st => PosInv i j st ∧ SlotsInv (targetLen - 1) st ∧
        (∀ k, (depths st.tuples).getD k 0 ≤ k + 1) ∧
        st.openSlots = min (targetLen - 1) (2 * st.tuples.length))
      hstep hnext fuel 0 _ st' hstart hrun
    have h1 : st'.tuples.length = 1 + ((arities st'.tuples).take i').sum + 0 := hP
    rw [List.take_of_length_le (by rw [arities_length]; exact hle), ← hS.1] at h1
    rcases Nat.le_total (targetLen - 1) (2 * st'.tuples.length) with h | h
    · rw [Nat.min_eq_left h] at hO
      omega
    · rw [Nat.min_eq_right h] at hO
      omega

theorem setChildIndex_mem (t : List (Node S × Nat × Nat)) (i c : Nat)
    (v : Node S × Nat × Nat) (h : v ∈ setChildIndex t i c) : ∃ u ∈ t, v.1 = u.1 := by
  unfold setChildIndex at h
  split at h
  · rename_i u hu
    rcases List.mem_or_eq_of_mem_set h with h | h
    · exact ⟨v, h, rfl⟩
    · exact ⟨u, List.getElem?_mem hu, by rw [h]⟩
  · exact ⟨v, h, rfl⟩

/-- Every node of the vector `tuples` at the end of the growth loop satisfies
a property that holds of every drawn and initialised symbol. -/
theorem grow_nodes (env : BalancedEnv R S) (Q : Node S → Prop)
    (hQ : ∀ r lo hi, Q (init env (env.SampleRandomSymbol r lo hi).1
      (env.SampleRandomSymbol r lo hi).2).1)
    (random : R) (targetLen maxDepth fuel : Nat) (tuples : List (Node S × Nat × Nat))
    (h : grow env fuel random targetLen maxDepth = some tuples) :
    ∀ u ∈ tuples, Q u.1 := by
  unfold grow at h
  split at h
  · simp only [Option.map_eq_some'] at h
    obtain ⟨st', hrun, rfl⟩ := h
    obtain ⟨_, hP, _⟩ := growLoop_steps env _ maxDepth
      (fun _ _ st => ∀ u ∈ st.tuples, Q u.1)
      (fun i j st u hP _ _ => by
        intro v hv
        have htu : (childStep env (subSizeT (adjustTarget env random targetLen).1 1) maxDepth i
            (u.2.1 + 1) j st).tuples
            = (if j = 0 then setChildIndex st.tuples i st.tuples.length else st.tuples)
              ++ [((drawChild env (subSizeT (adjustTarget env random targetLen).1 1) maxDepth
                (u.2.1 + 1) st).1, u.2.1 + 1, 0)] := rfl
        rw [htu] at hv
        rcases List.mem_append.1 hv with hv | hv
        · split at hv
          · obtain ⟨w, hw, he⟩ := setChildIndex_mem _ _ _ _ hv
            rw [he]
            exact hP w hw
          · exact hP v hv
        · simp only [List.mem_singleton] at hv
          rw [hv]
          exact hQ _ _ _)
      (fun i st u hP _ => hP)
      fuel 0 _ st'
      (by
        intro u hu
        have : (growStart env (adjustTarget env random targetLen).2
            (adjustTarget env random targetLen).1).tuples
            = [((init env (env.SampleRandomSymbol (adjustTarget env random targetLen).2
                (min env.FunctionArityLimits.1 (subSizeT (adjustTarget env random targetLen).1 1))
                (min env.FunctionArityLimits.2
                  (subSizeT (adjustTarget env random targetLen).1 1))).1
              (env.SampleRandomSymbol (adjustTarget env random targetLen).2
                (min env.FunctionArityLimits.1 (subSizeT (adjustTarget env random targetLen).1 1))
                (min env.FunctionArityLimits.2
                  (subSizeT (adjustTarget env random targetLen).1 1))).2).1, 1, 1)] := rfl
        rw [this] at hu
        simp only [List.mem_singleton] at hu
        rw [hu]
        exact hQ _ _ _)
      hrun
    exact hP
  · exact absurd h (by simp)

/-- Every node of the tree that the creator of balanced.cpp returns is a drawn
and initialised symbol, up to its `Length`, when the conversion to postfix
order keeps the nodes. -/
theorem BalancedTreeCreator_nodes_cpp (env : BalancedEnv R S) (hkeep : KeepsNodes env)
    (Q : Node S → Prop)
    (hQ : ∀ r lo hi, Q (init env (env.SampleRandomSymbol r lo hi).1
      (env.SampleRandomSymbol r lo hi).2).1)
    (random : R) (targetLen maxDepth fuel : Nat) (tree : List (Node S))
    (h : BalancedTreeCreator env fuel random targetLen maxDepth = some tree) :
    ∀ s' ∈ tree, ∃ s, Q s ∧ s' = { s with Length := s'.Length } := by
  simp only [BalancedTreeCreator, Option.map_eq_some'] at h
  obtain ⟨tuples, ht, rfl⟩ := h
  have hall := grow_nodes env Q hQ random targetLen maxDepth fuel tuples ht
  intro s' hs'
  obtain ⟨s, hs, he⟩ := UpdateNodes_mem _ s' hs'
  obtain ⟨u, hu, hus⟩ := (hkeep tuples).2 s hs
  exact ⟨s, by rw [← hus]; exact hall u hu, he⟩

/-- For a grammar whose functions are all binary the growth loop ends within
`targetLen + 1` iterations of the outer loop. -/
theorem grow_terminates_binary (env : BalancedEnv R S)
    (hlim : env.FunctionArityLimits = (2, 2)) (hbin : BinarySampler env)
    (random : R) (targetLen maxDepth fuel : Nat) (hpos : 0 < targetLen)
    (hlt : targetLen < 2 ^ 64) (hfuel : targetLen + 1 ≤ fuel) :
    ∃ tuples, grow env fuel random targetLen maxDepth = some tuples := by
  have hmin : 1 < env.FunctionArityLimits.1 := by rw [hlim]; decide
  obtain ⟨ha1, ha2, _⟩ := adjustTarget_spec env random targetLen hpos hlt
  have ha4 : (adjustTarget env random targetLen).1 < 2 ^ 64 := by
    rcases adjustTarget_lt env random targetLen with h4 | h4 <;> omega
  have hodd := adjustTarget_odd env random targetLen hmin hpos hlt
  have e1 : subSizeT (adjustTarget env random targetLen).1 1
      = (adjustTarget env random targetLen).1 - 1 := subSizeT_of_le _ _ ha4 ha1
  have heven : subSizeT (adjustTarget env random targetLen).1 1 % 2 = 0 := by
    rw [e1]; omega
  have htl : subSizeT (adjustTarget env random targetLen).1 1 < 2 ^ 64 := by
    rw [e1]; omega
  obtain ⟨_, hS0, hO0, hA0⟩ := binary_start env hlim hbin
    (adjustTarget env random targetLen).2 (adjustTarget env random targetLen).1 heven
  obtain ⟨st', hrun⟩ := growLoop_terminates_steps env _ maxDepth
    (fun i j st => PosInv i j st ∧
      SlotsInv (subSizeT (adjustTarget env random targetLen).1 1) st ∧
      st.openSlots % 2 = 0 ∧ ∀ a ∈ arities st.tuples, a = 0 ∨ a = 2)
    (fun i j st u hP hu _ =>
      ⟨PosInv_step env _ maxDepth i _ j st (List.getElem?_eq_some_iff.1 hu).1 hP.1,
        (binary_step env hlim hbin _ maxDepth i _ j heven htl st hP.2.1 hP.2.2.1
          hP.2.2.2).2⟩)
    (fun i st u hP hu => ⟨PosInv_next i st u hu hP.1, hP.2⟩)
    (fun i st hP => by
      have h1 : st.tuples.length = 1 + ((arities st.tuples).take i).sum + 0 := hP.1
      have h2 := take_sum_le (arities st.tuples) i
      have h3 := hP.2.1.1
      have h4 := hP.2.1.2
      omega)
    fuel 0 _ ⟨growStart_pos env _ _, hS0, by rw [hO0]; omega, hA0⟩ (by omega)
  exact ⟨st'.tuples, by simp [grow, hpos, hrun]⟩

end Balanced

theorem foldl_invariant {α β : Type} (P : β → Prop) (f : β → α → β)
    (h : ∀ b a, P b → P (f b a)) : ∀ (l : List α) (b : β), P b → P (l.foldl f b) := by
  intro l
  induction l with
  | nil => intro b hb; exact hb
  | cons a rest ih => intro b hb; exact ih _ (h b a hb)

/-- Filling the array keeps its size, and writes nodes of the tuples only. -/
theorem fillPostfix_keeps {S : Type} (tuples : List (Node S × Nat × Nat)) (n : Nat) :
    ∀ (fuel i : Nat) (st : List (Node S) × Nat),
      (st.1.length = n ∧ ∀ s ∈ st.1, ∃ u ∈ tuples, u.1 = s) →
      (fillPostfix tuples fuel i st).1.length = n ∧
        ∀ s ∈ (fillPostfix tuples fuel i st).1, ∃ u ∈ tuples, u.1 = s := by
  intro fuel
  induction fuel with
  | zero => intro i st h; exact h
  | succ fuel ih =>
    intro i st h
    simp only [fillPostfix]
    split
    · exact h
    · rename_i u hu
      apply foldl_invariant
        (fun acc : List (Node S) × Nat =>
          acc.1.length = n ∧ ∀ s ∈ acc.1, ∃ u ∈ tuples, u.1 = s)
      · intro b a hb
        exact ih _ b hb
      · refine ⟨by simp [h.1], ?_⟩
        intro s hs
        rcases List.mem_or_eq_of_mem_set hs with hs | hs
        · exact h.2 s hs
        · exact ⟨u, List.getElem?_mem hu, hs.symm⟩

theorem exBalancedEnv_keeps (minArity maxArity : Nat) (coin : Bool) :
    Balanced.KeepsNodes (exBalancedEnv minArity maxArity coin) := by
  intro tuples
  exact fillPostfix_keeps tuples tuples.length tuples.length 0 _
    ⟨by simp, by
      intro s hs
      obtain ⟨u, hu, rfl⟩ := List.mem_map.1 hs
      exact ⟨u, hu, rfl⟩⟩

theorem exBinaryEnv_keeps (coin bias : Bool) :
    Balanced.KeepsNodes (exBinaryEnv coin bias) := by
  intro tuples
  exact fillPostfix_keeps tuples tuples.length tuples.length 0 _
    ⟨by simp, by
      intro s hs
      obtain ⟨u, hu, rfl⟩ := List.mem_map.1 hs
      exact ⟨u, hu, rfl⟩⟩

theorem exBinaryEnv_binary (coin bias : Bool) :
    Balanced.BinarySampler (exBinaryEnv coin bias) := by
  intro r lo hi hadm
  show lo ≤ (if hi < 2 ∨ (lo = 0 ∧ r % 2 = 1) then 0 else 2) ∧
    (if hi < 2 ∨ (lo = 0 ∧ r % 2 = 1) then 0 else 2) ≤ hi ∧
    ((if hi < 2 ∨ (lo = 0 ∧ r % 2 = 1) then 0 else 2) = 0 ∨
      (if hi < 2 ∨ (lo = 0 ∧ r % 2 = 1) then 0 else 2) = 2)
  split <;> omega

theorem hashAt_mem (vars : List Variable) (k : Nat) (hne : vars ≠ [])
    (hk : k ≤ vars.length - 1) : ∃ v ∈ vars, hashAt vars k = v.Hash := by
  have hlen : 0 < vars.length := List.length_pos.2 hne
  have hk' : k < vars.length := by omega
  refine ⟨vars[k], List.getElem_mem _, ?_⟩
  simp [hashAt, List.getElem?_eq_getElem hk']

/-- The hash fields of a Variable node after `init` of balanced.hpp. -/
theorem init_variable {R S : Type} (env : CreatorEnv R S) (node : Node S) (random : R)
    (hne : env.variables_ ≠ [])
    (hidx : ∀ r, (env.uniformInt r).1 ≤ env.variables_.length - 1)
    (hv : (init env node random).1.IsVariable = true) :
    (∃ v ∈ env.variables_, (init env node random).1.HashValue = v.Hash) ∧
      (init env node random).1.CalculatedHashValue = (init env node random).1.HashValue := by
  unfold init at hv ⊢
  by_cases hn : node.IsVariable = true
  · rw [if_pos hn]
    exact ⟨hashAt_mem _ _ hne (hidx random), rfl⟩
  · rw [if_neg hn] at hv
    exact absurd hv hn

/-- The hash fields of a Variable node after `init` of balanced.cpp. -/
theorem growInit_variable {R S : Type} (env : BalancedEnv R S) (node : Node S)
    (random : R)
    (hne : env.variables_ ≠ [])
    (hidx : ∀ r, (env.uniformInt r).1 ≤ env.variables_.length - 1)
    (hv : (Balanced.init env node random).1.IsVariable = true) :
    (∃ v ∈ env.variables_, (Balanced.init env node random).1.HashValue = v.Hash) ∧
      (Balanced.init env node random).1.CalculatedHashValue
        = (Balanced.init env node random).1.HashValue := by
  unfold Balanced.init at hv ⊢
  by_cases hl : node.IsLeaf = true
  · rw [if_pos hl] at hv ⊢
    by_cases hn : node.IsVariable = true
    · rw [if_pos hn]
      exact ⟨hashAt_mem _ _ hne (hidx random), rfl⟩
    · rw [if_neg hn] at hv
      exact absurd hv hn
  · rw [if_neg hl] at hv
    have : node.IsLeaf = true := by
      simp only [Node.IsLeaf, Bool.or_eq_true]
      exact Or.inr hv
    exact absurd this hl

end BalancedFacts

/-! ## Facts about the reinserter, the generator and the statistics -/

section ReinserterFacts

variable {α : Type}

end ReinserterFacts

section GeneratorFacts

variable {R G F : Type}

/-- Below the `std::min` of two values of a linear order is below both. -/
theorem lt_stdMin_iff [LinearOrder F] (lt : F → F → Bool)
    (hlt : ∀ a b, lt a b = decide (a < b)) (f x y : F) :
    lt f (stdMin lt x y) = true ↔ f < x ∧ f < y := by
  unfold stdMin
  rw [hlt y x]
  by_cases h : y < x
  · simp only [h, decide_True, if_true, hlt, decide_eq_true_eq]
    exact ⟨fun hf => ⟨lt_trans hf h, hf⟩, fun hf => hf.2⟩
  · simp only [h, decide_False, Bool.false_eq_true, if_false, hlt, decide_eq_true_eq]
    exact ⟨fun hf => ⟨hf, lt_of_lt_of_le hf (not_lt.1 h)⟩, fun hf => hf.1⟩

theorem offspring_fit (env : GeneratorEnv R G F) (child0 : Individual G F) (random : R)
    (pCrossover pMutation : F) :
    ((offspring env child0 random pCrossover pMutation).doCrossover = false →
      (offspring env child0 random pCrossover pMutation).second = none ∧
      (offspring env child0 random pCrossover pMutation).fit
        = (env.population
            (offspring env child0 random pCrossover pMutation).first).Fitness) ∧
    ((offspring env child0 random pCrossover pMutation).doCrossover = true →
      ∃ second, (offspring env child0 random pCrossover pMutation).second = some second ∧
        (offspring env child0 random pCrossover pMutation).fit
          = stdMin env.lt
              (env.population
                (offspring env child0 random pCrossover pMutation).first).Fitness
              (env.population second).Fitness) := by
  constructor
  · intro h
    have h' : env.lt (env.uniformReal random).1 pCrossover = false := h
    simp only [offspring, h', Bool.false_eq_true, if_false, and_self]
  · intro h
    have h' : env.lt (env.uniformReal random).1 pCrossover = true := h
    simp only [offspring, h', if_true]
    exact ⟨_, rfl, rfl⟩

/-- Below the `std::min` of two comparable values of a transitive comparison
is below both. -/
theorem lt_stdMin_both (lt : F → F → Bool)
    (htrans : ∀ a b c, lt a b = true → lt b c = true → lt a c = true) (f x y : F)
    (hcomp : lt y x = true ∨ x = y ∨ lt x y = true) :
    lt f (stdMin lt x y) = true ↔ lt f x = true ∧ lt f y = true := by
  unfold stdMin
  by_cases h : lt y x = true
  · rw [if_pos h]
    exact ⟨fun hf => ⟨htrans f y x hf h, hf⟩, fun hf => hf.2⟩
  · rw [if_neg h]
    rcases hcomp with h' | h' | h'
    · exact absurd h' h
    · subst h'
      exact ⟨fun hf => ⟨hf, hf⟩, fun hf => hf.1⟩
    · exact ⟨fun hf => ⟨hf, htrans f x y hf h'⟩, fun hf => hf.1⟩

end GeneratorFacts

section MeanVarianceFacts

theorem sum_sq_dev (l : List ℚ) (c : ℚ) :
    (l.map (fun x => (x - c) ^ 2)).sum
      = (l.map (fun x => x ^ 2)).sum - 2 * c * l.sum + l.length * c ^ 2 := by
  induction l with
  | nil => simp
  | cons x rest ih =>
    simp only [List.map_cons, List.sum_cons, List.length_cons, ih]
    push_cast
    ring

theorem MVInv_add (st : MeanVarianceCalculator) (l : List ℚ) (x : ℚ) (hl : l ≠ [])
    (h : MVInv st l) : MVInv (st.Add x) (l ++ [x]) := by
  obtain ⟨hn, hs, hm⟩ := h
  have hpos : (0 : ℚ) < l.length := by
    have : 0 < l.length := List.length_pos.2 hl
    exact_mod_cast this
  have hnot : ¬ st.n ≤ 0 := by rw [hn]; exact not_le.2 hpos
  unfold MeanVarianceCalculator.Add
  rw [if_neg hnot]
  refine ⟨?_, ?_, ?_⟩
  · simp only [List.length_append, List.length_singleton, hn]
    push_cast
    ring
  · simp only [List.sum_append, List.sum_singleton, hs]
  · simp only [List.map_append, List.sum_append, List.map_cons, List.map_nil,
      List.sum_singleton, List.length_append, List.length_singleton, hn, hs, hm]
    push_cast
    have h1 : (l.length : ℚ) ≠ 0 := ne_of_gt hpos
    have h2 : (l.length : ℚ) + 1 ≠ 0 := by positivity
    field_simp
    ring

theorem MVInv_foldl :
    ∀ (rest l : List ℚ) (st : MeanVarianceCalculator), l ≠ [] → MVInv st l →
      MVInv (rest.foldl MeanVarianceCalculator.Add st) (l ++ rest) := by
  intro rest
  induction rest with
  | nil => intro l st _ h; simpa using h
  | cons x rest ih =>
    intro l st hl h
    have := ih (l ++ [x]) (st.Add x) (by simp) (MVInv_add st l x hl h)
    simpa using this

theorem MVInv_of_empty (st0 : MeanVarianceCalculator) (h0 : st0.n = 0) (xs : List ℚ)
    (hne : xs ≠ []) : MVInv (xs.foldl MeanVarianceCalculator.Add st0) xs := by
  cases xs with
  | nil => exact absurd rfl hne
  | cons x rest =>
    have h1 : MVInv (st0.Add x) [x] := by
      unfold MeanVarianceCalculator.Add
      rw [if_pos (le_of_eq h0)]
      refine ⟨by simp, by simp, ?_⟩
      simp
    have := MVInv_foldl rest [x] (st0.Add x) (by simp) h1
    simpa using this

theorem MVInv_m2 (st : MeanVarianceCalculator) (l : List ℚ) (hl : l ≠ [])
    (h : MVInv st l) :
    st.m2 = (l.map (fun x => (x - l.sum / l.length) ^ 2)).sum := by
  obtain ⟨_, _, hm⟩ := h
  have hpos : (0 : ℚ) < l.length := by
    have : 0 < l.length := List.length_pos.2 hl
    exact_mod_cast this
  have h1 : (l.length : ℚ) ≠ 0 := ne_of_gt hpos
  rw [hm, sum_sq_dev]
  field_simp
  ring

theorem sum_sq_nonneg (l : List ℚ) (c : ℚ) :
    0 ≤ (l.map (fun x => (x - c) ^ 2)).sum := by
  apply List.sum_nonneg
  intro y hy
  obtain ⟨x, _, rfl⟩ := List.mem_map.1 hy
  exact sq_nonneg _

end MeanVarianceFacts

/-! ## The properties of the specification -/

section Claims

open RandomGenerator

variable {R S T : Type}

/-- C1: on a non-empty well-formed postfix tree (each node's `Length` spans
its subtree, every node has the arity of its kind) element `k < range.Size()`
of the result of `Evaluate` without parameters is `sanitize` of the recursive
value of the root on the dataset row `range.Start() + k`; the output for that
row is the same for every range that contains it, whatever the other rows and
the work buffer hold; for the tree `{x3, x6, x5, Mul, Sub}` it is
`sanitize ((w5*X5 * w6*X6) - w3*X3)`. -/
theorem C1_evaluate_row_value (N : NumOps S T) (m0 : Nat → Nat → T) (tree : List (Node S))
    (dataset : Dataset S) (range : Range)
    (hwf : WellFormed tree) (hty : Typed tree) (hlen : tree.length < 2 ^ 64)
    (hne : tree ≠ []) (k : Nat) (hk : k < range.Size) :
    (∃ v, rootVal N tree dataset none (range.Start + k) = some v ∧
      (Evaluate N m0 tree dataset range none)[k]? = some (sanitize N v)) ∧
    (∀ (m0' : Nat → Nat → T) (dataset' : Dataset S) (range' : Range) (k' : Nat),
      k' < range'.Size → range'.Start + k' = range.Start + k →
      dataset'.GetIndex = dataset.GetIndex →
      (∀ c, dataset'.Values c (range.Start + k) = dataset.Values c (range.Start + k)) →
      (Evaluate N m0' tree dataset' range' none)[k']?
        = (Evaluate N m0 tree dataset range none)[k]?) ∧
    ∀ (w3 w6 w5 v : S) (h3 h6 h5 : Nat),
      (Evaluate N m0 (testTree w3 w6 w5 v h3 h6 h5) dataset range none)[k]?
        = some (sanitize N (N.sub
            (N.mul
              (N.mul (N.cast w5)
                (N.cast (dataset.Values (dataset.GetIndex h5) (range.Start + k))))
              (N.mul (N.cast w6)
                (N.cast (dataset.Values (dataset.GetIndex h6) (range.Start + k)))))
            (N.mul (N.cast w3)
              (N.cast (dataset.Values (dataset.GetIndex h3) (range.Start + k)))))) := by
  refine ⟨?_, ?_, fun w3 w6 w5 v h3 h6 h5 =>
    Evaluate_testTree N m0 dataset range w3 w6 w5 v h3 h6 h5 k hk⟩
  rotate_left
  · intro m0' dataset' range' k' hk' hrow hidx hvals
    rw [Evaluate_correct N m0' tree dataset' range' none hwf hty hlen hne k' hk',
      Evaluate_correct N m0 tree dataset range none hwf hty hlen hne k hk, hrow, rootVal,
      rootVal, val_row_congr N tree dataset dataset' none _ hidx hvals]
  have hpos : 0 < tree.length := List.length_pos.2 hne
  have hsome := val_isSome N tree dataset none hwf hty (range.Start + k)
    (tree.length - 1) (by omega) tree.length (by omega)
  obtain ⟨v, hv⟩ := Option.isSome_iff_exists.1 hsome
  refine ⟨v, hv, ?_⟩
  rw [Evaluate_correct N m0 tree dataset range none hwf hty hlen hne k hk, rootVal, hv]
  rfl

theorem C1_evaluate_row_value_witness :
    ∃ v, rootVal Ext.ops (testTree (Ext.fin 2) (Ext.fin 3) (Ext.fin 5) (Ext.fin 0) 3 6 5)
        exDataset none (64 + 70) = some v ∧
      (Evaluate Ext.ops exBuffer
        (testTree (Ext.fin 2) (Ext.fin 3) (Ext.fin 5) (Ext.fin 0) 3 6 5)
        exDataset ⟨64, 200⟩ none)[70]? = some (sanitize Ext.ops v) :=
  (C1_evaluate_row_value Ext.ops exBuffer
    (testTree (Ext.fin 2) (Ext.fin 3) (Ext.fin 5) (Ext.fin 0) 3 6 5) exDataset ⟨64, 200⟩
    (by decide) (by decide) (by simp [testTree]) (by simp [testTree]) 70 (by decide)).1

/-- C2: every element of the sequence that `Evaluate` returns for a non-empty
tree is finite, with or without a parameter vector, given that the sentinel
`Max` is finite; for the tree `{Constant c, X, Div}` whose divisor `c` makes
every quotient non-finite, every output is the sentinel `Max`. -/
theorem C2_output_finite (N : NumOps S T) (m0 : Nat → Nat → T) (tree : List (Node S))
    (dataset : Dataset S) (range : Range) (parameters : Option (Nat → T))
    (hmax : N.IsFinite N.Max = true) (_hne : tree ≠ []) :
    (∀ x, x ∈ Evaluate N m0 tree dataset range parameters → N.IsFinite x = true) ∧
    ∀ (c w v : S) (h0 h : Nat), (∀ y, N.IsFinite (N.div y (N.cast c)) = false) →
      ∀ k, k < range.Size →
        (Evaluate N m0 (binaryTree (mkNode .Constant 0 c h0) (mkNode .Variable 0 w h) .Div v)
          dataset range none)[k]? = some N.Max := by
  constructor
  · intro x hx
    obtain ⟨k, hk, rfl⟩ := List.mem_map.1 hx
    obtain ⟨v, hv⟩ := EvaluateInto_sanitized N m0 tree dataset range parameters
      (fun _ => N.zero) k (List.mem_range.1 hk)
    rw [hv]
    unfold sanitize
    split
    · next h => exact h
    · exact hmax
  · intro c w v h0 h hdiv k hk
    rw [Evaluate_const_var N m0 dataset range .Div N.div rfl c w v h0 h k hk]
    simp [sanitize, hdiv]

theorem C2_output_finite_witness :
    (∀ x, x ∈ Evaluate Ext.ops exBuffer
        (binaryTree (mkNode .Constant 0 (Ext.fin 0) 0) (mkNode .Variable 0 (Ext.fin 1) 1)
          .Div (Ext.fin 0))
        exDataset ⟨0, 100⟩ none → Ext.IsFinite x = true) ∧
    (Evaluate Ext.ops exBuffer
        (binaryTree (mkNode .Constant 0 (Ext.fin 0) 0) (mkNode .Variable 0 (Ext.fin 1) 1)
          .Div (Ext.fin 0))
        exDataset ⟨0, 100⟩ none)[65]? = some (Ext.fin Ext.maxFinite) :=
  have h := C2_output_finite Ext.ops exBuffer
    (binaryTree (mkNode .Constant 0 (Ext.fin 0) 0) (mkNode .Variable 0 (Ext.fin 1) 1)
      .Div (Ext.fin 0))
    exDataset ⟨0, 100⟩ none rfl (by simp [binaryTree])
  ⟨h.1, h.2 (Ext.fin 0) (Ext.fin 1) (Ext.fin 0) 0 1 Ext_div_zero_not_finite 65 (by decide)⟩

/-- C3: `Evaluate` returns exactly `range.Size()` values. The batch loop is
the fold of the batch body over the windows `(row, min(64, N - row))`,
`row = 0, 64, 128, ...`; the windows listed in order enumerate `0, ..., N - 1`
once each, every window starts at a multiple of 64 below `N`, a batch writes
no entry of the result outside its window, and no entry at or beyond `N` is
written. A batch writes every entry of its window: it stores there the
sanitised root column, whatever the entry held. Every index `k < N` lies in
the window of exactly one batch, and the value of entry `k` at the end is the
one that this batch has written. -/
theorem C3_result_size (N : NumOps S T) (m0 : Nat → Nat → T) (tree : List (Node S))
    (dataset : Dataset S) (range : Range) (parameters : Option (Nat → T)) :
    (Evaluate N m0 tree dataset range parameters).length = range.Size ∧
    (∀ result, EvaluateInto N m0 tree dataset range parameters result
      = ((batchWindows range.Size).foldl
          (fun st w => batchBody N dataset range parameters tree
            (prePass N m0 tree dataset parameters) w.1 w.2 st)
          ((prePass N m0 tree dataset parameters).m, result)).2) ∧
    (batchWindows range.Size).flatMap (fun w => List.range' w.1 w.2)
      = List.range range.Size ∧
    (∀ w, w ∈ batchWindows range.Size →
      BATCHSIZE ∣ w.1 ∧ w.1 < range.Size ∧ w.2 = min BATCHSIZE (range.Size - w.1)) ∧
    (∀ pre row rem st k, ¬ (row ≤ k ∧ k < row + rem) →
      (batchBody N dataset range parameters tree pre row rem st).2 k = st.2 k) ∧
    (∀ result k, range.Size ≤ k →
      EvaluateInto N m0 tree dataset range parameters result k = result k) ∧
    (∀ pre row rem st k, row ≤ k → k < row + rem →
      (batchBody N dataset range parameters tree pre row rem st).2 k
        = sanitize N ((forEachNode
            (batchStep N dataset range parameters tree pre.indices
              pre.treeContainsNonlinearSymbols row rem)
            tree 0 { m := st.1, idx := 0 }).m (subSizeT tree.length 1) (k - row))) ∧
    (∀ k, k < range.Size →
      ∃ n w, (batchWindows range.Size)[n]? = some w ∧ w.1 ≤ k ∧ k < w.1 + w.2 ∧
        (∀ n' w', (batchWindows range.Size)[n']? = some w' → w'.1 ≤ k → k < w'.1 + w'.2 →
          n' = n) ∧
        ∀ result, EvaluateInto N m0 tree dataset range parameters result k
          = sanitize N ((forEachNode
              (batchStep N dataset range parameters tree
                (prePass N m0 tree dataset parameters).indices
                (prePass N m0 tree dataset parameters).treeContainsNonlinearSymbols w.1 w.2)
              tree 0
              { m := (stateAfterBatches N m0 tree dataset range parameters result n).1,
                idx := 0 }).m (subSizeT tree.length 1) (k - w.1))) := by
  refine ⟨Evaluate_length N m0 tree dataset range parameters,
    EvaluateInto_eq_foldl N m0 tree dataset range parameters,
    (batchWindows_spec range.Size).1, (batchWindows_spec range.Size).2, ?_,
    fun result k hk => EvaluateInto_frame N m0 tree dataset range parameters result k hk,
    fun pre row rem st k h1 h2 =>
      batchBody_written N dataset range parameters tree pre row rem st k h1 h2, ?_⟩
  · intro pre row rem st k hk
    simp [batchBody, hk]
  · intro k hk
    obtain ⟨ws, w, ws', hsplit, hkw, hpre, hpost⟩ := batchWindows_cover range.Size k hk
    refine ⟨ws.length, w, ?_, hkw.1, hkw.2, ?_, ?_⟩
    · rw [hsplit, List.getElem?_append_right (Nat.le_refl _), Nat.sub_self]
      exact List.getElem?_cons_zero
    · intro n' w' hn' h1 h2
      rw [hsplit] at hn'
      rcases Nat.lt_trichotomy n' ws.length with hlt | heq | hgt
      · rw [List.getElem?_append_left hlt] at hn'
        exact absurd ⟨h1, h2⟩ (hpre w' (List.getElem?_mem hn'))
      · exact heq
      · rw [List.getElem?_append_right (Nat.le_of_lt hgt)] at hn'
        obtain ⟨d, hd⟩ : ∃ d, n' - ws.length = d + 1 := ⟨n' - ws.length - 1, by omega⟩
        rw [hd, List.getElem?_cons_succ] at hn'
        exact absurd ⟨h1, h2⟩ (hpost w' (List.getElem?_mem hn'))
    · intro result
      have htake : (batchWindows range.Size).take ws.length = ws := by
        rw [hsplit]
        simp
      rw [EvaluateInto_eq_foldl, stateAfterBatches, htake]
      rw [hsplit, List.foldl_append, List.foldl_cons,
        batchFold_frame N dataset range parameters tree _ k ws' _ hpost]
      exact batchBody_written N dataset range parameters tree _ w.1 w.2 _ k hkw.1 hkw.2

/-- C4: for the tree `{X1, X2, Add}` and every range, where addition in the
numeric type is commutative, element `k < range.Size()` of the result of
`Evaluate` is `w1*X1 + w2*X2` on the row `range.Start() + k` whenever that sum
is finite; when the weights are 1, so that `w1*X1 = X1` and `w2*X2 = X2`,
it is `X1 + X2`. -/
theorem C4_addition (N : NumOps S T) (m0 : Nat → Nat → T) (dataset : Dataset S)
    (range : Range) (w1 w2 v : S) (h1 h2 : Nat) (k : Nat) (hk : k < range.Size)
    (hcomm : ∀ a b, N.add a b = N.add b a)
    (hfin : N.IsFinite (N.add
      (N.mul (N.cast w1) (N.cast (dataset.Values (dataset.GetIndex h1) (range.Start + k))))
      (N.mul (N.cast w2) (N.cast (dataset.Values (dataset.GetIndex h2) (range.Start + k)))))
      = true) :
    (Evaluate N m0 (binaryTree (mkNode .Variable 0 w1 h1) (mkNode .Variable 0 w2 h2) .Add v)
        dataset range none)[k]?
      = some (N.add
          (N.mul (N.cast w1) (N.cast (dataset.Values (dataset.GetIndex h1) (range.Start + k))))
          (N.mul (N.cast w2) (N.cast (dataset.Values (dataset.GetIndex h2) (range.Start + k)))))
    ∧
    (N.mul (N.cast w1) (N.cast (dataset.Values (dataset.GetIndex h1) (range.Start + k)))
        = N.cast (dataset.Values (dataset.GetIndex h1) (range.Start + k)) →
      N.mul (N.cast w2) (N.cast (dataset.Values (dataset.GetIndex h2) (range.Start + k)))
        = N.cast (dataset.Values (dataset.GetIndex h2) (range.Start + k)) →
      (Evaluate N m0 (binaryTree (mkNode .Variable 0 w1 h1) (mkNode .Variable 0 w2 h2) .Add v)
          dataset range none)[k]?
        = some (N.add (N.cast (dataset.Values (dataset.GetIndex h1) (range.Start + k)))
            (N.cast (dataset.Values (dataset.GetIndex h2) (range.Start + k))))) := by
  have h := Evaluate_var_var N m0 dataset range .Add N.add rfl w1 w2 v h1 h2 k hk
  rw [hcomm] at h
  simp only [sanitize, hfin, if_true] at h
  refine ⟨h, fun e1 e2 => ?_⟩
  rw [h, e1, e2]

theorem C4_addition_witness :
    (Evaluate Ext.ops exBuffer
      (binaryTree (mkNode .Variable 0 (Ext.fin 1) 1) (mkNode .Variable 0 (Ext.fin 1) 2)
        .Add (Ext.fin 0))
      exDataset ⟨3, 13⟩ none)[4]?
      = some (Ext.add (exDataset.Values 1 7) (exDataset.Values 2 7)) :=
  (C4_addition Ext.ops exBuffer exDataset ⟨3, 13⟩ (Ext.fin 1) (Ext.fin 1) (Ext.fin 0) 1 2 4
    (by decide) Ext_add_comm
    (by norm_num [Ext.ops, exDataset, Ext.mul, Ext.add, Ext.ofRat, Ext.maxFinite,
      Ext.IsFinite])).2
    (by norm_num [Ext.ops, exDataset, Ext.mul, Ext.ofRat, Ext.maxFinite])
    (by norm_num [Ext.ops, exDataset, Ext.mul, Ext.ofRat, Ext.maxFinite])

/-- C5 (as stated, refuted): for the tree `{X1, X2, Sub}` with weights 1 on
data with `X1 = -max` and `X2 = max` the difference `X2 - X1` overflows to
infinity, and `Evaluate` returns the sentinel `Max`, not `X2 - X1`. -/
theorem C5_subtraction_counterexample :
    (Evaluate Ext.ops exBuffer
        (binaryTree (mkNode .Variable 0 (Ext.fin 1) 1) (mkNode .Variable 0 (Ext.fin 1) 2)
          .Sub (Ext.fin 0))
        overflowDataset ⟨0, 1⟩ none)[0]? = some (Ext.fin Ext.maxFinite) ∧
    (Evaluate Ext.ops exBuffer
        (binaryTree (mkNode .Variable 0 (Ext.fin 1) 1) (mkNode .Variable 0 (Ext.fin 1) 2)
          .Sub (Ext.fin 0))
        overflowDataset ⟨0, 1⟩ none)[0]?
      ≠ some (Ext.sub (overflowDataset.Values 2 0) (overflowDataset.Values 1 0)) := by
  have h := Evaluate_var_var Ext.ops exBuffer overflowDataset ⟨0, 1⟩ .Sub Ext.sub rfl
    (Ext.fin 1) (Ext.fin 1) (Ext.fin 0) 1 2 0 (by decide)
  have e : sanitize Ext.ops (Ext.sub
      (Ext.ops.mul (Ext.ops.cast (Ext.fin 1))
        (Ext.ops.cast (overflowDataset.Values (overflowDataset.GetIndex 2) (0 + 0))))
      (Ext.ops.mul (Ext.ops.cast (Ext.fin 1))
        (Ext.ops.cast (overflowDataset.Values (overflowDataset.GetIndex 1) (0 + 0)))))
      = Ext.fin Ext.maxFinite := by
    norm_num [sanitize, Ext.ops, overflowDataset, Ext.mul, Ext.sub, Ext.neg, Ext.add,
      Ext.ofRat, Ext.maxFinite, Ext.IsFinite]
  have e' : Ext.sub (overflowDataset.Values 2 0) (overflowDataset.Values 1 0) = Ext.pinf := by
    norm_num [overflowDataset, Ext.sub, Ext.neg, Ext.add, Ext.ofRat, Ext.maxFinite]
  rw [e] at h
  refine ⟨h, ?_⟩
  rw [h, e']
  simp

/-- C5 (amended): the node immediately before the operator is the first
operand. With weights that act as 1, `Evaluate` on `{X1, X2, Sub}` yields
`X2 - X1` on every row where that difference is finite, and on
`{X1, X2, Div}` it yields `X2 / X1` on every row where that quotient is
finite; on the rows where the difference, respectively the quotient, is not
finite the output is the maximum finite value `Max`. -/
theorem C5_operand_order (N : NumOps S T) (m0 : Nat → Nat → T) (dataset : Dataset S)
    (range : Range) (w1 w2 v : S) (h1 h2 : Nat) (k : Nat) (hk : k < range.Size)
    (e1 : N.mul (N.cast w1) (N.cast (dataset.Values (dataset.GetIndex h1) (range.Start + k)))
      = N.cast (dataset.Values (dataset.GetIndex h1) (range.Start + k)))
    (e2 : N.mul (N.cast w2) (N.cast (dataset.Values (dataset.GetIndex h2) (range.Start + k)))
      = N.cast (dataset.Values (dataset.GetIndex h2) (range.Start + k))) :
    (N.IsFinite (N.sub (N.cast (dataset.Values (dataset.GetIndex h2) (range.Start + k)))
        (N.cast (dataset.Values (dataset.GetIndex h1) (range.Start + k)))) = true →
      (Evaluate N m0 (binaryTree (mkNode .Variable 0 w1 h1) (mkNode .Variable 0 w2 h2) .Sub v)
          dataset range none)[k]?
        = some (N.sub (N.cast (dataset.Values (dataset.GetIndex h2) (range.Start + k)))
            (N.cast (dataset.Values (dataset.GetIndex h1) (range.Start + k))))) ∧
    (N.IsFinite (N.div (N.cast (dataset.Values (dataset.GetIndex h2) (range.Start + k)))
        (N.cast (dataset.Values (dataset.GetIndex h1) (range.Start + k)))) = true →
      (Evaluate N m0 (binaryTree (mkNode .Variable 0 w1 h1) (mkNode .Variable 0 w2 h2) .Div v)
          dataset range none)[k]?
        = some (N.div (N.cast (dataset.Values (dataset.GetIndex h2) (range.Start + k)))
            (N.cast (dataset.Values (dataset.GetIndex h1) (range.Start + k))))) ∧
    (N.IsFinite (N.sub (N.cast (dataset.Values (dataset.GetIndex h2) (range.Start + k)))
        (N.cast (dataset.Values (dataset.GetIndex h1) (range.Start + k)))) = false →
      (Evaluate N m0 (binaryTree (mkNode .Variable 0 w1 h1) (mkNode .Variable 0 w2 h2) .Sub v)
          dataset range none)[k]? = some N.Max) ∧
    (N.IsFinite (N.div (N.cast (dataset.Values (dataset.GetIndex h2) (range.Start + k)))
        (N.cast (dataset.Values (dataset.GetIndex h1) (range.Start + k)))) = false →
      (Evaluate N m0 (binaryTree (mkNode .Variable 0 w1 h1) (mkNode .Variable 0 w2 h2) .Div v)
          dataset range none)[k]? = some N.Max) := by
  refine ⟨?_, ?_, ?_, ?_⟩
  · intro hfin
    rw [Evaluate_var_var N m0 dataset range .Sub N.sub rfl w1 w2 v h1 h2 k hk, e1, e2]
    simp [sanitize, hfin]
  · intro hfin
    rw [Evaluate_var_var N m0 dataset range .Div N.div rfl w1 w2 v h1 h2 k hk, e1, e2]
    simp [sanitize, hfin]
  · intro hfin
    rw [Evaluate_var_var N m0 dataset range .Sub N.sub rfl w1 w2 v h1 h2 k hk, e1, e2]
    simp [sanitize, hfin]
  · intro hfin
    rw [Evaluate_var_var N m0 dataset range .Div N.div rfl w1 w2 v h1 h2 k hk, e1, e2]
    simp [sanitize, hfin]

theorem C5_operand_order_witness :
    (Evaluate Ext.ops exBuffer
        (binaryTree (mkNode .Variable 0 (Ext.fin 1) 1) (mkNode .Variable 0 (Ext.fin 1) 2)
          .Sub (Ext.fin 0))
        exDataset ⟨3, 13⟩ none)[4]?
      = some (Ext.sub (exDataset.Values 2 7) (exDataset.Values 1 7)) ∧
    (Evaluate Ext.ops exBuffer
        (binaryTree (mkNode .Variable 0 (Ext.fin 1) 1) (mkNode .Variable 0 (Ext.fin 1) 2)
          .Div (Ext.fin 0))
        exDataset ⟨3, 13⟩ none)[4]?
      = some (Ext.div (exDataset.Values 2 7) (exDataset.Values 1 7)) ∧
    (Evaluate Ext.ops exBuffer
        (binaryTree (mkNode .Variable 0 (Ext.fin 1) 1) (mkNode .Variable 0 (Ext.fin 1) 2)
          .Sub (Ext.fin 0))
        overflowDataset ⟨0, 1⟩ none)[0]? = some Ext.ops.Max :=
  have h := C5_operand_order Ext.ops exBuffer exDataset ⟨3, 13⟩ (Ext.fin 1) (Ext.fin 1)
    (Ext.fin 0) 1 2 4 (by decide)
    (by norm_num [Ext.ops, exDataset, Ext.mul, Ext.ofRat, Ext.maxFinite])
    (by norm_num [Ext.ops, exDataset, Ext.mul, Ext.ofRat, Ext.maxFinite])
  ⟨h.1 (by norm_num [Ext.ops, exDataset, Ext.sub, Ext.neg, Ext.add, Ext.ofRat, Ext.maxFinite,
      Ext.IsFinite]),
    h.2.1 (by norm_num [Ext.ops, exDataset, Ext.div, Ext.ofRat, Ext.maxFinite, Ext.IsFinite]),
    (C5_operand_order Ext.ops exBuffer overflowDataset ⟨0, 1⟩ (Ext.fin 1) (Ext.fin 1)
      (Ext.fin 0) 1 2 0 (by decide)
      (by norm_num [Ext.ops, overflowDataset, Ext.mul, Ext.ofRat, Ext.maxFinite])
      (by norm_num [Ext.ops, overflowDataset, Ext.mul, Ext.ofRat, Ext.maxFinite])).2.2.1
      (by norm_num [Ext.ops, overflowDataset, Ext.sub, Ext.neg, Ext.add, Ext.ofRat,
        Ext.maxFinite, Ext.IsFinite])⟩

/-- C6: evaluating a tree with the parameter vector `p` gives the same result
as evaluating, without parameters, the tree in which the `Value` of the
`i`-th leaf in postfix order (Constants and Variables counted together) is
`p[i]`; only the first `L` entries of `p` are read, `L` the number of
leaves. -/
theorem C6_parameter_substitution (N : NumOps S T) (m0 : Nat → Nat → T)
    (tree : List (Node S)) (dataset : Dataset S) (range : Range) (p : Nat → S) :
    Evaluate N m0 tree dataset range (some (fun i => N.cast (p i)))
      = Evaluate N m0 (substitute p tree) dataset range none ∧
    ∀ (q q' : Nat → T), (∀ i, i < tree.countP Node.IsLeaf → q i = q' i) →
      Evaluate N m0 tree dataset range (some q) = Evaluate N m0 tree dataset range (some q') := by
  constructor
  · unfold Evaluate
    congr 1
    apply EvaluateInto_congr
    · simp [substitute]
    · intro i s s' hs hs'
      rw [substitute_getElem?, hs] at hs'
      simp only [Option.map_some', Option.some.injEq] at hs'
      subst hs'
      split <;> simp
    · intro i s s' hs hs' hl
      rw [substitute_getElem?, hs] at hs'
      simp only [Option.map_some', Option.some.injEq] at hs'
      subst hs'
      simp [weight, hl]
  · intro q q' hq
    unfold Evaluate
    congr 1
    apply EvaluateInto_congr
    · rfl
    · intro i s s' hs hs'
      rw [hs] at hs'
      cases hs'
      exact ⟨rfl, rfl, rfl⟩
    · intro i s s' hs hs' hl
      simp only [weight]
      apply hq
      have hi : i < tree.length := (List.getElem?_eq_some_iff.1 hs).1
      have h1 := leafRank_succ tree i s hs
      rw [if_pos hl] at h1
      have h2 : leafRank tree (i + 1) ≤ tree.countP Node.IsLeaf := by
        unfold leafRank
        exact List.Sublist.countP_le _ (List.take_sublist _ _)
      omega

/-- C7: evaluating with an explicit parameter vector that lists the tree's own
stored leaf values in postfix order gives exactly the output of evaluating
with no parameter vector. -/
theorem C7_own_parameters (N : NumOps S T) (m0 : Nat → Nat → T) (tree : List (Node S))
    (dataset : Dataset S) (range : Range) (p : Nat → T)
    (hp : ∀ i v, (leafValues tree)[i]? = some v → p i = N.cast v) :
    Evaluate N m0 tree dataset range (some p) = Evaluate N m0 tree dataset range none := by
  unfold Evaluate
  congr 1
  apply EvaluateInto_congr
  · rfl
  · intro i s s' hs hs'
    rw [hs] at hs'
    cases hs'
    exact ⟨rfl, rfl, rfl⟩
  · intro i s s' hs hs' hl
    rw [hs] at hs'
    cases hs'
    simp only [weight]
    exact hp _ _ (leafValues_getElem? tree i s hs hl)

theorem C7_own_parameters_witness :
    Evaluate Ext.ops exBuffer
        (testTree (Ext.fin 2) (Ext.fin 3) (Ext.fin 5) (Ext.fin 0) 3 6 5) exDataset ⟨0, 100⟩
        (some (fun i => ([Ext.fin 2, Ext.fin 3, Ext.fin 5] : List Ext).getD i Ext.nan))
      = Evaluate Ext.ops exBuffer
        (testTree (Ext.fin 2) (Ext.fin 3) (Ext.fin 5) (Ext.fin 0) 3 6 5) exDataset ⟨0, 100⟩
        none :=
  C7_own_parameters Ext.ops exBuffer
    (testTree (Ext.fin 2) (Ext.fin 3) (Ext.fin 5) (Ext.fin 0) 3 6 5) exDataset ⟨0, 100⟩ _
    (by
      intro i v hv
      have : i = 0 ∨ i = 1 ∨ i = 2 := by
        have := (List.getElem?_eq_some_iff.1 hv).1
        simp [leafValues, testTree, mkNode, Node.IsLeaf, Node.IsConstant, Node.IsVariable]
          at this
        omega
      rcases this with rfl | rfl | rfl <;>
        simp [leafValues, testTree, mkNode, Node.IsLeaf, Node.IsConstant, Node.IsVariable,
          Ext.ops] at hv ⊢ <;> exact hv)

/-- C8 (as stated, refuted): in the tree `{X1, X1, Sub}` with weights `max` on
the data `X1 = 10` both leaf values `max * 10` overflow to infinity. After the
batch the column of the first leaf holds infinity, not the sentinel; the
subtraction uses it as it is, `inf - inf = NaN`, and the output is the
sentinel, where leaves replaced by the sentinel would have given
`max - max = 0`. -/
theorem C8_leaf_counterexample :
    (stateAfterBatches Ext.ops exBuffer overflowTree exDataset ⟨0, 1⟩ none
      (fun _ => Ext.fin 0) 1).1 0 0 = Ext.pinf ∧
    (Evaluate Ext.ops exBuffer overflowTree exDataset ⟨0, 1⟩ none)[0]?
      = some (Ext.fin Ext.maxFinite) ∧
    Ext.sub (sanitize Ext.ops Ext.pinf) (sanitize Ext.ops Ext.pinf) = Ext.fin 0 := by
  refine ⟨?_, ?_, ?_⟩
  · have h := leaf_column_raw Ext.ops exBuffer overflowTree exDataset ⟨0, 1⟩ none
      (fun _ => Ext.fin 0) 0 (0, 1) (by decide)
      0 (mkNode .Variable 0 (Ext.fin Ext.maxFinite) 1) rfl rfl 0 (by decide)
    have e : val Ext.ops overflowTree exDataset none (0 + 0 + 0) 1 0 = some Ext.pinf := by
      norm_num [val, overflowTree, binaryTree, mkNode, weight, Ext.ops, exDataset, Ext.mul,
        Ext.ofRat, Ext.maxFinite]
    exact (Option.some.inj (h.symm.trans e))
  · have h := Evaluate_var_var Ext.ops exBuffer exDataset ⟨0, 1⟩ .Sub Ext.sub rfl
      (Ext.fin Ext.maxFinite) (Ext.fin Ext.maxFinite) (Ext.fin 0) 1 1 0 (by decide)
    rw [overflowTree, h]
    norm_num [sanitize, Ext.ops, exDataset, Ext.mul, Ext.sub, Ext.neg, Ext.add,
      Ext.ofRat, Ext.maxFinite, Ext.IsFinite]
  · norm_num [sanitize, Ext.ops, Ext.sub, Ext.neg, Ext.add, Ext.ofRat, Ext.maxFinite,
      Ext.IsFinite]

/-- C8 (amended): during evaluation the column of a leaf holds the value of the
leaf as it is, finite or not: after the batch on any window `w` of the batch
loop, row `r < w.2` of the column of the leaf `i` is the Constant's resolved
scalar, or the Variable's weight times the dataset value of the row
`range.Start + w.1 + r`. No sentinel is substituted at the leaves, and the
parent operations read the columns unchanged: on a well-formed tree the column
of a binary node is its operator applied to the columns of its two children
as they are stored, and the column of a unary node is its function applied to
the column of its child. Only the value of the root is replaced by the
sentinel, at the final writeback: the output on the row is the sanitised root
column. -/
theorem C8_leaf_columns (N : NumOps S T) (m0 : Nat → Nat → T) (tree : List (Node S))
    (dataset : Dataset S) (range : Range) (parameters : Option (Nat → T))
    (result : Nat → T) (n : Nat) (w : Nat × Nat)
    (hw : (batchWindows range.Size)[n]? = some w) (i : Nat) (s : Node S)
    (hs : tree[i]? = some s) (hl : s.IsLeaf = true) (r : Nat) (hr : r < w.2) :
    (s.Type_ = .Constant →
      (stateAfterBatches N m0 tree dataset range parameters result (n + 1)).1 i r
        = weight N parameters tree i s) ∧
    (s.Type_ = .Variable →
      (stateAfterBatches N m0 tree dataset range parameters result (n + 1)).1 i r
        = N.mul (weight N parameters tree i s)
            (N.cast (dataset.Values (dataset.GetIndex s.HashValue)
              (range.Start + w.1 + r)))) ∧
    (WellFormed tree → Typed tree → tree.length < 2 ^ 64 →
      (∀ (j : Nat) (t : Node S) (op : T → T → T), tree[j]? = some t →
        binOp N t.Type_ = some op →
        j - 1 < j ∧ j - 2 - lengthAt tree (j - 1) < j ∧
        (stateAfterBatches N m0 tree dataset range parameters result (n + 1)).1 j r
          = op ((stateAfterBatches N m0 tree dataset range parameters result (n + 1)).1
                (j - 1) r)
              ((stateAfterBatches N m0 tree dataset range parameters result (n + 1)).1
                (j - 2 - lengthAt tree (j - 1)) r)) ∧
      (∀ (j : Nat) (t : Node S) (f : T → T), tree[j]? = some t →
        unOp N t.Type_ = some f →
        j - 1 < j ∧
        (stateAfterBatches N m0 tree dataset range parameters result (n + 1)).1 j r
          = f ((stateAfterBatches N m0 tree dataset range parameters result (n + 1)).1
                (j - 1) r)) ∧
      (Evaluate N m0 tree dataset range parameters)[w.1 + r]?
        = some (sanitize N
            ((stateAfterBatches N m0 tree dataset range parameters result (n + 1)).1
              (tree.length - 1) r))) := by
  have h := leaf_column_raw N m0 tree dataset range parameters result n w hw i s hs hl r hr
  refine ⟨?_, ?_, ?_⟩
  · intro ht
    simp only [val, hs, ht] at h
    exact (Option.some.inj h).symm
  · intro ht
    simp only [val, hs, ht] at h
    exact (Option.some.inj h).symm
  · intro hwf hty hlen
    have hcol := column_val N m0 tree dataset range parameters result hwf hty hlen n w hw r hr
    refine ⟨?_, ?_, ?_⟩
    · intro j t op hj hop
      have hjl : j < tree.length := (List.getElem?_eq_some_iff.1 hj).1
      obtain ⟨har, _, _⟩ := binOp_arity N t.Type_ op hop
      have hb := wf_binary tree hwf j t hj (by rw [hty t (List.getElem?_mem hj), har])
      have hv := hcol j hjl (j + 1) (by omega)
      rw [val_binary N tree dataset parameters _ j j t hj op hop] at hv
      simp only [valBinary, if_pos hb] at hv
      rw [hcol (j - 1) (by omega) j (by omega),
        hcol (j - 2 - lengthAt tree (j - 1)) (by omega) j (by omega)] at hv
      exact ⟨by omega, by omega, (Option.some.inj hv).symm⟩
    · intro j t f hj hf
      have hjl : j < tree.length := (List.getElem?_eq_some_iff.1 hj).1
      obtain ⟨har, _, _, _⟩ := unOp_arity N t.Type_ f hf
      have hb := wf_unary tree hwf j t hj (by rw [hty t (List.getElem?_mem hj), har])
      have hv := hcol j hjl (j + 1) (by omega)
      rw [val_unary N tree dataset parameters _ j j t hj f hf] at hv
      simp only [valUnary, if_pos hb] at hv
      rw [hcol (j - 1) (by omega) j (by omega)] at hv
      exact ⟨by omega, (Option.some.inj hv).symm⟩
    · have hil : i < tree.length := (List.getElem?_eq_some_iff.1 hs).1
      have hne : tree ≠ [] := by
        intro hnil
        rw [hnil] at hil
        exact absurd hil (by simp)
      obtain ⟨_, hw1, hw2⟩ := (batchWindows_spec range.Size).2 w (List.getElem?_mem hw)
      have hk : w.1 + r < range.Size := by
        rw [hw2] at hr
        omega
      rw [Evaluate_correct N m0 tree dataset range parameters hwf hty hlen hne (w.1 + r) hk,
        rootVal, ← Nat.add_assoc, hcol (tree.length - 1) (by omega) tree.length (by omega)]
      rfl

theorem C8_leaf_columns_witness :
    (stateAfterBatches Ext.ops exBuffer overflowTree exDataset ⟨0, 100⟩ none
      (fun _ => Ext.fin 0) (1 + 1)).1 1 7
      = Ext.ops.mul (weight Ext.ops none overflowTree 1
          (mkNode .Variable 0 (Ext.fin Ext.maxFinite) 1))
          (Ext.ops.cast (exDataset.Values (exDataset.GetIndex 1) (0 + 64 + 7))) ∧
    (Evaluate Ext.ops exBuffer overflowTree exDataset ⟨0, 100⟩ none)[64 + 7]?
      = some (sanitize Ext.ops
          ((stateAfterBatches Ext.ops exBuffer overflowTree exDataset ⟨0, 100⟩ none
            (fun _ => Ext.fin 0) (1 + 1)).1 (overflowTree.length - 1) 7)) :=
  have h := C8_leaf_columns Ext.ops exBuffer overflowTree exDataset ⟨0, 100⟩ none
    (fun _ => Ext.fin 0) 1 (64, 36) (by decide) 1
    (mkNode .Variable 0 (Ext.fin Ext.maxFinite) 1) rfl rfl 7 (by decide)
  ⟨h.2.1 rfl, (h.2.2 (by decide) (by decide) (by decide)).2.2⟩

/-- C9: with a target vector of length `range.Size()`, `ResidualEvaluator`
returns true and leaves in `residuals[k]`, for every `k < range.Size()`, the
`k`-th output of `Evaluate` with the parameters `parameters[0]` minus
`target[k]`. -/
theorem C9_residuals (N : NumOps S T) (m0 : Nat → Nat → T) (tree : List (Node S))
    (dataset : Dataset S) (targetValues : List S) (range : Range)
    (parameters : Nat → Option (Nat → T)) (residuals : Nat → T)
    (htarget : targetValues.length = range.Size) (k : Nat) (hk : k < range.Size) :
    (ResidualEvaluator N m0 tree dataset targetValues range parameters residuals).1 = true ∧
    ∃ e t, (Evaluate N m0 tree dataset range (parameters 0))[k]? = some e ∧
      targetValues[k]? = some t ∧
      (ResidualEvaluator N m0 tree dataset targetValues range parameters residuals).2 k
        = N.sub e (N.cast t) := by
  have hkt : k < targetValues.length := by omega
  refine ⟨rfl, _, targetValues[k], Evaluate_getElem? N m0 tree dataset range _ k hk,
    List.getElem?_eq_getElem hkt, ?_⟩
  simp only [ResidualEvaluator, TreeEvaluator, List.getElem?_eq_getElem hkt]
  rw [EvaluateInto_result_indep N m0 tree dataset range (parameters 0) residuals
    (fun _ => N.zero) k hk]

theorem C9_residuals_witness :
    (ResidualEvaluator Ext.ops exBuffer
        (testTree (Ext.fin 2) (Ext.fin 3) (Ext.fin 5) (Ext.fin 0) 3 6 5) exDataset
        [Ext.fin 1, Ext.fin 2] ⟨5, 7⟩ (fun _ => none) (fun _ => Ext.nan)).1 = true ∧
    ∃ e t, (Evaluate Ext.ops exBuffer
        (testTree (Ext.fin 2) (Ext.fin 3) (Ext.fin 5) (Ext.fin 0) 3 6 5) exDataset ⟨5, 7⟩
        none)[1]? = some e ∧
      ([Ext.fin 1, Ext.fin 2] : List Ext)[1]? = some t ∧
      (ResidualEvaluator Ext.ops exBuffer
        (testTree (Ext.fin 2) (Ext.fin 3) (Ext.fin 5) (Ext.fin 0) 3 6 5) exDataset
        [Ext.fin 1, Ext.fin 2] ⟨5, 7⟩ (fun _ => none) (fun _ => Ext.nan)).2 1
        = Ext.ops.sub e (Ext.ops.cast t) :=
  C9_residuals Ext.ops exBuffer
    (testTree (Ext.fin 2) (Ext.fin 3) (Ext.fin 5) (Ext.fin 0) 3 6 5) exDataset
    [Ext.fin 1, Ext.fin 2] ⟨5, 7⟩ (fun _ => none) (fun _ => Ext.nan) (by decide) 1 (by decide)

/-- C10: the stack-based `BalancedTreeCreator`, run with a grammar whose
sampler returns no arity above the requested maximum, ends (within
`2 * maxLength` iterations of its loop) and returns a tree. The emitted
sequence is the postfix sequence of one tree with respect to `Arity`: its last
node is the root drawn first, every node comes right after the subtrees of its
`Arity` children, it has `1 + (sum of all arities)` nodes, and with `Length`
recomputed bottom-up from `Arity` every index range `[i - Length[i], i)` is
filled exactly by the subtrees of the `Arity[i]` children found by the
backward-subtraction rule. -/
theorem C10_creator_postfix (env : CreatorEnv R S) (random : R)
    (hlen : 1 ≤ env.maxLength) (hmax : env.maxLength < 2 ^ 64)
    (hsample : ∀ r lo hi, (env.SampleRandomSymbol r lo hi).1.Arity ≤ hi) :
    (∃ tree, BalancedTreeCreator env (2 * env.maxLength) random = some tree) ∧
    ∀ fuel tree, BalancedTreeCreator env fuel random = some tree →
      ∃ nodes root, tree = UpdateNodes nodes ∧
        creatorRoot env random = some root ∧ nodes.getLast? = some root ∧
        Forest 1 nodes ∧
        tree.map (fun s => s.Arity) = nodes.map (fun s => s.Arity) ∧
        tree.length = 1 + (tree.map (fun s => s.Arity)).sum ∧
        WellFormed tree := by
  obtain ⟨st0, hst, hopen, hle, hlt, hstk⟩ := creatorStart_spec env random hlen hmax hsample
  constructor
  · obtain ⟨nodes, hn⟩ := creatorLoop_terminates env hsample (2 * env.maxLength) st0 hopen hle
      (by omega) (by omega)
    exact ⟨UpdateNodes nodes, by simp [BalancedTreeCreator, hst, hn]⟩
  · intro fuel tree htree
    simp only [BalancedTreeCreator, hst, Option.map_eq_some'] at htree
    obtain ⟨nodes, hrun, rfl⟩ := htree
    obtain ⟨root, l, hroot, hnodes, hf⟩ := creatorLoop_forest env random st0 hst fuel nodes hrun
    have hforest : Forest 1 nodes := by
      have := Forest.snoc Forest.nil hf
      simpa [hnodes] using this
    obtain ⟨_, hsum, hall⟩ := updateLengths_forest hforest []
    have harity : (UpdateNodes nodes).map (fun s => s.Arity) = nodes.map (fun s => s.Arity) := by
      simpa [UpdateNodes] using updateLengths_arity [] nodes
    have hlength : (UpdateNodes nodes).length = nodes.length := by
      simpa [UpdateNodes] using updateLengths_length [] nodes
    refine ⟨nodes, root, rfl, hroot, by simp [hnodes], hforest, harity, ?_, ?_, ?_⟩
    · rw [harity, hlength]
      exact Forest_length hforest
    · intro i hi
      have := hall i (Nat.zero_le _) hi
      simpa using this
    · have h1 : (updateLengths [] nodes).length = nodes.length := hlength
      simp only [sumChildren] at hsum
      unfold UpdateNodes
      omega

theorem C10_creator_postfix_witness :
    ∃ tree, BalancedTreeCreator exEnv (2 * exEnv.maxLength) 0 = some tree ∧
      tree.length = 1 + (tree.map (fun s => s.Arity)).sum ∧ WellFormed tree := by
  obtain ⟨⟨tree, ht⟩, h⟩ := C10_creator_postfix exEnv 0 (by decide) (by decide)
    (fun r lo hi => Nat.min_le_left _ _)
  obtain ⟨_, _, _, _, _, _, _, hlen, hwf⟩ := h _ tree ht
  exact ⟨tree, ht, hlen, hwf⟩

/-- C15: the outputs of a `JsfRand` generator are a function of its four words.
Two generators constructed from the same seed give the same outputs for every
number of draws, and a copy taken after `k` draws gives, draw for draw, the
outputs `k, k + 1, ...` of the original and reaches the same state, for every
width `N` (32 and 64 among them). In the test of details.cpp the copy and the
original of `JsfRand<64>(1234)` agree on the draw after two draws. -/
theorem C15_jsf_deterministic (N : Nat) :
    (∀ (seed₁ seed₂ n : Nat), seed₁ = seed₂ →
      (JsfRand.draws N n (JsfRand.new N seed₁)).1
        = (JsfRand.draws N n (JsfRand.new N seed₂)).1) ∧
    (∀ (g : JsfRand) (k n : Nat),
      (JsfRand.draws N (k + n) g).1
          = (JsfRand.draws N k g).1 ++ (JsfRand.draws N n (JsfRand.draws N k g).2).1 ∧
      (JsfRand.draws N (k + n) g).2 = (JsfRand.draws N n (JsfRand.draws N k g).2).2) ∧
    (∀ (g tmp : JsfRand), tmp = (JsfRand.draws 64 2 (JsfRand.new 64 1234)).2 →
      g = (JsfRand.draws 64 2 (JsfRand.new 64 1234)).2 →
      (JsfRand.next 64 tmp).1 = (JsfRand.next 64 g).1) := by
  refine ⟨?_, fun g k n => draws_add N k n g, ?_⟩
  · intro s1 s2 n h
    rw [h]
  · intro g tmp h1 h2
    rw [h1, h2]

/-- C16 (the code at the failing input): with the fitness values `[3, 4]` in
the population and `[1, 5]` in the pool, `KeepBestReinserter` leaves `[1, 4]`
in the population, while the two best of the union are `1` and `3`. -/
theorem C16_keepbest_failing_input :
    KeepBestReinserter (fun l => l.insertionSort (fun a b => a ≤ b)) id [3, 4] [1, 5] = [1, 4] ∧
    (([3, 4] ++ [1, 5]).insertionSort (fun a b => a ≤ b)).take 2 = [1, 3] := by
  decide

/-- C17: for natural numbers `a` and `b` below `2 ^ 64`, `ParseRange` on the
decimal text of `a`, a colon and the decimal text of `b` returns the range
with start `a` and end `b`. -/
theorem C17_parse_range_roundtrip (a b : Nat) (ha : a < 2 ^ 64) (hb : b < 2 ^ 64) :
    ParseRange (Nat.toDigits 10 a ++ ':' :: Nat.toDigits 10 b)
      = ParseResult.range { Start := a, End := b } := by
  rw [ParseRange_split _ _ (toDigits_no_colon a), from_chars_toDigits a ha,
    from_chars_toDigits b hb]

theorem C17_parse_range_roundtrip_witness :
    ParseRange (Nat.toDigits 10 12 ++ ':' :: Nat.toDigits 10 345)
      = ParseResult.range { Start := 12, End := 345 } :=
  C17_parse_range_roundtrip 12 345 (by decide) (by decide)

/-- C18 (as stated, refuted): `Split` of the text `a,` at the comma returns the
single token `a`; joined with the comma the tokens give `a`, not `a,`. -/
theorem C18_split_counterexample :
    Split ['a', ','] ',' = [['a']] ∧ joinWith ',' (Split ['a', ','] ',') ≠ ['a', ','] := by
  decide

/-- C18 (amended): no token that `Split(s, d)` returns contains `d`; joining
the tokens with `d` reproduces `s` when `s` does not end with `d`, and
reproduces `s` without its last character when `s` ends with `d`. -/
theorem C18_split_join (s : List Char) (d : Char) :
    (∀ t ∈ Split s d, d ∉ t) ∧
    (s.getLast? ≠ some d → joinWith d (Split s d) = s) ∧
    (s.getLast? = some d → joinWith d (Split s d) = s.dropLast) := by
  obtain ⟨h1, h2, _⟩ := splitLoop_spec d s.length s (Nat.le_refl _)
  refine ⟨h1, fun h => ?_, fun h => ?_⟩
  · rw [Split, h2, if_neg h]
  · rw [Split, h2, if_pos h]

/-- C19: on an argument `x:y`, `x` without a colon, `ParseRange` throws a
`runtime_error` exactly when `from_chars` fails on `x` or on `y`, and returns
the range of the two parsed numbers otherwise; `from_chars` fails on a part
exactly when the part is empty, does not begin with a decimal digit, or its
leading digits have a value of `2 ^ 64` or more. -/
theorem C19_parse_range_throws (x y : List Char) (hx : ':' ∉ x) :
    (ParseRange (x ++ ':' :: y) = ParseResult.runtime_error ↔
      (∃ e, from_chars x = Except.error e) ∨ (∃ e, from_chars y = Except.error e)) ∧
    (∀ b e, from_chars x = Except.ok b → from_chars y = Except.ok e →
      ParseRange (x ++ ':' :: y) = ParseResult.range { Start := b, End := e }) ∧
    (ParseRange (x ++ ':' :: y) = ParseResult.runtime_error ∨
      ∃ r, ParseRange (x ++ ':' :: y) = ParseResult.range r) ∧
    (∀ s : List Char, (∃ e, from_chars s = Except.error e) ↔
      s = [] ∨ (∃ c rest, s = c :: rest ∧ c.isDigit = false) ∨
        2 ^ 64 ≤ digitsValue (s.takeWhile Char.isDigit)) := by
  rw [ParseRange_split x y hx]
  refine ⟨?_, ?_, ?_, from_chars_error_iff⟩
  · cases hfx : from_chars x with
    | error e => simp
    | ok b =>
      cases hfy : from_chars y with
      | error e => simp
      | ok e => simp
  · intro b e hb he
    simp [hb, he]
  · cases hfx : from_chars x with
    | error e => simp
    | ok b =>
      cases hfy : from_chars y with
      | error e => simp
      | ok e => simp

theorem C19_parse_range_throws_witness :
    ParseRange (['1', '2'] ++ ':' :: ['x']) = ParseResult.runtime_error ↔
      (∃ e, from_chars ['1', '2'] = Except.error e) ∨ (∃ e, from_chars ['x'] = Except.error e) :=
  (C19_parse_range_throws ['1', '2'] ['x'] (by decide)).1

/-- C11: the creators do not keep every node within `maxDepth` when
`maxDepth = 1`. For the target length 3 and a sampler that honours the arity
window, the growth loop of balanced.cpp ends with a root of arity 2 at depth 1
and two leaves at depth 2; the creator of balanced.hpp returns two leaves and
a root of arity 2, and pushes the first child of the root with depth 2. -/
theorem C11_depth_failing_input :
    (Balanced.grow (exBalancedEnv 2 2 false) 3 0 3 1).map
        (fun tuples => tuples.map (fun u => (u.1.Arity, u.2.1)))
      = some [(2, 1), (0, 2), (0, 2)] ∧
    (BalancedTreeCreator exDepthOneEnv 6 0).map (fun tree => tree.map (fun s => s.Arity))
      = some [0, 0, 2] ∧
    (creatorStart exDepthOneEnv 0).map
        (fun st => (creatorStep exDepthOneEnv st).stk.map (fun f => (f.1.Arity, f.2.2.1)))
      = some [(0, 2), (2, 1)] := by
  decide

/-- C12, as stated, fails: for `maxLength = 4`, the target length 4 (clamped to
`[1, 4]`), a grammar whose functions are all binary and a coin of the parity
correction that shows tails, the tree of balanced.cpp has 5 nodes. -/
theorem C12_length_counterexample :
    clamp 4 1 4 = 4 ∧
    ∃ tree, Balanced.BalancedTreeCreator (exBalancedEnv 2 2 false) 5 0 (clamp 4 1 4) 10
        = some tree ∧ tree.length = 5 ∧ ¬ tree.length ≤ 4 := by
  refine ⟨by decide, ?_⟩
  have h : (Balanced.BalancedTreeCreator (exBalancedEnv 2 2 false) 5 0 (clamp 4 1 4) 10).map
      List.length = some 5 := by decide
  obtain ⟨tree, ht, hl⟩ := Option.map_eq_some'.1 h
  exact ⟨tree, ht, hl, by omega⟩

/-- C12, amended: for a target length in `[1, maxLength]` with
`maxLength + 1 < 2 ^ 64`, a sampler that never exceeds the upper end of the
requested arity window and a conversion to postfix order that keeps the nodes,
the creator of balanced.cpp returns a tree (the outer loop ends within
`targetLen + 1` iterations), and the tree has at most as many nodes as the
parity-corrected target, hence at most `maxLength + 1`; it has at most
`maxLength` nodes when the minimum function arity is at most 1, or the target
is odd, or the coin of the parity correction lowers the target. -/
theorem C12_length_bound (env : BalancedEnv R S) (random : R)
    (targetLen maxLength maxDepth : Nat)
    (hsample : ∀ r lo hi, (env.SampleRandomSymbol r lo hi).1.Arity ≤ hi)
    (hkeep : Balanced.KeepsNodes env)
    (hpos : 1 ≤ targetLen) (hle : targetLen ≤ maxLength) (hmax : maxLength + 1 < 2 ^ 64) :
    (∃ tree, Balanced.BalancedTreeCreator env (targetLen + 1) random targetLen maxDepth
      = some tree) ∧
    ∀ fuel tree, Balanced.BalancedTreeCreator env fuel random targetLen maxDepth = some tree →
      tree.length ≤ (Balanced.adjustTarget env random targetLen).1 ∧
      tree.length ≤ maxLength + 1 ∧
      (env.FunctionArityLimits.1 ≤ 1 ∨ targetLen % 2 = 1 ∨
          (env.bernoulliHalf random).1 = true →
        tree.length ≤ maxLength) := by
  constructor
  · obtain ⟨tuples, ht⟩ := Balanced.grow_terminates env hsample random targetLen maxDepth
      (targetLen + 1) hpos (by omega) (Nat.le_refl _)
    exact ⟨UpdateNodes (env.BreadthToPostfix tuples),
      by simp [Balanced.BalancedTreeCreator, ht]⟩
  · intro fuel tree h
    simp only [Balanced.BalancedTreeCreator, Option.map_eq_some'] at h
    obtain ⟨tuples, ht, rfl⟩ := h
    have hlen := Balanced.grow_length env hsample random targetLen maxDepth fuel (by omega)
      tuples ht
    obtain ⟨_, ha2, ha3⟩ := Balanced.adjustTarget_spec env random targetLen hpos (by omega)
    rw [Balanced.UpdateNodes_length, (hkeep tuples).1]
    refine ⟨hlen, by omega, ?_⟩
    intro hc
    have := ha3 hc
    omega

theorem C12_length_bound_witness :
    ∃ tree, Balanced.BalancedTreeCreator (exBalancedEnv 2 2 false) 5 0 4 10 = some tree ∧
      tree.length ≤ 4 + 1 := by
  obtain ⟨⟨tree, ht⟩, h⟩ := C12_length_bound (exBalancedEnv 2 2 false) 0 4 4 10
    (fun r lo hi => Nat.min_le_left _ _) (exBalancedEnv_keeps 2 2 false)
    (by decide) (by decide) (by decide)
  exact ⟨tree, ht, (h _ tree ht).2.1⟩

/-- C13: in the creator of balanced.hpp, for `1 ≤ maxLength < 2 ^ 64` and a
sampler that never exceeds the upper end of the requested arity window, the
loop starts from the sampled target length clamped to `[1, maxLength]` (the
state holds the clamped target less the root), the creator returns a tree, and
the number of its nodes exceeds neither the clamped target nor `maxLength`. -/
theorem C13_hpp_length_bound (env : CreatorEnv R S) (random : R)
    (hlen : 1 ≤ env.maxLength) (hmax : env.maxLength < 2 ^ 64)
    (hsample : ∀ r lo hi, (env.SampleRandomSymbol r lo hi).1.Arity ≤ hi) :
    1 ≤ clamp (env.SampleFromDistribution random).1 1 env.maxLength ∧
    clamp (env.SampleFromDistribution random).1 1 env.maxLength ≤ env.maxLength ∧
    (∃ st0, creatorStart env random = some st0 ∧ st0.nodes = [] ∧
      st0.targetLen + 1 = clamp (env.SampleFromDistribution random).1 1 env.maxLength) ∧
    (∃ tree, BalancedTreeCreator env (2 * env.maxLength) random = some tree) ∧
    ∀ fuel tree, BalancedTreeCreator env fuel random = some tree →
      tree.length ≤ clamp (env.SampleFromDistribution random).1 1 env.maxLength ∧
      tree.length ≤ env.maxLength := by
  have hc : 1 ≤ clamp (env.SampleFromDistribution random).1 1 env.maxLength ∧
      clamp (env.SampleFromDistribution random).1 1 env.maxLength ≤ env.maxLength := by
    unfold clamp
    split
    · exact ⟨Nat.le_refl _, hlen⟩
    · split <;> omega
  have hsub : subSizeT (clamp (env.SampleFromDistribution random).1 1 env.maxLength) 1
      = clamp (env.SampleFromDistribution random).1 1 env.maxLength - 1 :=
    subSizeT_of_le _ _ (by omega) hc.1
  obtain ⟨st0, hst, hopen, hle, hlt, hstk⟩ := creatorStart_spec env random hlen hmax hsample
  have hst0 : st0.nodes = [] ∧
      st0.targetLen = clamp (env.SampleFromDistribution random).1 1 env.maxLength - 1 := by
    have h := hst
    unfold creatorStart at h
    simp only [if_pos (show 0 < clamp (env.SampleFromDistribution random).1 1 env.maxLength
      from hc.1)] at h
    have h := Option.some.inj h
    subst h
    exact ⟨rfl, hsub⟩
  refine ⟨hc.1, hc.2, ⟨st0, hst, hst0.1, by omega⟩, ?_, ?_⟩
  · obtain ⟨nodes, hn⟩ := creatorLoop_terminates env hsample (2 * env.maxLength) st0 hopen hle
      (by omega) (by omega)
    exact ⟨UpdateNodes nodes, by simp [BalancedTreeCreator, hst, hn]⟩
  · intro fuel tree htree
    simp only [BalancedTreeCreator, hst, Option.map_eq_some'] at htree
    obtain ⟨nodes, hrun, rfl⟩ := htree
    have hcount := creatorLoop_count env hsample fuel st0 nodes hopen hle (by omega) hrun
    rw [Balanced.UpdateNodes_length]
    rw [hst0.1, hstk, hst0.2] at hcount
    simp only [List.length_nil] at hcount
    omega

theorem C13_hpp_length_bound_witness :
    ∃ tree, BalancedTreeCreator exEnv (2 * exEnv.maxLength) 0 = some tree ∧
      tree.length ≤ clamp (exEnv.SampleFromDistribution 0).1 1 exEnv.maxLength ∧
      tree.length ≤ exEnv.maxLength := by
  obtain ⟨_, _, _, ⟨tree, ht⟩, h⟩ := C13_hpp_length_bound exEnv 0 (by decide) (by decide)
    (fun r lo hi => Nat.min_le_left _ _)
  exact ⟨tree, ht, h _ tree ht⟩

/-- C14: for a sampler that never exceeds the upper end of the requested arity
window, every random state and every `maxDepth`, the target length 1 yields a
tree of exactly one node, of arity 0: in balanced.cpp (for a conversion to
postfix order that keeps the nodes) when the requested target is 1, and in
balanced.hpp when the clamped sampled target is 1. Both creators return after
one iteration of their loop. -/
theorem C14_single_leaf (cpp : BalancedEnv R S) (hpp : CreatorEnv R S) (random : R)
    (maxDepth : Nat)
    (hcpp : ∀ r lo hi, (cpp.SampleRandomSymbol r lo hi).1.Arity ≤ hi)
    (hkeep : Balanced.KeepsNodes cpp)
    (hhpp : ∀ r lo hi, (hpp.SampleRandomSymbol r lo hi).1.Arity ≤ hi)
    (hone : clamp (hpp.SampleFromDistribution random).1 1 hpp.maxLength = 1) :
    ((∃ tree, Balanced.BalancedTreeCreator cpp 2 random 1 maxDepth = some tree) ∧
      ∀ fuel tree, Balanced.BalancedTreeCreator cpp fuel random 1 maxDepth = some tree →
        ∃ s : Node S, tree = [s] ∧ s.Arity = 0) ∧
    ((∃ tree, BalancedTreeCreator hpp 1 random = some tree) ∧
      ∀ fuel tree, BalancedTreeCreator hpp fuel random = some tree →
        ∃ s : Node S, tree = [s] ∧ s.Arity = 0) := by
  have hsingle : ∀ nodes : List (Node S), nodes.length = 1 →
      (∀ s ∈ nodes, s.Arity = 0) → ∃ s : Node S, UpdateNodes nodes = [s] ∧ s.Arity = 0 := by
    intro nodes hl hall
    have h1 := Balanced.UpdateNodes_length nodes
    have h2 := Balanced.UpdateNodes_arity nodes
    match hn : nodes, hl with
    | [a], _ =>
      match hu : UpdateNodes [a], (by rw [h1]; rfl : (UpdateNodes [a]).length = 1) with
      | [s], _ =>
        rw [hu] at h2
        simp only [List.map_cons, List.map_nil, List.cons.injEq, and_true] at h2
        exact ⟨s, rfl, by rw [h2]; exact hall a (by simp)⟩
  refine ⟨⟨?_, ?_⟩, ?_⟩
  · obtain ⟨tuples, ht⟩ := Balanced.grow_terminates cpp hcpp random 1 maxDepth 2
      (by decide) (by decide) (by decide)
    exact ⟨UpdateNodes (cpp.BreadthToPostfix tuples),
      by simp [Balanced.BalancedTreeCreator, ht]⟩
  · intro fuel tree h
    simp only [Balanced.BalancedTreeCreator, Option.map_eq_some'] at h
    obtain ⟨tuples, ht, rfl⟩ := h
    have hlen := Balanced.grow_length cpp hcpp random 1 maxDepth fuel (by decide) tuples ht
    have hadj : (Balanced.adjustTarget cpp random 1).1 = 1 := by
      simp [Balanced.adjustTarget]
    rw [hadj] at hlen
    have hlay := (Balanced.grow_layout cpp random 1 maxDepth fuel tuples ht).1
    have hsum : (tuples.map (fun u => u.1.Arity)).sum = 0 := by omega
    apply hsingle
    · rw [(hkeep tuples).1]
      omega
    · intro s hs
      obtain ⟨u, hu, rfl⟩ := (hkeep tuples).2 s hs
      have hmem : u.1.Arity ∈ tuples.map (fun u => u.1.Arity) := List.mem_map_of_mem _ hu
      have := List.single_le_sum (fun x _ => Nat.zero_le x) _ hmem
      omega
  · have hsub : subSizeT 1 1 = 0 := by decide
    have hstart : creatorStart hpp random = some
        { random := (drawSymbol hpp (hpp.SampleFromDistribution random).2
            (min hpp.FunctionArityLimits.1 0) (min hpp.FunctionArityLimits.2 0)).2,
          stk := [((drawSymbol hpp (hpp.SampleFromDistribution random).2
            (min hpp.FunctionArityLimits.1 0) (min hpp.FunctionArityLimits.2 0)).1,
            (drawSymbol hpp (hpp.SampleFromDistribution random).2
            (min hpp.FunctionArityLimits.1 0) (min hpp.FunctionArityLimits.2 0)).1.Arity,
            1, 0)],
          nodes := [], targetLen := 0,
          openSlots := (drawSymbol hpp (hpp.SampleFromDistribution random).2
            (min hpp.FunctionArityLimits.1 0) (min hpp.FunctionArityLimits.2 0)).1.Arity,
          childLen := 0 } := by
      unfold creatorStart
      simp only [hone, hsub, Nat.lt_one_iff, if_true]
    have har : (drawSymbol hpp (hpp.SampleFromDistribution random).2
        (min hpp.FunctionArityLimits.1 0) (min hpp.FunctionArityLimits.2 0)).1.Arity = 0 := by
      have := drawSymbol_arity hpp hhpp (hpp.SampleFromDistribution random).2
        (min hpp.FunctionArityLimits.1 0) (min hpp.FunctionArityLimits.2 0)
      have h0 : min hpp.FunctionArityLimits.2 0 = 0 := Nat.min_zero _
      omega
    generalize drawSymbol hpp (hpp.SampleFromDistribution random).2
      (min hpp.FunctionArityLimits.1 0) (min hpp.FunctionArityLimits.2 0) = root
      at hstart har
    rw [har] at hstart
    obtain ⟨hrun, hall⟩ := creatorLoop_single hpp _ root.1 1 0 (rfl :
      ({ random := root.2, stk := [(root.1, 0, 1, 0)], nodes := [], targetLen := 0,
         openSlots := 0, childLen := 0 } : CreatorState R S).stk = [(root.1, 0, 1, 0)])
    constructor
    · exact ⟨UpdateNodes [root.1],
        by simp only [BalancedTreeCreator, hstart, hrun, Option.map_some', List.nil_append]⟩
    · intro fuel tree h
      simp only [BalancedTreeCreator, hstart, Option.map_eq_some'] at h
      obtain ⟨nodes, hn, rfl⟩ := h
      have := hall fuel nodes hn
      simp only [List.nil_append] at this
      subst this
      exact hsingle [root.1] rfl (by simp [har])

theorem C14_single_leaf_witness :
    (∃ s : Node Ext, Balanced.BalancedTreeCreator (exBalancedEnv 1 2 true) 2 5 1 10 = some [s] ∧
      s.Arity = 0) ∧
    ∃ s : Node Ext,
      BalancedTreeCreator { exEnv with SampleFromDistribution := fun r => (1, r + 1) } 1 5
        = some [s] ∧ s.Arity = 0 := by
  obtain ⟨⟨⟨t1, h1⟩, hc⟩, ⟨t2, h2⟩, hh⟩ := C14_single_leaf (exBalancedEnv 1 2 true)
    { exEnv with SampleFromDistribution := fun r => (1, r + 1) } 5 10
    (fun r lo hi => Nat.min_le_left _ _) (exBalancedEnv_keeps 1 2 true)
    (fun r lo hi => Nat.min_le_left _ _) (by decide)
  obtain ⟨s1, rfl, hs1⟩ := hc _ t1 h1
  obtain ⟨s2, rfl, hs2⟩ := hh _ t2 h2
  exact ⟨⟨s1, h1, hs1⟩, s2, h2, hs2⟩

/-- C20: when the growth loop of balanced.cpp ends, the vector `tuples` is a
complete breadth-first layout: it has `1 + (sum of the arities of its tuples)`
entries, the depths do not decrease along it, and a tuple at index `i` with
arity `a > 0` records a child index `c > i`, one more than the sum of the
arities before `i`, such that the entries `c, ..., c + a - 1` exist and have
depth one more than its own. The loop does end, within `targetLen + 1`
iterations, when the target is positive, `targetLen + 1 < 2 ^ 64` and the
sampler never exceeds the upper end of the requested arity window. -/
theorem C20_breadth_first_layout (env : BalancedEnv R S) (random : R)
    (targetLen maxDepth : Nat) :
    (∀ fuel tuples, Balanced.grow env fuel random targetLen maxDepth = some tuples →
      Balanced.BreadthFirstLayout tuples) ∧
    ((∀ r lo hi, (env.SampleRandomSymbol r lo hi).1.Arity ≤ hi) → 0 < targetLen →
      targetLen + 1 < 2 ^ 64 →
      ∃ tuples, Balanced.grow env (targetLen + 1) random targetLen maxDepth = some tuples) :=
  ⟨fun fuel tuples h => Balanced.grow_layout env random targetLen maxDepth fuel tuples h,
    fun hsample hpos hlt => Balanced.grow_terminates env hsample random targetLen maxDepth
      (targetLen + 1) hpos (by omega) (Nat.le_refl _)⟩

theorem C20_breadth_first_layout_witness :
    ∃ tuples, Balanced.grow (exBalancedEnv 1 2 true) 13 1 12 5 = some tuples ∧
      Balanced.BreadthFirstLayout tuples ∧
      tuples.map (fun u => (u.1.Arity, u.2.1, u.2.2))
        = [(2, 1, 1), (1, 2, 3), (2, 2, 4), (1, 3, 6), (2, 3, 7), (1, 3, 9), (2, 4, 10),
           (0, 4, 0), (0, 4, 0), (0, 4, 0), (0, 5, 0), (0, 5, 0)] := by
  obtain ⟨hlay, hex⟩ := C20_breadth_first_layout (exBalancedEnv 1 2 true) 1 12 5
  obtain ⟨tuples, ht⟩ := hex (fun r lo hi => Nat.min_le_left _ _) (by decide) (by decide)
  refine ⟨tuples, ht, hlay _ tuples ht, ?_⟩
  have h : (Balanced.grow (exBalancedEnv 1 2 true) 13 1 12 5).map
      (fun t => t.map (fun u => (u.1.Arity, u.2.1, u.2.2)))
      = some [(2, 1, 1), (1, 2, 3), (2, 2, 4), (1, 3, 6), (2, 3, 7), (1, 3, 9), (2, 4, 10),
           (0, 4, 0), (0, 4, 0), (0, 4, 0), (0, 5, 0), (0, 5, 0)] := by decide
  rw [ht] at h
  exact Option.some.inj h

/-- C21: for a grammar whose function symbols all have arity 2 (arity limits
`(2, 2)`, and a sampler that returns a symbol of arity 0 or 2 within every
window that holds one of these arities), a target length `1 ≤ targetLen <
2 ^ 64`, every `maxDepth` and every random state: every arity window that
balanced.cpp passes to `SampleRandomSymbol` after the parity correction is
`[0, 0]`, `[0, 2]` or `[2, 2]`, never `[1, 1]`, so it holds the arity 0 or the
arity 2; the root and the children are sampled for these windows; the creator
returns a tree, and every node of the tree has arity 0 or an arity within the
arity limits of the grammar. -/
theorem C21_binary_windows (env : BalancedEnv R S) (random : R) (targetLen maxDepth : Nat)
    (hlim : env.FunctionArityLimits = (2, 2)) (hbin : Balanced.BinarySampler env)
    (hkeep : Balanced.KeepsNodes env) (hpos : 1 ≤ targetLen) (hlt : targetLen < 2 ^ 64) :
    (∀ fuel, ∀ w ∈ Balanced.windows env fuel random targetLen maxDepth,
      (w = (0, 0) ∨ w = (0, 2) ∨ w = (2, 2)) ∧ w ≠ (1, 1) ∧
      (w.1 = 0 ∨ (w.1 ≤ 2 ∧ 2 ≤ w.2))) ∧
    (∀ (r : R) (adjusted : Nat), (Balanced.growStart env r adjusted).tuples
      = [((Balanced.init env
            (env.SampleRandomSymbol r (Balanced.rootWindow env adjusted).1
              (Balanced.rootWindow env adjusted).2).1
            (env.SampleRandomSymbol r (Balanced.rootWindow env adjusted).1
              (Balanced.rootWindow env adjusted).2).2).1, 1, 1)]) ∧
    (∀ (tl md cd : Nat) (st : Balanced.GrowState R S), Balanced.drawChild env tl md cd st
      = Balanced.init env
          (env.SampleRandomSymbol (Balanced.irregular env st).2
            (Balanced.childWindow env tl md cd st).1
            (Balanced.childWindow env tl md cd st).2).1
          (env.SampleRandomSymbol (Balanced.irregular env st).2
            (Balanced.childWindow env tl md cd st).1
            (Balanced.childWindow env tl md cd st).2).2) ∧
    (∃ tree, Balanced.BalancedTreeCreator env (targetLen + 1) random targetLen maxDepth
      = some tree) ∧
    ∀ fuel tree, Balanced.BalancedTreeCreator env fuel random targetLen maxDepth = some tree →
      ∀ s ∈ tree, s.Arity = 0 ∨
        (env.FunctionArityLimits.1 ≤ s.Arity ∧ s.Arity ≤ env.FunctionArityLimits.2) := by
  refine ⟨?_, fun _ _ => rfl, fun _ _ _ _ => rfl, ?_, ?_⟩
  · intro fuel w hw
    have h := Balanced.windows_binary env hlim hbin random targetLen maxDepth fuel hpos hlt w hw
    refine ⟨h, ?_, ?_⟩
    · rcases h with h | h | h <;> rw [h] <;> decide
    · rcases h with h | h | h <;> rw [h] <;> decide
  · obtain ⟨tuples, ht⟩ := Balanced.grow_terminates_binary env hlim hbin random targetLen
      maxDepth (targetLen + 1) hpos hlt (Nat.le_refl _)
    exact ⟨UpdateNodes (env.BreadthToPostfix tuples),
      by simp [Balanced.BalancedTreeCreator, ht]⟩
  · intro fuel tree h s hs
    simp only [Balanced.BalancedTreeCreator, Option.map_eq_some'] at h
    obtain ⟨tuples, ht, rfl⟩ := h
    obtain ⟨s0, hs0, he⟩ := UpdateNodes_mem _ s hs
    obtain ⟨u, hu, hus⟩ := (hkeep tuples).2 s0 hs0
    have harity : s.Arity = u.1.Arity := by rw [he, ← hus]
    have hmem : u.1.Arity ∈ Balanced.arities tuples := List.mem_map_of_mem _ hu
    have := Balanced.grow_binary env hlim hbin random targetLen maxDepth fuel hlt tuples ht
      _ hmem
    rw [harity, hlim]
    rcases this with h0 | h2
    · left; exact h0
    · right; rw [h2]; exact ⟨Nat.le_refl _, Nat.le_refl _⟩

theorem C21_binary_windows_witness :
    Balanced.windows (exBinaryEnv false true) 14 0 12 10
      = [(2, 2), (2, 2), (0, 2), (0, 2), (0, 2), (0, 2), (0, 0), (0, 0), (0, 0), (0, 0),
         (0, 0), (0, 0), (0, 0)] ∧
    ∀ w ∈ Balanced.windows (exBinaryEnv false true) 14 0 12 10,
      (w = (0, 0) ∨ w = (0, 2) ∨ w = (2, 2)) ∧ w ≠ (1, 1) ∧
      (w.1 = 0 ∨ (w.1 ≤ 2 ∧ 2 ≤ w.2)) :=
  ⟨by decide, (C21_binary_windows (exBinaryEnv false true) 0 12 10 rfl
    (exBinaryEnv_binary false true) (exBinaryEnv_keeps false true)
    (by decide) (by decide)).1 14⟩

/-- C22: for a grammar whose function symbols all have arity 2, irregularity
bias 0 (the irregularity coin never shows heads), an odd target length
`targetLen < 2 ^ 64` and `maxDepth > targetLen`, the creator of balanced.cpp
returns a tree, and the tree has exactly `targetLen` nodes, for every random
state (the conversion to postfix order keeping the nodes). -/
theorem C22_exact_length (env : BalancedEnv R S) (random : R) (targetLen maxDepth : Nat)
    (hlim : env.FunctionArityLimits = (2, 2)) (hbin : Balanced.BinarySampler env)
    (hirr : ∀ r, (env.sampleIrregular r).1 = false) (hkeep : Balanced.KeepsNodes env)
    (hodd : targetLen % 2 = 1) (hlt : targetLen < 2 ^ 64) (hdepth : targetLen < maxDepth) :
    (∃ tree, Balanced.BalancedTreeCreator env (targetLen + 1) random targetLen maxDepth
      = some tree) ∧
    ∀ fuel tree, Balanced.BalancedTreeCreator env fuel random targetLen maxDepth = some tree →
      tree.length = targetLen := by
  obtain ⟨⟨tuples, ht⟩, hall⟩ := Balanced.grow_exact env hlim hbin hirr random targetLen
    maxDepth hodd hlt hdepth
  constructor
  · exact ⟨UpdateNodes (env.BreadthToPostfix tuples),
      by simp [Balanced.BalancedTreeCreator, ht]⟩
  · intro fuel tree h
    simp only [Balanced.BalancedTreeCreator, Option.map_eq_some'] at h
    obtain ⟨tuples', ht', rfl⟩ := h
    rw [Balanced.UpdateNodes_length, (hkeep tuples').1]
    exact hall fuel tuples' ht'

theorem C22_exact_length_witness :
    ∃ tree, Balanced.BalancedTreeCreator (exBinaryEnv false false) 8 0 7 8 = some tree ∧
      tree.length = 7 := by
  obtain ⟨⟨tree, ht⟩, h⟩ := C22_exact_length (exBinaryEnv false false) 0 7 8 rfl
    (exBinaryEnv_binary false false) (fun _ => rfl) (exBinaryEnv_keeps false false)
    (by decide) (by decide) (by decide)
  exact ⟨tree, ht, h _ tree ht⟩

/-- C23: the effective target length of balanced.cpp, for a requested target
`0 < targetLen < 2 ^ 64`: it is the requested target, with no draw, when the
minimum function arity is at most 1 or the target is odd; it is `targetLen - 1`
or `targetLen + 1`, according to one draw of the coin `bernoulli(0.5)`, when
the minimum function arity exceeds 1 and the target is even; so it is odd
whenever the minimum function arity exceeds 1. The growth loop runs with this
target less one. -/
theorem C23_effective_target (env : BalancedEnv R S) (random : R) (targetLen : Nat)
    (hpos : 0 < targetLen) (hlt : targetLen < 2 ^ 64) :
    (env.FunctionArityLimits.1 ≤ 1 ∨ targetLen % 2 = 1 →
      Balanced.adjustTarget env random targetLen = (targetLen, random)) ∧
    (1 < env.FunctionArityLimits.1 → targetLen % 2 = 0 →
      Balanced.adjustTarget env random targetLen
        = (if (env.bernoulliHalf random).1 then targetLen - 1 else targetLen + 1,
            (env.bernoulliHalf random).2)) ∧
    (1 < env.FunctionArityLimits.1 →
      (Balanced.adjustTarget env random targetLen).1 % 2 = 1) ∧
    ∀ fuel maxDepth, Balanced.grow env fuel random targetLen maxDepth
      = (Balanced.growLoop env ((Balanced.adjustTarget env random targetLen).1 - 1) maxDepth
          fuel 0 (Balanced.growStart env (Balanced.adjustTarget env random targetLen).2
            (Balanced.adjustTarget env random targetLen).1)).map (fun st => st.tuples) := by
  refine ⟨?_, ?_, ?_, ?_⟩
  · intro h
    unfold Balanced.adjustTarget
    rw [if_neg (by omega)]
  · intro h1 h2
    have e1 : subSizeT targetLen 1 = targetLen - 1 := subSizeT_of_le _ _ hlt hpos
    have e2 : addSizeT targetLen 1 = targetLen + 1 := by
      unfold addSizeT
      exact Nat.mod_eq_of_lt (by omega)
    unfold Balanced.adjustTarget
    rw [if_pos ⟨h1, h2⟩, e1, e2]
  · intro h1
    exact Balanced.adjustTarget_odd env random targetLen h1 hpos hlt
  · intro fuel maxDepth
    obtain ⟨ha1, _, _⟩ := Balanced.adjustTarget_spec env random targetLen hpos hlt
    have ha4 : (Balanced.adjustTarget env random targetLen).1 < 2 ^ 64 := by
      rcases Balanced.adjustTarget_lt env random targetLen with h4 | h4 <;> omega
    have e1 : subSizeT (Balanced.adjustTarget env random targetLen).1 1
        = (Balanced.adjustTarget env random targetLen).1 - 1 := subSizeT_of_le _ _ ha4 ha1
    simp only [Balanced.grow, if_pos hpos, e1]

theorem C23_effective_target_witness :
    Balanced.adjustTarget (exBinaryEnv false false) 0 12 = (13, 1) ∧
    Balanced.adjustTarget (exBinaryEnv true false) 0 12 = (11, 1) ∧
    Balanced.adjustTarget (exBinaryEnv true false) 0 7 = (7, 0) ∧
    (Balanced.adjustTarget (exBinaryEnv false false) 0 12).1 % 2 = 1 :=
  ⟨by decide, by decide, by decide,
    (C23_effective_target (exBinaryEnv false false) 0 12 (by decide) (by decide)).2.2.1
      (by decide)⟩

/-- C24: for every target length `1 ≤ targetLen < 2 ^ 64`, every `maxDepth`
(the depth cutoff plays no part in the bound) and every sampler that never
exceeds the upper end of the requested arity window, the growth loop of
balanced.cpp ends, within `targetLen + 1` iterations of the outer loop, and it
ends with at most as many tuples as the parity-adjusted target length, hence
at most `targetLen + 1`. -/
theorem C24_growth_terminates (env : BalancedEnv R S) (random : R)
    (targetLen maxDepth : Nat)
    (hsample : ∀ r lo hi, (env.SampleRandomSymbol r lo hi).1.Arity ≤ hi)
    (hpos : 1 ≤ targetLen) (hlt : targetLen < 2 ^ 64) :
    (∀ fuel, targetLen + 1 ≤ fuel →
      ∃ tuples, Balanced.grow env fuel random targetLen maxDepth = some tuples) ∧
    ∀ fuel tuples, Balanced.grow env fuel random targetLen maxDepth = some tuples →
      tuples.length ≤ (Balanced.adjustTarget env random targetLen).1 ∧
      (Balanced.adjustTarget env random targetLen).1 ≤ targetLen + 1 ∧
      tuples.length ≤ targetLen + 1 := by
  constructor
  · intro fuel hfuel
    exact Balanced.grow_terminates env hsample random targetLen maxDepth fuel hpos hlt hfuel
  · intro fuel tuples h
    have h1 := Balanced.grow_length env hsample random targetLen maxDepth fuel hlt tuples h
    obtain ⟨_, h2, _⟩ := Balanced.adjustTarget_spec env random targetLen hpos hlt
    exact ⟨h1, h2, by omega⟩

theorem C24_growth_terminates_witness :
    ∃ tuples, Balanced.grow (exBalancedEnv 2 2 false) 13 0 12 0 = some tuples ∧
      tuples.length ≤ 12 + 1 := by
  obtain ⟨hex, hall⟩ := C24_growth_terminates (exBalancedEnv 2 2 false) 0 12 0
    (fun r lo hi => Nat.min_le_left _ _) (by decide) (by decide)
  obtain ⟨tuples, ht⟩ := hex 13 (by decide)
  exact ⟨tuples, ht, (hall 13 tuples ht).2.2⟩

/-- C25: for a target length `1 ≤ targetLen < 2 ^ 64` and a sampler that never
exceeds the upper end of the requested arity window, in every state in which
balanced.cpp samples a child, `tuples.size() <= openSlots <= targetLen`, where
`targetLen` is the parity-adjusted target less one; so the `size_t`
subtractions `targetLen - openSlots` and `openSlots - tuples.size()` of lines
65 and 66 give the exact differences. -/
theorem C25_slots_bounds (env : BalancedEnv R S) (random : R) (targetLen maxDepth : Nat)
    (hsample : ∀ r lo hi, (env.SampleRandomSymbol r lo hi).1.Arity ≤ hi)
    (hpos : 1 ≤ targetLen) (hlt : targetLen < 2 ^ 64) :
    ∀ fuel, ∀ p ∈ Balanced.samplingStates env fuel random targetLen maxDepth,
      p.2.tuples.length ≤ p.2.openSlots ∧
      p.2.openSlots ≤ (Balanced.adjustTarget env random targetLen).1 - 1 ∧
      subSizeT ((Balanced.adjustTarget env random targetLen).1 - 1) p.2.openSlots
        = (Balanced.adjustTarget env random targetLen).1 - 1 - p.2.openSlots ∧
      subSizeT p.2.openSlots p.2.tuples.length = p.2.openSlots - p.2.tuples.length := by
  intro fuel p hp
  obtain ⟨ha1, _, _⟩ := Balanced.adjustTarget_spec env random targetLen hpos hlt
  have ha4 : (Balanced.adjustTarget env random targetLen).1 < 2 ^ 64 := by
    rcases Balanced.adjustTarget_lt env random targetLen with h4 | h4 <;> omega
  have e1 : subSizeT (Balanced.adjustTarget env random targetLen).1 1
      = (Balanced.adjustTarget env random targetLen).1 - 1 := subSizeT_of_le _ _ ha4 ha1
  have hpos' : 0 < targetLen := hpos
  simp only [Balanced.samplingStates, if_pos hpos', e1] at hp
  have hS := Balanced.growStart_slots env hsample (Balanced.adjustTarget env random targetLen).2
    (Balanced.adjustTarget env random targetLen).1
  rw [e1] at hS
  obtain ⟨h1, h2⟩ := Balanced.growLoopStates_bounds env hsample _ maxDepth (by omega) fuel _
    (Balanced.growStart_pos env _ _) hS p hp
  exact ⟨h1, h2, subSizeT_of_le _ _ (by omega) h2, subSizeT_of_le _ _ (by omega) h1⟩

theorem C25_slots_bounds_witness :
    (Balanced.samplingStates (exBalancedEnv 1 2 true) 13 1 12 5).map
        (fun p => (p.2.tuples.length, p.2.openSlots))
      = [(1, 2), (2, 3), (3, 5), (4, 6), (5, 8), (6, 9), (7, 11), (8, 11), (9, 11), (10, 11),
         (11, 11)] ∧
    ∀ p ∈ Balanced.samplingStates (exBalancedEnv 1 2 true) 13 1 12 5,
      p.2.tuples.length ≤ p.2.openSlots ∧ p.2.openSlots ≤ 11 :=
  ⟨by decide, fun p hp =>
    ⟨(C25_slots_bounds (exBalancedEnv 1 2 true) 1 12 5 (fun r lo hi => Nat.min_le_left _ _)
        (by decide) (by decide) 13 p hp).1,
      (C25_slots_bounds (exBalancedEnv 1 2 true) 1 12 5 (fun r lo hi => Nat.min_le_left _ _)
        (by decide) (by decide) 13 p hp).2.1⟩⟩

/-- C26: for every tree, the flag `treeContainsNonlinearSymbols` is false
exactly when every node has a kind in `Grammar::Arithmetic` (Constant,
Variable, Add, Sub, Mul, Div), and `Evaluate`, in both overloads, equals the
evaluator that dispatches the unary functions without looking at the flag. -/
theorem C26_flag_guard (N : NumOps S T) (m0 : Nat → Nat → T) (tree : List (Node S))
    (dataset : Dataset S) (range : Range) (parameters : Option (Nat → T)) :
    ((prePass N m0 tree dataset parameters).treeContainsNonlinearSymbols = false ↔
      ∀ s ∈ tree, Grammar.Arithmetic s.Type_ = true) ∧
    (∀ result, EvaluateInto N m0 tree dataset range parameters result
      = EvaluateIntoUnguarded N m0 tree dataset range parameters result) ∧
    Evaluate N m0 tree dataset range parameters
      = EvaluateUnguarded N m0 tree dataset range parameters := by
  refine ⟨prePass_flag N m0 tree dataset parameters,
    fun result => EvaluateInto_unguarded N m0 tree dataset range parameters result, ?_⟩
  unfold Evaluate EvaluateUnguarded
  rw [show EvaluateInto N m0 tree dataset range parameters (fun _ => N.zero)
    = EvaluateIntoUnguarded N m0 tree dataset range parameters (fun _ => N.zero) from
    EvaluateInto_unguarded N m0 tree dataset range parameters _]

/-- C27: for a non-empty variable list and a distribution `uniformInt` that
draws an index between 0 and `variables.size() - 1`, every Variable node of a
tree that the creator returns has the `Hash` of one of the variables as its
`HashValue`, and a `CalculatedHashValue` equal to its `HashValue`: in
balanced.cpp (for a conversion to postfix order that keeps the nodes) and in
balanced.hpp. -/
theorem C27_variable_hash (cpp : BalancedEnv R S) (hpp : CreatorEnv R S)
    (hkeep : Balanced.KeepsNodes cpp)
    (hcne : cpp.variables_ ≠ [])
    (hcidx : ∀ r, (cpp.uniformInt r).1 ≤ cpp.variables_.length - 1)
    (hhne : hpp.variables_ ≠ [])
    (hhidx : ∀ r, (hpp.uniformInt r).1 ≤ hpp.variables_.length - 1) :
    (∀ random targetLen maxDepth fuel tree,
      Balanced.BalancedTreeCreator cpp fuel random targetLen maxDepth = some tree →
      ∀ s ∈ tree, s.IsVariable = true →
        (∃ v ∈ cpp.variables_, s.HashValue = v.Hash) ∧
        s.CalculatedHashValue = s.HashValue) ∧
    (∀ random fuel tree, BalancedTreeCreator hpp fuel random = some tree →
      ∀ s ∈ tree, s.IsVariable = true →
        (∃ v ∈ hpp.variables_, s.HashValue = v.Hash) ∧
        s.CalculatedHashValue = s.HashValue) := by
  constructor
  · intro random targetLen maxDepth fuel tree h s hs hvar
    obtain ⟨s0, hQ, he⟩ := Balanced.BalancedTreeCreator_nodes_cpp cpp hkeep
      (fun s => s.IsVariable = true →
        (∃ v ∈ cpp.variables_, s.HashValue = v.Hash) ∧ s.CalculatedHashValue = s.HashValue)
      (fun r lo hi hv => growInit_variable cpp _ _ hcne hcidx hv)
      random targetLen maxDepth fuel tree h s hs
    rw [he] at hvar ⊢
    exact hQ hvar
  · intro random fuel tree h s hs hvar
    obtain ⟨s0, hQ, he⟩ := BalancedTreeCreator_nodes hpp
      (fun s => s.IsVariable = true →
        (∃ v ∈ hpp.variables_, s.HashValue = v.Hash) ∧ s.CalculatedHashValue = s.HashValue)
      (fun r lo hi hv => init_variable hpp _ _ hhne hhidx hv)
      fuel random tree h s hs
    rw [he] at hvar ⊢
    exact hQ hvar

theorem C27_variable_hash_witness :
    (Balanced.BalancedTreeCreator (exBinaryEnv false false) 8 0 7 8).map
        (fun tree => tree.map (fun s => (s.IsVariable, s.HashValue, s.CalculatedHashValue)))
      = some [(true, 22, 22), (true, 22, 22), (false, 0, 0), (true, 22, 22), (true, 11, 11),
          (false, 0, 0), (false, 0, 0)] ∧
    ∀ tree, Balanced.BalancedTreeCreator (exBinaryEnv false false) 8 0 7 8 = some tree →
      ∀ s ∈ tree, s.IsVariable = true →
        (∃ v ∈ (exBinaryEnv false false).variables_, s.HashValue = v.Hash) ∧
        s.CalculatedHashValue = s.HashValue :=
  ⟨by decide, fun tree h =>
    (C27_variable_hash (exBinaryEnv false false) exEnv (exBinaryEnv_keeps false false)
      (by decide) (fun r => Nat.le_of_lt_succ (Nat.mod_lt r (by decide)))
      (by decide) (fun r => Nat.le_of_lt_succ (Nat.mod_lt r (by decide)))).1 0 7 8 8 tree h⟩

/-- C28, as stated, fails: for the target length 3 and a grammar whose
functions are all binary, the root of the tree of balanced.cpp is an `Add`
node of arity 2 whose `Value` is the one that the sampler returned (`nan`),
which no draw of `normalReal` gives. -/
theorem C28_value_counterexample :
    (Balanced.BalancedTreeCreator (exBalancedEnv 2 2 false) 3 0 3 10).map
        (fun tree => tree.map (fun s => (s.Arity, decide (s.Value = Ext.nan))))
      = some [(0, false), (0, false), (2, true)] ∧
    (∀ r lo hi, ((exBalancedEnv 2 2 false).SampleRandomSymbol r lo hi).1.Value = Ext.nan) ∧
    ∀ r, ((exBalancedEnv 2 2 false).normalReal r).1 ≠ Ext.nan := by
  refine ⟨by decide, fun _ _ _ => rfl, ?_⟩
  intro r h
  cases h

/-- C28, amended: in balanced.cpp, `init` draws a standard-normal number into
the `Value` of a sampled leaf (a Constant, or a Variable after the draw of its
variable), one draw per leaf, and leaves a function node and the generator as
they are. So in the returned tree (the conversion to postfix order keeping
the nodes) the `Value` of every leaf is a draw of `normalReal`, and the
`Value` of every internal node is the one that the symbol sampler returned. -/
theorem C28_value_init (env : BalancedEnv R S) (hkeep : Balanced.KeepsNodes env) :
    (∀ (node : Node S) (random : R), node.IsLeaf = true →
      (Balanced.init env node random).1.Value
        = (env.normalReal (if node.IsVariable then (env.uniformInt random).2 else random)).1 ∧
      (Balanced.init env node random).2
        = (env.normalReal (if node.IsVariable then (env.uniformInt random).2 else random)).2) ∧
    (∀ (node : Node S) (random : R), node.IsLeaf = false →
      Balanced.init env node random = (node, random)) ∧
    ∀ random targetLen maxDepth fuel tree,
      Balanced.BalancedTreeCreator env fuel random targetLen maxDepth = some tree →
      ∀ s ∈ tree, ∃ r lo hi, s.Type_ = (env.SampleRandomSymbol r lo hi).1.Type_ ∧
        (s.IsLeaf = true → ∃ r', s.Value = (env.normalReal r').1) ∧
        (s.IsLeaf = false → s.Value = (env.SampleRandomSymbol r lo hi).1.Value) := by
  have hleaf : ∀ (node : Node S) (random : R), node.IsLeaf = true →
      (Balanced.init env node random).1.Value
        = (env.normalReal (if node.IsVariable then (env.uniformInt random).2 else random)).1 ∧
      (Balanced.init env node random).2
        = (env.normalReal (if node.IsVariable then (env.uniformInt random).2 else random)).2 ∧
      (Balanced.init env node random).1.Type_ = node.Type_ := by
    intro node random hl
    cases hn : node.IsVariable <;> simp [Balanced.init, hl, hn]
  have hinner : ∀ (node : Node S) (random : R), node.IsLeaf = false →
      Balanced.init env node random = (node, random) := by
    intro node random hl
    unfold Balanced.init
    simp only [hl, Bool.false_eq_true, if_false]
  refine ⟨fun node random hl => ⟨(hleaf node random hl).1, (hleaf node random hl).2.1⟩,
    hinner, ?_⟩
  intro random targetLen maxDepth fuel tree h s hs
  obtain ⟨s0, ⟨r, lo, hi, hty, hl, hi'⟩, he⟩ := Balanced.BalancedTreeCreator_nodes_cpp env hkeep
    (fun s => ∃ r lo hi, s.Type_ = (env.SampleRandomSymbol r lo hi).1.Type_ ∧
      (s.IsLeaf = true → ∃ r', s.Value = (env.normalReal r').1) ∧
      (s.IsLeaf = false → s.Value = (env.SampleRandomSymbol r lo hi).1.Value))
    (by
      intro r lo hi
      refine ⟨r, lo, hi, ?_⟩
      generalize (env.SampleRandomSymbol r lo hi).1 = node
      generalize (env.SampleRandomSymbol r lo hi).2 = r'
      by_cases hl : node.IsLeaf = true
      · obtain ⟨h1, _, h3⟩ := hleaf node r' hl
        refine ⟨h3, fun _ => ⟨_, h1⟩, ?_⟩
        intro hf
        simp only [Node.IsLeaf, Node.IsConstant, Node.IsVariable, h3] at hf hl
        rw [hl] at hf
        exact absurd hf (by simp)
      · have hl' : node.IsLeaf = false := by simpa using hl
        rw [hinner node r' hl']
        exact ⟨rfl, fun hf => absurd hf hl, fun _ => rfl⟩)
    random targetLen maxDepth fuel tree h s hs
  refine ⟨r, lo, hi, ?_, ?_, ?_⟩
  · rw [he]; exact hty
  · intro hs'
    rw [he] at hs' ⊢
    exact hl hs'
  · intro hs'
    rw [he] at hs' ⊢
    exact hi' hs'

theorem C28_value_init_witness :
    ∃ tree, Balanced.BalancedTreeCreator (exBalancedEnv 2 2 false) 4 0 3 10 = some tree ∧
      ∀ s ∈ tree, ∃ r lo hi,
        s.Type_ = ((exBalancedEnv 2 2 false).SampleRandomSymbol r lo hi).1.Type_ ∧
        (s.IsLeaf = true → ∃ r', s.Value = ((exBalancedEnv 2 2 false).normalReal r').1) ∧
        (s.IsLeaf = false →
          s.Value = ((exBalancedEnv 2 2 false).SampleRandomSymbol r lo hi).1.Value) := by
  obtain ⟨tuples, ht⟩ := Balanced.grow_terminates (exBalancedEnv 2 2 false)
    (fun r lo hi => Nat.min_le_left _ _) 0 3 10 4 (by decide) (by decide) (by decide)
  have h : Balanced.BalancedTreeCreator (exBalancedEnv 2 2 false) 4 0 3 10
      = some (UpdateNodes ((exBalancedEnv 2 2 false).BreadthToPostfix tuples)) := by
    simp [Balanced.BalancedTreeCreator, ht]
  exact ⟨_, h, (C28_value_init (exBalancedEnv 2 2 false)
    (exBalancedEnv_keeps 2 2 false)).2.2 0 3 10 4 _ h⟩

/-- C29: one call of the 64-bit generator on the words `a, b, c, d` (each
below `2 ^ 64`) gives the words `a', b', c', d'` with `e = a - rotl(b, 7)`,
`a' = b xor rotl(c, 13)`, `b' = c + rotl(d, 37)`, `c' = d + e` and
`d' = e + a'`, all modulo `2 ^ 64`, and returns `d'`; the new words and the
rotated words are below `2 ^ 64` again, and `rotl` is the circular
left shift of 64-bit words (bit `i` of `rotl(x, k)` is bit `i - k` modulo 64 of
`x`), so this is the 3-rotate step with the amounts (7, 13, 37). -/
theorem C29_prng64_step (g : JsfRand) (ha : g.a < 2 ^ 64) (hb : g.b < 2 ^ 64)
    (hc : g.c < 2 ^ 64) (hd : g.d < 2 ^ 64) :
    (∃ e : Nat, e < 2 ^ 64 ∧
      (e : ℤ) = ((g.a : ℤ) - (rotl 64 g.b 7 : ℤ)) % 2 ^ 64 ∧
      (JsfRand.next 64 g).2.a = g.b ^^^ rotl 64 g.c 13 ∧
      (JsfRand.next 64 g).2.b = (g.c + rotl 64 g.d 37) % 2 ^ 64 ∧
      (JsfRand.next 64 g).2.c = (g.d + e) % 2 ^ 64 ∧
      (JsfRand.next 64 g).2.d = (e + (JsfRand.next 64 g).2.a) % 2 ^ 64 ∧
      (JsfRand.next 64 g).1 = (JsfRand.next 64 g).2.d) ∧
    ((JsfRand.next 64 g).2.a < 2 ^ 64 ∧ (JsfRand.next 64 g).2.b < 2 ^ 64 ∧
      (JsfRand.next 64 g).2.c < 2 ^ 64 ∧ (JsfRand.next 64 g).2.d < 2 ^ 64) ∧
    (rotl 64 g.b 7 < 2 ^ 64 ∧ rotl 64 g.c 13 < 2 ^ 64 ∧ rotl 64 g.d 37 < 2 ^ 64) ∧
    ∀ x k i, x < 2 ^ 64 → 0 < k → k < 64 →
      rotl 64 x k < 2 ^ 64 ∧
      (rotl 64 x k).testBit i = (decide (i < 64) && x.testBit ((i + 64 - k) % 64)) := by
  have hrb := rotl_lt 64 g.b 7 hb
  have hrc := rotl_lt 64 g.c 13 hc
  have hxor : g.b ^^^ rotl 64 g.c 13 < 2 ^ 64 := Nat.xor_lt_two_pow hb hrc
  have hnext : JsfRand.next 64 g = JsfRand.prng64 64 g := by
    unfold JsfRand.next
    rw [if_neg (by decide)]
  rw [hnext]
  refine ⟨⟨(g.a + 2 ^ 64 - rotl 64 g.b 7 % 2 ^ 64) % 2 ^ 64, Nat.mod_lt _ (by decide), ?_,
    ?_, rfl, rfl, ?_, rfl⟩, ⟨?_, ?_, ?_, ?_⟩, ⟨hrb, hrc, rotl_lt 64 g.d 37 hd⟩, ?_⟩
  · rw [Nat.mod_eq_of_lt hrb]
    omega
  · show (g.b ^^^ rotl 64 g.c 13) % 2 ^ 64 = _
    exact Nat.mod_eq_of_lt hxor
  · show _ = (_ + (g.b ^^^ rotl 64 g.c 13) % 2 ^ 64) % 2 ^ 64
    rfl
  · exact Nat.mod_lt _ (by decide)
  · exact Nat.mod_lt _ (by decide)
  · exact Nat.mod_lt _ (by decide)
  · exact Nat.mod_lt _ (by decide)
  · intro x k i hx hk hk64
    exact ⟨rotl_lt 64 x k hx, rotl_testBit 64 x k i hx hk hk64⟩

theorem C29_prng64_step_witness :
    (JsfRand.next 64 { a := 1, b := 2, c := 3, d := 4 }).2.a = 2 ^^^ rotl 64 3 13 ∧
    (JsfRand.next 64 { a := 1, b := 2, c := 3, d := 4 }).2.b = (3 + rotl 64 4 37) % 2 ^ 64 ∧
    (JsfRand.next 64 { a := 1, b := 2, c := 3, d := 4 })
      = (24323, { a := 24578, b := 549755813891, c := 18446744073709551365, d := 24323 }) := by
  obtain ⟨⟨e, _, _, h1, h2, _⟩, _⟩ := C29_prng64_step { a := 1, b := 2, c := 3, d := 4 }
    (by decide) (by decide) (by decide) (by decide)
  exact ⟨h1, h2, by decide⟩

/-- C30: the 32-bit step rotates the word `c` by 17 where its doc comment
announces the amounts (27, 7). On the state that `JsfRand<32>(0xdeadbeef)`
starts from, the call returns 4200965142 and leaves `a = 2818957073`, where
the step with the amounts (27, 7) returns 3540599816 and leaves `a =
2158591747`; on the words `(0, 0, 1, 0)` the new `a` is `2 ^ 17`, not
`2 ^ 7`. -/
theorem C30_prng32_failing_input :
    JsfRand.next 32 (JsfRand.new 32 0xdeadbeef)
      = (4200965142, { a := 2818957073, b := 3813131558, c := 1903128539, d := 4200965142 }) ∧
    JsfRand.prng32Documented 32 (JsfRand.new 32 0xdeadbeef)
      = (3540599816, { a := 2158591747, b := 3813131558, c := 1903128539, d := 3540599816 }) ∧
    (JsfRand.next 32 { a := 0, b := 0, c := 1, d := 0 }).2.a = 2 ^ 17 ∧
    (JsfRand.prng32Documented 32 { a := 0, b := 0, c := 1, d := 0 }).2.a = 2 ^ 7 ∧
    ∀ g : JsfRand, (JsfRand.next 32 g).2.a = (g.b ^^^ rotl 32 g.c 17) % 2 ^ 32 := by
  refine ⟨by decide, by decide, by decide, by decide, fun g => rfl⟩

/-- C31: for both output widths (`N = 32` and `N = 64`) the state transition
of `JsfRand` is a bijection of the states of four `N`-bit words: the state
after a call is again such a state, the previous state is recovered from it by
`prev` (`e = d' - a'`, `d = c' - e`, then `c`, `b` and `a`), every such state
is the state after a call on the state `prev` gives, and two states that step
to the same state are equal. -/
theorem C31_step_bijective (N : Nat) (hN : N = 32 ∨ N = 64) :
    (∀ g, JsfRand.Valid N g →
      JsfRand.Valid N (JsfRand.next N g).2 ∧ JsfRand.prev N (JsfRand.next N g).2 = g) ∧
    (∀ g, JsfRand.Valid N g →
      JsfRand.Valid N (JsfRand.prev N g) ∧ (JsfRand.next N (JsfRand.prev N g)).2 = g) ∧
    ∀ g₁ g₂, JsfRand.Valid N g₁ → JsfRand.Valid N g₂ →
      (JsfRand.next N g₁).2 = (JsfRand.next N g₂).2 → g₁ = g₂ := by
  have key : ∀ g, JsfRand.Valid N g →
      JsfRand.Valid N (JsfRand.next N g).2 ∧ JsfRand.prev N (JsfRand.next N g).2 = g ∧
      JsfRand.Valid N (JsfRand.prev N g) ∧ (JsfRand.next N (JsfRand.prev N g)).2 = g := by
    intro g hg
    rcases hN with h | h
    · subst h
      exact prng32_prev32 g hg
    · subst h
      exact prng64_prev64 g hg
  refine ⟨fun g hg => ⟨(key g hg).1, (key g hg).2.1⟩,
    fun g hg => ⟨(key g hg).2.2.1, (key g hg).2.2.2⟩, ?_⟩
  intro g₁ g₂ h₁ h₂ h
  rw [← (key g₁ h₁).2.1, ← (key g₂ h₂).2.1, h]

theorem C31_step_bijective_witness :
    JsfRand.prev 32 (JsfRand.next 32 { a := 1, b := 2, c := 3, d := 4 }).2
        = { a := 1, b := 2, c := 3, d := 4 } ∧
    (JsfRand.next 64 (JsfRand.prev 64 { a := 1, b := 2, c := 3, d := 4 })).2
        = { a := 1, b := 2, c := 3, d := 4 } :=
  ⟨((C31_step_bijective 32 (Or.inl rfl)).1 { a := 1, b := 2, c := 3, d := 4 }
      ⟨by decide, by decide, by decide, by decide⟩).2,
    ((C31_step_bijective 64 (Or.inr rfl)).2.1 { a := 1, b := 2, c := 3, d := 4 }
      ⟨by decide, by decide, by decide, by decide⟩).2⟩

/-- C33 (as stated, refuted): with the IEEE-754 comparison, a first parent of
fitness 10 and a second parent of fitness NaN, crossover is applied,
`std::min(10, NaN)` is 10, and the child of fitness 3 is returned although
3 is not less than the fitness of the second parent. -/
theorem C33_nan_counterexample :
    (offspring exNaNEnv { Genotype := 0, Fitness := Ext.fin 0 } 0 (Ext.fin 1)
      (Ext.fin 1)).doCrossover = true ∧
    (offspring exNaNEnv { Genotype := 0, Fitness := Ext.fin 0 } 0 (Ext.fin 1)
      (Ext.fin 1)).first = 0 ∧
    (offspring exNaNEnv { Genotype := 0, Fitness := Ext.fin 0 } 0 (Ext.fin 1)
      (Ext.fin 1)).second = some 1 ∧
    (exNaNEnv.population 0).Fitness = Ext.fin 10 ∧
    (exNaNEnv.population 1).Fitness = Ext.nan ∧
    (exNaNEnv.evaluator
      (offspring exNaNEnv { Genotype := 0, Fitness := Ext.fin 0 } 0 (Ext.fin 1)
        (Ext.fin 1)).random
      (offspring exNaNEnv { Genotype := 0, Fitness := Ext.fin 0 } 0 (Ext.fin 1)
        (Ext.fin 1)).child).1 = Ext.fin 3 ∧
    (OffspringSelectionGenerator exNaNEnv { Genotype := 0, Fitness := Ext.fin 0 } 0
      (Ext.fin 1) (Ext.fin 1)).1.isSome = true ∧
    exNaNEnv.lt (Ext.fin 3) (exNaNEnv.population 1).Fitness = false := by
  have hc : Ext.lt (Ext.fin 0) (Ext.fin 1) = true := by norm_num [Ext.lt]
  refine ⟨?_, ?_, ?_, ?_, ?_, ?_, ?_, ?_⟩
  · simp [offspring, exNaNEnv, hc]
  · simp [offspring, exNaNEnv, hc]
  · simp [offspring, exNaNEnv, hc]
  · simp [exNaNEnv]
  · simp [exNaNEnv]
  · simp [exNaNEnv]
  · norm_num [OffspringSelectionGenerator, offspring, exNaNEnv, hc, stdMin, Ext.lt,
      Ext.IsFinite]
  · simp [exNaNEnv, Ext.lt]

/-- C33 (amended): `OffspringSelectionGenerator` returns nothing, right after
the two draws, when neither crossover nor mutation is drawn, and a second
parent is selected exactly when crossover is drawn. Otherwise it returns the
child, with the fitness of a second evaluation, exactly when the fitness `f`
of the child at its first evaluation is finite and `f < fit`, where `fit` is
the fitness of the first selected parent without crossover and the `std::min`
of the fitness values of the two parents with crossover. If `operator<` is
transitive and the fitness values of the two parents are comparable (one is
less than the other, or they are equal), this is `f` less than both; if the
fitness of the second parent is not less than that of the first, as when it
is NaN, `std::min` is the fitness of the first parent and only `f` less than
that one is tested. -/
theorem C33_offspring_selection {G F : Type} (env : GeneratorEnv R G F)
    (child0 : Individual G F) (random : R) (pCrossover pMutation : F) :
    ∀ o, o = offspring env child0 random pCrossover pMutation →
      (o.doCrossover = false → o.doMutation = false →
        OffspringSelectionGenerator env child0 random pCrossover pMutation
          = (none, o.drawn)) ∧
      (o.second.isSome = o.doCrossover) ∧
      (o.doCrossover = true ∨ o.doMutation = true →
        ∀ f, f = (env.evaluator o.random o.child).1 →
          ((OffspringSelectionGenerator env child0 random pCrossover pMutation).1.isSome
              = true ↔
            env.isfinite f = true ∧ env.lt f o.fit = true) ∧
          (o.second = none →
            o.fit = (env.population o.first).Fitness ∧
            ((OffspringSelectionGenerator env child0 random pCrossover pMutation).1.isSome
                = true ↔
              env.isfinite f = true ∧ env.lt f (env.population o.first).Fitness = true)) ∧
          (∀ second, o.second = some second →
            o.fit = stdMin env.lt (env.population o.first).Fitness
              (env.population second).Fitness ∧
            (env.lt (env.population second).Fitness (env.population o.first).Fitness = false →
              o.fit = (env.population o.first).Fitness ∧
              ((OffspringSelectionGenerator env child0 random pCrossover pMutation).1.isSome
                  = true ↔
                env.isfinite f = true ∧
                  env.lt f (env.population o.first).Fitness = true)) ∧
            ((∀ a b c, env.lt a b = true → env.lt b c = true → env.lt a c = true) →
              (env.lt (env.population second).Fitness (env.population o.first).Fitness = true ∨
                (env.population o.first).Fitness = (env.population second).Fitness ∨
                env.lt (env.population o.first).Fitness (env.population second).Fitness
                  = true) →
              ((OffspringSelectionGenerator env child0 random pCrossover pMutation).1.isSome
                  = true ↔
                env.isfinite f = true ∧
                  env.lt f (env.population o.first).Fitness = true ∧
                  env.lt f (env.population second).Fitness = true))) ∧
          ∀ c, (OffspringSelectionGenerator env child0 random pCrossover pMutation).1
              = some c →
            c.Genotype = o.child.Genotype ∧
            c.Fitness = (env.evaluator (env.evaluator o.random o.child).2 o.child).1) := by
  intro o ho
  have hfit := offspring_fit env child0 random pCrossover pMutation
  rw [← ho] at hfit
  obtain ⟨hfit0, hfit1⟩ := hfit
  have hgen : OffspringSelectionGenerator env child0 random pCrossover pMutation
      = if !(o.doCrossover || o.doMutation) then (none, o.drawn)
        else if env.isfinite (env.evaluator o.random o.child).1
            && env.lt (env.evaluator o.random o.child).1 o.fit then
          (some { o.child with
              Fitness := (env.evaluator (env.evaluator o.random o.child).2 o.child).1 },
            (env.evaluator (env.evaluator o.random o.child).2 o.child).2)
        else (none, (env.evaluator o.random o.child).2) := by
    rw [ho]
    rfl
  clear ho
  rw [hgen]
  have hsec : o.second.isSome = o.doCrossover := by
    cases hc : o.doCrossover with
    | false => rw [(hfit0 hc).1]; rfl
    | true =>
      obtain ⟨second, hs, _⟩ := hfit1 hc
      rw [hs]; rfl
  refine ⟨?_, hsec, ?_⟩
  · intro hc hm
    rw [hc, hm]
    rfl
  · intro hflag f hf
    have hor : (!(o.doCrossover || o.doMutation)) = false := by
      rcases hflag with h | h <;> simp [h]
    rw [hor]
    simp only [Bool.false_eq_true, if_false]
    rw [← hf]
    -- the test of line 68
    have htest : (if (env.isfinite f && env.lt f o.fit) = true then
          (some { o.child with
              Fitness := (env.evaluator (env.evaluator o.random o.child).2 o.child).1 },
            (env.evaluator (env.evaluator o.random o.child).2 o.child).2)
        else (none, (env.evaluator o.random o.child).2)).1.isSome = true ↔
        env.isfinite f = true ∧ env.lt f o.fit = true := by
      by_cases hacc : (env.isfinite f && env.lt f o.fit) = true
      · rw [if_pos hacc]
        exact ⟨fun _ => Bool.and_eq_true _ _ ▸ hacc, fun _ => rfl⟩
      · rw [if_neg hacc]
        exact ⟨fun h => (by cases h), fun h => absurd (Bool.and_eq_true _ _ ▸ h) hacc⟩
    refine ⟨htest, ?_, ?_, ?_⟩
    · intro hnone
      have hc : o.doCrossover = false := by
        rw [← hsec, hnone]
        rfl
      have hfv := (hfit0 hc).2
      refine ⟨hfv, ?_⟩
      rw [htest, hfv]
    · intro second hs
      have hc : o.doCrossover = true := by
        rw [← hsec, hs]
        rfl
      obtain ⟨second', hs', hfv⟩ := hfit1 hc
      rw [hs] at hs'
      cases hs'
      refine ⟨hfv, ?_, ?_⟩
      · intro hnlt
        have hfv' : o.fit = (env.population o.first).Fitness := by
          rw [hfv, stdMin, hnlt]
          rfl
        refine ⟨hfv', ?_⟩
        rw [htest, hfv']
      · intro htrans hcomp
        rw [htest, hfv, lt_stdMin_both env.lt htrans f _ _ hcomp]
    · intro c hcEq
      by_cases hacc : (env.isfinite f && env.lt f o.fit) = true
      · rw [if_pos hacc] at hcEq
        have hcEq' : { o.child with
            Fitness := (env.evaluator (env.evaluator o.random o.child).2 o.child).1 }
            = c := Option.some.inj hcEq
        rw [← hcEq']
        exact ⟨rfl, rfl⟩
      · rw [if_neg hacc] at hcEq
        cases hcEq

theorem C33_offspring_selection_witness :
    ((OffspringSelectionGenerator exGeneratorEnv { Genotype := 0, Fitness := 0 } 0 5 5).1.map
        (fun c => (c.Genotype, c.Fitness)) = some (29, 4) ∧
      (OffspringSelectionGenerator exGeneratorEnv { Genotype := 0, Fitness := 0 } 5 5 5).1.isSome
        = false) ∧
    ((OffspringSelectionGenerator exGeneratorEnv { Genotype := 0, Fitness := 0 } 0 5 5).1.isSome
        = true ↔
      exGeneratorEnv.isfinite 4 = true ∧
        exGeneratorEnv.lt 4 (exGeneratorEnv.population 2).Fitness = true ∧
        exGeneratorEnv.lt 4 (exGeneratorEnv.population 0).Fitness = true) :=
  ⟨⟨by decide, by decide⟩,
    ((((C33_offspring_selection exGeneratorEnv { Genotype := 0, Fitness := 0 } 0 5 5
      _ rfl).2.2 (Or.inl rfl)) _ rfl).2.2.1 0 rfl).2.2
      (fun a b c h1 h2 => by
        simp only [exGeneratorEnv, decide_eq_true_eq] at h1 h2 ⊢
        omega)
      (Or.inl (by decide))⟩

/-- C34: in exact rational arithmetic, after `Add(x)` for the values `x` of a
non-empty list `xs`, in order, from a state with `n = 0`, the state has
`n = |xs|`, `sum` the sum of `xs`, and `m2` the sum of the squares of the
deviations `x - sum / n`; `m2` is non-negative after every call, that is,
after each non-empty initial part of `xs`. -/
theorem C34_mean_variance (st0 : MeanVarianceCalculator) (h0 : st0.n = 0) (xs : List ℚ)
    (hne : xs ≠ []) :
    (xs.foldl MeanVarianceCalculator.Add st0).n = xs.length ∧
    (xs.foldl MeanVarianceCalculator.Add st0).sum = xs.sum ∧
    (xs.foldl MeanVarianceCalculator.Add st0).m2
      = (xs.map (fun x => (x - xs.sum / xs.length) ^ 2)).sum ∧
    ∀ k, 1 ≤ k → k ≤ xs.length →
      ((xs.take k).foldl MeanVarianceCalculator.Add st0).n = k ∧
      0 ≤ ((xs.take k).foldl MeanVarianceCalculator.Add st0).m2 := by
  have h := MVInv_of_empty st0 h0 xs hne
  refine ⟨h.1, h.2.1, MVInv_m2 _ xs hne h, ?_⟩
  intro k hk hkl
  have hlen : (xs.take k).length = k := by
    rw [List.length_take]
    exact Nat.min_eq_left hkl
  have hne' : xs.take k ≠ [] := by
    intro hnil
    rw [hnil] at hlen
    simp at hlen
    omega
  have h' := MVInv_of_empty st0 h0 (xs.take k) hne'
  refine ⟨by rw [h'.1, hlen], ?_⟩
  rw [MVInv_m2 _ (xs.take k) hne' h']
  exact sum_sq_nonneg _ _

theorem C34_mean_variance_witness :
    ([1, 2, 4].foldl MeanVarianceCalculator.Add { n := 0, sum := 0, m2 := 0 }).n = 3 ∧
    ([1, 2, 4].foldl MeanVarianceCalculator.Add { n := 0, sum := 0, m2 := 0 }).sum = 7 ∧
    ([1, 2, 4].foldl MeanVarianceCalculator.Add { n := 0, sum := 0, m2 := 0 }).m2 = 14 / 3 ∧
    ([1, 2, 4].foldl MeanVarianceCalculator.Add { n := 0, sum := 0, m2 := 0 }).m2
      = (([1, 2, 4] : List ℚ).map
          (fun x => (x - ([1, 2, 4] : List ℚ).sum / ([1, 2, 4] : List ℚ).length) ^ 2)).sum :=
  ⟨by norm_num [MeanVarianceCalculator.Add], by norm_num [MeanVarianceCalculator.Add],
    by norm_num [MeanVarianceCalculator.Add],
    (C34_mean_variance { n := 0, sum := 0, m2 := 0 } rfl [1, 2, 4] (by simp)).2.2.1⟩

end Claims

end Operon
